import Mathlib

/-!
# rhmm: discrete hidden Markov models in extended-log space

A shallow embedding of the header library under `src/include` (namespace `ci::hmm`).

* The numeric template parameter (`T`, `U`) of the C++ templates is a type `U` with the
  operations the code uses on it, collected in the class `ci.Numeric`.  Every algorithm is
  written once, generically, exactly as the templates are.
* `std::vector<U>` is `List U`; `std::vector<std::vector<U>>` is `List (List U)`; an element
  read `v[i]` is `rd v i`, an in-place write `v[i] = x` is `List.set`.
* Counting `for` loops are left folds over the list of values the loop variable takes.
* `std::size_t` values are natural numbers; `nobs-1` is only evaluated for `nobs >= 1` in
  every statement below, where it agrees with the machine subtraction.
-/

namespace ci

/-- Operations that the templates require of their numeric type parameter. -/
class Numeric (U : Type) where
  /-- the literal `0` -/
  zero : U
  /-- the literal `1` -/
  one : U
  /-- the value of `std::numeric_limits<U>::infinity()` -/
  infinity : U
  /-- binary `+` -/
  add : U → U → U
  /-- binary `-` -/
  sub : U → U → U
  /-- unary `-` -/
  neg : U → U
  /-- the function `std::exp` -/
  exp : U → U
  /-- the function `std::log` -/
  log : U → U
  /-- the comparison `x > y` -/
  gt : U → U → Bool
  /-- the comparison `x == y` -/
  eq : U → U → Bool

section Generic

variable {U : Type} [Numeric U]

/-- `inf<T>()` of infinity.hpp for a type that has an infinity. -/
def inf : U := Numeric.infinity

namespace hmm

/-- `elnsum` of efun.hpp: extended-log-sum. -/
def elnsum (x y : U) : U :=
  if Numeric.eq x (inf : U) then
    if Numeric.eq y (inf : U) then inf else y
  else if Numeric.eq y (inf : U) then x
  else if Numeric.gt x y then
    Numeric.add x (Numeric.log (Numeric.add Numeric.one (Numeric.exp (Numeric.sub y x))))
  else
    Numeric.add y (Numeric.log (Numeric.add Numeric.one (Numeric.exp (Numeric.sub x y))))

/-- `elnproduct` of efun.hpp: extended-log-product. -/
def elnproduct (x y : U) : U :=
  if Numeric.eq x (inf : U) || Numeric.eq y (inf : U) then inf else Numeric.add x y

/-- Element read `v[i]` of a vector. -/
def rd (v : List U) (i : Nat) : U := v.getD i Numeric.zero

/-- Element read `m[i][j]` of a vector of vectors. -/
def rd2 (m : List (List U)) (i j : Nat) : U := rd (m.getD i []) j

/-- Element write `m[i][j] = x` of a vector of vectors. -/
def wr2 (m : List (List U)) (i j : Nat) (x : U) : List (List U) :=
  m.set i ((m.getD i []).set j x)

/-- The call `v.resize(n, x)` of `std::vector`. -/
def resize (v : List U) (n : Nat) (x : U) : List U :=
  v.take n ++ List.replicate (n - v.length) x

/-- Values taken by `s` in `for (s = hi; s >= lo; ) { ...; if ( 0 == s-- ) break; }`,
that is `hi, hi-1, ..., lo` (none when `hi < lo`). -/
def downTo (hi lo : Nat) : List Nat := (List.range' lo (hi + 1 - lo)).reverse

/-- Element read `observed[s]`, used as an index. -/
def ob (observed : List Nat) (s : Nat) : Nat := observed.getD s 0

/-- The accumulation `tmpf = inf; for k < n: tmpf = elnsum(tmpf, f k)`. -/
def sumLoop (n : Nat) (f : Nat → U) : U :=
  (List.range n).foldl (fun tmpf k => elnsum tmpf (f k)) inf

/-- `forward_full` of fwd.hpp: fills columns `0 .. index-1` of `alpha`. -/
def forward_full (observed : List Nat) (initial : List U) (transition emission : List (List U))
    (index : Nat) (alpha : List (List U)) : List (List U) :=
  if index < 1 then alpha
  else
    let nstates := initial.length
    let alpha0 := (List.range nstates).foldl
      (fun a i => wr2 a i 0 (elnproduct (rd initial i) (rd2 emission i (ob observed 0)))) alpha
    (List.range' 1 (index - 1)).foldl
      (fun a s => (List.range nstates).foldl
        (fun a j =>
          let tmpf := sumLoop nstates
            (fun k => elnproduct (rd2 a k (s - 1)) (rd2 transition k j))
          wr2 a j s (elnproduct tmpf (rd2 emission j (ob observed s)))) a)
      alpha0

/-- One round of the loop over `s` in `forward_index`, on the state
`(lcl, active, passive)`; the round ends with `std::swap(active, passive)`. -/
def forward_index_round (observed : List Nat) (nstates : Nat)
    (transition emission : List (List U)) (st : List (List U) × Nat × Nat) (s : Nat) :
    List (List U) × Nat × Nat :=
  let lcl := st.1
  let active := st.2.1
  let passive := st.2.2
  let lcl := (List.range nstates).foldl
    (fun l j =>
      let tmpf := sumLoop nstates
        (fun k => elnproduct (rd2 l k active) (rd2 transition k j))
      wr2 l j passive (elnproduct tmpf (rd2 emission j (ob observed s)))) lcl
  (lcl, passive, active)

/-- `forward_index` of fwd.hpp: alpha at one time index on two rolling columns. -/
def forward_index (observed : List Nat) (initial : List U) (transition emission : List (List U))
    (index : Nat) (alpha : List U) : List U :=
  if index < 1 then alpha
  else
    let nstates := initial.length
    let lcl0 : List (List U) := List.replicate nstates []
    let lcl1 := (List.range nstates).foldl
      (fun l i =>
        let l := l.set i (resize (l.getD i []) 2 Numeric.zero)
        wr2 l i 0 (elnproduct (rd initial i) (rd2 emission i (ob observed 0)))) lcl0
    let st := (List.range' 1 (index - 1)).foldl
      (forward_index_round observed nstates transition emission) (lcl1, 0, 0 + 1)
    (List.range nstates).foldl (fun a idx => a.set idx (rd2 st.1 idx st.2.1)) alpha

/-- `forward_next` of fwd.hpp: one step of the forward recurrence, in place. -/
def forward_next (observed : List Nat) (initial : List U) (transition emission : List (List U))
    (index : Nat) (alpha : List U) : List U :=
  if index < 1 then alpha
  else
    let nstates := initial.length
    if 1 = index then
      (List.range nstates).foldl
        (fun a i => a.set i (elnproduct (rd initial i) (rd2 emission i (ob observed 0)))) alpha
    else
      let lcl := alpha
      (List.range nstates).foldl
        (fun a j =>
          let tmpf := sumLoop nstates (fun k => elnproduct (rd lcl k) (rd2 transition k j))
          a.set j (elnproduct tmpf (rd2 emission j (ob observed (index - 1))))) alpha

/-- `backward_full` of bkd.hpp: fills columns `nobs-1` down to `index-1` of `beta`. -/
def backward_full (observed : List Nat) (initial : List U) (transition emission : List (List U))
    (index : Nat) (beta : List (List U)) : List (List U) :=
  let nobs := observed.length
  let nstates := initial.length
  if nobs < 2 then beta
  else if index > observed.length || index < 1 then beta
  else
    let beta0 := (List.range nstates).foldl
      (fun b i => (downTo (nobs - 1) index).foldl (fun b j => wr2 b i j Numeric.zero) b) beta
    (downTo (nobs - 1) index).foldl
      (fun b s => (List.range nstates).foldl
        (fun b j =>
          let tmpf := sumLoop nstates
            (fun k => elnproduct (rd2 transition j k)
              (elnproduct (rd2 emission k (ob observed s)) (rd2 b k s)))
          wr2 b j (s - 1) tmpf) b)
      beta0

/-- One round of the loop over `s` in `backward_index`, on the state
`(lcl, active, passive)`; the round ends with `std::swap(active, passive)`. -/
def backward_index_round (observed : List Nat) (nstates : Nat)
    (transition emission : List (List U)) (st : List (List U) × Nat × Nat) (s : Nat) :
    List (List U) × Nat × Nat :=
  let lcl := st.1
  let active := st.2.1
  let passive := st.2.2
  let lcl := (List.range nstates).foldl
    (fun l j =>
      let tmpf := sumLoop nstates
        (fun k => elnproduct (rd2 transition j k)
          (elnproduct (rd2 emission k (ob observed s)) (rd2 l k active)))
      wr2 l j passive tmpf) lcl
  (lcl, passive, active)

/-- `backward_index` of bkd.hpp: beta at one time index on two rolling columns. -/
def backward_index (observed : List Nat) (initial : List U) (transition emission : List (List U))
    (index : Nat) (beta : List U) : List U :=
  let nobs := observed.length
  let nstates := initial.length
  if nobs < 2 then beta
  else if index > observed.length || index < 1 then beta
  else
    let lcl0 : List (List U) := List.replicate nstates []
    let lcl1 := (List.range nstates).foldl
      (fun l i => (List.range 2).foldl
        (fun l j =>
          let l := l.set i (resize (l.getD i []) 2 Numeric.zero)
          wr2 l i j Numeric.zero) l) lcl0
    let st := (downTo (nobs - 1) index).foldl
      (backward_index_round observed nstates transition emission) (lcl1, 0, 0 + 1)
    (List.range nstates).foldl (fun b idx => b.set idx (rd2 st.1 idx st.2.1)) beta

/-- `backward_next` of bkd.hpp: one step of the backward recurrence, in place. -/
def backward_next (observed : List Nat) (initial : List U) (transition emission : List (List U))
    (index : Nat) (beta : List U) : List U :=
  let nobs := observed.length
  let nstates := initial.length
  if nobs < 2 then beta
  else if index > observed.length || index < 1 then beta
  else if nobs = index then
    (List.range nstates).foldl (fun b i => b.set i Numeric.zero) beta
  else
    let lcl := beta
    (List.range nstates).foldl
      (fun b j =>
        let tmpf := sumLoop nstates
          (fun k => elnproduct (rd2 transition j k)
            (elnproduct (rd2 emission k (ob observed index)) (rd lcl k)))
        b.set j tmpf) beta

/-- Element read `p[i][j][s]` of a three-level vector. -/
def rd3 (p : List (List (List U))) (i j s : Nat) : U := rd2 (p.getD i []) j s

/-- Element write `p[i][j][s] = x` of a three-level vector. -/
def wr3 (p : List (List (List U))) (i j s : Nat) (x : U) : List (List (List U)) :=
  p.set i (wr2 (p.getD i []) j s x)

/-- `gamma_t_full` of gamma.hpp: all state posteriors, with alpha stepped by `forward_next`
and beta recomputed by `backward_index` at every time step. -/
def gamma_t_full (observed : List Nat) (initial : List U) (transition emission : List (List U))
    (gam : List (List U)) : List (List U) :=
  let nstates := initial.length
  let nobs := observed.length
  let alpha0 : List U := List.replicate nstates Numeric.zero
  let beta0 : List U := List.replicate nstates Numeric.zero
  ((List.range nobs).foldl
    (fun (st : List U × List U × List (List U)) s =>
      let alpha := forward_next observed initial transition emission (s + 1) st.1
      let beta := backward_index observed initial transition emission (s + 1) st.2.1
      let r := (List.range nstates).foldl
        (fun (r : List (List U) × U) i =>
          let gam := wr2 r.1 i s (elnproduct (rd alpha i) (rd beta i))
          (gam, elnsum r.2 (rd2 gam i s)))
        (st.2.2, inf)
      let normalizer := r.2
      (alpha, beta, (List.range nstates).foldl
        (fun gam j => wr2 gam j s (elnproduct (rd2 gam j s) (Numeric.neg normalizer))) r.1))
    (alpha0, beta0, gam)).2.2

/-- `gamma_m_full` of gamma.hpp: all state posteriors from the full alpha and beta matrices. -/
def gamma_m_full (observed : List Nat) (initial : List U) (transition emission : List (List U))
    (gam : List (List U)) : List (List U) :=
  let nstates := initial.length
  let nobserved := observed.length
  let alpha0 : List (List U) := List.replicate nstates (List.replicate nobserved Numeric.zero)
  let beta0 : List (List U) := List.replicate nstates (List.replicate nobserved Numeric.zero)
  let alpha := forward_full observed initial transition emission nobserved alpha0
  let beta := backward_full observed initial transition emission 1 beta0
  (List.range nobserved).foldl
    (fun gam s =>
      let r := (List.range nstates).foldl
        (fun (r : List (List U) × U) i =>
          let gam := wr2 r.1 i s (elnproduct (rd2 alpha i s) (rd2 beta i s))
          (gam, elnsum r.2 (rd2 gam i s)))
        (gam, inf)
      let normalizer := r.2
      (List.range nstates).foldl
        (fun gam j => wr2 gam j s (elnproduct (rd2 gam j s) (Numeric.neg normalizer))) r.1)
    gam

/-- `gamma` of gamma.hpp: one time slice of the state posteriors; returns the updated
`alpha` and `gam`. -/
def gamma (observed : List Nat) (initial : List U) (transition emission : List (List U))
    (index : Nat) (beta alpha gam : List U) : List U × List U :=
  let nstates := initial.length
  let alpha := forward_next observed initial transition emission index alpha
  let r := (List.range nstates).foldl
    (fun (r : List U × U) i =>
      let gam := r.1.set i (elnproduct (rd alpha i) (rd beta i))
      (gam, elnsum r.2 (rd gam i)))
    (gam, inf)
  let normalizer := r.2
  (alpha, (List.range nstates).foldl
    (fun gam j => gam.set j (elnproduct (rd gam j) (Numeric.neg normalizer))) r.1)

/-- `xi_full` of xi.hpp: all pairwise posteriors, columns `0 .. nobs-2`. -/
def xi_full (observed : List Nat) (initial : List U) (transition emission : List (List U))
    (probs : List (List (List U))) : List (List (List U)) :=
  let nstates := initial.length
  let nobs := observed.length
  if nobs < 1 then probs
  else
    let alpha0 : List (List U) := List.replicate nstates (List.replicate nobs Numeric.zero)
    let beta0 : List (List U) := List.replicate nstates (List.replicate nobs Numeric.zero)
    let alpha := forward_full observed initial transition emission nobs alpha0
    let beta := backward_full observed initial transition emission 1 beta0
    (List.range (nobs - 1)).foldl
      (fun probs s =>
        let r := (List.range nstates).foldl
          (fun (r : List (List (List U)) × U) i => (List.range nstates).foldl
            (fun (r : List (List (List U)) × U) j =>
              let probs := wr3 r.1 i j s
                (elnproduct (rd2 alpha i s)
                  (elnproduct (rd2 transition i j)
                    (elnproduct (rd2 emission j (ob observed (s + 1))) (rd2 beta j (s + 1)))))
              (probs, elnsum r.2 (rd3 probs i j s))) r)
          (probs, inf)
        let normalizer := r.2
        (List.range nstates).foldl
          (fun probs k => (List.range nstates).foldl
            (fun probs m =>
              wr3 probs k m s (elnproduct (rd3 probs k m s) (Numeric.neg normalizer))) probs)
          r.1)
      probs

/-- `xi` of xi.hpp: one time slice of the pairwise posteriors; returns the updated `alpha`
and `probs`. -/
def xi (observed : List Nat) (initial : List U) (transition emission : List (List U))
    (index : Nat) (beta alpha : List U) (probs : List (List U)) : List U × List (List U) :=
  let nstates := initial.length
  let alpha := forward_next observed initial transition emission index alpha
  let r := (List.range nstates).foldl
    (fun (r : List (List U) × U) i => (List.range nstates).foldl
      (fun (r : List (List U) × U) j =>
        let probs := wr2 r.1 i j
          (elnproduct (rd alpha i)
            (elnproduct (rd2 transition i j)
              (elnproduct (rd2 emission j (ob observed index)) (rd beta j))))
        (probs, elnsum r.2 (rd2 probs i j))) r)
    (probs, inf)
  let normalizer := r.2
  (alpha, (List.range nstates).foldl
    (fun probs k => (List.range nstates).foldl
      (fun probs m => wr2 probs k m (elnproduct (rd2 probs k m) (Numeric.neg normalizer))) probs)
    r.1)

/-- `evalp` of evalp.hpp: the value returned for "Problem 1". -/
def evalp (observed : List Nat) (initial : List U) (transition emission : List (List U)) : U :=
  let tsize := observed.length
  if tsize < 2 then inf
  else
    let nstates := initial.length
    let alpha0 : List U := List.replicate nstates Numeric.zero
    let alpha := forward_index observed initial transition emission tsize alpha0
    let enlp := (List.range alpha.length).foldl (fun enlp i => elnsum enlp (rd alpha i)) inf
    Numeric.exp enlp

/-- The value of `static_cast<double>(n)` for a `std::size_t` value `n`: `n` itself up to
`2^53`, and beyond that `n` rounded to 53 significant bits, ties to even (IEEE 754 binary64). -/
def toDouble (n : Nat) : Nat :=
  let e := Nat.log2 n + 1 - 53
  let q := n / 2 ^ e
  let r := n % 2 ^ e
  if 2 * r < 2 ^ e then q * 2 ^ e
  else if 2 ^ e < 2 * r then (q + 1) * 2 ^ e
  else (q + q % 2) * 2 ^ e

/-- The value of `static_cast<std::size_t>(std::sqrt(x))` for a double `x` that holds the
natural number `x`: the square root rounded to the nearest value with 53 significant bits,
as IEEE 754 requires of `sqrt`, then truncated.  With `2^(2a) <= x < 2^(2a+2)` and
`k = 52 - a`, the integer square root `y` of `x * 4^k` has 53 bits, and the root is rounded
up exactly when `x * 4^k > y^2 + y` (a tie cannot occur). -/
def sqrtTrunc (x : Nat) : Nat :=
  let k := 52 - Nat.log2 x / 2
  let y := Nat.sqrt (x * 4 ^ k)
  let r := if y * y + y < x * 4 ^ k then y + 1 else y
  r / 2 ^ k

/-- The value of `static_cast<std::size_t>(std::sqrt(o.size()))` in the constructor of
`BackCache`: the size is converted to `double`, the square root is taken in double
precision and the result is truncated. -/
def sqrt_cast (n : Nat) : Nat := sqrtTrunc (toDouble n)

namespace details

/-- `BackCache` of backcache.hpp: the data members.  The members `observed_`, `initial_`,
`transition_` and `emission_` are references to the caller's containers; the member
functions below take the referenced containers as arguments. -/
structure BackCache (U : Type) where
  /-- the member `passiveItems_` -/
  passiveItems_ : List (List U)
  /-- the member `activeItems_` -/
  activeItems_ : List (List U)
  /-- the member `markers_` -/
  markers_ : List Nat
  /-- the member `counters_` -/
  counters_ : List Nat
  /-- the member `initialize_` -/
  initialize_ : Bool
  /-- the member `sz_` -/
  sz_ : Nat

/-- Local state of the first traversal in `BackCache::populate`. -/
structure Sweep (U : Type) where
  /-- the member `passiveItems_` -/
  passiveItems_ : List (List U)
  /-- the member `activeItems_` -/
  activeItems_ : List (List U)
  /-- the member `markers_` -/
  markers_ : List Nat
  /-- the member `counters_` -/
  counters_ : List Nat
  /-- the local `beta` -/
  beta : List U
  /-- the local `lastleg` -/
  lastleg : Bool
  /-- the loop variable `j` -/
  j : Nat

/-- One round of `for ( i = observed_.size()-1, j = 1; i > 0; --i, ++j )` in
`BackCache::populate`. -/
def BackCache.sweepStep (observed : List Nat) (initial : List U)
    (transition emission : List (List U)) (sz_ : Nat) (w : Sweep U) (i : Nat) : Sweep U :=
  let w :=
    if w.lastleg then
      { w with activeItems_ := w.beta :: w.activeItems_ }
    else if i = sz_ then
      { w with
        activeItems_ := w.beta :: w.activeItems_
        counters_ := w.j :: w.counters_.tail
        lastleg := true }
    else if w.j = sz_ then
      { w with
        passiveItems_ := w.beta :: w.passiveItems_
        markers_ := i :: w.markers_
        counters_ := sz_ :: w.counters_
        j := 0 }
    else w
  { w with
    beta := backward_next observed initial transition emission i w.beta
    j := w.j + 1 }

/-- `BackCache::populate` of backcache.hpp. -/
def BackCache.populate (observed : List Nat) (initial : List U)
    (transition emission : List (List U)) (c : BackCache U) : BackCache U :=
  let c := { c with activeItems_ := [] }
  if c.sz_ ≤ 1 || observed.isEmpty then
    { c with passiveItems_ := [] }
  else if c.initialize_ then
    let beta : List U := List.replicate initial.length Numeric.zero
    let lastleg : Bool := decide (observed.length ≤ c.sz_)
    let w0 : Sweep U :=
      if !lastleg then
        { passiveItems_ := beta :: c.passiveItems_
          activeItems_ := c.activeItems_
          markers_ := observed.length :: c.markers_
          counters_ := c.sz_ :: c.counters_
          beta := beta, lastleg := lastleg, j := 1 }
      else
        { passiveItems_ := c.passiveItems_
          activeItems_ := c.activeItems_
          markers_ := c.markers_
          counters_ := c.counters_
          beta := beta, lastleg := lastleg, j := 1 }
    let w := (downTo (observed.length - 1) 1).foldl
      (BackCache.sweepStep observed initial transition emission c.sz_) w0
    { passiveItems_ := w.passiveItems_
      activeItems_ := w.beta :: w.activeItems_
      markers_ := w.markers_
      counters_ := w.counters_
      initialize_ := false
      sz_ := c.sz_ }
  else if c.passiveItems_.isEmpty then c
  else
    let beta : List U := c.passiveItems_.headD []
    let mark := c.markers_.headD 0
    let count := c.counters_.headD 0
    let r := (List.range (count - 1)).foldl
      (fun (r : List U × List (List U)) t =>
        let beta := backward_next observed initial transition emission (mark - t) r.1
        (beta, beta :: r.2))
      (beta, c.passiveItems_.headD [] :: c.activeItems_)
    { c with
      passiveItems_ := c.passiveItems_.tail
      activeItems_ := r.2
      markers_ := c.markers_.tail
      counters_ := c.counters_.tail }

/-- The constructor `BackCache::BackCache(o, i, t, e)` of backcache.hpp; the stride `sz_` is
`std::max(10000, static_cast<std::size_t>(std::sqrt(o.size())))`. -/
def BackCache.ctor (observed : List Nat) (initial : List U)
    (transition emission : List (List U)) : BackCache U :=
  BackCache.populate observed initial transition emission
    { passiveItems_ := [], activeItems_ := [], markers_ := [], counters_ := []
      initialize_ := true
      sz_ := max 10000 (sqrt_cast observed.length) }

/-- Each call of `populate` made by `Next` lowers the pair (`initialize_`, number of passive
items) in the lexicographic order, so the recursion of `Next` ends. -/
theorem BackCache.populate_lt (observed : List Nat) (initial : List U)
    (transition emission : List (List U)) (c : BackCache U)
    (hp : ¬ c.passiveItems_.isEmpty = true) :
    Prod.Lex (fun a b : Nat => a < b) (fun a b : Nat => a < b)
      ((BackCache.populate observed initial transition emission c).initialize_.toNat,
        (BackCache.populate observed initial transition emission c).passiveItems_.length)
      (c.initialize_.toNat, c.passiveItems_.length) := by
  have hlen : 0 < c.passiveItems_.length := by
    cases hc : c.passiveItems_ with
    | nil => simp [hc] at hp
    | cons a l => simp
  unfold BackCache.populate
  by_cases h1 : (c.sz_ ≤ 1 || observed.isEmpty) = true
  · simp only [h1, if_true]
    exact Prod.Lex.right _ hlen
  · by_cases h2 : c.initialize_ = true
    · simp only [h1, h2, if_true, Bool.false_eq_true, if_false]
      exact Prod.Lex.left _ _ (by decide)
    · simp only [h1, h2, hp, Bool.false_eq_true, if_false]
      refine Prod.Lex.right _ ?_
      simp only [List.length_tail]
      omega

/-- `BackCache::Next` of backcache.hpp: the returned pointer (`none` for the null pointer)
and the cache after the call. -/
def BackCache.Next (observed : List Nat) (initial : List U)
    (transition emission : List (List U)) (c : BackCache U) : Option (List U) × BackCache U :=
  match c.activeItems_ with
  | rtn :: rest => (some rtn, { c with activeItems_ := rest })
  | [] =>
    if hp : c.passiveItems_.isEmpty = true then (none, c)
    else
      BackCache.Next observed initial transition emission
        (BackCache.populate observed initial transition emission c)
termination_by (c.initialize_.toNat, c.passiveItems_.length)
decreasing_by exact BackCache.populate_lt observed initial transition emission c hp

/-- `BackCache::Size` of backcache.hpp. -/
def BackCache.Size (c : BackCache U) : Nat :=
  c.activeItems_.length + c.passiveItems_.length

end details

open details

/-- The model `(initial, transition, emission)` that the trainers update in place. -/
abbrev Model (U : Type) := List U × List (List U) × List (List U)

/-- `train_full` of train.hpp: one re-estimation from the full gamma and xi tables. -/
def train_full (observed : List Nat) (initial : List U) (transition emission : List (List U)) :
    Model U :=
  let nstates := initial.length
  let nobs := observed.length
  let nsymbols := (emission.getD 0 []).length
  let gam0 : List (List U) := List.replicate initial.length (List.replicate nobs Numeric.zero)
  let gam := gamma_m_full observed initial transition emission gam0
  let probs0 : List (List (List U)) :=
    List.replicate nstates (List.replicate nstates (List.replicate nobs Numeric.zero))
  let probs := xi_full observed initial transition emission probs0
  -- update initial
  let initial := (List.range gam.length).foldl
    (fun ini i => ini.set i (Numeric.exp (rd2 gam i 0))) initial
  -- update emission and transition
  let sentinel := max nsymbols nstates
  let te := (List.range sentinel).foldl
    (fun (te : List (List U) × List (List U)) i => (List.range nstates).foldl
      (fun (te : List (List U) × List (List U)) j =>
        let acc := (List.range (nobs - 1)).foldl
          (fun (acc : U × U × U × U) s =>
            let numeratorE := acc.1
            let denominatorE := acc.2.1
            let numeratorT := acc.2.2.1
            let denominatorT := acc.2.2.2
            let numeratorE :=
              if i < nsymbols then
                if ob observed s = i then elnsum numeratorE (rd2 gam j s) else numeratorE
              else numeratorE
            let denominatorE :=
              if i < nsymbols then elnsum denominatorE (rd2 gam j s) else denominatorE
            let numeratorT :=
              if i < nstates then elnsum numeratorT (rd3 probs i j s) else numeratorT
            let denominatorT :=
              if i < nstates then elnsum denominatorT (rd2 gam i s) else denominatorT
            (numeratorE, denominatorE, numeratorT, denominatorT))
          (inf, inf, inf, inf)
        let emission :=
          if i < nsymbols then wr2 te.2 j i (elnproduct acc.1 (Numeric.neg acc.2.1)) else te.2
        let transition :=
          if i < nstates then wr2 te.1 i j (elnproduct acc.2.2.1 (Numeric.neg acc.2.2.2))
          else te.1
        (transition, emission)) te)
    (transition, emission)
  (initial, te.1, te.2)

/-- Local state of the streaming loop of `train`. -/
structure TrainState (U : Type) where
  /-- the loop variable `s` -/
  s : Nat
  /-- the local `gam` -/
  gam : List U
  /-- the local `alphaG` -/
  alphaG : List U
  /-- the local `alphaX` -/
  alphaX : List U
  /-- the local `probs` -/
  probs : List (List U)
  /-- the local `numeratorT` -/
  numeratorT : List (List U)
  /-- the local `denominatorT` -/
  denominatorT : List (List U)
  /-- the local `numeratorE` -/
  numeratorE : List (List U)
  /-- the local `denominatorE` -/
  denominatorE : List (List U)
  /-- the local `beta` (never null inside the loop) -/
  beta : List U
  /-- the local `cache` -/
  cache : details.BackCache U

/-- The two nested `for` loops at the head of the `while` body of `train`: add the current
`gam` and `probs` to the four accumulator tables. -/
def train_accumulate (observed : List Nat) (nstates nsymbols : Nat) (ts : TrainState U) :
    TrainState U :=
  let sentinel := max nsymbols nstates
  (List.range sentinel).foldl
    (fun ts i => (List.range nstates).foldl
      (fun (ts : TrainState U) j =>
        let ts :=
          if i < nsymbols then
            let ts :=
              if ob observed ts.s = i then
                { ts with
                  numeratorE := wr2 ts.numeratorE i j (elnsum (rd2 ts.numeratorE i j) (rd ts.gam j)) }
              else ts
            { ts with
              denominatorE := wr2 ts.denominatorE i j (elnsum (rd2 ts.denominatorE i j) (rd ts.gam j)) }
          else ts
        if i < nstates then
          { ts with
            numeratorT := wr2 ts.numeratorT i j (elnsum (rd2 ts.numeratorT i j) (rd2 ts.probs i j))
            denominatorT := wr2 ts.denominatorT i j (elnsum (rd2 ts.denominatorT i j) (rd ts.gam i)) }
        else ts) ts)
    ts

/-- The loop `while ( !done )` of `train`.  The first argument bounds the number of rounds;
`none` stands for running out of rounds or for dereferencing a null `beta`. -/
def train_loop (observed : List Nat) (initial : List U) (transition emission : List (List U))
    (nstates nsymbols : Nat) : Nat → TrainState U → Option (TrainState U)
  | 0, _ => none
  | fuel + 1, ts =>
    let nobs := observed.length
    let ts := train_accumulate observed nstates nsymbols ts
    let s := ts.s + 1
    if s = nobs - 1 then some { ts with s := s }
    else
      let g := gamma observed initial transition emission (s + 1) ts.beta ts.alphaG ts.gam
      let nx := details.BackCache.Next observed initial transition emission ts.cache
      match nx.1 with
      | none => none
      | some beta =>
        let x := xi observed initial transition emission (s + 1) beta ts.alphaX ts.probs
        train_loop observed initial transition emission nstates nsymbols fuel
          { ts with
            s := s, gam := g.2, alphaG := g.1, alphaX := x.1, probs := x.2
            beta := beta, cache := nx.2 }

/-- `train` of train.hpp: one re-estimation that streams gamma and xi one time step at a
time.  `none` stands for undefined behaviour (a null `beta` is dereferenced). -/
def train (observed : List Nat) (initial : List U) (transition emission : List (List U)) :
    Option (Model U) :=
  let nstates := initial.length
  let nobs := observed.length
  let nsymbols := (emission.getD 0 []).length
  let sentinel := max nsymbols nstates
  let gam : List U := List.replicate nstates Numeric.zero
  let alphaG := gam
  let alphaX := gam
  let probs : List (List U) := List.replicate nstates (List.replicate nstates Numeric.zero)
  let numeratorT : List (List U) := List.replicate nstates (List.replicate nstates inf)
  let denominatorT : List (List U) := List.replicate nstates (List.replicate nstates inf)
  let numeratorE : List (List U) := List.replicate nsymbols (List.replicate nstates inf)
  let denominatorE : List (List U) := List.replicate nsymbols (List.replicate nstates inf)
  let cache := details.BackCache.ctor observed initial transition emission
  let nx := details.BackCache.Next observed initial transition emission cache
  match nx.1 with
  | none => none
  | some beta =>
    let g := gamma observed initial transition emission 1 beta alphaG gam
    let nx := details.BackCache.Next observed initial transition emission nx.2
    match nx.1 with
    | none => some (initial, transition, emission)
    | some beta =>
      let x := xi observed initial transition emission 1 beta alphaX probs
      let initial := (List.range nstates).foldl
        (fun ini y => ini.set y (Numeric.exp (rd g.2 y))) initial
      let ts0 : TrainState U :=
        { s := 0, gam := g.2, alphaG := g.1, alphaX := x.1, probs := x.2
          numeratorT := numeratorT, denominatorT := denominatorT
          numeratorE := numeratorE, denominatorE := denominatorE
          beta := beta, cache := nx.2 }
      match train_loop observed initial transition emission nstates nsymbols nobs ts0 with
      | none => none
      | some ts =>
        let te := (List.range sentinel).foldl
          (fun (te : List (List U) × List (List U)) i => (List.range nstates).foldl
            (fun (te : List (List U) × List (List U)) j =>
              let emission :=
                if i < nsymbols then
                  wr2 te.2 j i
                    (elnproduct (rd2 ts.numeratorE i j) (Numeric.neg (rd2 ts.denominatorE i j)))
                else te.2
              let transition :=
                if i < nstates then
                  wr2 te.1 i j
                    (elnproduct (rd2 ts.numeratorT i j) (Numeric.neg (rd2 ts.denominatorT i j)))
                else te.1
              (transition, emission)) te)
          (transition, emission)
        some (initial, te.1, te.2)

/-- Local state of the loop over `s` in `viterbi`. -/
structure VitState (U : Type) where
  /-- the local `delta` -/
  delta : List (List U)
  /-- the local `index` -/
  index : Nat
  /-- the local `gmx` -/
  gmx : U
  /-- the local `active` -/
  active : Nat
  /-- the local `passive` -/
  passive : Nat
  /-- the indices written through `out` so far -/
  out : List Nat

/-- One round of the loop over `s` in `viterbi`; the round ends with `*out++ = index` and
`std::swap(active, passive)`. -/
def viterbi_round (observed : List Nat) (nstates : Nat) (transition emission : List (List U))
    (vs : VitState U) (s : Nat) : VitState U :=
  let r := (List.range nstates).foldl
    (fun (r : List (List U) × U × Nat) j =>
      let delta := r.1
      let gmx := r.2.1
      let index := r.2.2
      let mx0 := elnproduct (rd2 delta 0 vs.active) (rd2 transition 0 j)
      let mx := (List.range' 1 (nstates - 1)).foldl
        (fun mx k =>
          let tmp := elnproduct (rd2 delta k vs.active) (rd2 transition k j)
          if Numeric.gt tmp mx then tmp else mx) mx0
      let delta := wr2 delta j vs.passive (elnproduct mx (rd2 emission j (ob observed s)))
      if Numeric.gt (rd2 delta j vs.passive) gmx || decide (0 = j) then
        (delta, rd2 delta j vs.passive, j)
      else (delta, gmx, index))
    (vs.delta, vs.gmx, vs.index)
  { delta := r.1, index := r.2.2, gmx := r.2.1
    active := vs.passive, passive := vs.active
    out := vs.out ++ [r.2.2] }

/-- `viterbi` of viterbi.hpp: the state indices written through the output iterator, in
order. -/
def viterbi (observed : List Nat) (initial : List U) (transition emission : List (List U)) :
    List Nat :=
  let nstates := initial.length
  let nobs := observed.length
  let delta0 : List (List U) := List.replicate nstates (List.replicate 2 Numeric.zero)
  let r0 := (List.range nstates).foldl
    (fun (r : List (List U) × Nat) i =>
      let delta := wr2 r.1 i 0 (elnproduct (rd initial i) (rd2 emission i (ob observed 0)))
      let index := if Numeric.gt (rd2 delta i 0) (rd2 delta r.2 0) then i else r.2
      (delta, index))
    (delta0, 0)
  let vs := (List.range' 1 (nobs - 1)).foldl
    (viterbi_round observed nstates transition emission)
    { delta := r0.1, index := 0, gmx := Numeric.zero, active := 0, passive := 0 + 1
      out := [r0.2] }
  vs.out

/-! ## Auxiliary definitions used to state and prove the properties -/

/-- Column `s` of a vector of vectors: the vector of the entries `m[i][s]`. -/
def col (m : List (List U)) (s : Nat) : List U := m.map (fun row => rd row s)

/-- A vector of vectors has `r` rows, each of length `c`. -/
def IsMat (m : List (List U)) (r c : Nat) : Prop :=
  m.length = r ∧ ∀ row ∈ m, row.length = c

/-- The loop "Next Forward" of test1.cpp run up to `index = n`:
`for ( i = 1; i <= n; ++i ) forward_next(observed, initial, transition, emission, i, ok);` -/
def next_forward (observed : List Nat) (initial : List U) (transition emission : List (List U))
    (n : Nat) (ok : List U) : List U :=
  (List.range' 1 n).foldl
    (fun ok i => forward_next observed initial transition emission i ok) ok

/-- The loop "Next Backward" of test1.cpp run down to `index = n`:
`for ( i = observed.size(); i >= n; --i ) backward_next(observed, ..., i, ok);` -/
def next_backward (observed : List Nat) (initial : List U) (transition emission : List (List U))
    (n : Nat) (ok : List U) : List U :=
  (downTo observed.length n).foldl
    (fun ok i => backward_next observed initial transition emission i ok) ok

/-- The vector `alpha_0` of the forward recurrence. -/
def fwdInit (observed : List Nat) (initial : List U) (emission : List (List U)) : List U :=
  (List.range initial.length).map
    (fun i => elnproduct (rd initial i) (rd2 emission i (ob observed 0)))

/-- One step of the forward recurrence: `alpha_s` from `prev = alpha_(s-1)`. -/
def fwdStep (observed : List Nat) (initial : List U) (transition emission : List (List U))
    (s : Nat) (prev : List U) : List U :=
  (List.range initial.length).map
    (fun j => elnproduct
      (sumLoop initial.length (fun k => elnproduct (rd prev k) (rd2 transition k j)))
      (rd2 emission j (ob observed s)))

/-- The vector `alpha_s` of the forward recurrence. -/
def fwdCol (observed : List Nat) (initial : List U) (transition emission : List (List U)) :
    Nat → List U
  | 0 => fwdInit observed initial emission
  | s + 1 => fwdStep observed initial transition emission (s + 1)
      (fwdCol observed initial transition emission s)

/-- One step of the backward recurrence: `beta_(s-1)` from `next = beta_s`. -/
def bwdStep (observed : List Nat) (initial : List U) (transition emission : List (List U))
    (s : Nat) (next : List U) : List U :=
  (List.range initial.length).map
    (fun j => sumLoop initial.length
      (fun k => elnproduct (rd2 transition j k)
        (elnproduct (rd2 emission k (ob observed s)) (rd next k))))

/-- The vector `beta_(T-1-d)` of the backward recurrence, `d` steps before the end. -/
def bwdBack (observed : List Nat) (initial : List U) (transition emission : List (List U)) :
    Nat → List U
  | 0 => List.replicate initial.length Numeric.zero
  | d + 1 => bwdStep observed initial transition emission (observed.length - 1 - d)
      (bwdBack observed initial transition emission d)

/-- The cache after `n` calls of `Next()`. -/
def afterNext (observed : List Nat) (initial : List U) (transition emission : List (List U)) :
    Nat → details.BackCache U → details.BackCache U
  | 0, c => c
  | n + 1, c => afterNext observed initial transition emission n
      (details.BackCache.Next observed initial transition emission c).2

/-- The pointer returned by call number `n + 1` of `Next()` on the cache `c`. -/
def nthNext (observed : List Nat) (initial : List U) (transition emission : List (List U))
    (n : Nat) (c : details.BackCache U) : Option (List U) :=
  (details.BackCache.Next observed initial transition emission
    (afterNext observed initial transition emission n c)).1

/-- The active list that `populate` builds from the checkpoint `b` with marker `mark` and
counter `count`. -/
def replayWindow (observed : List Nat) (initial : List U) (transition emission : List (List U))
    (b : List U) (mark count : Nat) : List (List U) :=
  ((List.range (count - 1)).foldl
    (fun (r : List U × List (List U)) t =>
      let beta := backward_next observed initial transition emission (mark - t) r.1
      (beta, beta :: r.2))
    (b, [b])).2

/-- The vectors that the passive checkpoints of a cache will produce, in order. -/
def passiveStream (observed : List Nat) (initial : List U) (transition emission : List (List U)) :
    List (List U) → List Nat → List Nat → List (List U)
  | [], _, _ => []
  | b :: ps, ms, ns =>
    replayWindow observed initial transition emission b (ms.headD 0) (ns.headD 0) ++
      passiveStream observed initial transition emission ps ms.tail ns.tail

/-- The vectors that a cache will produce, in order. -/
def stream (observed : List Nat) (initial : List U) (transition emission : List (List U))
    (c : details.BackCache U) : List (List U) :=
  c.activeItems_ ++
    passiveStream observed initial transition emission c.passiveItems_ c.markers_ c.counters_

/-- The vector `beta_c` for `c < T`, and `beta_(T-1)` again for `c = T`. -/
def betaAt (observed : List Nat) (initial : List U) (transition emission : List (List U))
    (c : Nat) : List U :=
  bwdBack observed initial transition emission (observed.length - 1 - c)

/-- The vectors `beta_a, ..., beta_(a+n-1)`. -/
def seg (observed : List Nat) (initial : List U) (transition emission : List (List U))
    (a n : Nat) : List (List U) :=
  (List.range' a n).map (betaAt observed initial transition emission)

/-- Invariant of the first traversal in `populate` when round `i = cur` is about to run:
`S` is the stride and `E` the index of the last vector that will be produced. -/
def SweepInv (observed : List Nat) (initial : List U) (transition emission : List (List U))
    (S E : Nat) (w : details.Sweep U) (cur : Nat) : Prop :=
  w.beta = betaAt observed initial transition emission cur ∧
  if w.lastleg = true then
    w.activeItems_ ++
        passiveStream observed initial transition emission w.passiveItems_ w.markers_
          w.counters_ =
      seg observed initial transition emission (cur + 1) (E - cur)
  else
    E = observed.length ∧ w.activeItems_ = [] ∧ S ≤ cur ∧
    ∃ m ps ms ns,
      w.passiveItems_ = betaAt observed initial transition emission m :: ps ∧
      w.markers_ = m :: ms ∧ w.counters_ = S :: ns ∧ w.j + cur = m ∧ 1 ≤ w.j ∧ w.j ≤ S ∧
      m ≤ observed.length ∧
      passiveStream observed initial transition emission ps ms ns =
        seg observed initial transition emission (m + 1) (observed.length - m)

/-- The normalized state posterior of state `i` computed from an alpha vector `a` and a beta
vector `b`: `(a[i] (x) b[i]) (x) -(sum over k of a[k] (x) b[k])`. -/
def gammaAt (n : Nat) (a b : List U) (i : Nat) : U :=
  elnproduct (elnproduct (rd a i) (rd b i))
    (Numeric.neg (sumLoop n (fun k => elnproduct (rd a k) (rd b k))))

/-- The unnormalized pairwise posterior `a[i] (x) A[i][j] (x) B[j][o] (x) b[j]`. -/
def xiRaw (transition emission : List (List U)) (o : Nat) (a b : List U) (i j : Nat) : U :=
  elnproduct (rd a i)
    (elnproduct (rd2 transition i j) (elnproduct (rd2 emission j o) (rd b j)))

/-- The pairs `(i, j)` with `i < n` and `j < m`, in the order of two nested loops. -/
def pairs (n m : Nat) : List (Nat × Nat) :=
  (List.range n).flatMap (fun i => (List.range m).map (fun j => (i, j)))

/-- The accumulation of `f i j` over two nested loops `i < n`, `j < n`, starting from
`inf`. -/
def sumLoop2 (n : Nat) (f : Nat → Nat → U) : U :=
  (pairs n n).foldl (fun acc k => elnsum acc (f k.1 k.2)) inf

/-- The normalized pairwise posterior of the states `i`, `j`. -/
def xiAt (n : Nat) (transition emission : List (List U)) (o : Nat) (a b : List U)
    (i j : Nat) : U :=
  elnproduct (xiRaw transition emission o a b i j)
    (Numeric.neg (sumLoop2 n (xiRaw transition emission o a b)))

/-- The accumulation of `f s` over the `s < n` with `O_s = k`, starting from `inf`. -/
def sumLoopAt (observed : List Nat) (k n : Nat) (f : Nat → U) : U :=
  (List.range n).foldl (fun acc s => if ob observed s = k then elnsum acc (f s) else acc) inf

/-- Two vectors of vectors have the same dimensions. -/
def SameShape (m m' : List (List U)) : Prop :=
  m.length = m'.length ∧ ∀ i, (m.getD i []).length = (m'.getD i []).length

/-! ## Reading and writing vectors -/

theorem rd_set (v : List U) (i j : Nat) (x : U) :
    rd (v.set i x) j = if i = j ∧ i < v.length then x else rd v j := by
  unfold rd
  simp only [List.getD_eq_getElem?_getD, List.getElem?_set]
  by_cases h : i = j
  · subst h
    by_cases hl : i < v.length
    · simp [hl]
    · simp [hl, List.getElem?_eq_none (Nat.le_of_not_lt hl)]
  · simp [h]

omit [Numeric U] in
theorem getD_set_rows (m : List (List U)) (i i' : Nat) (r : List U) :
    (m.set i r).getD i' [] = if i = i' ∧ i < m.length then r else m.getD i' [] := by
  simp only [List.getD_eq_getElem?_getD, List.getElem?_set]
  by_cases h : i = i'
  · subst h
    by_cases hl : i < m.length
    · simp [hl]
    · simp [hl, List.getElem?_eq_none (Nat.le_of_not_lt hl)]
  · simp [h]

theorem rd2_wr2 (m : List (List U)) (i j i' j' : Nat) (x : U) :
    rd2 (wr2 m i j x) i' j' =
      if i = i' ∧ j = j' ∧ i < m.length ∧ j < (m.getD i []).length then x else rd2 m i' j' := by
  unfold rd2 wr2
  rw [getD_set_rows]
  by_cases h : i = i' ∧ i < m.length
  · obtain ⟨h1, h2⟩ := h
    subst h1
    simp only [h2, and_self, if_true, rd_set, true_and, and_true]
  · rw [if_neg h]
    have : ¬ (i = i' ∧ j = j' ∧ i < m.length ∧ j < (m.getD i []).length) := by
      intro hh; exact h ⟨hh.1, hh.2.2.1⟩
    rw [if_neg this]

omit [Numeric U] in
theorem length_wr2 (m : List (List U)) (i j : Nat) (x : U) :
    (wr2 m i j x).length = m.length := by
  simp [wr2]

omit [Numeric U] in
theorem rowlen_wr2 (m : List (List U)) (i j i' : Nat) (x : U) :
    ((wr2 m i j x).getD i' []).length = (m.getD i' []).length := by
  unfold wr2
  rw [getD_set_rows]
  by_cases h : i = i' ∧ i < m.length
  · rw [if_pos h, List.length_set, h.1]
  · rw [if_neg h]

omit [Numeric U] in
theorem length_foldl_set (f : List U → Nat → U) (l : List Nat) (a : List U) :
    (l.foldl (fun a j => a.set j (f a j)) a).length = a.length := by
  induction l generalizing a with
  | nil => rfl
  | cons x l ih => simp only [List.foldl_cons]; rw [ih, List.length_set]

theorem rd_foldl_set (f : Nat → U) (n : Nat) (a : List U) (i : Nat) :
    rd ((List.range n).foldl (fun a j => a.set j (f j)) a) i =
      if i < n ∧ i < a.length then f i else rd a i := by
  induction n with
  | zero => simp
  | succ n ih =>
    rw [List.range_succ, List.foldl_append]
    simp only [List.foldl_cons, List.foldl_nil, rd_set, ih]
    rw [length_foldl_set (fun _ j => f j)]
    by_cases h : n = i
    · subst h
      by_cases hl : n < a.length
      · simp [hl]
      · simp [hl]
    · by_cases h2 : i < n
      · have : i < n + 1 := by omega
        simp [h, h2, this]
      · have : ¬ i < n + 1 := by omega
        simp [h, h2, this]

theorem rd_eq_getElem (v : List U) (i : Nat) (h : i < v.length) : rd v i = v[i] := by
  unfold rd
  simp [List.getD_eq_getElem?_getD, h]

theorem ext_rd (v w : List U) (hl : v.length = w.length)
    (h : ∀ i, i < v.length → rd v i = rd w i) : v = w := by
  apply List.ext_getElem hl
  intro i h1 h2
  rw [← rd_eq_getElem v i h1, ← rd_eq_getElem w i h2]
  exact h i h1

theorem rd_map_range (f : Nat → U) (n i : Nat) :
    rd ((List.range n).map f) i = if i < n then f i else Numeric.zero := by
  unfold rd
  by_cases h : i < n
  · simp [List.getD_eq_getElem?_getD, h]
  · have hn : (List.range n)[i]? = none :=
      List.getElem?_eq_none (by simp; omega)
    simp [List.getD_eq_getElem?_getD, h, hn]

theorem foldl_set_eq_map (f : Nat → U) (n : Nat) (a : List U) (h : a.length = n) :
    (List.range n).foldl (fun a j => a.set j (f j)) a = (List.range n).map f := by
  apply ext_rd
  · rw [length_foldl_set (fun _ j => f j)]; simp [h]
  · intro i hi
    rw [length_foldl_set (fun _ j => f j)] at hi
    rw [rd_foldl_set, rd_map_range]
    have : i < n := by omega
    simp [this, hi]

omit [Numeric U] in
theorem SameShape.refl (m : List (List U)) : SameShape m m := ⟨rfl, fun _ => rfl⟩

omit [Numeric U] in
theorem SameShape.trans {a b c : List (List U)} (h1 : SameShape a b) (h2 : SameShape b c) :
    SameShape a c := ⟨h1.1.trans h2.1, fun i => (h1.2 i).trans (h2.2 i)⟩

omit [Numeric U] in
theorem sameShape_wr2 (m : List (List U)) (i j : Nat) (x : U) : SameShape (wr2 m i j x) m :=
  ⟨length_wr2 m i j x, fun i' => rowlen_wr2 m i j i' x⟩

omit [Numeric U] in
theorem sameShape_foldl {β : Type} (F : List (List U) → β → List (List U))
    (hF : ∀ a j, SameShape (F a j) a) (l : List β) (a : List (List U)) :
    SameShape (l.foldl F a) a := by
  induction l generalizing a with
  | nil => exact SameShape.refl a
  | cons x l ih => exact (ih (F a x)).trans (hF a x)

theorem rd2_foldl_wr2_col (n c : Nat) (g : List (List U) → Nat → U)
    (hg : ∀ a a' : List (List U), (∀ k c', c' ≠ c → rd2 a k c' = rd2 a' k c') →
      ∀ j, g a j = g a' j)
    (a0 : List (List U)) (i c' : Nat) :
    rd2 ((List.range n).foldl (fun a j => wr2 a j c (g a j)) a0) i c' =
      if c' = c ∧ i < n ∧ i < a0.length ∧ c < (a0.getD i []).length then g a0 i
      else rd2 a0 i c' := by
  induction n generalizing i c' with
  | zero => simp
  | succ n ih =>
    rw [List.range_succ, List.foldl_append]
    simp only [List.foldl_cons, List.foldl_nil]
    have hs := sameShape_foldl (fun a j => wr2 a j c (g a j))
      (fun a j => sameShape_wr2 a j c (g a j)) (List.range n) a0
    have hgn : ∀ j, g ((List.range n).foldl (fun a j => wr2 a j c (g a j)) a0) j = g a0 j := by
      apply hg
      intro k c'' hc
      rw [ih]
      simp [hc]
    rw [rd2_wr2, hgn, hs.1, hs.2, ih]
    by_cases h : n = i
    · subst h
      by_cases h2 : c = c'
      · subst h2
        by_cases h3 : n < a0.length ∧ c < (a0.getD n []).length
        · simp [h3]
        · simp only [true_and, lt_self_iff_false, false_and, and_false, if_false, h3]
      · have : ¬ c' = c := fun hh => h2 hh.symm
        simp [h2, this]
    · by_cases h2 : i < n
      · have : i < n + 1 := by omega
        simp [h, h2, this]
      · have : ¬ i < n + 1 := by omega
        simp [h, h2, this]

/-! ## The forward recurrence -/

omit [Numeric U] in
theorem IsMat.rowlen {m : List (List U)} {r c : Nat} (h : IsMat m r c) (i : Nat) (hi : i < r) :
    (m.getD i []).length = c := by
  have hi' : i < m.length := by rw [h.1]; exact hi
  have : m.getD i [] = m[i] := by simp [List.getD_eq_getElem?_getD, hi']
  rw [this]
  exact h.2 _ (List.getElem_mem hi')

omit [Numeric U] in
theorem IsMat.of_sameShape {m m' : List (List U)} {r c : Nat} (hs : SameShape m' m)
    (h : IsMat m r c) : IsMat m' r c := by
  refine ⟨hs.1.trans h.1, ?_⟩
  intro row hrow
  obtain ⟨i, hi, rfl⟩ := List.getElem_of_mem hrow
  have h1 : m'.getD i [] = m'[i] := by simp [List.getD_eq_getElem?_getD, hi]
  rw [← h1, hs.2 i]
  exact h.rowlen i (by rw [← h.1, ← hs.1]; exact hi)

theorem length_col (m : List (List U)) (s : Nat) : (col m s).length = m.length := by
  simp [col]

theorem rd_col (m : List (List U)) (s i : Nat) (hi : i < m.length) :
    rd (col m s) i = rd2 m i s := by
  unfold col rd2
  rw [rd_eq_getElem _ _ (by simpa using hi)]
  simp [List.getD_eq_getElem?_getD, hi]

theorem length_fwdCol (observed : List Nat) (initial : List U)
    (transition emission : List (List U)) (s : Nat) :
    (fwdCol observed initial transition emission s).length = initial.length := by
  cases s <;> simp [fwdCol, fwdInit, fwdStep]

theorem forward_next_one (observed : List Nat) (initial : List U)
    (transition emission : List (List U)) (alpha : List U) (h : alpha.length = initial.length) :
    forward_next observed initial transition emission 1 alpha =
      fwdInit observed initial emission := by
  unfold forward_next fwdInit
  simp only [lt_self_iff_false, if_false, if_true]
  exact foldl_set_eq_map _ _ _ h

theorem forward_next_step (observed : List Nat) (initial : List U)
    (transition emission : List (List U)) (index : Nat) (alpha : List U)
    (h : alpha.length = initial.length) (hi : 2 ≤ index) :
    forward_next observed initial transition emission index alpha =
      fwdStep observed initial transition emission (index - 1) alpha := by
  unfold forward_next fwdStep
  have h1 : ¬ index < 1 := by omega
  have h2 : ¬ 1 = index := by omega
  simp only [h1, h2, if_false]
  exact foldl_set_eq_map _ _ _ h

omit [Numeric U] in
theorem range'_concat_one (a n : Nat) : List.range' a (n + 1) = List.range' a n ++ [a + n] := by
  rw [List.range'_concat]; simp

theorem next_forward_eq (observed : List Nat) (initial : List U)
    (transition emission : List (List U)) (n : Nat) (ok : List U)
    (h : ok.length = initial.length) :
    next_forward observed initial transition emission (n + 1) ok =
      fwdCol observed initial transition emission n := by
  induction n with
  | zero =>
    simp only [next_forward, List.range'_one, List.foldl_cons, List.foldl_nil, fwdCol]
    exact forward_next_one _ _ transition _ _ h
  | succ n ih =>
    unfold next_forward at ih ⊢
    rw [range'_concat_one, List.foldl_append, ih]
    simp only [List.foldl_cons, List.foldl_nil]
    rw [forward_next_step _ _ _ _ _ _ (length_fwdCol _ _ _ _ _) (by omega)]
    simp [fwdCol, Nat.add_comm]

theorem sumLoop_succ (n : Nat) (f : Nat → U) :
    sumLoop (n + 1) f = elnsum (sumLoop n f) (f n) := by
  unfold sumLoop
  rw [List.range_succ, List.foldl_append]
  rfl

theorem sumLoop_congr (n : Nat) (f g : Nat → U) (h : ∀ k, k < n → f k = g k) :
    sumLoop n f = sumLoop n g := by
  induction n with
  | zero => rfl
  | succ n ih =>
    rw [sumLoop_succ, sumLoop_succ, ih (fun k hk => h k (by omega)), h n (by omega)]

/-- The matrix after `forward_full` has done the columns `0 .. k`. -/
theorem forward_full_cols (observed : List Nat) (initial : List U)
    (transition emission : List (List U)) (alpha : List (List U)) (c : Nat)
    (hm : IsMat alpha initial.length c) (k : Nat) (hk : k < c) :
    IsMat (forward_full observed initial transition emission (k + 1) alpha) initial.length c ∧
    ∀ s i, s ≤ k → i < initial.length →
      rd2 (forward_full observed initial transition emission (k + 1) alpha) i s =
        rd (fwdCol observed initial transition emission s) i := by
  induction k with
  | zero =>
    unfold forward_full
    simp only [Nat.zero_add, lt_self_iff_false, if_false, Nat.sub_self, List.range'_zero,
      List.foldl_nil]
    constructor
    · exact IsMat.of_sameShape (sameShape_foldl _ (fun a j => sameShape_wr2 a j 0 _) _ _) hm
    · intro s i hs hi
      have hs0 : s = 0 := by omega
      subst hs0
      rw [rd2_foldl_wr2_col initial.length 0
        (fun _ i => elnproduct (rd initial i) (rd2 emission i (ob observed 0)))
        (fun _ _ _ _ => rfl)]
      simp only [fwdCol, fwdInit, rd_map_range, hi, if_true, true_and]
      rw [hm.1, hm.rowlen i hi]
      simp [hi, hk]
  | succ k ih =>
    have ih := ih (by omega)
    have hstep : forward_full observed initial transition emission (k + 1 + 1) alpha =
        (List.range initial.length).foldl
          (fun a j => wr2 a j (k + 1)
            (elnproduct (sumLoop initial.length
              (fun k' => elnproduct (rd2 a k' (k + 1 - 1)) (rd2 transition k' j)))
              (rd2 emission j (ob observed (k + 1)))))
          (forward_full observed initial transition emission (k + 1) alpha) := by
      unfold forward_full
      simp only [Nat.add_sub_cancel, show ¬ (k + 1 + 1 < 1) by omega,
        show ¬ (k + 1 < 1) by omega, if_false]
      rw [range'_concat_one, List.foldl_append]
      simp only [List.foldl_cons, List.foldl_nil, Nat.add_comm 1 k, Nat.add_sub_cancel]
    rw [hstep]
    constructor
    · exact IsMat.of_sameShape (sameShape_foldl _ (fun a j => sameShape_wr2 a j _ _) _ _) ih.1
    · intro s i hs hi
      rw [rd2_foldl_wr2_col initial.length (k + 1)
        (fun a j => elnproduct (sumLoop initial.length
              (fun k' => elnproduct (rd2 a k' (k + 1 - 1)) (rd2 transition k' j)))
              (rd2 emission j (ob observed (k + 1))))]
      · rw [ih.1.1, ih.1.rowlen i hi]
        by_cases hs' : s = k + 1
        · subst hs'
          simp only [true_and, hi, hk, and_self, if_true, Nat.add_sub_cancel]
          simp only [fwdCol, fwdStep, rd_map_range, hi, if_true]
          congr 1
          apply sumLoop_congr
          intro k' hk'
          rw [ih.2 k k' (by omega) hk']
        · simp only [hs', false_and, if_false]
          exact ih.2 s i (by omega) hi
      · intro a a' haa j
        simp only [Nat.add_sub_cancel]
        have : ∀ k', rd2 a k' k = rd2 a' k' k := fun k' => haa k' k (by omega)
        simp only [this]

omit [Numeric U] in
theorem length_foldl_set_row (h : List (List U) → Nat → List U) (l : List Nat)
    (l0 : List (List U)) :
    (l.foldl (fun m i => m.set i (h m i)) l0).length = l0.length := by
  induction l generalizing l0 with
  | nil => rfl
  | cons x l ih => simp only [List.foldl_cons]; rw [ih, List.length_set]

omit [Numeric U] in
theorem getD_foldl_set_row (h : Nat → List U → List U) (n : Nat) (l0 : List (List U))
    (i : Nat) :
    ((List.range n).foldl (fun m i => m.set i (h i (m.getD i []))) l0).getD i [] =
      if i < n ∧ i < l0.length then h i (l0.getD i []) else l0.getD i [] := by
  induction n with
  | zero => simp
  | succ n ih =>
    rw [List.range_succ, List.foldl_append]
    simp only [List.foldl_cons, List.foldl_nil]
    rw [getD_set_rows, length_foldl_set_row (fun m i => h i (m.getD i []))]
    by_cases hn : n = i
    · subst hn
      rw [ih]
      by_cases hl : n < l0.length
      · simp [hl]
      · simp [hl]
    · rw [ih]
      by_cases h2 : i < n
      · have : i < n + 1 := by omega
        simp [hn, h2, this]
      · have : ¬ i < n + 1 := by omega
        simp [hn, h2, this]

omit [Numeric U] in
theorem wr2_set (m : List (List U)) (i j : Nat) (r : List U) (x : U) :
    wr2 (m.set i r) i j x = m.set i (r.set j x) := by
  unfold wr2
  rw [getD_set_rows]
  by_cases hl : i < m.length
  · simp [hl]
  · have : m.length ≤ i := Nat.le_of_not_lt hl
    simp [hl, List.set_eq_of_length_le, this]

omit [Numeric U] in
theorem isMat_of_getD (m : List (List U)) (r c : Nat) (h1 : m.length = r)
    (h2 : ∀ i, i < r → (m.getD i []).length = c) : IsMat m r c := by
  refine ⟨h1, ?_⟩
  intro row hrow
  obtain ⟨i, hi, rfl⟩ := List.getElem_of_mem hrow
  have := h2 i (by omega)
  simpa [List.getD_eq_getElem?_getD, hi] using this

/-- The two rolling columns of `forward_index` after the first loop. -/
theorem forward_index_init (observed : List Nat) (initial : List U)
    (emission : List (List U)) (i : Nat) (hi : i < initial.length) :
    ((List.range initial.length).foldl
      (fun l i =>
        wr2 (l.set i (resize (l.getD i []) 2 Numeric.zero)) i 0
          (elnproduct (rd initial i) (rd2 emission i (ob observed 0))))
      (List.replicate initial.length ([] : List U))).getD i [] =
    [elnproduct (rd initial i) (rd2 emission i (ob observed 0)), Numeric.zero] := by
  simp only [wr2_set]
  rw [getD_foldl_set_row (fun i row => (resize row 2 Numeric.zero).set 0
    (elnproduct (rd initial i) (rd2 emission i (ob observed 0))))]
  simp [hi, resize, List.getD_eq_getElem?_getD, List.replicate]

omit [Numeric U] in
theorem length_foldl_preserved {α β : Type} (F : List α → β → List α)
    (hF : ∀ a j, (F a j).length = a.length) (l : List β) (a : List α) :
    (l.foldl F a).length = a.length := by
  induction l generalizing a with
  | nil => rfl
  | cons x l ih => simp only [List.foldl_cons]; rw [ih, hF]

/-- Invariant of the rolling loop of `forward_index`: after the rounds `s = 1 .. k` the
column `active` holds `alpha_k`. -/
theorem forward_index_rounds (observed : List Nat) (initial : List U)
    (transition emission : List (List U)) (lcl1 : List (List U))
    (h1 : IsMat lcl1 initial.length 2)
    (h0 : ∀ i, i < initial.length →
      rd2 lcl1 i 0 = rd (fwdCol observed initial transition emission 0) i) (k : Nat) :
    let st := (List.range' 1 k).foldl
      (forward_index_round observed initial.length transition emission) (lcl1, 0, 0 + 1)
    IsMat st.1 initial.length 2 ∧ st.2.1 < 2 ∧ st.2.2 < 2 ∧ st.2.1 ≠ st.2.2 ∧
      ∀ i, i < initial.length →
        rd2 st.1 i st.2.1 = rd (fwdCol observed initial transition emission k) i := by
  induction k with
  | zero =>
    intro st
    simp only [st, List.range'_zero, List.foldl_nil]
    exact ⟨h1, by decide, by decide, by decide, h0⟩
  | succ k ih =>
    intro st
    simp only [st]
    simp only at ih
    rw [range'_concat_one, List.foldl_append]
    simp only [List.foldl_cons, List.foldl_nil]
    generalize (List.range' 1 k).foldl
      (forward_index_round observed initial.length transition emission) (lcl1, 0, 0 + 1) = st
      at ih
    obtain ⟨hm, ha, hp, hne, hcol⟩ := ih
    obtain ⟨lcl, active, passive⟩ := st
    simp only at hm ha hp hne hcol
    simp only [forward_index_round]
    refine ⟨?_, hp, ha, fun h => hne h.symm, ?_⟩
    · exact IsMat.of_sameShape (sameShape_foldl _ (fun a j => sameShape_wr2 a j _ _) _ _) hm
    · intro i hi
      rw [rd2_foldl_wr2_col initial.length passive
        (fun l j => elnproduct (sumLoop initial.length
          (fun k' => elnproduct (rd2 l k' active) (rd2 transition k' j)))
          (rd2 emission j (ob observed (1 + k))))]
      · rw [hm.1, hm.rowlen i hi]
        simp only [true_and, hi, hp, and_self, if_true]
        simp only [fwdCol, fwdStep, rd_map_range, hi, if_true, Nat.add_comm 1 k]
        congr 1
        apply sumLoop_congr
        intro k' hk'
        rw [hcol k' hk']
      · intro a a' haa j
        have : ∀ k', rd2 a k' active = rd2 a' k' active := fun k' => haa k' active hne
        simp only [this]

theorem forward_index_eq (observed : List Nat) (initial : List U)
    (transition emission : List (List U)) (k : Nat) (alpha : List U)
    (h : alpha.length = initial.length) :
    forward_index observed initial transition emission (k + 1) alpha =
      fwdCol observed initial transition emission k := by
  unfold forward_index
  simp only [show ¬ (k + 1 < 1) by omega, if_false, Nat.add_sub_cancel]
  have hinit := forward_index_init observed initial emission
  generalize hl : (List.range initial.length).foldl
      (fun l i =>
        wr2 (l.set i (resize (l.getD i []) 2 Numeric.zero)) i 0
          (elnproduct (rd initial i) (rd2 emission i (ob observed 0))))
      (List.replicate initial.length ([] : List U)) = lcl1 at hinit
  have hlen : lcl1.length = initial.length := by
    rw [← hl, length_foldl_preserved _ (fun a j => by simp [wr2])]
    simp
  have hmat : IsMat lcl1 initial.length 2 :=
    isMat_of_getD _ _ _ hlen (fun i hi => by rw [hinit i hi]; rfl)
  have h0 : ∀ i, i < initial.length →
      rd2 lcl1 i 0 = rd (fwdCol observed initial transition emission 0) i := by
    intro i hi
    unfold rd2
    rw [hinit i hi]
    simp [fwdCol, fwdInit, rd_map_range, hi, rd]
  have hr := forward_index_rounds observed initial transition emission lcl1 hmat h0 k
  simp only at hr
  generalize (List.range' 1 k).foldl
      (forward_index_round observed initial.length transition emission) (lcl1, 0, 0 + 1) = st
      at hr
  obtain ⟨_, _, _, _, hcol⟩ := hr
  rw [foldl_set_eq_map _ _ _ h]
  apply ext_rd
  · rw [length_fwdCol]; simp
  · intro i hi
    have hi' : i < initial.length := by simpa using hi
    rw [rd_map_range, if_pos hi', hcol i hi']

/-- Property C8.  Calling `forward_next` with `index = 1, 2, ..., i` in that order on any
vector `ok` of length N leaves the column `i-1` of the matrix filled by
`forward_full(T)`, for every `1 <= i <= T`; the call with `index = 1` discards the
content of `ok`. -/
theorem forward_next_reproduces_forward_full (observed : List Nat) (initial : List U)
    (transition emission : List (List U)) (ok : List U) (alpha : List (List U)) (i : Nat)
    (hok : ok.length = initial.length)
    (hm : IsMat alpha initial.length observed.length)
    (hi1 : 1 ≤ i) (hiT : i ≤ observed.length) :
    next_forward observed initial transition emission i ok =
      col (forward_full observed initial transition emission observed.length alpha) (i - 1) := by
  obtain ⟨k, rfl⟩ : ∃ k, i = k + 1 := ⟨i - 1, by omega⟩
  obtain ⟨t, ht⟩ : ∃ t, observed.length = t + 1 := ⟨observed.length - 1, by omega⟩
  rw [next_forward_eq _ _ _ _ _ _ hok, Nat.add_sub_cancel]
  have hf := forward_full_cols observed initial transition emission alpha observed.length hm t
    (by omega)
  rw [← ht] at hf
  apply ext_rd
  · rw [length_fwdCol, length_col, hf.1.1]
  · intro j hj
    rw [length_fwdCol] at hj
    rw [rd_col _ _ _ (by rw [hf.1.1]; exact hj), hf.2 k j (by omega) hj]

/-- Property C9.  For `1 <= index <= T` the vector written by `forward_index(index)` is the
column `index-1` of the matrix filled by `forward_full(index)`. -/
theorem forward_index_eq_forward_full_col (observed : List Nat) (initial : List U)
    (transition emission : List (List U)) (v : List U) (alpha : List (List U))
    (index c : Nat) (hv : v.length = initial.length) (hm : IsMat alpha initial.length c)
    (hi1 : 1 ≤ index) (hic : index ≤ c) :
    forward_index observed initial transition emission index v =
      col (forward_full observed initial transition emission index alpha) (index - 1) := by
  obtain ⟨k, rfl⟩ : ∃ k, index = k + 1 := ⟨index - 1, by omega⟩
  rw [forward_index_eq _ _ _ _ _ _ hv, Nat.add_sub_cancel]
  have hf := forward_full_cols observed initial transition emission alpha c hm k (by omega)
  apply ext_rd
  · rw [length_fwdCol, length_col, hf.1.1]
  · intro j hj
    rw [length_fwdCol] at hj
    rw [rd_col _ _ _ (by rw [hf.1.1]; exact hj), hf.2 k j (by omega) hj]

/-! ## The backward recurrence -/

omit [Numeric U] in
theorem downTo_succ (hi lo : Nat) (h : lo ≤ hi + 1) :
    downTo (hi + 1) lo = (hi + 1) :: downTo hi lo := by
  unfold downTo
  have e1 : hi + 1 + 1 - lo = (hi + 1 - lo) + 1 := by omega
  have e2 : lo + (hi + 1 - lo) = hi + 1 := by omega
  rw [e1, range'_concat_one, List.reverse_append, e2]
  rfl

omit [Numeric U] in
theorem downTo_self_succ (n : Nat) : downTo n (n + 1) = [] := by
  simp [downTo]

omit [Numeric U] in
theorem downTo_concat (hi lo : Nat) (h : lo ≤ hi) :
    downTo hi lo = downTo hi (lo + 1) ++ [lo] := by
  unfold downTo
  have : hi + 1 - lo = (hi + 1 - (lo + 1)) + 1 := by omega
  rw [this, List.range'_succ, List.reverse_cons]

omit [Numeric U] in
theorem mem_downTo (hi lo c : Nat) : c ∈ downTo hi lo ↔ lo ≤ c ∧ c ≤ hi := by
  unfold downTo
  simp only [List.mem_reverse, List.mem_range'_1]
  omega

theorem length_bwdBack (observed : List Nat) (initial : List U)
    (transition emission : List (List U)) (d : Nat) :
    (bwdBack observed initial transition emission d).length = initial.length := by
  cases d <;> simp [bwdBack, bwdStep]

theorem backward_next_last (observed : List Nat) (initial : List U)
    (transition emission : List (List U)) (beta : List U) (h : beta.length = initial.length)
    (hT : 2 ≤ observed.length) :
    backward_next observed initial transition emission observed.length beta =
      bwdBack observed initial transition emission 0 := by
  unfold backward_next bwdBack
  have h1 : ¬ observed.length < 2 := by omega
  simp only [h1, if_false, gt_iff_lt, lt_self_iff_false, decide_False, Bool.false_or,
    decide_eq_true_eq, show ¬ observed.length < 1 by omega, if_true, Bool.false_eq_true]
  rw [foldl_set_eq_map _ _ _ h]
  apply ext_rd
  · simp
  · intro i hi
    have hi' : i < initial.length := by simpa using hi
    rw [rd_map_range, if_pos hi']
    simp [rd, List.getD_eq_getElem?_getD, hi']

theorem backward_next_step (observed : List Nat) (initial : List U)
    (transition emission : List (List U)) (index : Nat) (beta : List U)
    (h : beta.length = initial.length) (h1 : 1 ≤ index) (h2 : index < observed.length) :
    backward_next observed initial transition emission index beta =
      bwdStep observed initial transition emission index beta := by
  unfold backward_next bwdStep
  have e1 : ¬ observed.length < 2 := by omega
  have e2 : ¬ index > observed.length := by omega
  have e3 : ¬ index < 1 := by omega
  have e4 : ¬ observed.length = index := by omega
  simp only [e1, e2, e3, e4, if_false, decide_False, Bool.or_self, Bool.false_eq_true]
  exact foldl_set_eq_map _ _ _ h

/-- The loop "Next Backward" after the calls with `index = T, T-1, ..., T-d`. -/
theorem next_backward_eq (observed : List Nat) (initial : List U)
    (transition emission : List (List U)) (ok : List U) (h : ok.length = initial.length)
    (hT : 2 ≤ observed.length) (d : Nat) (hd : d < observed.length) :
    next_backward observed initial transition emission (observed.length - d) ok =
      bwdBack observed initial transition emission d := by
  induction d with
  | zero =>
    unfold next_backward
    obtain ⟨t, ht⟩ : ∃ t, observed.length = t + 1 := ⟨observed.length - 1, by omega⟩
    rw [Nat.sub_zero]
    rw [ht, downTo_succ _ _ (by omega), downTo_self_succ, ← ht]
    simp only [List.foldl_cons, List.foldl_nil]
    exact backward_next_last _ _ _ _ _ h hT
  | succ d ih =>
    have ih := ih (by omega)
    unfold next_backward at ih ⊢
    rw [downTo_concat _ _ (by omega), List.foldl_append]
    have : observed.length - (d + 1) + 1 = observed.length - d := by omega
    rw [this, ih]
    simp only [List.foldl_cons, List.foldl_nil]
    rw [backward_next_step _ _ _ _ _ _ (length_bwdBack _ _ _ _ _) (by omega) (by omega)]
    simp only [bwdBack]
    congr 1
    omega

theorem rd2_fill_row (l : List Nat) (i : Nat) (x : U) (b : List (List U)) (i' c : Nat) :
    rd2 (l.foldl (fun b j => wr2 b i j x) b) i' c =
      if i' = i ∧ c ∈ l ∧ i < b.length ∧ c < (b.getD i []).length then x else rd2 b i' c := by
  induction l generalizing b with
  | nil => simp
  | cons j l ih =>
    simp only [List.foldl_cons]
    rw [ih, rd2_wr2, length_wr2, rowlen_wr2]
    generalize (b.getD i []).length = L
    generalize b.length = B
    generalize rd2 b i' c = r
    simp only [List.mem_cons]
    by_cases h1 : i' = i <;> by_cases h3 : c ∈ l <;> by_cases h4 : c = j <;>
      by_cases h5 : i < B <;> by_cases h6 : c < L <;>
      simp [h1, h3, h4, h5, h6, eq_comm] <;> (try subst h4) <;> simp_all [eq_comm]

theorem rd2_fill (n : Nat) (l : List Nat) (x : U) (b : List (List U)) (i' c : Nat) :
    rd2 ((List.range n).foldl (fun b i => l.foldl (fun b j => wr2 b i j x) b) b) i' c =
      if i' < n ∧ c ∈ l ∧ i' < b.length ∧ c < (b.getD i' []).length then x
      else rd2 b i' c := by
  induction n with
  | zero => simp
  | succ n ih =>
    rw [List.range_succ, List.foldl_append]
    simp only [List.foldl_cons, List.foldl_nil]
    have hs := sameShape_foldl (fun b i => l.foldl (fun b j => wr2 b i j x) b)
      (fun a i => sameShape_foldl _ (fun a j => sameShape_wr2 a i j x) l a) (List.range n) b
    rw [rd2_fill_row, hs.1, hs.2, ih]
    by_cases h1 : i' = n
    · subst h1
      generalize (b.getD i' []).length = L
      generalize b.length = B
      have : i' < i' + 1 := by omega
      by_cases h3 : c ∈ l <;> by_cases h5 : i' < B <;> by_cases h6 : c < L <;>
        simp [h3, h5, h6, this]
    · generalize (b.getD i' []).length = L
      generalize (b.getD n []).length = L'
      generalize b.length = B
      by_cases h2 : i' < n
      · have : i' < n + 1 := by omega
        simp [h1, h2, this]
      · have : ¬ i' < n + 1 := by omega
        simp [h1, h2, this]

/-- The second loop of `backward_full` after the rounds `s = T-1, ..., T-d`. -/
theorem backward_full_rounds (observed : List Nat) (initial : List U)
    (transition emission : List (List U)) (beta0 : List (List U))
    (hm : IsMat beta0 initial.length observed.length)
    (h0 : ∀ i, i < initial.length → rd2 beta0 i (observed.length - 1) = Numeric.zero)
    (d : Nat) (hd : d < observed.length) :
    IsMat ((downTo (observed.length - 1) (observed.length - d)).foldl
      (fun b s => (List.range initial.length).foldl
        (fun b j => wr2 b j (s - 1) (sumLoop initial.length
            (fun k => elnproduct (rd2 transition j k)
              (elnproduct (rd2 emission k (ob observed s)) (rd2 b k s))))) b) beta0)
      initial.length observed.length ∧
    ∀ d' i, d' ≤ d → i < initial.length →
      rd2 ((downTo (observed.length - 1) (observed.length - d)).foldl
      (fun b s => (List.range initial.length).foldl
        (fun b j => wr2 b j (s - 1) (sumLoop initial.length
            (fun k => elnproduct (rd2 transition j k)
              (elnproduct (rd2 emission k (ob observed s)) (rd2 b k s))))) b) beta0)
        i (observed.length - 1 - d') =
      rd (bwdBack observed initial transition emission d') i := by
  induction d with
  | zero =>
    have : observed.length - 1 + 1 = observed.length - 0 := by omega
    rw [← this, downTo_self_succ]
    simp only [List.foldl_nil]
    refine ⟨hm, ?_⟩
    intro d' i hd' hi
    have : d' = 0 := by omega
    subst this
    rw [Nat.sub_zero, h0 i hi]
    simp [bwdBack, rd, List.getD_eq_getElem?_getD, hi]
  | succ d ih =>
    have ih := ih (by omega)
    rw [downTo_concat _ _ (by omega), List.foldl_append]
    have e : observed.length - (d + 1) + 1 = observed.length - d := by omega
    rw [e]
    generalize (downTo (observed.length - 1) (observed.length - d)).foldl
      (fun b s => (List.range initial.length).foldl
        (fun b j => wr2 b j (s - 1) (sumLoop initial.length
            (fun k => elnproduct (rd2 transition j k)
              (elnproduct (rd2 emission k (ob observed s)) (rd2 b k s))))) b) beta0 = P at ih ⊢
    simp only [List.foldl_cons, List.foldl_nil]
    obtain ⟨hP, hcol⟩ := ih
    constructor
    · exact IsMat.of_sameShape (sameShape_foldl _ (fun a j => sameShape_wr2 a j _ _) _ _) hP
    · intro d' i hd' hi
      rw [rd2_foldl_wr2_col initial.length (observed.length - (d + 1) - 1)
        (fun b j => sumLoop initial.length
            (fun k => elnproduct (rd2 transition j k)
              (elnproduct (rd2 emission k (ob observed (observed.length - (d + 1))))
                (rd2 b k (observed.length - (d + 1))))))]
      · rw [hP.1, hP.rowlen i hi]
        by_cases h1 : d' = d + 1
        · subst h1
          have e2 : observed.length - 1 - (d + 1) = observed.length - (d + 1) - 1 := by omega
          have e3 : observed.length - (d + 1) - 1 < observed.length := by omega
          simp only [e2, true_and, hi, e3, and_self, if_true]
          simp only [bwdBack, bwdStep, rd_map_range, hi, if_true]
          have e4 : observed.length - (d + 1) = observed.length - 1 - d := by omega
          rw [e4]
          apply sumLoop_congr
          intro k hk
          rw [hcol d k (le_refl d) hk]
        · have e2 : ¬ observed.length - 1 - d' = observed.length - (d + 1) - 1 := by omega
          simp only [e2, false_and, if_false]
          exact hcol d' i (by omega) hi
      · intro a a' haa j
        have : ∀ k, rd2 a k (observed.length - (d + 1)) = rd2 a' k (observed.length - (d + 1)) :=
          fun k => haa k _ (by omega)
        simp only [this]

/-- Columns `index-1 .. T-1` of the matrix filled by `backward_full(index)`, `index < T`. -/
theorem backward_full_cols (observed : List Nat) (initial : List U)
    (transition emission : List (List U)) (beta : List (List U)) (index : Nat)
    (hm : IsMat beta initial.length observed.length)
    (h1 : 1 ≤ index) (h2 : index < observed.length) :
    IsMat (backward_full observed initial transition emission index beta)
      initial.length observed.length ∧
    ∀ c i, index - 1 ≤ c → c < observed.length → i < initial.length →
      rd2 (backward_full observed initial transition emission index beta) i c =
        rd (bwdBack observed initial transition emission (observed.length - 1 - c)) i := by
  unfold backward_full
  have e1 : ¬ observed.length < 2 := by omega
  have e2 : ¬ index > observed.length := by omega
  have e3 : ¬ index < 1 := by omega
  simp only [e1, e2, e3, if_false, decide_False, Bool.or_self, Bool.false_eq_true]
  have hs0 := sameShape_foldl
    (fun b i => (downTo (observed.length - 1) index).foldl (fun b j => wr2 b i j Numeric.zero) b)
    (fun a i => sameShape_foldl _ (fun a j => sameShape_wr2 a i j Numeric.zero) _ a)
    (List.range initial.length) beta
  have hz : ∀ i, i < initial.length →
      rd2 ((List.range initial.length).foldl
        (fun b i => (downTo (observed.length - 1) index).foldl
          (fun b j => wr2 b i j Numeric.zero) b) beta) i (observed.length - 1) =
        Numeric.zero := by
    intro i hi
    rw [rd2_fill, hm.1, hm.rowlen i hi]
    have hmem : observed.length - 1 ∈ downTo (observed.length - 1) index :=
      (mem_downTo _ _ _).2 (by omega)
    have h3 : observed.length - 1 < observed.length := by omega
    simp only [hi, hmem, h3, and_self, if_true]
  have hm0 := IsMat.of_sameShape hs0 hm
  generalize (List.range initial.length).foldl
        (fun b i => (downTo (observed.length - 1) index).foldl
          (fun b j => wr2 b i j Numeric.zero) b) beta = beta0 at hz hm0
  have hr := backward_full_rounds observed initial transition emission beta0 hm0 hz
    (observed.length - index) (by omega)
  have e : observed.length - (observed.length - index) = index := by omega
  rw [e] at hr
  refine ⟨hr.1, ?_⟩
  intro c i hc1 hc2 hi
  have := hr.2 (observed.length - 1 - c) i (by omega) hi
  have e5 : observed.length - 1 - (observed.length - 1 - c) = c := by omega
  rw [e5] at this
  exact this

/-- Property C10.  For `T >= 2`, calling `backward_next` with `index = T, T-1, ..., i` in
that order on any vector `ok` of length N leaves the column `i-1` of the matrix filled by
`backward_full` with index 1, for every `1 <= i <= T`. -/
theorem backward_next_reproduces_backward_full (observed : List Nat) (initial : List U)
    (transition emission : List (List U)) (ok : List U) (beta : List (List U)) (i : Nat)
    (hok : ok.length = initial.length)
    (hm : IsMat beta initial.length observed.length)
    (hT : 2 ≤ observed.length) (hi1 : 1 ≤ i) (hiT : i ≤ observed.length) :
    next_backward observed initial transition emission i ok =
      col (backward_full observed initial transition emission 1 beta) (i - 1) := by
  have hn := next_backward_eq observed initial transition emission ok hok hT
    (observed.length - i) (by omega)
  have e : observed.length - (observed.length - i) = i := by omega
  rw [e] at hn
  rw [hn]
  have hf := backward_full_cols observed initial transition emission beta 1 hm (le_refl 1)
    (by omega)
  apply ext_rd
  · rw [length_bwdBack, length_col, hf.1.1]
  · intro j hj
    rw [length_bwdBack] at hj
    rw [rd_col _ _ _ (by rw [hf.1.1]; exact hj), hf.2 (i - 1) j (by omega) (by omega) hj]
    congr 2
    omega

/-! ## The square root in the constructor of the cache -/

theorem log2_lt_of_lt (n k : Nat) (hk : 0 < k) (h : n < 2 ^ k) : Nat.log2 n < k := by
  by_cases h0 : n = 0
  · subst h0
    simpa [Nat.log2] using hk
  · exact (Nat.log2_lt h0).2 h

/-- Up to `2^53` the conversion to `double` is exact. -/
theorem toDouble_eq (n : Nat) (h : n < 2 ^ 53) : toDouble n = n := by
  have hl := log2_lt_of_lt n 53 (by norm_num) h
  have he : Nat.log2 n + 1 - 53 = 0 := by omega
  unfold toDouble
  simp only [he, pow_zero, Nat.div_one, Nat.mod_one, Nat.mul_zero, Nat.zero_lt_one, if_true,
    Nat.mul_one]

/-- Below `2^52` the rounded square root never reaches the next integer, so its truncation
is the integer square root. -/
theorem sqrtTrunc_eq (n : Nat) (h : n < 2 ^ 52) : sqrtTrunc n = Nat.sqrt n := by
  have hl := log2_lt_of_lt n 52 (by norm_num) h
  have hk27 : 27 ≤ 52 - Nat.log2 n / 2 := by omega
  unfold sqrtTrunc
  simp only []
  generalize 52 - Nat.log2 n / 2 = k at hk27
  have h4 : 4 ^ k = 2 ^ k * 2 ^ k := by
    rw [← Nat.mul_pow]
  have hP27 : 2 ^ 27 ≤ 2 ^ k := Nat.pow_le_pow_right (by norm_num) hk27
  rw [h4]
  generalize 2 ^ k = P at hP27
  have hs1 : Nat.sqrt n * Nat.sqrt n ≤ n := Nat.sqrt_le n
  have hs2 : n < (Nat.sqrt n + 1) * (Nat.sqrt n + 1) := Nat.lt_succ_sqrt n
  generalize Nat.sqrt n = s at hs1 hs2
  have hs26 : s < 2 ^ 26 := by
    by_contra hc
    push_neg at hc
    have h1 : 2 ^ 26 * 2 ^ 26 ≤ s * s := Nat.mul_le_mul hc hc
    have h2 : (2 : ℕ) ^ 26 * 2 ^ 26 = 2 ^ 52 := by norm_num
    omega
  have hy1 : Nat.sqrt (n * (P * P)) * Nat.sqrt (n * (P * P)) ≤ n * (P * P) := Nat.sqrt_le _
  have hy2 : n * (P * P) < (Nat.sqrt (n * (P * P)) + 1) * (Nat.sqrt (n * (P * P)) + 1) :=
    Nat.lt_succ_sqrt _
  have hA : s * P ≤ Nat.sqrt (n * (P * P)) := by
    apply Nat.le_sqrt.2
    calc s * P * (s * P) = s * s * (P * P) := by ring
      _ ≤ n * (P * P) := Nat.mul_le_mul_right _ hs1
  have hPpos : 0 < P := lt_of_lt_of_le (by norm_num) hP27
  have hB : Nat.sqrt (n * (P * P)) < (s + 1) * P := by
    apply Nat.sqrt_lt.2
    calc n * (P * P) < (s + 1) * (s + 1) * (P * P) :=
          Nat.mul_lt_mul_of_pos_right hs2 (Nat.mul_pos hPpos hPpos)
      _ = (s + 1) * P * ((s + 1) * P) := by ring
  generalize Nat.sqrt (n * (P * P)) = y at hy1 hy2 hA hB
  apply Nat.div_eq_of_lt_le
  · split <;> omega
  · split
    · rename_i hr
      by_contra hc
      have hZ : y + 1 = (s + 1) * P := by omega
      have hX : n * (P * P) + P * P ≤ (s + 1) * (s + 1) * (P * P) := by
        have h1 : n + 1 ≤ (s + 1) * (s + 1) := hs2
        calc n * (P * P) + P * P = (n + 1) * (P * P) := by ring
          _ ≤ (s + 1) * (s + 1) * (P * P) := Nat.mul_le_mul_right _ h1
      have hZ2 : (s + 1) * (s + 1) * (P * P) = (y + 1) * (y + 1) := by
        rw [hZ]; ring
      have h5 : P * P < (s + 1) * P := by
        rw [← hZ]
        nlinarith
      have h6 : P < s + 1 := Nat.lt_of_mul_lt_mul_right h5
      have h7 : (2 : ℕ) ^ 27 = 2 * 2 ^ 26 := by norm_num
      omega
    · exact hB

/-- For fewer than `2^52` observations the square root computed by the constructor is the
integer square root. -/
theorem sqrt_cast_eq (n : Nat) (h : n < 2 ^ 52) : sqrt_cast n = Nat.sqrt n := by
  unfold sqrt_cast
  rw [toDouble_eq n (lt_trans h (by norm_num)), sqrtTrunc_eq n h]

theorem sqrtTrunc_unfold (x k : Nat) (hk : 52 - Nat.log2 x / 2 = k) :
    sqrtTrunc x =
      (if Nat.sqrt (x * 4 ^ k) * Nat.sqrt (x * 4 ^ k) + Nat.sqrt (x * 4 ^ k) < x * 4 ^ k
        then Nat.sqrt (x * 4 ^ k) + 1 else Nat.sqrt (x * 4 ^ k)) / 2 ^ k := by
  rw [← hk]
  rfl

/-- From `2^52` on the double-precision square root can round up to the next integer: for
`n = 67108865^2 - 1` the constructor computes 67108865, one more than the integer square
root 67108864. -/
theorem sqrt_cast_rounds_up :
    sqrt_cast 4503599761588224 = 67108865 ∧ Nat.sqrt 4503599761588224 = 67108864 := by
  have t1 : Nat.log2 4503599761588224 = 52 := by
    rw [Nat.log2_eq_log_two]
    exact (Nat.log_eq_iff (by norm_num)).2 ⟨by norm_num, by norm_num⟩
  have t2 : 4503599761588224 * 4 ^ 26 = 20282410208114580231261838639104 := by norm_num
  have t3 : Nat.sqrt 20282410208114580231261838639104 = 4503599694479359 :=
    (Nat.eq_sqrt.2 ⟨by norm_num, by norm_num⟩).symm
  have t4 : 4503599694479359 * 4503599694479359 + 4503599694479359 <
      20282410208114580231261838639104 := by norm_num
  have t5 : (4503599694479359 + 1) / 2 ^ 26 = 67108865 := by norm_num
  constructor
  · unfold sqrt_cast
    rw [toDouble_eq _ (by norm_num), sqrtTrunc_unfold 4503599761588224 26 (by rw [t1]), t2, t3,
      if_pos t4, t5]
  · exact (Nat.eq_sqrt.2 ⟨by norm_num, by norm_num⟩).symm

/-! ## The backward checkpoint cache -/

theorem replayWindow_ne_nil (observed : List Nat) (initial : List U)
    (transition emission : List (List U)) (b : List U) (mark count : Nat) :
    replayWindow observed initial transition emission b mark count ≠ [] := by
  unfold replayWindow
  generalize (List.range (count - 1)) = l
  have : ∀ (r : List U × List (List U)), r.2 ≠ [] →
      (l.foldl (fun (r : List U × List (List U)) t =>
        let beta := backward_next observed initial transition emission (mark - t) r.1
        (beta, beta :: r.2)) r).2 ≠ [] := by
    induction l with
    | nil => intro r hr; exact hr
    | cons x l ih => intro r _; exact ih _ (by simp)
  exact this _ (by simp)

/-- The replay branch of `populate` on a cache whose active list is used up. -/
theorem populate_replay (observed : List Nat) (initial : List U)
    (transition emission : List (List U)) (c : BackCache U)
    (hs : 2 ≤ c.sz_) (ho : observed ≠ []) (hi : c.initialize_ = false)
    (b : List U) (ps : List (List U)) (hp : c.passiveItems_ = b :: ps) :
    BackCache.populate observed initial transition emission c =
      { c with
        passiveItems_ := ps
        activeItems_ := replayWindow observed initial transition emission b
          (c.markers_.headD 0) (c.counters_.headD 0)
        markers_ := c.markers_.tail
        counters_ := c.counters_.tail } := by
  unfold BackCache.populate replayWindow
  have h1 : ¬ c.sz_ ≤ 1 := by omega
  have h2 : observed.isEmpty = false := by
    cases observed with
    | nil => exact absurd rfl ho
    | cons a l => rfl
  simp [h1, h2, hi, hp]

/-- What one call of `Next()` does to the stream of a cache. -/
theorem Next_stream (observed : List Nat) (initial : List U)
    (transition emission : List (List U)) (c : BackCache U)
    (hs : 2 ≤ c.sz_) (ho : observed ≠ []) (hi : c.initialize_ = false) :
    (BackCache.Next observed initial transition emission c).1 =
      (stream observed initial transition emission c).head? ∧
    stream observed initial transition emission
      (BackCache.Next observed initial transition emission c).2 =
      (stream observed initial transition emission c).tail ∧
    (BackCache.Next observed initial transition emission c).2.sz_ = c.sz_ ∧
    (BackCache.Next observed initial transition emission c).2.initialize_ = false := by
  rw [BackCache.Next]
  cases ha : c.activeItems_ with
  | cons rtn rest =>
    simp only [stream, ha, List.cons_append, List.head?_cons, List.tail_cons, hi, and_self]
  | nil =>
    cases hp : c.passiveItems_ with
    | nil =>
      simp [stream, ha, hp, passiveStream, hi]
    | cons b ps =>
      simp only [List.isEmpty_cons, Bool.false_eq_true, dite_false]
      rw [populate_replay observed initial transition emission c hs ho hi b ps hp]
      rw [BackCache.Next]
      have hne := replayWindow_ne_nil observed initial transition emission b
        (c.markers_.headD 0) (c.counters_.headD 0)
      cases hw : replayWindow observed initial transition emission b
        (c.markers_.headD 0) (c.counters_.headD 0) with
      | nil => exact absurd hw hne
      | cons w ws =>
        simp only [stream, ha, hp, passiveStream, List.nil_append, hw, List.cons_append,
          List.head?_cons, List.tail_cons, hi, and_self]

/-- Call number `k + 1` of `Next()` returns entry `k` of the stream (null past its end). -/
theorem nthNext_eq_stream (observed : List Nat) (initial : List U)
    (transition emission : List (List U)) (k : Nat) (c : BackCache U)
    (hs : 2 ≤ c.sz_) (ho : observed ≠ []) (hi : c.initialize_ = false) :
    nthNext observed initial transition emission k c =
      (stream observed initial transition emission c)[k]? := by
  induction k generalizing c with
  | zero =>
    unfold nthNext afterNext
    rw [(Next_stream observed initial transition emission c hs ho hi).1]
    cases stream observed initial transition emission c <;> simp
  | succ k ih =>
    obtain ⟨_, h2, h3, h4⟩ := Next_stream observed initial transition emission c hs ho hi
    have := ih (BackCache.Next observed initial transition emission c).2 (by omega) h4
    unfold nthNext afterNext
    unfold nthNext at this
    rw [this, h2]
    cases stream observed initial transition emission c <;> simp

omit [Numeric U] in
theorem foldl_downTo_induction {σ : Type} (f : σ → Nat → σ) (P : σ → Nat → Prop) (hi : Nat)
    (w0 : σ) (h0 : P w0 hi)
    (hstep : ∀ w i, 1 ≤ i → i ≤ hi → P w i → P (f w i) (i - 1)) :
    P ((downTo hi 1).foldl f w0) 0 := by
  induction hi generalizing w0 with
  | zero => rw [downTo_self_succ]; exact h0
  | succ n ih =>
    rw [downTo_succ _ _ (by omega)]
    simp only [List.foldl_cons]
    apply ih
    · exact hstep w0 (n + 1) (by omega) (le_refl _) h0
    · intro w i h1 h2 h3
      exact hstep w i h1 (by omega) h3

theorem seg_succ (observed : List Nat) (initial : List U)
    (transition emission : List (List U)) (a n : Nat) :
    seg observed initial transition emission a (n + 1) =
      betaAt observed initial transition emission a ::
        seg observed initial transition emission (a + 1) n := by
  simp [seg, List.range'_succ]

theorem seg_zero (observed : List Nat) (initial : List U)
    (transition emission : List (List U)) (a : Nat) :
    seg observed initial transition emission a 0 = [] := by
  simp [seg]

theorem seg_append (observed : List Nat) (initial : List U)
    (transition emission : List (List U)) (a n k : Nat) :
    seg observed initial transition emission a n ++
      seg observed initial transition emission (a + n) k =
      seg observed initial transition emission a (n + k) := by
  unfold seg
  rw [← List.map_append, List.range'_append_1, Nat.add_comm k n]

theorem backward_next_betaAt (observed : List Nat) (initial : List U)
    (transition emission : List (List U)) (c : Nat) (hT : 2 ≤ observed.length)
    (h1 : 1 ≤ c) (h2 : c ≤ observed.length) :
    backward_next observed initial transition emission c
      (betaAt observed initial transition emission c) =
      betaAt observed initial transition emission (c - 1) := by
  unfold betaAt
  by_cases h : c = observed.length
  · subst h
    rw [backward_next_last _ _ _ _ _ (length_bwdBack _ _ _ _ _) hT]
    congr 1
    omega
  · rw [backward_next_step _ _ _ _ _ _ (length_bwdBack _ _ _ _ _) h1 (by omega)]
    have e : observed.length - 1 - (c - 1) = (observed.length - 1 - c) + 1 := by omega
    rw [e]
    simp only [bwdBack]
    congr 1
    omega

theorem replayWindow_betaAt (observed : List Nat) (initial : List U)
    (transition emission : List (List U)) (m n : Nat) (hT : 2 ≤ observed.length)
    (h1 : 1 ≤ n) (h2 : n ≤ m) (h3 : m ≤ observed.length) :
    replayWindow observed initial transition emission
      (betaAt observed initial transition emission m) m n =
      seg observed initial transition emission (m + 1 - n) n := by
  unfold replayWindow
  have key : ∀ t, t + 1 ≤ n →
      (List.range t).foldl
        (fun (r : List U × List (List U)) t =>
          let beta := backward_next observed initial transition emission (m - t) r.1
          (beta, beta :: r.2))
        (betaAt observed initial transition emission m,
          [betaAt observed initial transition emission m]) =
      (betaAt observed initial transition emission (m - t),
        seg observed initial transition emission (m - t) (t + 1)) := by
    intro t
    induction t with
    | zero => intro _; simp [seg]
    | succ t ih =>
      intro ht
      rw [List.range_succ, List.foldl_append, ih (by omega)]
      simp only [List.foldl_cons, List.foldl_nil]
      rw [backward_next_betaAt _ _ _ _ _ hT (by omega) (by omega)]
      have e1 : m - t - 1 = m - (t + 1) := by omega
      have e2 : m - t = m - (t + 1) + 1 := by omega
      rw [e1, seg_succ _ _ _ _ (m - (t + 1)) (t + 1), ← e2]
  have := key (n - 1) (by omega)
  rw [this]
  have e3 : m - (n - 1) = m + 1 - n := by omega
  have e4 : n - 1 + 1 = n := by omega
  simp only [e3, e4]

/-- One round of the first traversal keeps the invariant. -/
theorem sweepStep_inv (observed : List Nat) (initial : List U)
    (transition emission : List (List U)) (S E : Nat) (w : Sweep U) (cur : Nat)
    (hT : 2 ≤ observed.length) (h1 : 1 ≤ cur) (h2 : cur ≤ E)
    (hE : E ≤ observed.length) (h3 : cur < observed.length)
    (h : SweepInv observed initial transition emission S E w cur) :
    SweepInv observed initial transition emission S E
      (BackCache.sweepStep observed initial transition emission S w cur) (cur - 1) := by
  obtain ⟨hb, hrest⟩ := h
  have hnext : backward_next observed initial transition emission cur w.beta =
      betaAt observed initial transition emission (cur - 1) := by
    rw [hb]; exact backward_next_betaAt _ _ _ _ _ hT h1 (by omega)
  have hseg : betaAt observed initial transition emission cur ::
      seg observed initial transition emission (cur + 1) (E - cur) =
      seg observed initial transition emission (cur - 1 + 1) (E - (cur - 1)) := by
    have e1 : E - (cur - 1) = (E - cur) + 1 := by omega
    have e2 : cur - 1 + 1 = cur := by omega
    rw [e1, e2, seg_succ]
  by_cases hl : w.lastleg = true
  · rw [if_pos hl] at hrest
    unfold BackCache.sweepStep
    simp only [hl, if_true]
    refine ⟨hnext, ?_⟩
    simp only [if_true, List.cons_append]
    rw [hrest, hb, hseg]
  · rw [if_neg hl] at hrest
    obtain ⟨hEq, hact, hSc, m, ps, ms, ns, hp, hm, hc, hj, hj1, hjS, hmT, hstream⟩ := hrest
    have hl' : w.lastleg = false := by simpa using hl
    unfold BackCache.sweepStep
    subst hEq
    have hwin : replayWindow observed initial transition emission
        (betaAt observed initial transition emission m) m w.j ++
        seg observed initial transition emission (m + 1) (observed.length - m) =
        seg observed initial transition emission (cur + 1) (observed.length - cur) := by
      rw [replayWindow_betaAt _ _ _ _ _ _ hT hj1 (by omega) hmT]
      have e1 : m + 1 - w.j = cur + 1 := by omega
      have e2 : m + 1 = cur + 1 + w.j := by omega
      have e3 : w.j + (observed.length - m) = observed.length - cur := by omega
      rw [e1, e2, seg_append, e3]
    by_cases hcS : cur = S
    · simp only [hl', Bool.false_eq_true, if_false, hcS, if_true]
      refine ⟨by rw [← hcS]; exact hnext, ?_⟩
      simp only [if_true, hact, hp, hm, hc, List.tail_cons, passiveStream, List.headD_cons,
        List.cons_append, List.nil_append]
      rw [hstream, hwin, hb, ← hcS, hseg]
    · by_cases hjS' : w.j = S
      · simp only [hl', Bool.false_eq_true, if_false, hcS, hjS', if_true]
        refine ⟨hnext, ?_⟩
        simp only [Bool.false_eq_true, if_false]
        refine ⟨trivial, hact, by omega, cur, w.passiveItems_, w.markers_, w.counters_, ?_⟩
        refine ⟨by rw [hb], rfl, rfl, by omega, by omega, by omega, by omega, ?_⟩
        rw [hp, hm, hc]
        simp only [passiveStream, List.headD_cons, List.tail_cons]
        rw [hstream, ← hjS', hwin]
      · simp only [hl', Bool.false_eq_true, if_false, hcS, hjS']
        refine ⟨hnext, ?_⟩
        simp only [Bool.false_eq_true, if_false]
        exact ⟨trivial, hact, by omega, m, ps, ms, ns, hp, hm, hc, by omega, by omega, by omega,
          hmT, hstream⟩

/-- The stream of a cache right after the first traversal: `beta_0, ..., beta_(T-1)`, and
`beta_(T-1)` once more when the sequence is longer than the stride. -/
theorem populate_first_stream (observed : List Nat) (initial : List U)
    (transition emission : List (List U)) (S : Nat)
    (hT : 2 ≤ observed.length) (hS : 2 ≤ S) :
    stream observed initial transition emission
      (BackCache.populate observed initial transition emission
        { passiveItems_ := [], activeItems_ := [], markers_ := [], counters_ := []
          initialize_ := true, sz_ := S }) =
      seg observed initial transition emission 0
        (if observed.length ≤ S then observed.length else observed.length + 1) := by
  unfold BackCache.populate
  have h1 : ¬ S ≤ 1 := by omega
  have h2 : observed.isEmpty = false := by
    cases observed with
    | nil => simp at hT
    | cons a l => rfl
  simp only [h1, h2, decide_False, Bool.or_self, Bool.false_eq_true, if_false, if_true]
  have hfin : ∀ (E : Nat) (w : Sweep U),
      SweepInv observed initial transition emission S E w 0 →
      stream observed initial transition emission
        { passiveItems_ := w.passiveItems_, activeItems_ := w.beta :: w.activeItems_
          markers_ := w.markers_, counters_ := w.counters_, initialize_ := false, sz_ := S } =
        seg observed initial transition emission 0 (E + 1) := by
    intro E w hw
    obtain ⟨hb, hrest⟩ := hw
    by_cases hl : w.lastleg = true
    · rw [if_pos hl] at hrest
      simp only [stream, List.cons_append]
      rw [hrest, hb, seg_succ]
      rfl
    · rw [if_neg hl] at hrest
      omega
  by_cases hle : observed.length ≤ S
  · simp only [hle, decide_True, Bool.not_true, Bool.false_eq_true, if_false, if_true]
    have hinv := foldl_downTo_induction
      (BackCache.sweepStep observed initial transition emission S)
      (SweepInv observed initial transition emission S (observed.length - 1))
      (observed.length - 1)
      { passiveItems_ := [], activeItems_ := [], markers_ := [], counters_ := []
        beta := List.replicate initial.length Numeric.zero, lastleg := true, j := 1 }
      (by
        refine ⟨by simp [betaAt, bwdBack], ?_⟩
        simp [passiveStream, seg])
      (fun w i hi1 hi2 hw =>
        sweepStep_inv observed initial transition emission S _ w i hT hi1 hi2 (by omega)
          (by omega) hw)
    rw [hfin _ _ hinv]
    congr 1
    omega
  · simp only [hle, decide_False, Bool.not_false, if_true, if_false]
    have hinv := foldl_downTo_induction
      (BackCache.sweepStep observed initial transition emission S)
      (SweepInv observed initial transition emission S observed.length)
      (observed.length - 1)
      { passiveItems_ := [List.replicate initial.length Numeric.zero], activeItems_ := []
        markers_ := [observed.length], counters_ := [S]
        beta := List.replicate initial.length Numeric.zero, lastleg := false, j := 1 }
      (by
        refine ⟨by simp [betaAt, bwdBack], ?_⟩
        rw [if_neg (by simp)]
        refine ⟨rfl, rfl, by omega, observed.length, [], [], [], ?_⟩
        refine ⟨by simp [betaAt, bwdBack], rfl, rfl, ?_, le_refl _,
          (show 1 ≤ S by omega), le_refl _, ?_⟩
        · show 1 + (observed.length - 1) = observed.length
          omega
        · simp [passiveStream, seg])
      (fun w i hi1 hi2 hw =>
        sweepStep_inv observed initial transition emission S _ w i hT hi1 (by omega) (le_refl _)
          (by omega) hw)
    rw [hfin _ _ hinv]

theorem populate_first_fields (observed : List Nat) (initial : List U)
    (transition emission : List (List U)) (S : Nat)
    (hT : 2 ≤ observed.length) (hS : 2 ≤ S) :
    (BackCache.populate observed initial transition emission
        { passiveItems_ := [], activeItems_ := [], markers_ := [], counters_ := []
          initialize_ := true, sz_ := S }).sz_ = S ∧
    (BackCache.populate observed initial transition emission
        { passiveItems_ := [], activeItems_ := [], markers_ := [], counters_ := []
          initialize_ := true, sz_ := S }).initialize_ = false := by
  unfold BackCache.populate
  have h1 : ¬ S ≤ 1 := by omega
  have h2 : observed.isEmpty = false := by
    cases observed with
    | nil => simp at hT
    | cons a l => rfl
  simp only [h1, h2, decide_False, Bool.or_self, Bool.false_eq_true, if_false, if_true,
    and_self]

theorem getElem?_seg (observed : List Nat) (initial : List U)
    (transition emission : List (List U)) (a n k : Nat) :
    (seg observed initial transition emission a n)[k]? =
      if k < n then some (betaAt observed initial transition emission (a + k)) else none := by
  unfold seg
  by_cases h : k < n
  · simp [h, List.getElem?_map, List.getElem?_range']
  · simp [h, List.getElem?_map, List.getElem?_range']
    omega

/-- Call number `k + 1` of `Next()` on a freshly constructed cache, for `T >= 2`. -/
theorem nthNext_ctor (observed : List Nat) (initial : List U)
    (transition emission : List (List U)) (k : Nat) (hT : 2 ≤ observed.length) :
    nthNext observed initial transition emission k
      (BackCache.ctor observed initial transition emission) =
      if k < (if observed.length ≤ max 10000 (sqrt_cast observed.length) then observed.length
          else observed.length + 1)
      then some (betaAt observed initial transition emission k) else none := by
  have hS : 2 ≤ max 10000 (sqrt_cast observed.length) := by omega
  have ho : observed ≠ [] := by
    intro h; rw [h] at hT; simp at hT
  obtain ⟨hf1, hf2⟩ := populate_first_fields observed initial transition emission _ hT hS
  unfold BackCache.ctor
  rw [nthNext_eq_stream _ _ _ _ _ _ (by rw [hf1]; exact hS) ho hf2,
    populate_first_stream _ _ _ _ _ hT hS, getElem?_seg, Nat.zero_add]

theorem betaAt_eq_col (observed : List Nat) (initial : List U)
    (transition emission : List (List U)) (beta : List (List U)) (k : Nat)
    (hT : 2 ≤ observed.length) (hm : IsMat beta initial.length observed.length)
    (hk : k < observed.length) :
    betaAt observed initial transition emission k =
      col (backward_full observed initial transition emission 1 beta) k := by
  have hf := backward_full_cols observed initial transition emission beta 1 hm (le_refl 1)
    (by omega)
  unfold betaAt
  apply ext_rd
  · rw [length_bwdBack, length_col, hf.1.1]
  · intro j hj
    rw [length_bwdBack] at hj
    rw [rd_col _ _ _ (by rw [hf.1.1]; exact hj), hf.2 k j (by omega) hk hj]

/-- Property C2.  For `T >= 2` (also beyond the stride 10000) and every `k < T`, call number
`k + 1` of `Next()` on a freshly constructed cache returns the column `k` of the matrix
filled by `backward_full` with index 1. -/
theorem backcache_next_eq_backward_full (observed : List Nat) (initial : List U)
    (transition emission : List (List U)) (beta : List (List U)) (k : Nat)
    (hT : 2 ≤ observed.length) (hm : IsMat beta initial.length observed.length)
    (hk : k < observed.length) :
    nthNext observed initial transition emission k
      (BackCache.ctor observed initial transition emission) =
      some (col (backward_full observed initial transition emission 1 beta) k) := by
  rw [nthNext_ctor _ _ _ _ _ hT, betaAt_eq_col _ _ _ _ beta k hT hm hk]
  have : k < (if observed.length ≤ max 10000 (sqrt_cast observed.length) then observed.length
          else observed.length + 1) := by
    split <;> omega
  rw [if_pos this]

/-- Property C5 at the input `T = 10001` (any model): after the 10001 vectors
`beta_0 .. beta_10000`, call number 10002 of `Next()` does not return null; it returns the
all-zero vector `beta_10000` once more. -/
theorem backcache_call_after_last_not_null (initial : List U)
    (transition emission : List (List U)) :
    nthNext (List.replicate 10001 0) initial transition emission 10001
      (BackCache.ctor (List.replicate 10001 0) initial transition emission) =
      some (List.replicate initial.length Numeric.zero) := by
  have hlen : (List.replicate 10001 0).length = 10001 := List.length_replicate _ _
  have hT : 2 ≤ (List.replicate 10001 0).length := by rw [hlen]; omega
  rw [nthNext_ctor _ _ _ _ _ hT, hlen]
  have hs : sqrt_cast 10001 < 10000 := by
    rw [sqrt_cast_eq _ (by norm_num), Nat.sqrt_lt']; norm_num
  have h1 : ¬ 10001 ≤ max 10000 (sqrt_cast 10001) := by omega
  rw [if_neg h1, if_pos (by omega)]
  unfold betaAt
  rw [hlen]
  have h0 : 10001 - 1 - 10001 = 0 := by norm_num
  rw [h0]
  rfl

/-! ## Loops as folds: invariants, frames and single entries -/

omit [Numeric U] in
theorem foldl_inv {σ ι : Type} (F : σ → ι → σ) (Inv : σ → Prop) (l : List ι)
    (hInv : ∀ b x, x ∈ l → Inv b → Inv (F b x)) (b0 : σ) (h0 : Inv b0) :
    Inv (l.foldl F b0) := by
  induction l generalizing b0 with
  | nil => exact h0
  | cons x l ih =>
    simp only [List.foldl_cons]
    exact ih (fun b y hy hb => hInv b y (List.mem_cons_of_mem _ hy) hb) _
      (hInv b0 x (List.mem_cons_self _ _) h0)

omit [Numeric U] in
theorem foldl_frame {σ ι β : Type} (get : σ → β) (F : σ → ι → σ) (Inv : σ → Prop)
    (l : List ι) (hInv : ∀ b x, x ∈ l → Inv b → Inv (F b x))
    (hother : ∀ b x, x ∈ l → Inv b → get (F b x) = get b) (b0 : σ) (h0 : Inv b0) :
    get (l.foldl F b0) = get b0 := by
  induction l generalizing b0 with
  | nil => rfl
  | cons x l ih =>
    simp only [List.foldl_cons]
    rw [ih (fun b y hy hb => hInv b y (List.mem_cons_of_mem _ hy) hb)
      (fun b y hy hb => hother b y (List.mem_cons_of_mem _ hy) hb) _
      (hInv b0 x (List.mem_cons_self _ _) h0)]
    exact hother b0 x (List.mem_cons_self _ _) h0

omit [Numeric U] in
theorem foldl_entry {σ ι β : Type} (get : σ → β) (F : σ → ι → σ) (Inv : σ → Prop)
    (h : β → β) (l : List ι) (x0 : ι) (hnd : l.Nodup) (hmem : x0 ∈ l)
    (hInv : ∀ b x, x ∈ l → Inv b → Inv (F b x))
    (hother : ∀ b x, x ∈ l → x ≠ x0 → Inv b → get (F b x) = get b)
    (hself : ∀ b, Inv b → get (F b x0) = h (get b)) (b0 : σ) (h0 : Inv b0) :
    get (l.foldl F b0) = h (get b0) := by
  induction l generalizing b0 with
  | nil => simp at hmem
  | cons x l ih =>
    simp only [List.foldl_cons]
    have hnd' := List.nodup_cons.1 hnd
    have hI : Inv (F b0 x) := hInv b0 x (List.mem_cons_self _ _) h0
    by_cases hx : x = x0
    · subst hx
      rw [foldl_frame get F Inv l
        (fun b y hy hb => hInv b y (List.mem_cons_of_mem _ hy) hb)
        (fun b y hy hb => hother b y (List.mem_cons_of_mem _ hy)
          (fun e => hnd'.1 (e ▸ hy)) hb) _ hI]
      exact hself b0 h0
    · have hm : x0 ∈ l := by
        rcases List.mem_cons.1 hmem with e | e
        · exact absurd e.symm hx
        · exact e
      rw [ih hnd'.2 hm (fun b y hy hb => hInv b y (List.mem_cons_of_mem _ hy) hb)
        (fun b y hy hne hb => hother b y (List.mem_cons_of_mem _ hy) hne hb) _ hI]
      rw [hother b0 x (List.mem_cons_self _ _) hx h0]

omit [Numeric U] in
theorem foldl_pair_split {σ ι β : Type} (step : σ × β → ι → σ × β) (W : σ → ι → σ)
    (G : β → ι → β) (Inv : σ → Prop) (l : List ι)
    (hInv : ∀ b x, x ∈ l → Inv b → Inv (W b x))
    (hstep : ∀ b a x, x ∈ l → Inv b → step (b, a) x = (W b x, G a x))
    (b0 : σ) (a0 : β) (h0 : Inv b0) :
    l.foldl step (b0, a0) = (l.foldl W b0, l.foldl G a0) := by
  induction l generalizing b0 a0 with
  | nil => rfl
  | cons x l ih =>
    simp only [List.foldl_cons]
    rw [hstep b0 a0 x (List.mem_cons_self _ _) h0]
    exact ih (fun b y hy hb => hInv b y (List.mem_cons_of_mem _ hy) hb)
      (fun b a y hy hb => hstep b a y (List.mem_cons_of_mem _ hy) hb) _ _
      (hInv b0 x (List.mem_cons_self _ _) h0)

/-! ## The rolling backward recurrence -/

omit [Numeric U] in
theorem length_resize (v : List U) (n : Nat) (x : U) : (resize v n x).length = n := by
  simp [resize]
  omega

omit [Numeric U] in
theorem resize_of_length (v : List U) (n : Nat) (x : U) (h : v.length = n) :
    resize v n x = v := by
  simp [resize, ← h]

theorem backward_index_init_step (l : List (List U)) (k : Nat) :
    (List.range 2).foldl
      (fun l j => wr2 (l.set k (resize (l.getD k []) 2 Numeric.zero)) k j Numeric.zero) l =
    l.set k (((resize (l.getD k []) 2 Numeric.zero).set 0 Numeric.zero).set 1
      Numeric.zero) := by
  have : List.range 2 = [0, 1] := by decide
  rw [this]
  simp only [List.foldl_cons, List.foldl_nil, wr2_set, getD_set_rows]
  by_cases hk : k < l.length
  · simp only [hk, and_self, if_true, List.set_set]
    rw [resize_of_length _ 2 _ (by rw [List.length_set, length_resize])]
  · simp [hk, List.set_eq_of_length_le (Nat.le_of_not_lt hk)]

/-- The two rolling columns of `backward_index` after the first loop. -/
theorem backward_index_init (n : Nat) (i : Nat) (hi : i < n) :
    ((List.range n).foldl
      (fun l i => (List.range 2).foldl
        (fun l j => wr2 (l.set i (resize (l.getD i []) 2 Numeric.zero)) i j Numeric.zero) l)
      (List.replicate n ([] : List U))).getD i [] = [Numeric.zero, Numeric.zero] := by
  simp only [backward_index_init_step]
  rw [getD_foldl_set_row (fun _ row =>
      ((resize row 2 Numeric.zero).set 0 Numeric.zero).set 1 Numeric.zero)]
  simp [hi, resize, List.getD_eq_getElem?_getD, List.replicate]

theorem backward_index_init_length (n : Nat) :
    ((List.range n).foldl
      (fun l i => (List.range 2).foldl
        (fun l j => wr2 (l.set i (resize (l.getD i []) 2 Numeric.zero)) i j Numeric.zero) l)
      (List.replicate n ([] : List U))).length = n := by
  simp only [backward_index_init_step]
  rw [length_foldl_preserved _ (fun a j => by simp)]
  simp

/-- Invariant of the rolling loop of `backward_index`: after the rounds
`s = T-1, ..., T-d` the column `active` holds `beta_(T-1-d)`. -/
theorem backward_index_rounds (observed : List Nat) (initial : List U)
    (transition emission : List (List U)) (lcl1 : List (List U))
    (h1 : IsMat lcl1 initial.length 2)
    (h0 : ∀ i, i < initial.length → rd2 lcl1 i 0 = Numeric.zero)
    (d : Nat) (hd : d < observed.length) :
    IsMat ((downTo (observed.length - 1) (observed.length - d)).foldl
      (backward_index_round observed initial.length transition emission)
        (lcl1, 0, 0 + 1)).1 initial.length 2 ∧
    ((downTo (observed.length - 1) (observed.length - d)).foldl
      (backward_index_round observed initial.length transition emission)
        (lcl1, 0, 0 + 1)).2.1 < 2 ∧
    ((downTo (observed.length - 1) (observed.length - d)).foldl
      (backward_index_round observed initial.length transition emission)
        (lcl1, 0, 0 + 1)).2.2 < 2 ∧
    ((downTo (observed.length - 1) (observed.length - d)).foldl
      (backward_index_round observed initial.length transition emission)
        (lcl1, 0, 0 + 1)).2.1 ≠
    ((downTo (observed.length - 1) (observed.length - d)).foldl
      (backward_index_round observed initial.length transition emission)
        (lcl1, 0, 0 + 1)).2.2 ∧
    ∀ i, i < initial.length →
      rd2 ((downTo (observed.length - 1) (observed.length - d)).foldl
        (backward_index_round observed initial.length transition emission)
          (lcl1, 0, 0 + 1)).1 i
        ((downTo (observed.length - 1) (observed.length - d)).foldl
          (backward_index_round observed initial.length transition emission)
            (lcl1, 0, 0 + 1)).2.1 =
      rd (bwdBack observed initial transition emission d) i := by
  induction d with
  | zero =>
    have : observed.length - 1 + 1 = observed.length - 0 := by omega
    rw [← this, downTo_self_succ]
    simp only [List.foldl_nil]
    refine ⟨h1, by decide, by decide, by decide, ?_⟩
    intro i hi
    rw [h0 i hi]
    simp [bwdBack, rd, List.getD_eq_getElem?_getD, hi]
  | succ d ih =>
    have ih := ih (by omega)
    rw [downTo_concat _ _ (by omega), List.foldl_append]
    have e : observed.length - (d + 1) + 1 = observed.length - d := by omega
    rw [e]
    generalize (downTo (observed.length - 1) (observed.length - d)).foldl
      (backward_index_round observed initial.length transition emission) (lcl1, 0, 0 + 1) = st
      at ih
    obtain ⟨hm, ha, hp, hne, hcol⟩ := ih
    obtain ⟨lcl, active, passive⟩ := st
    simp only at hm ha hp hne hcol
    simp only [List.foldl_cons, List.foldl_nil, backward_index_round]
    refine ⟨?_, hp, ha, fun h => hne h.symm, ?_⟩
    · exact IsMat.of_sameShape (sameShape_foldl _ (fun a j => sameShape_wr2 a j _ _) _ _) hm
    · intro i hi
      rw [rd2_foldl_wr2_col initial.length passive
        (fun l j => sumLoop initial.length
          (fun k => elnproduct (rd2 transition j k)
            (elnproduct (rd2 emission k (ob observed (observed.length - (d + 1))))
              (rd2 l k active))))]
      · rw [hm.1, hm.rowlen i hi]
        simp only [true_and, hi, hp, and_self, if_true]
        simp only [bwdBack, bwdStep, rd_map_range, hi, if_true]
        have e4 : observed.length - (d + 1) = observed.length - 1 - d := by omega
        rw [e4]
        apply sumLoop_congr
        intro k hk
        rw [hcol k hk]
      · intro a a' haa j
        have : ∀ k, rd2 a k active = rd2 a' k active := fun k => haa k active hne
        simp only [this]

theorem backward_index_eq (observed : List Nat) (initial : List U)
    (transition emission : List (List U)) (index : Nat) (beta : List U)
    (h : beta.length = initial.length) (hT : 2 ≤ observed.length)
    (h1 : 1 ≤ index) (h2 : index ≤ observed.length) :
    backward_index observed initial transition emission index beta =
      bwdBack observed initial transition emission (observed.length - index) := by
  unfold backward_index
  have e1 : ¬ observed.length < 2 := by omega
  have e2 : ¬ index > observed.length := by omega
  have e3 : ¬ index < 1 := by omega
  simp only [e1, e2, e3, if_false, decide_False, Bool.or_self, Bool.false_eq_true]
  have hinit := backward_index_init (U := U) initial.length
  have hlen := backward_index_init_length (U := U) initial.length
  generalize (List.range initial.length).foldl
      (fun l i => (List.range 2).foldl
        (fun l j => wr2 (l.set i (resize (l.getD i []) 2 Numeric.zero)) i j Numeric.zero) l)
      (List.replicate initial.length ([] : List U)) = lcl1 at hinit hlen
  have hmat : IsMat lcl1 initial.length 2 :=
    isMat_of_getD _ _ _ hlen (fun i hi => by rw [hinit i hi]; rfl)
  have h0 : ∀ i, i < initial.length → rd2 lcl1 i 0 = Numeric.zero := by
    intro i hi
    unfold rd2
    rw [hinit i hi]
    simp [rd]
  have hr := backward_index_rounds observed initial transition emission lcl1 hmat h0
    (observed.length - index) (by omega)
  have e : observed.length - (observed.length - index) = index := by omega
  rw [e] at hr
  generalize (downTo (observed.length - 1) index).foldl
      (backward_index_round observed initial.length transition emission) (lcl1, 0, 0 + 1) = st
      at hr
  obtain ⟨_, _, _, _, hcol⟩ := hr
  rw [foldl_set_eq_map _ _ _ h]
  apply ext_rd
  · rw [length_bwdBack]; simp
  · intro i hi
    have hi' : i < initial.length := by simpa using hi
    rw [rd_map_range, if_pos hi', hcol i hi']

/-- Property C11.  For `T >= 2` the vector written by `backward_index` with index 1 is the
column 0 of the matrix filled by `backward_full` with index 1. -/
theorem backward_index_eq_backward_full_col (observed : List Nat) (initial : List U)
    (transition emission : List (List U)) (v : List U) (beta : List (List U))
    (hv : v.length = initial.length) (hm : IsMat beta initial.length observed.length)
    (hT : 2 ≤ observed.length) :
    backward_index observed initial transition emission 1 v =
      col (backward_full observed initial transition emission 1 beta) 0 := by
  rw [backward_index_eq _ _ _ _ _ _ hv hT (le_refl 1) (by omega),
    ← betaAt_eq_col _ _ _ _ beta 0 hT hm (by omega)]
  unfold betaAt
  congr 1

/-! ## Viterbi: how many indices are written -/

theorem viterbi_round_out (observed : List Nat) (nstates : Nat)
    (transition emission : List (List U)) (vs : VitState U) (s : Nat) :
    ((viterbi_round observed nstates transition emission vs s).out).length =
      vs.out.length + 1 := by
  simp [viterbi_round]

theorem viterbi_rounds_out (observed : List Nat) (nstates : Nat)
    (transition emission : List (List U)) (l : List Nat) (vs : VitState U) :
    ((l.foldl (viterbi_round observed nstates transition emission) vs).out).length =
      vs.out.length + l.length := by
  induction l generalizing vs with
  | nil => rfl
  | cons x l ih =>
    simp only [List.foldl_cons, List.length_cons]
    rw [ih, viterbi_round_out]
    omega

/-- The number of indices that `viterbi` writes: one before the loop and one per round. -/
theorem viterbi_length (observed : List Nat) (initial : List U)
    (transition emission : List (List U)) :
    (viterbi observed initial transition emission).length = (observed.length - 1) + 1 := by
  unfold viterbi
  simp only [viterbi_rounds_out, List.length_range', List.length_singleton]
  omega

/-- Property C17 on the code, at the empty sequence (any model): `viterbi` writes one state
index although there is no observation. -/
theorem viterbi_empty_writes_one (initial : List U) (transition emission : List (List U)) :
    (viterbi ([] : List Nat) initial transition emission).length = 1 := by
  rw [viterbi_length]
  rfl

/-! ## Stores: containers read and written entry by entry -/

/-- A container `σ` with entries of type `U` addressed by keys `κ`: reading, writing, and
the keys that are in range.  A write at a key in range changes the entry at that key and no
other entry; it never changes which keys are in range. -/
structure Store (σ κ U : Type) where
  /-- read the entry at a key -/
  get : σ → κ → U
  /-- write the entry at a key -/
  put : σ → κ → U → σ
  /-- the key is in range -/
  valid : σ → κ → Prop
  /-- reading the entry just written -/
  get_put_same : ∀ g k x, valid g k → get (put g k x) k = x
  /-- reading another entry after a write -/
  get_put_other : ∀ g k x k', k ≠ k' → get (put g k x) k' = get g k'
  /-- a write keeps the range -/
  valid_put : ∀ g k x k', valid (put g k x) k' ↔ valid g k'

/-- Vectors as a store. -/
def vecStore : Store (List U) Nat U where
  get := rd
  put := fun g i x => g.set i x
  valid := fun g i => i < g.length
  get_put_same := fun g k x hk => by rw [rd_set]; simp [hk]
  get_put_other := fun g k x k' hne => by rw [rd_set]; simp [hne]
  valid_put := fun g k x k' => by simp

/-- Vectors of vectors as a store, keyed by (row, column). -/
def matStore : Store (List (List U)) (Nat × Nat) U where
  get := fun g k => rd2 g k.1 k.2
  put := fun g k x => wr2 g k.1 k.2 x
  valid := fun g k => k.1 < g.length ∧ k.2 < (g.getD k.1 []).length
  get_put_same := fun g k x hk => by
    show rd2 (wr2 g k.1 k.2 x) k.1 k.2 = x
    have hk' : k.1 < g.length ∧ k.2 < (g.getD k.1 []).length := hk
    rw [rd2_wr2, if_pos ⟨rfl, rfl, hk'.1, hk'.2⟩]
  get_put_other := fun g k x k' hne => by
    show rd2 (wr2 g k.1 k.2 x) k'.1 k'.2 = rd2 g k'.1 k'.2
    rw [rd2_wr2]
    have : ¬ (k.1 = k'.1 ∧ k.2 = k'.2 ∧ k.1 < g.length ∧ k.2 < (g.getD k.1 []).length) :=
      fun hh => hne (Prod.ext hh.1 hh.2.1)
    rw [if_neg this]
  valid_put := fun g k x k' => by
    simp only [length_wr2, rowlen_wr2]

omit [Numeric U] in
theorem Store.fold_valid {σ κ ι : Type} (S : Store σ κ U) (key : ι → κ)
    (val : σ → ι → U) (l : List ι) (g : σ) (k : κ) :
    S.valid (l.foldl (fun g x => S.put g (key x) (val g x)) g) k ↔ S.valid g k := by
  induction l generalizing g with
  | nil => exact Iff.rfl
  | cons x l ih =>
    simp only [List.foldl_cons]
    rw [ih, S.valid_put]

omit [Numeric U] in
/-- A loop that rewrites entries leaves the entries at other keys as they were. -/
theorem Store.fold_other {σ κ ι : Type} (S : Store σ κ U) (key : ι → κ)
    (val : σ → ι → U) (l : List ι) (g : σ) (k : κ) (hk : ∀ x ∈ l, key x ≠ k) :
    S.get (l.foldl (fun g x => S.put g (key x) (val g x)) g) k = S.get g k := by
  induction l generalizing g with
  | nil => rfl
  | cons x l ih =>
    simp only [List.foldl_cons]
    rw [ih _ (fun y hy => hk y (List.mem_cons_of_mem _ hy)),
      S.get_put_other _ _ _ _ (hk x (List.mem_cons_self _ _))]

omit [Numeric U] in
/-- A loop that rewrites each entry from its own old value: the entry at a key of the
loop afterwards. -/
theorem Store.fold_update {σ κ ι : Type} (S : Store σ κ U) (key : ι → κ)
    (h : ι → U → U) (l : List ι) (hnd : (l.map key).Nodup) (g : σ) (x0 : ι) (hx : x0 ∈ l)
    (hv : S.valid g (key x0)) :
    S.get (l.foldl (fun g x => S.put g (key x) (h x (S.get g (key x)))) g) (key x0) =
      h x0 (S.get g (key x0)) := by
  induction l generalizing g with
  | nil => simp at hx
  | cons x l ih =>
    simp only [List.foldl_cons]
    simp only [List.map_cons, List.nodup_cons, List.mem_map, not_exists, not_and] at hnd
    by_cases hxx : key x = key x0
    · have hx0 : x0 = x := by
        rcases List.mem_cons.1 hx with e | e
        · exact e
        · exact absurd hxx.symm (hnd.1 x0 e)
      subst hx0
      rw [Store.fold_other S key (fun g x => h x (S.get g (key x))) l _ _
        (fun y hy e => hnd.1 y hy e)]
      rw [S.get_put_same _ _ _ hv]
    · have hm : x0 ∈ l := by
        rcases List.mem_cons.1 hx with e | e
        · exact absurd (congrArg key e).symm hxx
        · exact e
      rw [ih hnd.2 _ hm ((S.valid_put _ _ _ _).2 hv), S.get_put_other _ _ _ _ hxx]

/-- The pattern "write a value at each key, add the entry just written to the normalizer":
the container and the normalizer afterwards. -/
theorem Store.fold_fill_sum {σ κ ι : Type} (S : Store σ κ U) (key : ι → κ) (v : ι → U)
    (l : List ι) (g : σ) (a : U) (hv : ∀ x ∈ l, S.valid g (key x)) :
    l.foldl (fun (r : σ × U) x => (S.put r.1 (key x) (v x),
        elnsum r.2 (S.get (S.put r.1 (key x) (v x)) (key x)))) (g, a) =
      (l.foldl (fun g x => S.put g (key x) (v x)) g, l.foldl (fun a x => elnsum a (v x)) a) :=
  foldl_pair_split _ (fun g x => S.put g (key x) (v x)) (fun a x => elnsum a (v x))
    (fun g' => ∀ x ∈ l, S.valid g' (key x)) l
    (fun b x _ hb y hy => (S.valid_put _ _ _ _).2 (hb y hy))
    (fun b a x hx hb => by rw [S.get_put_same _ _ _ (hb x hx)]) g a hv

/-- The pattern "fill, sum, then combine each entry with the normalizer": the entry at a
key of the loop afterwards. -/
theorem Store.fill_normalize {σ κ ι : Type} (S : Store σ κ U) (key : ι → κ) (v : ι → U)
    (l : List ι) (hnd : (l.map key).Nodup) (g : σ) (a : U)
    (hv : ∀ x ∈ l, S.valid g (key x)) (x0 : ι) (hx : x0 ∈ l) :
    S.get (l.foldl (fun g' x => S.put g' (key x)
        (elnproduct (S.get g' (key x)) (Numeric.neg
          (l.foldl (fun (r : σ × U) x => (S.put r.1 (key x) (v x),
            elnsum r.2 (S.get (S.put r.1 (key x) (v x)) (key x)))) (g, a)).2)))
      (l.foldl (fun (r : σ × U) x => (S.put r.1 (key x) (v x),
            elnsum r.2 (S.get (S.put r.1 (key x) (v x)) (key x)))) (g, a)).1) (key x0) =
      elnproduct (v x0) (Numeric.neg (l.foldl (fun a x => elnsum a (v x)) a)) := by
  rw [Store.fold_fill_sum S key v l g a hv]
  simp only
  rw [Store.fold_update S key (fun _ old => elnproduct old
    (Numeric.neg (l.foldl (fun a x => elnsum a (v x)) a))) l hnd _ x0 hx
    ((Store.fold_valid S key (fun _ x => v x) l g _).2 (hv x0 hx))]
  rw [Store.fold_update S key (fun x _ => v x) l hnd g x0 hx (hv x0 hx)]

/-- The pattern "fill, sum, then combine each entry with the normalizer": the entries at
keys outside the loop stay. -/
theorem Store.fill_normalize_other {σ κ ι : Type} (S : Store σ κ U) (key : ι → κ) (v : ι → U)
    (l : List ι) (g : σ) (a : U) (hv : ∀ x ∈ l, S.valid g (key x)) (k : κ)
    (hk : ∀ x ∈ l, key x ≠ k) :
    S.get (l.foldl (fun g' x => S.put g' (key x)
        (elnproduct (S.get g' (key x)) (Numeric.neg
          (l.foldl (fun (r : σ × U) x => (S.put r.1 (key x) (v x),
            elnsum r.2 (S.get (S.put r.1 (key x) (v x)) (key x)))) (g, a)).2)))
      (l.foldl (fun (r : σ × U) x => (S.put r.1 (key x) (v x),
            elnsum r.2 (S.get (S.put r.1 (key x) (v x)) (key x)))) (g, a)).1) k =
      S.get g k := by
  rw [Store.fold_fill_sum S key v l g a hv]
  simp only
  rw [Store.fold_other S key _ l _ k hk, Store.fold_other S key (fun _ x => v x) l g k hk]

/-! ## The state posterior gamma -/

omit [Numeric U] in
theorem nodup_map_id_range (n : Nat) : ((List.range n).map (fun i => i)).Nodup := by
  rw [List.map_id']
  exact List.nodup_range n

theorem gamma_fst (observed : List Nat) (initial : List U)
    (transition emission : List (List U)) (index : Nat) (beta alpha gam : List U) :
    (gamma observed initial transition emission index beta alpha gam).1 =
      forward_next observed initial transition emission index alpha := rfl

theorem length_gamma_snd (observed : List Nat) (initial : List U)
    (transition emission : List (List U)) (index : Nat) (beta alpha gam : List U) :
    (gamma observed initial transition emission index beta alpha gam).2.length =
      gam.length := by
  unfold gamma
  simp only
  rw [length_foldl_set (fun a j => elnproduct (rd a j) _)]
  have : ∀ (l : List Nat) (r : List U × U),
      (l.foldl (fun (r : List U × U) i =>
        ((r.1.set i (elnproduct
          (rd (forward_next observed initial transition emission index alpha) i) (rd beta i))),
          elnsum r.2 (rd (r.1.set i (elnproduct
          (rd (forward_next observed initial transition emission index alpha) i) (rd beta i)))
            i))) r).1.length = r.1.length := by
    intro l
    induction l with
    | nil => intro r; rfl
    | cons x l ih => intro r; simp only [List.foldl_cons]; rw [ih]; simp
  exact this _ _

/-- The vector written by `gamma`: the normalized products of the new alpha and beta. -/
theorem rd_gamma_snd (observed : List Nat) (initial : List U)
    (transition emission : List (List U)) (index : Nat) (beta alpha gam : List U)
    (hg : gam.length = initial.length) (i : Nat) (hi : i < initial.length) :
    rd (gamma observed initial transition emission index beta alpha gam).2 i =
      gammaAt initial.length
        (forward_next observed initial transition emission index alpha) beta i := by
  have h := Store.fill_normalize (vecStore (U := U)) (fun i => i)
    (fun i => elnproduct
      (rd (forward_next observed initial transition emission index alpha) i) (rd beta i))
    (List.range initial.length) (nodup_map_id_range _) gam inf
    (fun x hx => by
      show x < gam.length
      rw [hg]; exact List.mem_range.1 hx)
    i (List.mem_range.2 hi)
  exact h

omit [Numeric U] in
theorem nodup_map_col (n s : Nat) : ((List.range n).map (fun i => (i, s))).Nodup :=
  (List.nodup_range n).map (fun a b h => by simpa using congrArg Prod.fst h)

omit [Numeric U] in
theorem IsMat.valid {m : List (List U)} {r c : Nat} (h : IsMat m r c) (i j : Nat)
    (hi : i < r) (hj : j < c) : i < m.length ∧ j < (m.getD i []).length := by
  rw [h.1, h.rowlen i hi]
  exact ⟨hi, hj⟩

/-- One round of the loop over `s` in `gamma_m_full` and `gamma_t_full`: column `s` gets the
normalized values, the other columns stay. -/
theorem gamma_column (n s c : Nat) (v : Nat → U) (gam : List (List U))
    (hm : IsMat gam n c) (hs : s < c) :
    SameShape ((List.range n).foldl
      (fun gam' j => wr2 gam' j s (elnproduct (rd2 gam' j s) (Numeric.neg
        ((List.range n).foldl
          (fun (r : List (List U) × U) i =>
            (wr2 r.1 i s (v i), elnsum r.2 (rd2 (wr2 r.1 i s (v i)) i s)))
          (gam, inf)).2)))
      ((List.range n).foldl
          (fun (r : List (List U) × U) i =>
            (wr2 r.1 i s (v i), elnsum r.2 (rd2 (wr2 r.1 i s (v i)) i s)))
          (gam, inf)).1) gam ∧
    (∀ i c', c' ≠ s → rd2 ((List.range n).foldl
      (fun gam' j => wr2 gam' j s (elnproduct (rd2 gam' j s) (Numeric.neg
        ((List.range n).foldl
          (fun (r : List (List U) × U) i =>
            (wr2 r.1 i s (v i), elnsum r.2 (rd2 (wr2 r.1 i s (v i)) i s)))
          (gam, inf)).2)))
      ((List.range n).foldl
          (fun (r : List (List U) × U) i =>
            (wr2 r.1 i s (v i), elnsum r.2 (rd2 (wr2 r.1 i s (v i)) i s)))
          (gam, inf)).1) i c' = rd2 gam i c') ∧
    (∀ i, i < n → rd2 ((List.range n).foldl
      (fun gam' j => wr2 gam' j s (elnproduct (rd2 gam' j s) (Numeric.neg
        ((List.range n).foldl
          (fun (r : List (List U) × U) i =>
            (wr2 r.1 i s (v i), elnsum r.2 (rd2 (wr2 r.1 i s (v i)) i s)))
          (gam, inf)).2)))
      ((List.range n).foldl
          (fun (r : List (List U) × U) i =>
            (wr2 r.1 i s (v i), elnsum r.2 (rd2 (wr2 r.1 i s (v i)) i s)))
          (gam, inf)).1) i s = elnproduct (v i) (Numeric.neg (sumLoop n v))) := by
  have hv : ∀ x ∈ List.range n, (matStore (U := U)).valid gam ((fun i => (i, s)) x) :=
    fun x hx => hm.valid x s (List.mem_range.1 hx) hs
  refine ⟨?_, ?_, ?_⟩
  · have h := Store.fold_fill_sum (matStore (U := U)) (fun i => (i, s)) v (List.range n)
      gam inf hv
    have h' : (List.range n).foldl
          (fun (r : List (List U) × U) i =>
            (wr2 r.1 i s (v i), elnsum r.2 (rd2 (wr2 r.1 i s (v i)) i s)))
          (gam, inf) = _ := h
    rw [h']
    exact (sameShape_foldl _ (fun a j => sameShape_wr2 a j s _) _ _).trans
      (sameShape_foldl _ (fun a j => sameShape_wr2 a j s _) _ _)
  · intro i c' hc
    exact Store.fill_normalize_other (matStore (U := U)) (fun i => (i, s)) v (List.range n)
      gam inf hv (i, c') (fun x _ h => hc (congrArg Prod.snd h).symm)
  · intro i hi
    exact Store.fill_normalize (matStore (U := U)) (fun i => (i, s)) v (List.range n)
      (nodup_map_col n s) gam inf hv i (List.mem_range.2 hi)

/-- The loop over `s` of `gamma_m_full` for given alpha and beta matrices. -/
theorem gamma_columns (n c : Nat) (alpha beta gam : List (List U)) (hm : IsMat gam n c) :
    IsMat ((List.range c).foldl
      (fun gam s =>
        let r := (List.range n).foldl
          (fun (r : List (List U) × U) i =>
            let gam := wr2 r.1 i s (elnproduct (rd2 alpha i s) (rd2 beta i s))
            (gam, elnsum r.2 (rd2 gam i s)))
          (gam, inf)
        let normalizer := r.2
        (List.range n).foldl
          (fun gam j => wr2 gam j s (elnproduct (rd2 gam j s) (Numeric.neg normalizer))) r.1)
      gam) n c ∧
    ∀ i s, i < n → s < c → rd2 ((List.range c).foldl
      (fun gam s =>
        let r := (List.range n).foldl
          (fun (r : List (List U) × U) i =>
            let gam := wr2 r.1 i s (elnproduct (rd2 alpha i s) (rd2 beta i s))
            (gam, elnsum r.2 (rd2 gam i s)))
          (gam, inf)
        let normalizer := r.2
        (List.range n).foldl
          (fun gam j => wr2 gam j s (elnproduct (rd2 gam j s) (Numeric.neg normalizer))) r.1)
      gam) i s =
      elnproduct (elnproduct (rd2 alpha i s) (rd2 beta i s))
        (Numeric.neg (sumLoop n (fun k => elnproduct (rd2 alpha k s) (rd2 beta k s)))) := by
  constructor
  · exact foldl_inv _ (fun g => IsMat g n c) _
      (fun b x hx hb => IsMat.of_sameShape
        (gamma_column n x c (fun i => elnproduct (rd2 alpha i x) (rd2 beta i x)) b hb
          (List.mem_range.1 hx)).1 hb) gam hm
  · intro i s hi hs
    exact foldl_entry (fun g => rd2 g i s) _ (fun g => IsMat g n c)
      (fun _ => elnproduct (elnproduct (rd2 alpha i s) (rd2 beta i s))
        (Numeric.neg (sumLoop n (fun k => elnproduct (rd2 alpha k s) (rd2 beta k s)))))
      (List.range c) s (List.nodup_range c) (List.mem_range.2 hs)
      (fun b x hx hb => IsMat.of_sameShape
        (gamma_column n x c (fun i => elnproduct (rd2 alpha i x) (rd2 beta i x)) b hb
          (List.mem_range.1 hx)).1 hb)
      (fun b x hx hne hb =>
        (gamma_column n x c (fun i => elnproduct (rd2 alpha i x) (rd2 beta i x)) b hb
          (List.mem_range.1 hx)).2.1 i s (fun e => hne e.symm))
      (fun b hb =>
        (gamma_column n s c (fun i => elnproduct (rd2 alpha i s) (rd2 beta i s)) b hb
          hs).2.2 i hi)
      gam hm

omit [Numeric U] in
theorem isMat_replicate (r c : Nat) (x : U) :
    IsMat (List.replicate r (List.replicate c x)) r c := by
  refine ⟨by simp, ?_⟩
  intro row hrow
  rw [List.eq_of_mem_replicate hrow]
  simp

/-- The entries of the matrix filled by `gamma_m_full`, for `T >= 2`. -/
theorem gamma_m_full_entry (observed : List Nat) (initial : List U)
    (transition emission : List (List U)) (gam : List (List U))
    (hm : IsMat gam initial.length observed.length) (hT : 2 ≤ observed.length) :
    IsMat (gamma_m_full observed initial transition emission gam)
      initial.length observed.length ∧
    ∀ i s, i < initial.length → s < observed.length →
      rd2 (gamma_m_full observed initial transition emission gam) i s =
        gammaAt initial.length (fwdCol observed initial transition emission s)
          (betaAt observed initial transition emission s) i := by
  have hc := gamma_columns initial.length observed.length
    (forward_full observed initial transition emission observed.length
      (List.replicate initial.length (List.replicate observed.length Numeric.zero)))
    (backward_full observed initial transition emission 1
      (List.replicate initial.length (List.replicate observed.length Numeric.zero)))
    gam hm
  refine ⟨hc.1, ?_⟩
  intro i s hi hs
  have h := hc.2 i s hi hs
  obtain ⟨t, ht⟩ : ∃ t, observed.length = t + 1 := ⟨observed.length - 1, by omega⟩
  have hf := forward_full_cols observed initial transition emission
    (List.replicate initial.length (List.replicate observed.length Numeric.zero))
    observed.length (isMat_replicate _ _ _) t (by omega)
  rw [← ht] at hf
  have hb := backward_full_cols observed initial transition emission
    (List.replicate initial.length (List.replicate observed.length Numeric.zero)) 1
    (isMat_replicate _ _ _) (le_refl 1) (by omega)
  unfold gamma_m_full
  rw [h]
  unfold gammaAt betaAt
  rw [hf.2 s i (by omega) hi, hb.2 s i (by omega) hs hi]
  congr 2
  apply sumLoop_congr
  intro k hk
  rw [hf.2 s k (by omega) hk, hb.2 s k (by omega) hs hk]

/-! ## The pairwise posterior xi -/

omit [Numeric U] in
theorem foldl_nested {σ : Type} (F : σ → Nat × Nat → σ) (n m : Nat) (r0 : σ) :
    (List.range n).foldl (fun r i => (List.range m).foldl (fun r j => F r (i, j)) r) r0 =
      (pairs n m).foldl F r0 := by
  unfold pairs
  generalize List.range n = l
  induction l generalizing r0 with
  | nil => rfl
  | cons x l ih =>
    simp only [List.foldl_cons, List.flatMap_cons, List.foldl_append, List.foldl_map]
    exact ih _

omit [Numeric U] in
theorem mem_pairs (n m : Nat) (k : Nat × Nat) : k ∈ pairs n m ↔ k.1 < n ∧ k.2 < m := by
  unfold pairs
  simp only [List.mem_flatMap, List.mem_map, List.mem_range]
  constructor
  · rintro ⟨i, hi, j, hj, rfl⟩
    exact ⟨hi, hj⟩
  · rintro ⟨h1, h2⟩
    exact ⟨k.1, h1, k.2, h2, rfl⟩

omit [Numeric U] in
theorem nodup_pairs (n m : Nat) : (pairs n m).Nodup :=
  List.Nodup.product (List.nodup_range n) (List.nodup_range m)

omit [Numeric U] in
theorem nodup_map_id_pairs (n m : Nat) : ((pairs n m).map (fun k => k)).Nodup := by
  rw [List.map_id']
  exact nodup_pairs n m

omit [Numeric U] in
theorem nodup_map_slice (n m s : Nat) :
    ((pairs n m).map (fun k => (k.1, k.2, s))).Nodup :=
  (nodup_pairs n m).map (fun a b h => by
    have h1 := congrArg Prod.fst h
    have h2 := congrArg (fun x => x.2.1) h
    exact Prod.ext h1 h2)

omit [Numeric U] in
theorem getD_set_gen {α : Type} (m : List α) (i i' : Nat) (r d : α) :
    (m.set i r).getD i' d = if i = i' ∧ i < m.length then r else m.getD i' d := by
  simp only [List.getD_eq_getElem?_getD, List.getElem?_set]
  by_cases h : i = i'
  · subst h
    by_cases hl : i < m.length
    · simp [hl]
    · simp [hl, List.getElem?_eq_none (Nat.le_of_not_lt hl)]
  · simp [h]

theorem rd3_wr3 (p : List (List (List U))) (i j s i' j' s' : Nat) (x : U) :
    rd3 (wr3 p i j s x) i' j' s' =
      if i = i' ∧ j = j' ∧ s = s' ∧ i < p.length ∧ j < (p.getD i []).length ∧
        s < ((p.getD i []).getD j []).length then x else rd3 p i' j' s' := by
  unfold rd3 wr3
  rw [getD_set_gen]
  by_cases h : i = i' ∧ i < p.length
  · obtain ⟨h1, h2⟩ := h
    subst h1
    simp only [h2, and_self, if_true, rd2_wr2, true_and]
  · rw [if_neg h]
    have : ¬ (i = i' ∧ j = j' ∧ s = s' ∧ i < p.length ∧ j < (p.getD i []).length ∧
        s < ((p.getD i []).getD j []).length) := fun hh => h ⟨hh.1, hh.2.2.2.1⟩
    rw [if_neg this]

omit [Numeric U] in
theorem valid_wr3 (p : List (List (List U))) (i j s i' j' s' : Nat) (x : U) :
    (i' < (wr3 p i j s x).length ∧ j' < ((wr3 p i j s x).getD i' []).length ∧
      s' < (((wr3 p i j s x).getD i' []).getD j' []).length) ↔
    (i' < p.length ∧ j' < (p.getD i' []).length ∧
      s' < ((p.getD i' []).getD j' []).length) := by
  unfold wr3
  rw [getD_set_gen, List.length_set]
  by_cases h : i = i' ∧ i < p.length
  · rw [if_pos h, length_wr2, rowlen_wr2, h.1]
  · rw [if_neg h]

/-- Three-level vectors as a store, keyed by (i, j, s). -/
def cubeStore : Store (List (List (List U))) (Nat × Nat × Nat) U where
  get := fun p k => rd3 p k.1 k.2.1 k.2.2
  put := fun p k x => wr3 p k.1 k.2.1 k.2.2 x
  valid := fun p k => k.1 < p.length ∧ k.2.1 < (p.getD k.1 []).length ∧
    k.2.2 < ((p.getD k.1 []).getD k.2.1 []).length
  get_put_same := fun p k x hk => by
    show rd3 (wr3 p k.1 k.2.1 k.2.2 x) k.1 k.2.1 k.2.2 = x
    have hk' : k.1 < p.length ∧ k.2.1 < (p.getD k.1 []).length ∧
      k.2.2 < ((p.getD k.1 []).getD k.2.1 []).length := hk
    rw [rd3_wr3, if_pos ⟨rfl, rfl, rfl, hk'.1, hk'.2.1, hk'.2.2⟩]
  get_put_other := fun p k x k' hne => by
    show rd3 (wr3 p k.1 k.2.1 k.2.2 x) k'.1 k'.2.1 k'.2.2 = rd3 p k'.1 k'.2.1 k'.2.2
    rw [rd3_wr3]
    have : ¬ (k.1 = k'.1 ∧ k.2.1 = k'.2.1 ∧ k.2.2 = k'.2.2 ∧ k.1 < p.length ∧
        k.2.1 < (p.getD k.1 []).length ∧ k.2.2 < ((p.getD k.1 []).getD k.2.1 []).length) :=
      fun hh => hne (Prod.ext hh.1 (Prod.ext hh.2.1 hh.2.2.1))
    rw [if_neg this]
  valid_put := fun p k x k' => valid_wr3 p k.1 k.2.1 k.2.2 k'.1 k'.2.1 k'.2.2 x

/-- The pattern "fill, sum, then combine each entry with the normalizer" keeps the range. -/
theorem Store.fill_normalize_valid {σ κ ι : Type} (S : Store σ κ U) (key : ι → κ)
    (v : ι → U) (l : List ι) (g : σ) (a : U) (hv : ∀ x ∈ l, S.valid g (key x)) (k : κ) :
    S.valid (l.foldl (fun g' x => S.put g' (key x)
        (elnproduct (S.get g' (key x)) (Numeric.neg
          (l.foldl (fun (r : σ × U) x => (S.put r.1 (key x) (v x),
            elnsum r.2 (S.get (S.put r.1 (key x) (v x)) (key x)))) (g, a)).2)))
      (l.foldl (fun (r : σ × U) x => (S.put r.1 (key x) (v x),
            elnsum r.2 (S.get (S.put r.1 (key x) (v x)) (key x)))) (g, a)).1) k ↔
      S.valid g k := by
  rw [Store.fold_fill_sum S key v l g a hv]
  simp only
  rw [Store.fold_valid S key _ l _ k, Store.fold_valid S key (fun _ x => v x) l g k]

/-- The two loop nests of `xi`: every entry of the table afterwards. -/
theorem xi_table (n : Nat) (v : Nat → Nat → U) (probs : List (List U))
    (hm : IsMat probs n n) (i j : Nat) (hi : i < n) (hj : j < n) :
    rd2 ((List.range n).foldl
      (fun probs' k => (List.range n).foldl
        (fun probs' m => wr2 probs' k m (elnproduct (rd2 probs' k m) (Numeric.neg
          ((List.range n).foldl
            (fun (r : List (List U) × U) i => (List.range n).foldl
              (fun (r : List (List U) × U) j =>
                (wr2 r.1 i j (v i j), elnsum r.2 (rd2 (wr2 r.1 i j (v i j)) i j))) r)
            (probs, inf)).2))) probs')
      ((List.range n).foldl
            (fun (r : List (List U) × U) i => (List.range n).foldl
              (fun (r : List (List U) × U) j =>
                (wr2 r.1 i j (v i j), elnsum r.2 (rd2 (wr2 r.1 i j (v i j)) i j))) r)
            (probs, inf)).1) i j =
      elnproduct (v i j) (Numeric.neg (sumLoop2 n v)) := by
  have e1 := foldl_nested
    (fun (r : List (List U) × U) (k : Nat × Nat) =>
      (wr2 r.1 k.1 k.2 (v k.1 k.2), elnsum r.2 (rd2 (wr2 r.1 k.1 k.2 (v k.1 k.2)) k.1 k.2)))
    n n (probs, inf)
  simp only at e1
  rw [e1]
  have e2 := fun (c : U) (g : List (List U)) => foldl_nested
    (fun (probs' : List (List U)) (k : Nat × Nat) =>
      wr2 probs' k.1 k.2 (elnproduct (rd2 probs' k.1 k.2) (Numeric.neg c))) n n g
  simp only at e2
  rw [e2]
  exact Store.fill_normalize (matStore (U := U)) (fun k => k) (fun k => v k.1 k.2)
    (pairs n n) (nodup_map_id_pairs n n) probs inf
    (fun x hx => hm.valid x.1 x.2 ((mem_pairs n n x).1 hx).1 ((mem_pairs n n x).1 hx).2)
    (i, j) ((mem_pairs n n (i, j)).2 ⟨hi, hj⟩)

/-- The two loop nests of `xi` keep the dimensions of the table. -/
theorem xi_table_shape (n : Nat) (v : Nat → Nat → U) (probs : List (List U))
    (hm : IsMat probs n n) :
    IsMat ((List.range n).foldl
      (fun probs' k => (List.range n).foldl
        (fun probs' m => wr2 probs' k m (elnproduct (rd2 probs' k m) (Numeric.neg
          ((List.range n).foldl
            (fun (r : List (List U) × U) i => (List.range n).foldl
              (fun (r : List (List U) × U) j =>
                (wr2 r.1 i j (v i j), elnsum r.2 (rd2 (wr2 r.1 i j (v i j)) i j))) r)
            (probs, inf)).2))) probs')
      ((List.range n).foldl
            (fun (r : List (List U) × U) i => (List.range n).foldl
              (fun (r : List (List U) × U) j =>
                (wr2 r.1 i j (v i j), elnsum r.2 (rd2 (wr2 r.1 i j (v i j)) i j))) r)
            (probs, inf)).1) n n := by
  have e1 := foldl_nested
    (fun (r : List (List U) × U) (k : Nat × Nat) =>
      (wr2 r.1 k.1 k.2 (v k.1 k.2), elnsum r.2 (rd2 (wr2 r.1 k.1 k.2 (v k.1 k.2)) k.1 k.2)))
    n n (probs, inf)
  simp only at e1
  rw [e1]
  have e3 := Store.fold_fill_sum (matStore (U := U)) (fun k => k) (fun k => v k.1 k.2)
    (pairs n n) probs inf
    (fun x hx => hm.valid x.1 x.2 ((mem_pairs n n x).1 hx).1 ((mem_pairs n n x).1 hx).2)
  have e3' : (pairs n n).foldl
      (fun (r : List (List U) × U) (k : Nat × Nat) =>
        (wr2 r.1 k.1 k.2 (v k.1 k.2),
          elnsum r.2 (rd2 (wr2 r.1 k.1 k.2 (v k.1 k.2)) k.1 k.2))) (probs, inf) = _ := e3
  rw [e3']
  refine IsMat.of_sameShape ?_ hm
  refine (sameShape_foldl _ (fun a k => ?_) _ _).trans
    (sameShape_foldl _ (fun a (k : Nat × Nat) => sameShape_wr2 a k.1 k.2 _) _ _)
  exact sameShape_foldl _ (fun a m => sameShape_wr2 a k m _) _ _

theorem xi_fst (observed : List Nat) (initial : List U)
    (transition emission : List (List U)) (index : Nat) (beta alpha : List U)
    (probs : List (List U)) :
    (xi observed initial transition emission index beta alpha probs).1 =
      forward_next observed initial transition emission index alpha := rfl

/-- The table written by `xi`. -/
theorem rd2_xi_snd (observed : List Nat) (initial : List U)
    (transition emission : List (List U)) (index : Nat) (beta alpha : List U)
    (probs : List (List U)) (hm : IsMat probs initial.length initial.length)
    (i j : Nat) (hi : i < initial.length) (hj : j < initial.length) :
    rd2 (xi observed initial transition emission index beta alpha probs).2 i j =
      xiAt initial.length transition emission (ob observed index)
        (forward_next observed initial transition emission index alpha) beta i j :=
  xi_table initial.length
    (xiRaw transition emission (ob observed index)
      (forward_next observed initial transition emission index alpha) beta) probs hm i j hi hj

theorem isMat_xi_snd (observed : List Nat) (initial : List U)
    (transition emission : List (List U)) (index : Nat) (beta alpha : List U)
    (probs : List (List U)) (hm : IsMat probs initial.length initial.length) :
    IsMat (xi observed initial transition emission index beta alpha probs).2
      initial.length initial.length :=
  xi_table_shape initial.length
    (xiRaw transition emission (ob observed index)
      (forward_next observed initial transition emission index alpha) beta) probs hm

omit [Numeric U] in
theorem foldl_congr_mem {σ ι : Type} (F G : σ → ι → σ) (l : List ι)
    (h : ∀ a x, x ∈ l → F a x = G a x) (a : σ) : l.foldl F a = l.foldl G a := by
  induction l generalizing a with
  | nil => rfl
  | cons x l ih =>
    simp only [List.foldl_cons]
    rw [h a x (List.mem_cons_self _ _),
      ih (fun a y hy => h a y (List.mem_cons_of_mem _ hy))]

theorem sumLoop2_congr (n : Nat) (f g : Nat → Nat → U)
    (h : ∀ i j, i < n → j < n → f i j = g i j) : sumLoop2 n f = sumLoop2 n g := by
  unfold sumLoop2
  apply foldl_congr_mem
  intro a x hx
  rw [h x.1 x.2 ((mem_pairs n n x).1 hx).1 ((mem_pairs n n x).1 hx).2]

/-- A three-level vector has at least the dimensions `n` x `m` x `c`. -/
def IsCube (p : List (List (List U))) (n m c : Nat) : Prop :=
  ∀ i j s, i < n → j < m → s < c →
    i < p.length ∧ j < (p.getD i []).length ∧ s < ((p.getD i []).getD j []).length

omit [Numeric U] in
theorem isCube_replicate (n m c : Nat) (x : U) :
    IsCube (List.replicate n (List.replicate m (List.replicate c x))) n m c := by
  intro i j s hi hj hs
  simp [List.getD_eq_getElem?_getD, hi, hj, hs]

/-- One round of the loop over `s` in `xi_full`: slice `s` gets the normalized values, the
other slices stay, the dimensions stay. -/
theorem xi_slice (n c s : Nat) (v : Nat → Nat → U) (probs : List (List (List U)))
    (hm : IsCube probs n n c) (hs : s < c) :
    IsCube ((List.range n).foldl
      (fun probs' k => (List.range n).foldl
        (fun probs' m => wr3 probs' k m s (elnproduct (rd3 probs' k m s) (Numeric.neg
          ((List.range n).foldl
            (fun (r : List (List (List U)) × U) i => (List.range n).foldl
              (fun (r : List (List (List U)) × U) j =>
                (wr3 r.1 i j s (v i j), elnsum r.2 (rd3 (wr3 r.1 i j s (v i j)) i j s))) r)
            (probs, inf)).2))) probs')
      ((List.range n).foldl
            (fun (r : List (List (List U)) × U) i => (List.range n).foldl
              (fun (r : List (List (List U)) × U) j =>
                (wr3 r.1 i j s (v i j), elnsum r.2 (rd3 (wr3 r.1 i j s (v i j)) i j s))) r)
            (probs, inf)).1) n n c ∧
    (∀ i j s', s' ≠ s → rd3 ((List.range n).foldl
      (fun probs' k => (List.range n).foldl
        (fun probs' m => wr3 probs' k m s (elnproduct (rd3 probs' k m s) (Numeric.neg
          ((List.range n).foldl
            (fun (r : List (List (List U)) × U) i => (List.range n).foldl
              (fun (r : List (List (List U)) × U) j =>
                (wr3 r.1 i j s (v i j), elnsum r.2 (rd3 (wr3 r.1 i j s (v i j)) i j s))) r)
            (probs, inf)).2))) probs')
      ((List.range n).foldl
            (fun (r : List (List (List U)) × U) i => (List.range n).foldl
              (fun (r : List (List (List U)) × U) j =>
                (wr3 r.1 i j s (v i j), elnsum r.2 (rd3 (wr3 r.1 i j s (v i j)) i j s))) r)
            (probs, inf)).1) i j s' = rd3 probs i j s') ∧
    (∀ i j, i < n → j < n → rd3 ((List.range n).foldl
      (fun probs' k => (List.range n).foldl
        (fun probs' m => wr3 probs' k m s (elnproduct (rd3 probs' k m s) (Numeric.neg
          ((List.range n).foldl
            (fun (r : List (List (List U)) × U) i => (List.range n).foldl
              (fun (r : List (List (List U)) × U) j =>
                (wr3 r.1 i j s (v i j), elnsum r.2 (rd3 (wr3 r.1 i j s (v i j)) i j s))) r)
            (probs, inf)).2))) probs')
      ((List.range n).foldl
            (fun (r : List (List (List U)) × U) i => (List.range n).foldl
              (fun (r : List (List (List U)) × U) j =>
                (wr3 r.1 i j s (v i j), elnsum r.2 (rd3 (wr3 r.1 i j s (v i j)) i j s))) r)
            (probs, inf)).1) i j s = elnproduct (v i j) (Numeric.neg (sumLoop2 n v))) := by
  have e1 := foldl_nested
    (fun (r : List (List (List U)) × U) (k : Nat × Nat) =>
      (wr3 r.1 k.1 k.2 s (v k.1 k.2),
        elnsum r.2 (rd3 (wr3 r.1 k.1 k.2 s (v k.1 k.2)) k.1 k.2 s)))
    n n (probs, inf)
  simp only at e1
  rw [e1]
  have e2 := fun (c : U) (g : List (List (List U))) => foldl_nested
    (fun (probs' : List (List (List U))) (k : Nat × Nat) =>
      wr3 probs' k.1 k.2 s (elnproduct (rd3 probs' k.1 k.2 s) (Numeric.neg c))) n n g
  simp only at e2
  rw [e2]
  have hv : ∀ x ∈ pairs n n,
      (cubeStore (U := U)).valid probs ((fun k : Nat × Nat => (k.1, k.2, s)) x) :=
    fun x hx => hm x.1 x.2 s ((mem_pairs n n x).1 hx).1 ((mem_pairs n n x).1 hx).2 hs
  refine ⟨?_, ?_, ?_⟩
  · intro i j s' hi hj hs'
    exact (Store.fill_normalize_valid (cubeStore (U := U)) (fun k => (k.1, k.2, s))
      (fun k => v k.1 k.2) (pairs n n) probs inf hv (i, j, s')).2 (hm i j s' hi hj hs')
  · intro i j s' hne
    exact Store.fill_normalize_other (cubeStore (U := U)) (fun k => (k.1, k.2, s))
      (fun k => v k.1 k.2) (pairs n n) probs inf hv (i, j, s')
      (fun x _ h => hne (congrArg (fun x => x.2.2) h).symm)
  · intro i j hi hj
    exact Store.fill_normalize (cubeStore (U := U)) (fun k => (k.1, k.2, s))
      (fun k => v k.1 k.2) (pairs n n) (nodup_map_slice n n s) probs inf hv (i, j)
      ((mem_pairs n n (i, j)).2 ⟨hi, hj⟩)

/-- The loop over `s` of `xi_full` for given alpha and beta matrices. -/
theorem xi_slices (observed : List Nat) (n c m : Nat) (transition emission : List (List U))
    (alpha beta : List (List U)) (probs : List (List (List U)))
    (hm : IsCube probs n n c) (hmc : m ≤ c) (i j s : Nat) (hi : i < n) (hj : j < n)
    (hs : s < m) :
    rd3 ((List.range m).foldl
      (fun probs s =>
        let r := (List.range n).foldl
          (fun (r : List (List (List U)) × U) i => (List.range n).foldl
            (fun (r : List (List (List U)) × U) j =>
              let probs := wr3 r.1 i j s
                (elnproduct (rd2 alpha i s)
                  (elnproduct (rd2 transition i j)
                    (elnproduct (rd2 emission j (ob observed (s + 1))) (rd2 beta j (s + 1)))))
              (probs, elnsum r.2 (rd3 probs i j s))) r)
          (probs, inf)
        let normalizer := r.2
        (List.range n).foldl
          (fun probs k => (List.range n).foldl
            (fun probs m =>
              wr3 probs k m s (elnproduct (rd3 probs k m s) (Numeric.neg normalizer))) probs)
          r.1)
      probs) i j s =
    elnproduct
      (elnproduct (rd2 alpha i s)
        (elnproduct (rd2 transition i j)
          (elnproduct (rd2 emission j (ob observed (s + 1))) (rd2 beta j (s + 1)))))
      (Numeric.neg (sumLoop2 n (fun i j => elnproduct (rd2 alpha i s)
        (elnproduct (rd2 transition i j)
          (elnproduct (rd2 emission j (ob observed (s + 1))) (rd2 beta j (s + 1))))))) :=
  foldl_entry (fun g => rd3 g i j s) _
    (fun g => IsCube g n n c)
    (fun _ => elnproduct
      (elnproduct (rd2 alpha i s)
        (elnproduct (rd2 transition i j)
          (elnproduct (rd2 emission j (ob observed (s + 1))) (rd2 beta j (s + 1)))))
      (Numeric.neg (sumLoop2 n (fun i j => elnproduct (rd2 alpha i s)
        (elnproduct (rd2 transition i j)
          (elnproduct (rd2 emission j (ob observed (s + 1))) (rd2 beta j (s + 1))))))))
    (List.range m) s (List.nodup_range _)
    (List.mem_range.2 hs)
    (fun b x hx hb => (xi_slice n c x _ b hb
      (by have := List.mem_range.1 hx; omega)).1)
    (fun b x hx hne hb => (xi_slice n c x _ b hb
      (by have := List.mem_range.1 hx; omega)).2.1 i j s (fun e => hne e.symm))
    (fun b hb => (xi_slice n c s _ b hb (by omega)).2.2 i j hi hj)
    probs hm

/-- The entries of the slices `0 .. T-2` filled by `xi_full`, for `T >= 2`. -/
theorem xi_full_entry (observed : List Nat) (initial : List U)
    (transition emission : List (List U)) (probs : List (List (List U)))
    (hm : IsCube probs initial.length initial.length observed.length)
    (hT : 2 ≤ observed.length) (i j s : Nat) (hi : i < initial.length)
    (hj : j < initial.length) (hs : s + 1 < observed.length) :
    rd3 (xi_full observed initial transition emission probs) i j s =
      xiAt initial.length transition emission (ob observed (s + 1))
        (fwdCol observed initial transition emission s)
        (betaAt observed initial transition emission (s + 1)) i j := by
  obtain ⟨t, ht⟩ : ∃ t, observed.length = t + 1 := ⟨observed.length - 1, by omega⟩
  have hf := forward_full_cols observed initial transition emission
    (List.replicate initial.length (List.replicate observed.length Numeric.zero))
    observed.length (isMat_replicate _ _ _) t (by omega)
  rw [← ht] at hf
  have hb := backward_full_cols observed initial transition emission
    (List.replicate initial.length (List.replicate observed.length Numeric.zero)) 1
    (isMat_replicate _ _ _) (le_refl 1) (by omega)
  unfold xi_full
  rw [if_neg (by omega)]
  simp only
  rw [xi_slices observed initial.length observed.length (observed.length - 1) transition
    emission _ _ probs hm (by omega) i j s hi hj (by omega)]
  unfold xiAt xiRaw betaAt
  have e : observed.length - 1 - (s + 1) = observed.length - 1 - (s + 1) := rfl
  rw [hf.2 s i (by omega) hi, hb.2 (s + 1) j (by omega) (by omega) hj]
  congr 2
  apply sumLoop2_congr
  intro i' j' hi' hj'
  rw [hf.2 s i' (by omega) hi', hb.2 (s + 1) j' (by omega) (by omega) hj']

/-! ## What `train_full` stores -/

theorem sumLoopAt_succ (observed : List Nat) (k n : Nat) (f : Nat → U) :
    sumLoopAt observed k (n + 1) f =
      if ob observed n = k then elnsum (sumLoopAt observed k n f) (f n)
      else sumLoopAt observed k n f := by
  unfold sumLoopAt
  rw [List.range_succ, List.foldl_append]
  rfl

/-- The four accumulators of `train_full` after the loop over `s < n`. -/
theorem train_full_acc (observed : List Nat) (gam : List (List U))
    (probs : List (List (List U))) (nsymbols nstates i j n : Nat) :
    (List.range n).foldl
      (fun (acc : U × U × U × U) s =>
        let numeratorE := acc.1
        let denominatorE := acc.2.1
        let numeratorT := acc.2.2.1
        let denominatorT := acc.2.2.2
        let numeratorE :=
          if i < nsymbols then
            if ob observed s = i then elnsum numeratorE (rd2 gam j s) else numeratorE
          else numeratorE
        let denominatorE :=
          if i < nsymbols then elnsum denominatorE (rd2 gam j s) else denominatorE
        let numeratorT :=
          if i < nstates then elnsum numeratorT (rd3 probs i j s) else numeratorT
        let denominatorT :=
          if i < nstates then elnsum denominatorT (rd2 gam i s) else denominatorT
        (numeratorE, denominatorE, numeratorT, denominatorT))
      (inf, inf, inf, inf) =
    (if i < nsymbols then sumLoopAt observed i n (fun s => rd2 gam j s) else inf,
      if i < nsymbols then sumLoop n (fun s => rd2 gam j s) else inf,
      if i < nstates then sumLoop n (fun s => rd3 probs i j s) else inf,
      if i < nstates then sumLoop n (fun s => rd2 gam i s) else inf) := by
  induction n with
  | zero =>
    simp [sumLoopAt, sumLoop]
  | succ n ih =>
    rw [List.range_succ, List.foldl_append, ih]
    simp only [List.foldl_cons, List.foldl_nil, sumLoop_succ, sumLoopAt_succ]
    by_cases h1 : i < nsymbols <;> by_cases h2 : i < nstates <;>
      by_cases h3 : ob observed n = i <;> simp [h1, h2, h3]

/-- The final loop nest of the trainers, which writes `transition[i][j]` and
`emission[j][i]`: the entries afterwards. -/
theorem update_nest (sentinel nstates nsymbols m : Nat) (tv ev : Nat → Nat → U)
    (transition emission : List (List U))
    (hA : IsMat transition nstates nstates) (hB : IsMat emission nstates m)
    (hs1 : nstates ≤ sentinel) (hs2 : nsymbols ≤ sentinel) (hm : nsymbols ≤ m) :
    (∀ i j, i < nstates → j < nstates →
      rd2 ((List.range sentinel).foldl
        (fun (te : List (List U) × List (List U)) i => (List.range nstates).foldl
          (fun (te : List (List U) × List (List U)) j =>
            (if i < nstates then wr2 te.1 i j (tv i j) else te.1,
              if i < nsymbols then wr2 te.2 j i (ev i j) else te.2)) te)
        (transition, emission)).1 i j = tv i j) ∧
    (∀ j k, j < nstates → k < nsymbols →
      rd2 ((List.range sentinel).foldl
        (fun (te : List (List U) × List (List U)) i => (List.range nstates).foldl
          (fun (te : List (List U) × List (List U)) j =>
            (if i < nstates then wr2 te.1 i j (tv i j) else te.1,
              if i < nsymbols then wr2 te.2 j i (ev i j) else te.2)) te)
        (transition, emission)).2 j k = ev k j) ∧
    SameShape ((List.range sentinel).foldl
        (fun (te : List (List U) × List (List U)) i => (List.range nstates).foldl
          (fun (te : List (List U) × List (List U)) j =>
            (if i < nstates then wr2 te.1 i j (tv i j) else te.1,
              if i < nsymbols then wr2 te.2 j i (ev i j) else te.2)) te)
        (transition, emission)).1 transition ∧
    SameShape ((List.range sentinel).foldl
        (fun (te : List (List U) × List (List U)) i => (List.range nstates).foldl
          (fun (te : List (List U) × List (List U)) j =>
            (if i < nstates then wr2 te.1 i j (tv i j) else te.1,
              if i < nsymbols then wr2 te.2 j i (ev i j) else te.2)) te)
        (transition, emission)).2 emission := by
  have hstepInv : ∀ (b : List (List U) × List (List U)) (i j : Nat),
      (SameShape b.1 transition ∧ SameShape b.2 emission) →
      (SameShape (if i < nstates then wr2 b.1 i j (tv i j) else b.1) transition ∧
        SameShape (if i < nsymbols then wr2 b.2 j i (ev i j) else b.2) emission) := by
    intro b i j hb
    constructor
    · split
      · exact (sameShape_wr2 _ _ _ _).trans hb.1
      · exact hb.1
    · split
      · exact (sameShape_wr2 _ _ _ _).trans hb.2
      · exact hb.2
  have hinner : ∀ (b : List (List U) × List (List U)) (i : Nat),
      (SameShape b.1 transition ∧ SameShape b.2 emission) →
      (SameShape ((List.range nstates).foldl
          (fun (te : List (List U) × List (List U)) j =>
            (if i < nstates then wr2 te.1 i j (tv i j) else te.1,
              if i < nsymbols then wr2 te.2 j i (ev i j) else te.2)) b).1 transition ∧
        SameShape ((List.range nstates).foldl
          (fun (te : List (List U) × List (List U)) j =>
            (if i < nstates then wr2 te.1 i j (tv i j) else te.1,
              if i < nsymbols then wr2 te.2 j i (ev i j) else te.2)) b).2 emission) :=
    fun b i hb => foldl_inv _
      (fun b => SameShape b.1 transition ∧ SameShape b.2 emission) _
      (fun b j _ hb => hstepInv b i j hb) b hb
  have h0 : SameShape (transition, emission).1 transition ∧
      SameShape (transition, emission).2 emission := ⟨SameShape.refl _, SameShape.refl _⟩
  have hall := foldl_inv
    (fun (te : List (List U) × List (List U)) i => (List.range nstates).foldl
      (fun (te : List (List U) × List (List U)) j =>
        (if i < nstates then wr2 te.1 i j (tv i j) else te.1,
          if i < nsymbols then wr2 te.2 j i (ev i j) else te.2)) te)
    (fun b => SameShape b.1 transition ∧ SameShape b.2 emission) (List.range sentinel)
    (fun b i _ hb => hinner b i hb) (transition, emission) h0
  refine ⟨?_, ?_, hall.1, hall.2⟩
  · intro i0 j0 hi0 hj0
    refine foldl_entry (fun te => rd2 te.1 i0 j0) _
      (fun b => SameShape b.1 transition ∧ SameShape b.2 emission) (fun _ => tv i0 j0)
      (List.range sentinel) i0 (List.nodup_range _) (List.mem_range.2 (by omega))
      (fun b i _ hb => hinner b i hb) ?_ ?_ (transition, emission) h0
    · intro b i _ hne hb
      refine foldl_frame (fun te => rd2 te.1 i0 j0)
        (fun (te : List (List U) × List (List U)) j =>
          (if i < nstates then wr2 te.1 i j (tv i j) else te.1,
            if i < nsymbols then wr2 te.2 j i (ev i j) else te.2))
        (fun b => SameShape b.1 transition ∧ SameShape b.2 emission) (List.range nstates)
        (fun b j _ hb => hstepInv b i j hb) ?_ b hb
      intro b j _ _
      show rd2 (if i < nstates then wr2 b.1 i j (tv i j) else b.1) i0 j0 = rd2 b.1 i0 j0
      split
      · rw [rd2_wr2, if_neg (fun hh => hne hh.1)]
      · rfl
    · intro b hb
      refine foldl_entry (fun te => rd2 te.1 i0 j0)
        (fun (te : List (List U) × List (List U)) j =>
          (if i0 < nstates then wr2 te.1 i0 j (tv i0 j) else te.1,
            if i0 < nsymbols then wr2 te.2 j i0 (ev i0 j) else te.2))
        (fun b => SameShape b.1 transition ∧ SameShape b.2 emission) (fun _ => tv i0 j0)
        (List.range nstates) j0 (List.nodup_range _) (List.mem_range.2 hj0)
        (fun b j _ hb => hstepInv b i0 j hb) ?_ ?_ b hb
      · intro b j _ hne _
        show rd2 (if i0 < nstates then wr2 b.1 i0 j (tv i0 j) else b.1) i0 j0 = rd2 b.1 i0 j0
        rw [if_pos hi0, rd2_wr2, if_neg (fun hh => hne hh.2.1)]
      · intro b hb
        show rd2 (if i0 < nstates then wr2 b.1 i0 j0 (tv i0 j0) else b.1) i0 j0 = tv i0 j0
        have hv := (IsMat.of_sameShape hb.1 hA).valid i0 j0 hi0 hj0
        rw [if_pos hi0, rd2_wr2, if_pos ⟨rfl, rfl, hv.1, hv.2⟩]
  · intro j0 k0 hj0 hk0
    refine foldl_entry (fun te => rd2 te.2 j0 k0) _
      (fun b => SameShape b.1 transition ∧ SameShape b.2 emission) (fun _ => ev k0 j0)
      (List.range sentinel) k0 (List.nodup_range _) (List.mem_range.2 (by omega))
      (fun b i _ hb => hinner b i hb) ?_ ?_ (transition, emission) h0
    · intro b i _ hne hb
      refine foldl_frame (fun te => rd2 te.2 j0 k0)
        (fun (te : List (List U) × List (List U)) j =>
          (if i < nstates then wr2 te.1 i j (tv i j) else te.1,
            if i < nsymbols then wr2 te.2 j i (ev i j) else te.2))
        (fun b => SameShape b.1 transition ∧ SameShape b.2 emission) (List.range nstates)
        (fun b j _ hb => hstepInv b i j hb) ?_ b hb
      intro b j _ _
      show rd2 (if i < nsymbols then wr2 b.2 j i (ev i j) else b.2) j0 k0 = rd2 b.2 j0 k0
      split
      · rw [rd2_wr2, if_neg (fun hh => hne hh.2.1)]
      · rfl
    · intro b hb
      refine foldl_entry (fun te => rd2 te.2 j0 k0)
        (fun (te : List (List U) × List (List U)) j =>
          (if k0 < nstates then wr2 te.1 k0 j (tv k0 j) else te.1,
            if k0 < nsymbols then wr2 te.2 j k0 (ev k0 j) else te.2))
        (fun b => SameShape b.1 transition ∧ SameShape b.2 emission) (fun _ => ev k0 j0)
        (List.range nstates) j0 (List.nodup_range _) (List.mem_range.2 hj0)
        (fun b j _ hb => hstepInv b k0 j hb) ?_ ?_ b hb
      · intro b j _ hne _
        show rd2 (if k0 < nsymbols then wr2 b.2 j k0 (ev k0 j) else b.2) j0 k0 = rd2 b.2 j0 k0
        rw [if_pos hk0, rd2_wr2, if_neg (fun hh => hne hh.1)]
      · intro b hb
        show rd2 (if k0 < nsymbols then wr2 b.2 j0 k0 (ev k0 j0) else b.2) j0 k0 = ev k0 j0
        have hv := (IsMat.of_sameShape hb.2 hB).valid j0 k0 hj0 (by omega)
        rw [if_pos hk0, rd2_wr2, if_pos ⟨rfl, rfl, hv.1, hv.2⟩]

omit [Numeric U] in
theorem nsymbols_eq (emission : List (List U)) (n m : Nat) (hB : IsMat emission n m)
    (hn : 0 < n) : (emission.getD 0 []).length = m :=
  hB.rowlen 0 hn

/-- The entries that `train_full` stores. -/
theorem train_full_entries (observed : List Nat) (initial : List U)
    (transition emission : List (List U)) (m : Nat)
    (hpi : 2 ≤ observed.length)
    (hA : IsMat transition initial.length initial.length)
    (hB : IsMat emission initial.length m) :
    (∀ i, i < initial.length →
      rd (train_full observed initial transition emission).1 i =
        Numeric.exp (rd2 (gamma_m_full observed initial transition emission
          (List.replicate initial.length (List.replicate observed.length Numeric.zero)))
          i 0)) ∧
    (∀ i j, i < initial.length → j < initial.length →
      rd2 (train_full observed initial transition emission).2.1 i j =
        elnproduct
          (sumLoop (observed.length - 1) (fun s =>
            rd3 (xi_full observed initial transition emission
              (List.replicate initial.length (List.replicate initial.length
                (List.replicate observed.length Numeric.zero)))) i j s))
          (Numeric.neg (sumLoop (observed.length - 1) (fun s =>
            rd2 (gamma_m_full observed initial transition emission
              (List.replicate initial.length (List.replicate observed.length Numeric.zero)))
              i s)))) ∧
    (∀ j k, j < initial.length → k < m →
      rd2 (train_full observed initial transition emission).2.2 j k =
        elnproduct
          (sumLoopAt observed k (observed.length - 1) (fun s =>
            rd2 (gamma_m_full observed initial transition emission
              (List.replicate initial.length (List.replicate observed.length Numeric.zero)))
              j s))
          (Numeric.neg (sumLoop (observed.length - 1) (fun s =>
            rd2 (gamma_m_full observed initial transition emission
              (List.replicate initial.length (List.replicate observed.length Numeric.zero)))
              j s)))) := by
  have hgl : (gamma_m_full observed initial transition emission
      (List.replicate initial.length (List.replicate observed.length Numeric.zero))).length =
      initial.length :=
    (gamma_m_full_entry observed initial transition emission _ (isMat_replicate _ _ _)
      hpi).1.1
  refine ⟨?_, ?_, ?_⟩
  · intro i hi
    unfold train_full
    simp only
    rw [hgl, rd_foldl_set
      (fun i => Numeric.exp (rd2 (gamma_m_full observed initial transition emission
        (List.replicate initial.length (List.replicate observed.length Numeric.zero))) i 0))]
    simp [hi]
  · intro i j hi hj
    unfold train_full
    simp only [train_full_acc]
    have hn := nsymbols_eq emission _ _ hB (by omega : 0 < initial.length)
    rw [(update_nest (max (emission.getD 0 []).length initial.length) initial.length
      (emission.getD 0 []).length m _ _ transition emission hA hB (le_max_right _ _)
      (le_max_left _ _) (le_of_eq hn)).1 i j hi hj]
    simp only [hi, if_true]
  · intro j k hj hk
    unfold train_full
    simp only [train_full_acc]
    have hn := nsymbols_eq emission _ _ hB (by omega : 0 < initial.length)
    rw [(update_nest (max (emission.getD 0 []).length initial.length) initial.length
      (emission.getD 0 []).length m _ _ transition emission hA hB (le_max_right _ _)
      (le_max_left _ _) (le_of_eq hn)).2.1 j k hj (by omega)]
    simp only [hn, hk, if_true]

/-- Property C4.  With `gam` and `probs` the tables that `gamma_m_full` and `xi_full` fill
on the model as it was before the call, `train_full` stores
`pi[i] = exp(gam[i][0])`,
`A[i][j] = elnproduct(elnsum over s <= T-2 of probs[i][j][s], -elnsum over s <= T-2 of
gam[i][s])` and
`B[j][k] = elnproduct(elnsum over s <= T-2 with O_s = k of gam[j][s], -elnsum over
s <= T-2 of gam[j][s])`. -/
theorem train_full_stores (observed : List Nat) (initial : List U)
    (transition emission : List (List U)) (m : Nat)
    (hpi : 2 ≤ observed.length)
    (hA : IsMat transition initial.length initial.length)
    (hB : IsMat emission initial.length m) :
    (∀ i, i < initial.length →
      rd (train_full observed initial transition emission).1 i =
        Numeric.exp (rd2 (gamma_m_full observed initial transition emission
          (List.replicate initial.length (List.replicate observed.length Numeric.zero)))
          i 0)) ∧
    (∀ i j, i < initial.length → j < initial.length →
      rd2 (train_full observed initial transition emission).2.1 i j =
        elnproduct
          (sumLoop (observed.length - 1) (fun s =>
            rd3 (xi_full observed initial transition emission
              (List.replicate initial.length (List.replicate initial.length
                (List.replicate observed.length Numeric.zero)))) i j s))
          (Numeric.neg (sumLoop (observed.length - 1) (fun s =>
            rd2 (gamma_m_full observed initial transition emission
              (List.replicate initial.length (List.replicate observed.length Numeric.zero)))
              i s)))) ∧
    (∀ j k, j < initial.length → k < m →
      rd2 (train_full observed initial transition emission).2.2 j k =
        elnproduct
          (sumLoopAt observed k (observed.length - 1) (fun s =>
            rd2 (gamma_m_full observed initial transition emission
              (List.replicate initial.length (List.replicate observed.length Numeric.zero)))
              j s))
          (Numeric.neg (sumLoop (observed.length - 1) (fun s =>
            rd2 (gamma_m_full observed initial transition emission
              (List.replicate initial.length (List.replicate observed.length Numeric.zero)))
              j s)))) :=
  train_full_entries observed initial transition emission m hpi hA hB

/-- The dimensions of the tables that `train_full` stores. -/
theorem train_full_shape (observed : List Nat) (initial : List U)
    (transition emission : List (List U)) (m : Nat)
    (hA : IsMat transition initial.length initial.length)
    (hB : IsMat emission initial.length m) :
    (train_full observed initial transition emission).1.length = initial.length ∧
    SameShape (train_full observed initial transition emission).2.1 transition ∧
    SameShape (train_full observed initial transition emission).2.2 emission := by
  refine ⟨?_, ?_, ?_⟩
  · unfold train_full
    simp only
    rw [length_foldl_set (fun _ i => Numeric.exp _)]
  · unfold train_full
    simp only [train_full_acc]
    by_cases hn : 0 < initial.length
    · exact (update_nest (max (emission.getD 0 []).length initial.length) initial.length
        (emission.getD 0 []).length m _ _ transition emission hA hB (le_max_right _ _)
        (le_max_left _ _) (le_of_eq (nsymbols_eq emission _ _ hB hn))).2.2.1
    · have h0 : initial.length = 0 := by omega
      simp only [h0, List.range_zero, List.foldl_nil]
      exact foldl_inv _ (fun (b : List (List U) × List (List U)) => SameShape b.1 transition) _ (fun b _ _ hb => hb) _
        (SameShape.refl _)
  · unfold train_full
    simp only [train_full_acc]
    by_cases hn : 0 < initial.length
    · exact (update_nest (max (emission.getD 0 []).length initial.length) initial.length
        (emission.getD 0 []).length m _ _ transition emission hA hB (le_max_right _ _)
        (le_max_left _ _) (le_of_eq (nsymbols_eq emission _ _ hB hn))).2.2.2
    · have h0 : initial.length = 0 := by omega
      simp only [h0, List.range_zero, List.foldl_nil]
      exact foldl_inv _ (fun (b : List (List U) × List (List U)) => SameShape b.2 emission) _ (fun b _ _ hb => hb) _
        (SameShape.refl _)

/-! ## The streaming trainer `train` -/

/-- The state posterior `gamma_s[i]` as a function of the model. -/
def gammaSpec (observed : List Nat) (initial : List U) (transition emission : List (List U))
    (s i : Nat) : U :=
  gammaAt initial.length (fwdCol observed initial transition emission s)
    (betaAt observed initial transition emission s) i

/-- The pairwise posterior `xi_s[i][j]` as a function of the model. -/
def xiSpec (observed : List Nat) (initial : List U) (transition emission : List (List U))
    (s i j : Nat) : U :=
  xiAt initial.length transition emission (ob observed (s + 1))
    (fwdCol observed initial transition emission s)
    (betaAt observed initial transition emission (s + 1)) i j

/-- The body of the two nested loops of `train_accumulate`, at the pair `(i, j)`. -/
def accStep (observed : List Nat) (nstates nsymbols : Nat) (ts : TrainState U)
    (k : Nat × Nat) : TrainState U :=
  let ts :=
    if k.1 < nsymbols then
      let ts :=
        if ob observed ts.s = k.1 then
          { ts with
            numeratorE := wr2 ts.numeratorE k.1 k.2 (elnsum (rd2 ts.numeratorE k.1 k.2) (rd ts.gam k.2)) }
        else ts
      { ts with
        denominatorE := wr2 ts.denominatorE k.1 k.2 (elnsum (rd2 ts.denominatorE k.1 k.2) (rd ts.gam k.2)) }
    else ts
  if k.1 < nstates then
    { ts with
      numeratorT := wr2 ts.numeratorT k.1 k.2 (elnsum (rd2 ts.numeratorT k.1 k.2) (rd2 ts.probs k.1 k.2))
      denominatorT := wr2 ts.denominatorT k.1 k.2 (elnsum (rd2 ts.denominatorT k.1 k.2) (rd ts.gam k.1)) }
  else ts

theorem train_accumulate_eq (observed : List Nat) (nstates nsymbols : Nat) (ts : TrainState U) :
    train_accumulate observed nstates nsymbols ts =
      (pairs (max nsymbols nstates) nstates).foldl (accStep observed nstates nsymbols) ts := by
  rw [← foldl_nested]
  rfl

/-- What the loop nest of `train_accumulate` keeps: everything but the entries of the four
accumulator tables. -/
def AccFrame (ts0 b : TrainState U) : Prop :=
  b.s = ts0.s ∧ b.gam = ts0.gam ∧ b.probs = ts0.probs ∧ b.alphaG = ts0.alphaG ∧
  b.alphaX = ts0.alphaX ∧ b.beta = ts0.beta ∧ b.cache = ts0.cache ∧
  SameShape b.numeratorT ts0.numeratorT ∧ SameShape b.denominatorT ts0.denominatorT ∧
  SameShape b.numeratorE ts0.numeratorE ∧ SameShape b.denominatorE ts0.denominatorE

theorem accStep_frame (observed : List Nat) (nstates nsymbols : Nat) (ts0 b : TrainState U)
    (k : Nat × Nat) (h : AccFrame ts0 b) :
    AccFrame ts0 (accStep observed nstates nsymbols b k) := by
  obtain ⟨h1, h2, h3, h4, h5, h6, h7, h8, h9, h10, h11⟩ := h
  unfold accStep
  by_cases c1 : k.1 < nsymbols <;> by_cases c2 : ob observed b.s = k.1 <;>
    by_cases c3 : k.1 < nstates <;>
    simp only [c1, c2, c3, if_true, if_false] <;>
    exact ⟨h1, h2, h3, h4, h5, h6, h7,
      by first | exact h8 | exact (sameShape_wr2 _ _ _ _).trans h8,
      by first | exact h9 | exact (sameShape_wr2 _ _ _ _).trans h9,
      by first | exact h10 | exact (sameShape_wr2 _ _ _ _).trans h10,
      by first | exact h11 | exact (sameShape_wr2 _ _ _ _).trans h11⟩

/-- The tables after `train_accumulate`: each entry of the four accumulators has received
its term of the current time step; everything else is as before. -/
theorem train_accumulate_spec (observed : List Nat) (nstates nsymbols : Nat)
    (ts : TrainState U)
    (hNT : IsMat ts.numeratorT nstates nstates) (hDT : IsMat ts.denominatorT nstates nstates)
    (hNE : IsMat ts.numeratorE nsymbols nstates)
    (hDE : IsMat ts.denominatorE nsymbols nstates) :
    AccFrame ts (train_accumulate observed nstates nsymbols ts) ∧
    (∀ i j, i < nstates → j < nstates →
      rd2 (train_accumulate observed nstates nsymbols ts).numeratorT i j =
        elnsum (rd2 ts.numeratorT i j) (rd2 ts.probs i j) ∧
      rd2 (train_accumulate observed nstates nsymbols ts).denominatorT i j =
        elnsum (rd2 ts.denominatorT i j) (rd ts.gam i)) ∧
    (∀ i j, i < nsymbols → j < nstates →
      rd2 (train_accumulate observed nstates nsymbols ts).numeratorE i j =
        (if ob observed ts.s = i then elnsum (rd2 ts.numeratorE i j) (rd ts.gam j)
          else rd2 ts.numeratorE i j) ∧
      rd2 (train_accumulate observed nstates nsymbols ts).denominatorE i j =
        elnsum (rd2 ts.denominatorE i j) (rd ts.gam j)) := by
  rw [train_accumulate_eq]
  have h0 : AccFrame ts ts :=
    ⟨rfl, rfl, rfl, rfl, rfl, rfl, rfl, SameShape.refl _, SameShape.refl _, SameShape.refl _,
      SameShape.refl _⟩
  have hInv : ∀ (b : TrainState U) (x : Nat × Nat),
      x ∈ pairs (max nsymbols nstates) nstates → AccFrame ts b →
      AccFrame ts (accStep observed nstates nsymbols b x) :=
    fun b x _ hb => accStep_frame observed nstates nsymbols ts b x hb
  refine ⟨foldl_inv _ (AccFrame ts) _ hInv ts h0, ?_, ?_⟩
  · intro i0 j0 hi0 hj0
    have hmem : (i0, j0) ∈ pairs (max nsymbols nstates) nstates :=
      (mem_pairs _ _ _).2 ⟨lt_of_lt_of_le hi0 (le_max_right _ _), hj0⟩
    constructor
    · refine foldl_entry (fun b => rd2 b.numeratorT i0 j0) (accStep observed nstates nsymbols)
        (AccFrame ts) (fun old => elnsum old (rd2 ts.probs i0 j0)) _ (i0, j0)
        (nodup_pairs _ _) hmem hInv ?_ ?_ ts h0
      · intro b x _ hne _
        have hne' : ¬ (x.1 = i0 ∧ x.2 = j0 ∧ x.1 < b.numeratorT.length ∧
            x.2 < (b.numeratorT.getD x.1 []).length) :=
          fun hh => hne (Prod.ext hh.1 hh.2.1)
        unfold accStep
        by_cases c1 : x.1 < nsymbols <;> by_cases c2 : ob observed b.s = x.1 <;>
          by_cases c3 : x.1 < nstates <;>
          simp only [c1, c2, c3, if_true, if_false, rd2_wr2, hne']
      · intro b hb
        have hv := (IsMat.of_sameShape hb.2.2.2.2.2.2.2.1 hNT).valid i0 j0 hi0 hj0
        have hp : b.probs = ts.probs := hb.2.2.1
        unfold accStep
        by_cases c1 : i0 < nsymbols <;> by_cases c2 : ob observed b.s = i0 <;>
          simp only [c1, c2, hi0, if_true, if_false, rd2_wr2, hv.1, hv.2, and_self, hp]
    · refine foldl_entry (fun b => rd2 b.denominatorT i0 j0)
        (accStep observed nstates nsymbols)
        (AccFrame ts) (fun old => elnsum old (rd ts.gam i0)) _ (i0, j0)
        (nodup_pairs _ _) hmem hInv ?_ ?_ ts h0
      · intro b x _ hne _
        have hne' : ¬ (x.1 = i0 ∧ x.2 = j0 ∧ x.1 < b.denominatorT.length ∧
            x.2 < (b.denominatorT.getD x.1 []).length) :=
          fun hh => hne (Prod.ext hh.1 hh.2.1)
        unfold accStep
        by_cases c1 : x.1 < nsymbols <;> by_cases c2 : ob observed b.s = x.1 <;>
          by_cases c3 : x.1 < nstates <;>
          simp only [c1, c2, c3, if_true, if_false, rd2_wr2, hne']
      · intro b hb
        have hv := (IsMat.of_sameShape hb.2.2.2.2.2.2.2.2.1 hDT).valid i0 j0 hi0 hj0
        have hp : b.gam = ts.gam := hb.2.1
        unfold accStep
        by_cases c1 : i0 < nsymbols <;> by_cases c2 : ob observed b.s = i0 <;>
          simp only [c1, c2, hi0, if_true, if_false, rd2_wr2, hv.1, hv.2, and_self, hp]
  · intro i0 j0 hi0 hj0
    have hmem : (i0, j0) ∈ pairs (max nsymbols nstates) nstates :=
      (mem_pairs _ _ _).2 ⟨lt_of_lt_of_le hi0 (le_max_left _ _), hj0⟩
    constructor
    · refine foldl_entry (fun b => rd2 b.numeratorE i0 j0) (accStep observed nstates nsymbols)
        (AccFrame ts)
        (fun old => if ob observed ts.s = i0 then elnsum old (rd ts.gam j0) else old)
        _ (i0, j0) (nodup_pairs _ _) hmem hInv ?_ ?_ ts h0
      · intro b x _ hne _
        have hne' : ¬ (x.1 = i0 ∧ x.2 = j0 ∧ x.1 < b.numeratorE.length ∧
            x.2 < (b.numeratorE.getD x.1 []).length) :=
          fun hh => hne (Prod.ext hh.1 hh.2.1)
        unfold accStep
        by_cases c1 : x.1 < nsymbols <;> by_cases c2 : ob observed b.s = x.1 <;>
          by_cases c3 : x.1 < nstates <;>
          simp only [c1, c2, c3, if_true, if_false, rd2_wr2, hne']
      · intro b hb
        have hv := (IsMat.of_sameShape hb.2.2.2.2.2.2.2.2.2.1 hNE).valid i0 j0 hi0 hj0
        have hp : b.gam = ts.gam := hb.2.1
        have hs : b.s = ts.s := hb.1
        unfold accStep
        by_cases c2 : ob observed ts.s = i0 <;> by_cases c3 : i0 < nstates <;>
          simp only [c2, c3, hi0, hs, if_true, if_false, rd2_wr2, hv.1, hv.2, and_self, hp]
    · refine foldl_entry (fun b => rd2 b.denominatorE i0 j0)
        (accStep observed nstates nsymbols)
        (AccFrame ts) (fun old => elnsum old (rd ts.gam j0))
        _ (i0, j0) (nodup_pairs _ _) hmem hInv ?_ ?_ ts h0
      · intro b x _ hne _
        have hne' : ¬ (x.1 = i0 ∧ x.2 = j0 ∧ x.1 < b.denominatorE.length ∧
            x.2 < (b.denominatorE.getD x.1 []).length) :=
          fun hh => hne (Prod.ext hh.1 hh.2.1)
        unfold accStep
        by_cases c1 : x.1 < nsymbols <;> by_cases c2 : ob observed b.s = x.1 <;>
          by_cases c3 : x.1 < nstates <;>
          simp only [c1, c2, c3, if_true, if_false, rd2_wr2, hne']
      · intro b hb
        have hv := (IsMat.of_sameShape hb.2.2.2.2.2.2.2.2.2.2 hDE).valid i0 j0 hi0 hj0
        have hp : b.gam = ts.gam := hb.2.1
        have hs : b.s = ts.s := hb.1
        unfold accStep
        by_cases c2 : ob observed ts.s = i0 <;> by_cases c3 : i0 < nstates <;>
          simp only [c2, c3, hi0, hs, if_true, if_false, rd2_wr2, hv.1, hv.2, and_self, hp]

/-! ### The functions read `initial` through its length only -/

theorem backward_next_congr (observed : List Nat) (initial initial' : List U)
    (transition emission : List (List U)) (h : initial'.length = initial.length) :
    backward_next observed initial' transition emission =
      backward_next observed initial transition emission := by
  funext index beta
  unfold backward_next
  rw [h]

theorem replayWindow_congr (observed : List Nat) (initial initial' : List U)
    (transition emission : List (List U)) (h : initial'.length = initial.length)
    (b : List U) (mark count : Nat) :
    replayWindow observed initial' transition emission b mark count =
      replayWindow observed initial transition emission b mark count := by
  unfold replayWindow
  rw [backward_next_congr observed initial initial' transition emission h]

theorem passiveStream_congr (observed : List Nat) (initial initial' : List U)
    (transition emission : List (List U)) (h : initial'.length = initial.length)
    (ps : List (List U)) (ms ns : List Nat) :
    passiveStream observed initial' transition emission ps ms ns =
      passiveStream observed initial transition emission ps ms ns := by
  induction ps generalizing ms ns with
  | nil => rfl
  | cons b ps ih =>
    simp only [passiveStream]
    rw [ih, replayWindow_congr observed initial initial' transition emission h]

theorem stream_congr (observed : List Nat) (initial initial' : List U)
    (transition emission : List (List U)) (h : initial'.length = initial.length)
    (c : BackCache U) :
    stream observed initial' transition emission c =
      stream observed initial transition emission c := by
  unfold stream
  rw [passiveStream_congr observed initial initial' transition emission h]

theorem fwdStep_congr (observed : List Nat) (initial initial' : List U)
    (transition emission : List (List U)) (h : initial'.length = initial.length)
    (s : Nat) (prev : List U) :
    fwdStep observed initial' transition emission s prev =
      fwdStep observed initial transition emission s prev := by
  unfold fwdStep
  rw [h]

/-- A call of `Next` made while `initial` holds other values of the same length: the vector
returned and the vectors still to come. -/
theorem Next_stream_congr (observed : List Nat) (initial initial' : List U)
    (transition emission : List (List U)) (h : initial'.length = initial.length)
    (c : BackCache U) (hs : 2 ≤ c.sz_) (ho : observed ≠ []) (hi : c.initialize_ = false) :
    (BackCache.Next observed initial' transition emission c).1 =
      (stream observed initial transition emission c).head? ∧
    stream observed initial transition emission
      (BackCache.Next observed initial' transition emission c).2 =
      (stream observed initial transition emission c).tail ∧
    2 ≤ (BackCache.Next observed initial' transition emission c).2.sz_ ∧
    (BackCache.Next observed initial' transition emission c).2.initialize_ = false := by
  obtain ⟨h1, h2, h3, h4⟩ := Next_stream observed initial' transition emission c hs ho hi
  rw [stream_congr observed initial initial' transition emission h] at h1 h2
  rw [stream_congr observed initial initial' transition emission h] at h2
  exact ⟨h1, h2, by rw [h3]; exact hs, h4⟩

/-- The accumulator tables of `train` hold the sums over the first `n` time steps. -/
def TrainAcc (observed : List Nat) (initial : List U) (transition emission : List (List U))
    (nsymbols : Nat) (ts : TrainState U) (n : Nat) : Prop :=
  IsMat ts.numeratorT initial.length initial.length ∧
  IsMat ts.denominatorT initial.length initial.length ∧
  IsMat ts.numeratorE nsymbols initial.length ∧
  IsMat ts.denominatorE nsymbols initial.length ∧
  (∀ i j, i < initial.length → j < initial.length →
    rd2 ts.numeratorT i j =
      sumLoop n (fun s => xiSpec observed initial transition emission s i j) ∧
    rd2 ts.denominatorT i j =
      sumLoop n (fun s => gammaSpec observed initial transition emission s i)) ∧
  (∀ i j, i < nsymbols → j < initial.length →
    rd2 ts.numeratorE i j =
      sumLoopAt observed i n (fun s => gammaSpec observed initial transition emission s j) ∧
    rd2 ts.denominatorE i j =
      sumLoop n (fun s => gammaSpec observed initial transition emission s j))

/-- Invariant of the loop `while ( !done )` of `train` at the head of the round with
`s = n`: `gam` and `probs` hold the posteriors of time `n`, both copies of alpha hold
`alpha_n`, `beta` holds `beta_(n+1)`, the cache will produce `beta_(n+2)` onwards, and the
accumulators hold the sums over the times before `n`. -/
def TrainInv (observed : List Nat) (initial : List U) (transition emission : List (List U))
    (nsymbols : Nat) (ts : TrainState U) (n : Nat) : Prop :=
  ts.s = n ∧
  ts.gam.length = initial.length ∧
  (∀ i, i < initial.length →
    rd ts.gam i = gammaSpec observed initial transition emission n i) ∧
  ts.alphaG = fwdCol observed initial transition emission n ∧
  ts.alphaX = fwdCol observed initial transition emission n ∧
  IsMat ts.probs initial.length initial.length ∧
  (∀ i j, i < initial.length → j < initial.length →
    rd2 ts.probs i j = xiSpec observed initial transition emission n i j) ∧
  ts.beta = betaAt observed initial transition emission (n + 1) ∧
  2 ≤ ts.cache.sz_ ∧ ts.cache.initialize_ = false ∧
  (∃ k, stream observed initial transition emission ts.cache =
      seg observed initial transition emission (n + 2) k ∧ observed.length ≤ n + 2 + k) ∧
  TrainAcc observed initial transition emission nsymbols ts n

/-- One round of accumulation moves the sums from `n` to `n + 1` time steps. -/
theorem train_accumulate_acc (observed : List Nat) (initial : List U)
    (transition emission : List (List U)) (nsymbols : Nat) (ts : TrainState U) (n : Nat)
    (h : TrainInv observed initial transition emission nsymbols ts n) :
    AccFrame ts (train_accumulate observed initial.length nsymbols ts) ∧
    TrainAcc observed initial transition emission nsymbols
      (train_accumulate observed initial.length nsymbols ts) (n + 1) := by
  obtain ⟨hs, _, hgam, _, _, _, hprobs, _, _, _, _, hNT, hDT, hNE, hDE, hT, hE⟩ := h
  obtain ⟨hfr, hT', hE'⟩ :=
    train_accumulate_spec observed initial.length nsymbols ts hNT hDT hNE hDE
  refine ⟨hfr, IsMat.of_sameShape hfr.2.2.2.2.2.2.2.1 hNT,
    IsMat.of_sameShape hfr.2.2.2.2.2.2.2.2.1 hDT,
    IsMat.of_sameShape hfr.2.2.2.2.2.2.2.2.2.1 hNE,
    IsMat.of_sameShape hfr.2.2.2.2.2.2.2.2.2.2 hDE, ?_, ?_⟩
  · intro i j hi hj
    rw [(hT' i j hi hj).1, (hT' i j hi hj).2, (hT i j hi hj).1, (hT i j hi hj).2,
      hprobs i j hi hj, hgam i hi, sumLoop_succ, sumLoop_succ]
    exact ⟨rfl, rfl⟩
  · intro i j hi hj
    rw [(hE' i j hi hj).1, (hE' i j hi hj).2, (hE i j hi hj).1, (hE i j hi hj).2,
      hgam j hj, sumLoop_succ, sumLoopAt_succ, hs]
    exact ⟨rfl, rfl⟩

/-- The round of `train` that follows the accumulation, when the loop goes on: `gamma`,
`Next` and `xi` move the state from time `n` to time `n + 1`. -/
theorem train_advance (observed : List Nat) (initial initial' : List U)
    (transition emission : List (List U)) (nsymbols : Nat)
    (hlen : initial'.length = initial.length) (hT : 2 ≤ observed.length)
    (ts ts1 : TrainState U) (n : Nat)
    (h : TrainInv observed initial transition emission nsymbols ts n)
    (hfr : AccFrame ts ts1)
    (hacc : TrainAcc observed initial transition emission nsymbols ts1 (n + 1))
    (hn : n + 2 < observed.length) :
    ∃ beta,
      (BackCache.Next observed initial' transition emission ts1.cache).1 = some beta ∧
      TrainInv observed initial transition emission nsymbols
        { ts1 with
          s := ts1.s + 1
          gam := (gamma observed initial' transition emission (ts1.s + 1 + 1) ts1.beta
            ts1.alphaG ts1.gam).2
          alphaG := (gamma observed initial' transition emission (ts1.s + 1 + 1) ts1.beta
            ts1.alphaG ts1.gam).1
          alphaX := (xi observed initial' transition emission (ts1.s + 1 + 1) beta
            ts1.alphaX ts1.probs).1
          probs := (xi observed initial' transition emission (ts1.s + 1 + 1) beta
            ts1.alphaX ts1.probs).2
          beta := beta
          cache := (BackCache.Next observed initial' transition emission ts1.cache).2 }
        (n + 1) := by
  obtain ⟨hs, hgl, _, haG, haX, hpm, _, hbeta, hsz, hinit, ⟨k, hstream, hk⟩, _⟩ := h
  obtain ⟨f1, f2, f3, f4, f5, f6, f7, _⟩ := hfr
  have ho : observed ≠ [] := by
    intro h0
    rw [h0] at hT
    simp at hT
  obtain ⟨k', rfl⟩ : ∃ k', k = k' + 1 := ⟨k - 1, by omega⟩
  have hnext := Next_stream_congr observed initial initial' transition emission hlen ts1.cache
    (by rw [f7]; exact hsz) ho (by rw [f7]; exact hinit)
  rw [f7, hstream, seg_succ] at hnext
  have hfw : forward_next observed initial' transition emission (n + 1 + 1)
      (fwdCol observed initial transition emission n) =
      fwdCol observed initial transition emission (n + 1) := by
    rw [forward_next_step _ _ _ _ _ _ (by rw [length_fwdCol, hlen]) (by omega)]
    exact fwdStep_congr observed initial initial' transition emission hlen _ _
  refine ⟨betaAt observed initial transition emission (n + 2), ?_, ?_⟩
  · rw [f7]
    exact hnext.1
  · rw [f1, hs, f2, f3, f4, f5, f6, f7, haG, haX, hbeta]
    refine ⟨rfl, ?_, ?_, ?_, ?_, ?_, ?_, rfl, ?_, ?_, ⟨k', ?_, by omega⟩, hacc⟩
    · show (gamma observed initial' transition emission (n + 1 + 1)
        (betaAt observed initial transition emission (n + 1))
        (fwdCol observed initial transition emission n) ts.gam).2.length = _
      rw [length_gamma_snd, hgl]
    · intro i hi
      show rd (gamma observed initial' transition emission (n + 1 + 1)
        (betaAt observed initial transition emission (n + 1))
        (fwdCol observed initial transition emission n) ts.gam).2 i = _
      rw [rd_gamma_snd observed initial' transition emission (n + 1 + 1)
        (betaAt observed initial transition emission (n + 1))
        (fwdCol observed initial transition emission n) ts.gam (by rw [hgl, hlen]) i
        (by rw [hlen]; exact hi), hfw, hlen]
      rfl
    · exact hfw
    · exact hfw
    · have := isMat_xi_snd observed initial' transition emission (n + 1 + 1)
        (betaAt observed initial transition emission (n + 2))
        (fwdCol observed initial transition emission n) ts.probs (by rw [hlen]; exact hpm)
      rw [hlen] at this
      exact this
    · intro i j hi hj
      show rd2 (xi observed initial' transition emission (n + 1 + 1)
        (betaAt observed initial transition emission (n + 2))
        (fwdCol observed initial transition emission n) ts.probs).2 i j = _
      rw [rd2_xi_snd observed initial' transition emission (n + 1 + 1)
        (betaAt observed initial transition emission (n + 2))
        (fwdCol observed initial transition emission n) ts.probs (by rw [hlen]; exact hpm) i j
        (by rw [hlen]; exact hi) (by rw [hlen]; exact hj), hfw, hlen]
      rfl
    · exact hnext.2.2.1
    · exact hnext.2.2.2
    · exact hnext.2.1

/-- The loop of `train` ends, given enough rounds, and leaves the sums over the times
`0 .. T-2` in the accumulators. -/
theorem train_loop_spec (observed : List Nat) (initial initial' : List U)
    (transition emission : List (List U)) (nsymbols : Nat)
    (hlen : initial'.length = initial.length) (hT : 2 ≤ observed.length) :
    ∀ (fuel : Nat) (ts : TrainState U) (n : Nat),
      TrainInv observed initial transition emission nsymbols ts n →
      n + 1 < observed.length → observed.length - 1 - n ≤ fuel →
      ∃ ts', train_loop observed initial' transition emission initial.length nsymbols fuel ts =
          some ts' ∧
        TrainAcc observed initial transition emission nsymbols ts' (observed.length - 1) := by
  intro fuel
  induction fuel with
  | zero =>
    intro ts n _ h1 h2
    omega
  | succ fuel ih =>
    intro ts n h h1 h2
    obtain ⟨hfr, hacc⟩ := train_accumulate_acc observed initial transition emission nsymbols
      ts n h
    have hs1 : (train_accumulate observed initial.length nsymbols ts).s + 1 = n + 1 := by
      rw [hfr.1, h.1]
    unfold train_loop
    simp only []
    by_cases hlast : n + 1 = observed.length - 1
    · rw [if_pos (by rw [hs1]; exact hlast)]
      refine ⟨_, rfl, ?_⟩
      rw [← hlast]
      exact hacc
    · rw [if_neg (by rw [hs1]; exact hlast)]
      obtain ⟨beta, hb, hinv⟩ := train_advance observed initial initial' transition emission
        nsymbols hlen hT ts _ n h hfr hacc (by omega)
      rw [hb]
      simp only []
      exact ih _ (n + 1) hinv (by omega) (by omega)

omit [Numeric U] in
theorem getD_replicate_row (r : Nat) (row : List U) (i : Nat) (hi : i < r) :
    (List.replicate r row).getD i [] = row := by
  rw [List.getD_eq_getElem?_getD, List.getElem?_replicate]
  simp [hi]

theorem rd2_replicate (r c : Nat) (x : U) (i j : Nat) (hi : i < r) (hj : j < c) :
    rd2 (List.replicate r (List.replicate c x)) i j = x := by
  unfold rd2 rd
  rw [getD_replicate_row r _ i hi, List.getD_eq_getElem?_getD, List.getElem?_replicate]
  simp [hj]

/-- Two tables of the same dimensions with the same entries are equal. -/
theorem mat_ext (m m' : List (List U)) (r c : Nat) (h : IsMat m r c) (h' : IsMat m' r c)
    (he : ∀ i j, i < r → j < c → rd2 m i j = rd2 m' i j) : m = m' := by
  apply List.ext_getElem (h.1.trans h'.1.symm)
  intro i h1 h2
  have hi : i < r := by rw [← h.1]; exact h1
  have e1 : m.getD i [] = m[i] := by simp [List.getD_eq_getElem?_getD, h1]
  have e2 : m'.getD i [] = m'[i] := by simp [List.getD_eq_getElem?_getD, h2]
  rw [← e1, ← e2]
  apply ext_rd
  · rw [h.rowlen i hi, h'.rowlen i hi]
  · intro j hj
    rw [h.rowlen i hi] at hj
    exact he i j hi hj

/-- The vectors that a freshly constructed cache will produce. -/
theorem ctor_stream (observed : List Nat) (initial : List U)
    (transition emission : List (List U)) (hT : 2 ≤ observed.length) :
    2 ≤ (BackCache.ctor observed initial transition emission).sz_ ∧
    (BackCache.ctor observed initial transition emission).initialize_ = false ∧
    ∃ k, stream observed initial transition emission
        (BackCache.ctor observed initial transition emission) =
      seg observed initial transition emission 0 k ∧ observed.length ≤ k := by
  have hS : 2 ≤ max 10000 (sqrt_cast observed.length) := by omega
  obtain ⟨hf1, hf2⟩ := populate_first_fields observed initial transition emission _ hT hS
  unfold BackCache.ctor
  refine ⟨by rw [hf1]; exact hS, hf2, _, populate_first_stream _ _ _ _ _ hT hS, ?_⟩
  split <;> omega

/-- One call of `train` returns what one call of `train_full` returns. -/
theorem train_eq_train_full (observed : List Nat) (initial : List U)
    (transition emission : List (List U)) (m : Nat) (hT : 2 ≤ observed.length)
    (hA : IsMat transition initial.length initial.length)
    (hB : IsMat emission initial.length m) :
    train observed initial transition emission =
      some (train_full observed initial transition emission) := by
  obtain ⟨hsz, hini, k, hstr, hk⟩ := ctor_stream observed initial transition emission hT
  have ho : observed ≠ [] := by
    intro h0
    rw [h0] at hT
    simp at hT
  obtain ⟨k1, rfl⟩ : ∃ k1, k = k1 + 2 := ⟨k - 2, by omega⟩
  have hn1 := Next_stream observed initial transition emission _ hsz ho hini
  rw [hstr, seg_succ, List.head?_cons, List.tail_cons] at hn1
  have hn2 := Next_stream observed initial transition emission _
    (by rw [hn1.2.2.1]; exact hsz) ho hn1.2.2.2
  rw [hn1.2.1, seg_succ, List.head?_cons, List.tail_cons] at hn2
  unfold train
  simp only []
  rw [hn1.1]
  simp only []
  rw [hn2.1]
  simp only []
  set g := gamma observed initial transition emission 1
    (betaAt observed initial transition emission 0)
    (List.replicate initial.length Numeric.zero) (List.replicate initial.length Numeric.zero)
    with hg
  set x := xi observed initial transition emission 1
    (betaAt observed initial transition emission (0 + 1))
    (List.replicate initial.length Numeric.zero)
    (List.replicate initial.length (List.replicate initial.length Numeric.zero)) with hx
  set c2 := (BackCache.Next observed initial transition emission
    (BackCache.Next observed initial transition emission
      (BackCache.ctor observed initial transition emission)).2).2 with hc2
  set pi' := List.foldl (fun ini y => ini.set y (Numeric.exp (rd g.2 y))) initial
    (List.range initial.length) with hpi'
  have hlen : pi'.length = initial.length := length_foldl_set (fun _ y => _) _ _
  have hfw : forward_next observed initial transition emission 1
      (List.replicate initial.length Numeric.zero) =
      fwdCol observed initial transition emission 0 :=
    forward_next_one observed initial transition emission _ (by simp)
  have hinv : TrainInv observed initial transition emission (emission.getD 0 []).length
      { s := 0, gam := g.2, alphaG := g.1, alphaX := x.1, probs := x.2
        numeratorT := List.replicate initial.length (List.replicate initial.length inf)
        denominatorT := List.replicate initial.length (List.replicate initial.length inf)
        numeratorE := List.replicate (emission.getD 0 []).length
          (List.replicate initial.length inf)
        denominatorE := List.replicate (emission.getD 0 []).length
          (List.replicate initial.length inf)
        beta := betaAt observed initial transition emission (0 + 1)
        cache := c2 } 0 := by
    refine ⟨rfl, ?_, ?_, ?_, ?_, ?_, ?_, rfl, ?_, hn2.2.2.2, ⟨k1, hn2.2.1, by omega⟩,
      isMat_replicate _ _ _, isMat_replicate _ _ _, isMat_replicate _ _ _,
      isMat_replicate _ _ _, ?_, ?_⟩
    · show g.2.length = initial.length
      rw [hg, length_gamma_snd, List.length_replicate]
    · intro i hi
      show rd g.2 i = _
      rw [hg, rd_gamma_snd _ _ _ _ _ _ _ _ (by simp) i hi, hfw]
      rfl
    · show g.1 = _
      rw [hg, gamma_fst, hfw]
    · show x.1 = _
      rw [hx, xi_fst, hfw]
    · exact isMat_xi_snd _ _ _ _ _ _ _ _ (isMat_replicate _ _ _)
    · intro i j hi hj
      show rd2 x.2 i j = _
      rw [hx, rd2_xi_snd _ _ _ _ _ _ _ _ (isMat_replicate _ _ _) i j hi hj, hfw]
      rfl
    · show 2 ≤ c2.sz_
      rw [hc2, hn2.2.2.1, hn1.2.2.1]
      exact hsz
    · intro i j hi hj
      exact ⟨rd2_replicate _ _ _ i j hi hj, rd2_replicate _ _ _ i j hi hj⟩
    · intro i j hi hj
      exact ⟨rd2_replicate _ _ _ i j hi hj, rd2_replicate _ _ _ i j hi hj⟩
  obtain ⟨ts', hloop, hacc⟩ := train_loop_spec observed initial pi' transition emission
    (emission.getD 0 []).length hlen hT observed.length _ 0 hinv (by omega) (by omega)
  rw [hloop]
  simp only []
  have hnm : (emission.getD 0 []).length ≤ m := by
    by_cases hN : 0 < initial.length
    · exact le_of_eq (nsymbols_eq emission _ _ hB hN)
    · have h0 : emission.length = 0 := by rw [hB.1]; omega
      rw [List.length_eq_zero.1 h0]
      simp
  have hnest := update_nest (max (emission.getD 0 []).length initial.length) initial.length
    (emission.getD 0 []).length m
    (fun i j => elnproduct (rd2 ts'.numeratorT i j) (Numeric.neg (rd2 ts'.denominatorT i j)))
    (fun i j => elnproduct (rd2 ts'.numeratorE i j) (Numeric.neg (rd2 ts'.denominatorE i j)))
    transition emission hA hB (le_max_right _ _) (le_max_left _ _) hnm
  have hfull := train_full_entries observed initial transition emission m hT hA hB
  have hshape := train_full_shape observed initial transition emission m hA hB
  have hgam := (gamma_m_full_entry observed initial transition emission
    (List.replicate initial.length (List.replicate observed.length Numeric.zero))
    (isMat_replicate _ _ _) hT).2
  obtain ⟨_, _, _, _, haccT, haccE⟩ := hacc
  congr 1
  refine Prod.ext ?_ (Prod.ext ?_ ?_)
  · apply ext_rd
    · rw [hlen, hshape.1]
    · intro i hi
      rw [hlen] at hi
      show rd pi' i = _
      rw [hpi', hfull.1 i hi, hgam i 0 hi (by omega)]
      rw [rd_foldl_set (fun y => Numeric.exp (rd g.2 y)) initial.length initial i,
        if_pos ⟨hi, hi⟩, hinv.2.2.1 i hi]
      rfl
  · apply mat_ext _ _ initial.length initial.length
      (IsMat.of_sameShape hnest.2.2.1 hA) (IsMat.of_sameShape hshape.2.1 hA)
    intro i j hi hj
    show rd2 _ i j = rd2 (train_full observed initial transition emission).2.1 i j
    rw [hnest.1 i j hi hj, hfull.2.1 i j hi hj]
    beta_reduce
    rw [(haccT i j hi hj).1, (haccT i j hi hj).2]
    rw [sumLoop_congr (observed.length - 1) (fun s => rd3 _ i j s) _ (fun s hs =>
        xi_full_entry observed initial transition emission _ (isCube_replicate _ _ _ _) hT
          i j s hi hj (by omega)),
      sumLoop_congr (observed.length - 1) (fun s => rd2 _ i s) _ (fun s hs =>
        hgam i s hi (by omega))]
    rfl
  · apply mat_ext _ _ initial.length m
      (IsMat.of_sameShape hnest.2.2.2 hB) (IsMat.of_sameShape hshape.2.2 hB)
    intro j k hj hk
    have hk' : k < (emission.getD 0 []).length := by
      rw [nsymbols_eq emission _ _ hB (by omega)]
      exact hk
    show rd2 _ j k = rd2 (train_full observed initial transition emission).2.2 j k
    rw [hnest.2.1 j k hj hk', hfull.2.2 j k hj hk]
    beta_reduce
    rw [(haccE k j hk' hj).1, (haccE k j hk' hj).2]
    have hAt : sumLoopAt observed k (observed.length - 1) (fun s =>
        rd2 (gamma_m_full observed initial transition emission
          (List.replicate initial.length (List.replicate observed.length Numeric.zero)))
          j s) =
        sumLoopAt observed k (observed.length - 1)
          (fun s => gammaSpec observed initial transition emission s j) := by
      unfold sumLoopAt
      apply foldl_congr_mem
      intro a s hs
      have hs' := List.mem_range.1 hs
      simp only [hgam j s hj (by omega)]
      rfl
    rw [hAt, sumLoop_congr (observed.length - 1) (fun s => rd2 _ j s) _ (fun s hs =>
        hgam j s hj (by omega))]
    rfl

/-- Property C1.  For `T >= 2`, `A` of size `N x N` and `B` of size `N x M`: one call of
`train` ends and leaves exactly the `pi`, `A` and `B` that one call of `train_full` leaves,
started from the same model; hence two successive iterations of each agree as well. -/
theorem train_refines_train_full (observed : List Nat) (initial : List U)
    (transition emission : List (List U)) (m : Nat) (hT : 2 ≤ observed.length)
    (hA : IsMat transition initial.length initial.length)
    (hB : IsMat emission initial.length m) :
    train observed initial transition emission =
      some (train_full observed initial transition emission) ∧
    (train observed initial transition emission).bind
        (fun r => train observed r.1 r.2.1 r.2.2) =
      some (train_full observed (train_full observed initial transition emission).1
        (train_full observed initial transition emission).2.1
        (train_full observed initial transition emission).2.2) := by
  have h1 := train_eq_train_full observed initial transition emission m hT hA hB
  refine ⟨h1, ?_⟩
  rw [h1, Option.some_bind]
  obtain ⟨s1, s2, s3⟩ := train_full_shape observed initial transition emission m hA hB
  exact train_eq_train_full observed _ _ _ m hT
    (by rw [s1]; exact IsMat.of_sameShape s2 hA) (by rw [s1]; exact IsMat.of_sameShape s3 hB)

/-! ## The decoder `viterbi`, step by step -/

/-- The running maximum `mx` of the loop over `k` in `viterbi`: starts at `f 0`, takes `f k`
whenever `f k > mx`. -/
def vitMax (n : Nat) (f : Nat → U) : U :=
  (List.range' 1 (n - 1)).foldl (fun mx k => if Numeric.gt (f k) mx then f k else mx) (f 0)

/-- The vector `delta_s` of the max-product recurrence:
`delta_0[i] = pi[i] (x) B[i][O_0]`,
`delta_s[j] = (running maximum over k of delta_(s-1)[k] (x) A[k][j]) (x) B[j][O_s]`. -/
def vitDelta (observed : List Nat) (initial : List U) (transition emission : List (List U)) :
    Nat → List U
  | 0 => (List.range initial.length).map
      (fun i => elnproduct (rd initial i) (rd2 emission i (ob observed 0)))
  | s + 1 => (List.range initial.length).map
      (fun j => elnproduct
        (vitMax initial.length
          (fun k => elnproduct (rd (vitDelta observed initial transition emission s) k)
            (rd2 transition k j)))
        (rd2 emission j (ob observed (s + 1))))

/-- The index chosen by the first loop of `viterbi` over the values `f 0 .. f (n-1)`. -/
def vitFirst (n : Nat) (f : Nat → U) : Nat :=
  (List.range n).foldl (fun idx i => if Numeric.gt (f i) (f idx) then i else idx) 0

/-- The pair (`gmx`, `index`) chosen by a round of the loop over `s` in `viterbi` over the
values `f 0 .. f (n-1)`, started from the pair (`g0`, `i0`) of the round before. -/
def vitPick (n : Nat) (f : Nat → U) (g0 : U) (i0 : Nat) : U × Nat :=
  (List.range n).foldl
    (fun (r : U × Nat) j => if Numeric.gt (f j) r.1 || decide (0 = j) then (f j, j) else r)
    (g0, i0)

theorem length_vitDelta (observed : List Nat) (initial : List U)
    (transition emission : List (List U)) (s : Nat) :
    (vitDelta observed initial transition emission s).length = initial.length := by
  cases s <;> simp [vitDelta]

/-- The pair chosen by a round does not depend on the pair of the round before. -/
theorem vitPick_indep (n : Nat) (f : Nat → U) (g0 g1 : U) (i0 i1 : Nat) (hn : 0 < n) :
    vitPick n f g0 i0 = vitPick n f g1 i1 := by
  obtain ⟨n', rfl⟩ : ∃ n', n = n' + 1 := ⟨n - 1, by omega⟩
  unfold vitPick
  rw [List.range_succ_eq_map, List.foldl_cons, List.foldl_cons]
  simp

/-- The first loop of `viterbi`: column 0 of `delta` gets `delta_0` and `index` the chosen
state. -/
theorem viterbi_first (n : Nat) (f : Nat → U) (D0 : List (List U)) (c : Nat)
    (hD : IsMat D0 n c) (hc : 0 < c) (k : Nat) (hk : k ≤ n) :
    SameShape ((List.range k).foldl
      (fun (r : List (List U) × Nat) i =>
        (wr2 r.1 i 0 (f i),
          if Numeric.gt (rd2 (wr2 r.1 i 0 (f i)) i 0) (rd2 (wr2 r.1 i 0 (f i)) r.2 0) then i
          else r.2)) (D0, 0)).1 D0 ∧
    (∀ i, i < k → rd2 ((List.range k).foldl
      (fun (r : List (List U) × Nat) i =>
        (wr2 r.1 i 0 (f i),
          if Numeric.gt (rd2 (wr2 r.1 i 0 (f i)) i 0) (rd2 (wr2 r.1 i 0 (f i)) r.2 0) then i
          else r.2)) (D0, 0)).1 i 0 = f i) ∧
    ((List.range k).foldl
      (fun (r : List (List U) × Nat) i =>
        (wr2 r.1 i 0 (f i),
          if Numeric.gt (rd2 (wr2 r.1 i 0 (f i)) i 0) (rd2 (wr2 r.1 i 0 (f i)) r.2 0) then i
          else r.2)) (D0, 0)).2 = vitFirst k f ∧
    (vitFirst k f < k ∨ (k = 0 ∧ vitFirst k f = 0)) := by
  induction k with
  | zero => exact ⟨SameShape.refl _, fun i hi => by omega, rfl, Or.inr ⟨rfl, rfl⟩⟩
  | succ k ih =>
    obtain ⟨h1, h2, h3, h4⟩ := ih (by omega)
    rw [List.range_succ, List.foldl_append]
    simp only [List.foldl_cons, List.foldl_nil]
    generalize hr : (List.range k).foldl
      (fun (r : List (List U) × Nat) i =>
        (wr2 r.1 i 0 (f i),
          if Numeric.gt (rd2 (wr2 r.1 i 0 (f i)) i 0) (rd2 (wr2 r.1 i 0 (f i)) r.2 0) then i
          else r.2)) (D0, 0) = r at h1 h2 h3
    have hv := (IsMat.of_sameShape h1 hD).valid k 0 (by omega) hc
    have e1 : rd2 (wr2 r.1 k 0 (f k)) k 0 = f k := by
      rw [rd2_wr2, if_pos ⟨rfl, rfl, hv.1, hv.2⟩]
    have e2 : rd2 (wr2 r.1 k 0 (f k)) r.2 0 = f r.2 := by
      rw [rd2_wr2]
      by_cases hkk : k = r.2
      · rw [if_pos ⟨hkk, rfl, hv.1, hv.2⟩, hkk]
      · rw [if_neg (fun hh => hkk hh.1)]
        rw [h3] at hkk ⊢
        rcases h4 with h4 | ⟨h4, h5⟩
        · exact h2 _ h4
        · exact absurd (h4.trans h5.symm) hkk
    have hF : vitFirst (k + 1) f =
        if Numeric.gt (f k) (f (vitFirst k f)) then k else vitFirst k f := by
      unfold vitFirst
      rw [List.range_succ, List.foldl_append]
      rfl
    refine ⟨(sameShape_wr2 _ _ _ _).trans h1, ?_, ?_, ?_⟩
    · intro i hi
      by_cases hik : i = k
      · rw [hik]; exact e1
      · rw [rd2_wr2, if_neg (fun hh => hik hh.1.symm)]
        exact h2 i (by omega)
    · rw [e1, e2, hF, h3]
    · rw [hF]
      left
      split
      · omega
      · rcases h4 with h4 | ⟨h4, h5⟩
        · omega
        · omega

/-- The loop over `j` inside one round of `viterbi`, run over `j < k`: column `p` of `delta`
gets the new values, column `a` stays, and (`gmx`, `index`) is the chosen pair. -/
theorem viterbi_inner (observed : List Nat) (n : Nat) (transition emission : List (List U))
    (s a p : Nat) (D0 : List (List U)) (g0 : U) (i0 : Nat)
    (hD : IsMat D0 n 2) (hap : a ≠ p) (hp : p < 2) (k : Nat) (hk : k ≤ n) :
    SameShape ((List.range k).foldl
      (fun (r : List (List U) × U × Nat) j =>
        let delta := r.1
        let gmx := r.2.1
        let index := r.2.2
        let mx0 := elnproduct (rd2 delta 0 a) (rd2 transition 0 j)
        let mx := (List.range' 1 (n - 1)).foldl
          (fun mx k =>
            let tmp := elnproduct (rd2 delta k a) (rd2 transition k j)
            if Numeric.gt tmp mx then tmp else mx) mx0
        let delta := wr2 delta j p (elnproduct mx (rd2 emission j (ob observed s)))
        if Numeric.gt (rd2 delta j p) gmx || decide (0 = j) then
          (delta, rd2 delta j p, j)
        else (delta, gmx, index))
      (D0, g0, i0)).1 D0 ∧
    (∀ i, rd2 ((List.range k).foldl
      (fun (r : List (List U) × U × Nat) j =>
        let delta := r.1
        let gmx := r.2.1
        let index := r.2.2
        let mx0 := elnproduct (rd2 delta 0 a) (rd2 transition 0 j)
        let mx := (List.range' 1 (n - 1)).foldl
          (fun mx k =>
            let tmp := elnproduct (rd2 delta k a) (rd2 transition k j)
            if Numeric.gt tmp mx then tmp else mx) mx0
        let delta := wr2 delta j p (elnproduct mx (rd2 emission j (ob observed s)))
        if Numeric.gt (rd2 delta j p) gmx || decide (0 = j) then
          (delta, rd2 delta j p, j)
        else (delta, gmx, index))
      (D0, g0, i0)).1 i a = rd2 D0 i a) ∧
    (∀ j, j < k → rd2 ((List.range k).foldl
      (fun (r : List (List U) × U × Nat) j =>
        let delta := r.1
        let gmx := r.2.1
        let index := r.2.2
        let mx0 := elnproduct (rd2 delta 0 a) (rd2 transition 0 j)
        let mx := (List.range' 1 (n - 1)).foldl
          (fun mx k =>
            let tmp := elnproduct (rd2 delta k a) (rd2 transition k j)
            if Numeric.gt tmp mx then tmp else mx) mx0
        let delta := wr2 delta j p (elnproduct mx (rd2 emission j (ob observed s)))
        if Numeric.gt (rd2 delta j p) gmx || decide (0 = j) then
          (delta, rd2 delta j p, j)
        else (delta, gmx, index))
      (D0, g0, i0)).1 j p =
        elnproduct (vitMax n (fun k => elnproduct (rd2 D0 k a) (rd2 transition k j)))
          (rd2 emission j (ob observed s))) ∧
    ((List.range k).foldl
      (fun (r : List (List U) × U × Nat) j =>
        let delta := r.1
        let gmx := r.2.1
        let index := r.2.2
        let mx0 := elnproduct (rd2 delta 0 a) (rd2 transition 0 j)
        let mx := (List.range' 1 (n - 1)).foldl
          (fun mx k =>
            let tmp := elnproduct (rd2 delta k a) (rd2 transition k j)
            if Numeric.gt tmp mx then tmp else mx) mx0
        let delta := wr2 delta j p (elnproduct mx (rd2 emission j (ob observed s)))
        if Numeric.gt (rd2 delta j p) gmx || decide (0 = j) then
          (delta, rd2 delta j p, j)
        else (delta, gmx, index))
      (D0, g0, i0)).2 =
      vitPick k (fun j => elnproduct
        (vitMax n (fun k => elnproduct (rd2 D0 k a) (rd2 transition k j)))
        (rd2 emission j (ob observed s))) g0 i0 := by
  induction k with
  | zero => exact ⟨SameShape.refl _, fun _ => rfl, fun j hj => by omega, rfl⟩
  | succ k ih =>
    obtain ⟨h1, h2, h3, h4⟩ := ih (by omega)
    rw [List.range_succ, List.foldl_append]
    simp only [List.foldl_cons, List.foldl_nil]
    generalize hr : (List.range k).foldl
      (fun (r : List (List U) × U × Nat) j =>
        let delta := r.1
        let gmx := r.2.1
        let index := r.2.2
        let mx0 := elnproduct (rd2 delta 0 a) (rd2 transition 0 j)
        let mx := (List.range' 1 (n - 1)).foldl
          (fun mx k =>
            let tmp := elnproduct (rd2 delta k a) (rd2 transition k j)
            if Numeric.gt tmp mx then tmp else mx) mx0
        let delta := wr2 delta j p (elnproduct mx (rd2 emission j (ob observed s)))
        if Numeric.gt (rd2 delta j p) gmx || decide (0 = j) then
          (delta, rd2 delta j p, j)
        else (delta, gmx, index))
      (D0, g0, i0) = r at h1 h2 h3 h4
    have hv := (IsMat.of_sameShape h1 hD).valid k p (by omega) hp
    have hmx : (List.range' 1 (n - 1)).foldl
        (fun mx k' => if Numeric.gt (elnproduct (rd2 r.1 k' a) (rd2 transition k' k)) mx
          then elnproduct (rd2 r.1 k' a) (rd2 transition k' k) else mx)
        (elnproduct (rd2 r.1 0 a) (rd2 transition 0 k)) =
        vitMax n (fun k' => elnproduct (rd2 D0 k' a) (rd2 transition k' k)) := by
      unfold vitMax
      simp only [h2]
    rw [hmx]
    have e1 : rd2 (wr2 r.1 k p (elnproduct
        (vitMax n (fun k' => elnproduct (rd2 D0 k' a) (rd2 transition k' k)))
        (rd2 emission k (ob observed s)))) k p =
        elnproduct (vitMax n (fun k' => elnproduct (rd2 D0 k' a) (rd2 transition k' k)))
          (rd2 emission k (ob observed s)) := by
      rw [rd2_wr2, if_pos ⟨rfl, rfl, hv.1, hv.2⟩]
    rw [e1]
    have hP : vitPick (k + 1) (fun j => elnproduct
        (vitMax n (fun k => elnproduct (rd2 D0 k a) (rd2 transition k j)))
        (rd2 emission j (ob observed s))) g0 i0 =
        if Numeric.gt (elnproduct
            (vitMax n (fun k' => elnproduct (rd2 D0 k' a) (rd2 transition k' k)))
            (rd2 emission k (ob observed s))) r.2.1 || decide (0 = k) then
          (elnproduct (vitMax n (fun k' => elnproduct (rd2 D0 k' a) (rd2 transition k' k)))
            (rd2 emission k (ob observed s)), k)
        else r.2 := by
      unfold vitPick at h4 ⊢
      rw [List.range_succ, List.foldl_append, ← h4]
      rfl
    rw [hP]
    split
    · refine ⟨(sameShape_wr2 _ _ _ _).trans h1, ?_, ?_, rfl⟩
      · intro i
        rw [rd2_wr2, if_neg (fun hh => hap hh.2.1.symm)]
        exact h2 i
      · intro j hj
        by_cases hjk : j = k
        · rw [hjk]; exact e1
        · rw [rd2_wr2, if_neg (fun hh => hjk hh.1.symm)]
          exact h3 j (by omega)
    · refine ⟨(sameShape_wr2 _ _ _ _).trans h1, ?_, ?_, rfl⟩
      · intro i
        rw [rd2_wr2, if_neg (fun hh => hap hh.2.1.symm)]
        exact h2 i
      · intro j hj
        by_cases hjk : j = k
        · rw [hjk]; exact e1
        · rw [rd2_wr2, if_neg (fun hh => hjk hh.1.symm)]
          exact h3 j (by omega)

theorem vitMax_congr (n : Nat) (f g : Nat → U) (hn : 0 < n) (h : ∀ k, k < n → f k = g k) :
    vitMax n f = vitMax n g := by
  unfold vitMax
  rw [h 0 hn]
  apply foldl_congr_mem
  intro mx k hk
  have hk' := List.mem_range'_1.1 hk
  rw [h k (by omega)]

theorem vitPick_congr (n : Nat) (f g : Nat → U) (g0 : U) (i0 : Nat)
    (h : ∀ k, k < n → f k = g k) : vitPick n f g0 i0 = vitPick n g g0 i0 := by
  unfold vitPick
  apply foldl_congr_mem
  intro r j hj
  rw [h j (List.mem_range.1 hj)]

/-- The indices that `viterbi` writes in the first `t + 1` steps. -/
def vitOut (observed : List Nat) (initial : List U) (transition emission : List (List U))
    (t : Nat) : List Nat :=
  vitFirst initial.length (rd (vitDelta observed initial transition emission 0)) ::
    (List.range' 1 t).map (fun s =>
      (vitPick initial.length (rd (vitDelta observed initial transition emission s))
        Numeric.zero 0).2)

/-- Invariant of the loop over `s` in `viterbi` when round `s = t + 1` is about to run. -/
def VitInv (observed : List Nat) (initial : List U) (transition emission : List (List U))
    (vs : VitState U) (t : Nat) : Prop :=
  IsMat vs.delta initial.length 2 ∧ vs.active ≠ vs.passive ∧ vs.active < 2 ∧
  vs.passive < 2 ∧
  (∀ k, k < initial.length →
    rd2 vs.delta k vs.active = rd (vitDelta observed initial transition emission t) k) ∧
  vs.out = vitOut observed initial transition emission t

/-- One round of the loop over `s` in `viterbi` keeps the invariant. -/
theorem viterbi_round_inv (observed : List Nat) (initial : List U)
    (transition emission : List (List U)) (hN : 0 < initial.length) (vs : VitState U)
    (t : Nat) (h : VitInv observed initial transition emission vs t) :
    VitInv observed initial transition emission
      (viterbi_round observed initial.length transition emission vs (t + 1)) (t + 1) := by
  obtain ⟨hD, hap, ha, hp, hcol, hout⟩ := h
  obtain ⟨h1, h2, h3, h4⟩ := viterbi_inner observed initial.length transition emission (t + 1)
    vs.active vs.passive vs.delta vs.gmx vs.index hD hap hp initial.length (le_refl _)
  have hF : ∀ j, j < initial.length →
      elnproduct (vitMax initial.length
        (fun k => elnproduct (rd2 vs.delta k vs.active) (rd2 transition k j)))
        (rd2 emission j (ob observed (t + 1))) =
      rd (vitDelta observed initial transition emission (t + 1)) j := by
    intro j hj
    simp only [vitDelta, rd_map_range, hj, if_true]
    rw [vitMax_congr _ _ _ hN (fun k hk => by rw [hcol k hk])]
  unfold viterbi_round
  refine ⟨IsMat.of_sameShape h1 hD, fun e => hap e.symm, hp, ha, ?_, ?_⟩
  · intro k hk
    exact (h3 k hk).trans (hF k hk)
  · show vs.out ++ [_] = _
    rw [h4, hout, vitPick_congr _ _ _ _ _ hF,
      vitPick_indep _ _ vs.gmx Numeric.zero vs.index 0 hN]
    unfold vitOut
    rw [range'_concat_one, List.map_append]
    simp [Nat.add_comm]

theorem vitFirst_succ (k : Nat) (f : Nat → U) :
    vitFirst (k + 1) f = if Numeric.gt (f k) (f (vitFirst k f)) then k else vitFirst k f := by
  unfold vitFirst
  rw [List.range_succ, List.foldl_append]
  rfl

theorem vitFirst_lt (k : Nat) (f : Nat → U) (hk : 0 < k) : vitFirst k f < k := by
  induction k with
  | zero => omega
  | succ k ih =>
    rw [vitFirst_succ]
    split
    · omega
    · by_cases h0 : k = 0
      · subst h0
        exact Nat.lt_succ_of_le (Nat.le_of_eq rfl)
      · have := ih (by omega)
        omega

theorem vitFirst_congr (n : Nat) (f g : Nat → U) (k : Nat) (hk : k ≤ n) (hn : 0 < n)
    (h : ∀ i, i < n → f i = g i) : vitFirst k f = vitFirst k g := by
  induction k with
  | zero => rfl
  | succ k ih =>
    have ih' := ih (by omega)
    have hlt : vitFirst k g < n := by
      by_cases h0 : k = 0
      · subst h0
        exact hn
      · have := vitFirst_lt k g (by omega)
        omega
    rw [vitFirst_succ, vitFirst_succ, ih', h k (by omega), h _ hlt]

theorem viterbi_rounds_inv (observed : List Nat) (initial : List U)
    (transition emission : List (List U)) (hN : 0 < initial.length) (vs : VitState U)
    (h : VitInv observed initial transition emission vs 0) (t : Nat) :
    VitInv observed initial transition emission
      ((List.range' 1 t).foldl (viterbi_round observed initial.length transition emission) vs)
      t := by
  induction t with
  | zero => exact h
  | succ t ih =>
    rw [range'_concat_one, List.foldl_append]
    simp only [List.foldl_cons, List.foldl_nil]
    rw [Nat.add_comm 1 t]
    exact viterbi_round_inv observed initial transition emission hN _ t ih

/-- The indices written by `viterbi`: the state chosen from `delta_0`, then for each
`s = 1 .. T-1` the state chosen from `delta_s`. -/
theorem viterbi_eq (observed : List Nat) (initial : List U)
    (transition emission : List (List U)) (hN : 0 < initial.length) :
    viterbi observed initial transition emission =
      vitOut observed initial transition emission (observed.length - 1) := by
  obtain ⟨h1, h2, h3, _⟩ := viterbi_first initial.length
    (fun i => elnproduct (rd initial i) (rd2 emission i (ob observed 0)))
    (List.replicate initial.length (List.replicate 2 Numeric.zero)) 2
    (isMat_replicate _ _ _) (by decide) initial.length (le_refl _)
  have hinv : VitInv observed initial transition emission
      { delta := ((List.range initial.length).foldl
          (fun (r : List (List U) × Nat) i =>
            (wr2 r.1 i 0 (elnproduct (rd initial i) (rd2 emission i (ob observed 0))),
              if Numeric.gt
                  (rd2 (wr2 r.1 i 0 (elnproduct (rd initial i)
                    (rd2 emission i (ob observed 0)))) i 0)
                  (rd2 (wr2 r.1 i 0 (elnproduct (rd initial i)
                    (rd2 emission i (ob observed 0)))) r.2 0) then i
              else r.2))
          (List.replicate initial.length (List.replicate 2 Numeric.zero), 0)).1
        index := 0, gmx := Numeric.zero, active := 0, passive := 0 + 1
        out := [((List.range initial.length).foldl
          (fun (r : List (List U) × Nat) i =>
            (wr2 r.1 i 0 (elnproduct (rd initial i) (rd2 emission i (ob observed 0))),
              if Numeric.gt
                  (rd2 (wr2 r.1 i 0 (elnproduct (rd initial i)
                    (rd2 emission i (ob observed 0)))) i 0)
                  (rd2 (wr2 r.1 i 0 (elnproduct (rd initial i)
                    (rd2 emission i (ob observed 0)))) r.2 0) then i
              else r.2))
          (List.replicate initial.length (List.replicate 2 Numeric.zero), 0)).2] } 0 := by
    refine ⟨IsMat.of_sameShape h1 (isMat_replicate _ _ _), Nat.zero_ne_one,
      Nat.zero_lt_two, Nat.one_lt_two, ?_, ?_⟩
    · intro k hk
      show rd2 _ k 0 = _
      rw [h2 k hk]
      simp only [vitDelta, rd_map_range, hk, if_true]
    · show [_] = _
      rw [h3]
      unfold vitOut
      simp only [List.range'_zero, List.map_nil]
      rw [vitFirst_congr initial.length _
        (rd (vitDelta observed initial transition emission 0)) initial.length (le_refl _) hN
        (fun i hi => by simp only [vitDelta, rd_map_range, hi, if_true])]
  exact (viterbi_rounds_inv observed initial transition emission hN _ hinv
    (observed.length - 1)).2.2.2.2.2

/-! ## Short sequences and indices out of range -/

/-- Property C21.  For every model and every observation sequence of length `T < 2`,
`evalp` returns the sentinel `LZERO`. -/
theorem evalp_short_returns_lzero (observed : List Nat) (initial : List U)
    (transition emission : List (List U)) (h : observed.length < 2) :
    evalp observed initial transition emission = inf := by
  unfold evalp
  simp only [h, if_true]

/-- Property C28.  When `T < 2`, `index < 1` or `index > T`, each of `backward_full`,
`backward_index` and `backward_next` returns its beta argument exactly as it was. -/
theorem backward_out_of_range_is_noop (observed : List Nat) (initial : List U)
    (transition emission : List (List U)) (index : Nat)
    (h : observed.length < 2 ∨ index < 1 ∨ observed.length < index) :
    (∀ beta : List (List U),
      backward_full observed initial transition emission index beta = beta) ∧
    (∀ beta : List U, backward_index observed initial transition emission index beta = beta) ∧
    (∀ beta : List U, backward_next observed initial transition emission index beta = beta) := by
  refine ⟨?_, ?_, ?_⟩ <;> intro beta
  · unfold backward_full
    by_cases h1 : observed.length < 2
    · simp only [h1, if_true]
    · have h2 : (decide (index > observed.length) || decide (index < 1)) = true := by
        rcases h with h | h | h
        · exact absurd h h1
        · simp [h]
        · simp [h]
      simp only [h1, if_false, h2, if_true]
  · unfold backward_index
    by_cases h1 : observed.length < 2
    · simp only [h1, if_true]
    · have h2 : (decide (index > observed.length) || decide (index < 1)) = true := by
        rcases h with h | h | h
        · exact absurd h h1
        · simp [h]
        · simp [h]
      simp only [h1, if_false, h2, if_true]
  · unfold backward_next
    by_cases h1 : observed.length < 2
    · simp only [h1, if_true]
    · have h2 : (decide (index > observed.length) || decide (index < 1)) = true := by
        rcases h with h | h | h
        · exact absurd h h1
        · simp [h]
        · simp [h]
      simp only [h1, if_false, h2, if_true]

/-- A call of `Next()` on a cache whose active list is not empty. -/
theorem Next_active_cons (observed : List Nat) (initial : List U)
    (transition emission : List (List U)) (c : BackCache U) (rtn : List U)
    (rest : List (List U)) (h : c.activeItems_ = rtn :: rest) :
    BackCache.Next observed initial transition emission c =
      (some rtn, { c with activeItems_ := rest }) := by
  rw [BackCache.Next]
  simp only [h]

/-- A call of `Next()` on a cache with nothing left. -/
theorem Next_exhausted (observed : List Nat) (initial : List U)
    (transition emission : List (List U)) (c : BackCache U)
    (ha : c.activeItems_ = []) (hp : c.passiveItems_ = []) :
    BackCache.Next observed initial transition emission c = (none, c) := by
  rw [BackCache.Next]
  simp [ha, hp]

/-- The cache built for an empty observation sequence. -/
theorem ctor_nil (initial : List U) (transition emission : List (List U)) :
    BackCache.ctor ([] : List Nat) initial transition emission =
      { passiveItems_ := [], activeItems_ := [], markers_ := [], counters_ := []
        initialize_ := true, sz_ := max 10000 (sqrt_cast 0) } := by
  unfold BackCache.ctor BackCache.populate
  simp

/-- The cache built for one observation: the single vector `beta_0`, all zeros. -/
theorem ctor_one (observed : List Nat) (initial : List U)
    (transition emission : List (List U)) (h : observed.length = 1) :
    BackCache.ctor observed initial transition emission =
      { passiveItems_ := [], activeItems_ := [List.replicate initial.length Numeric.zero]
        markers_ := [], counters_ := [], initialize_ := false
        sz_ := max 10000 (sqrt_cast 1) } := by
  obtain ⟨o, rfl⟩ : ∃ o, observed = [o] := by
    cases observed with
    | nil => simp at h
    | cons a l =>
      cases l with
      | nil => exact ⟨a, rfl⟩
      | cons b l => simp at h
  unfold BackCache.ctor BackCache.populate
  have hd : downTo (([o] : List Nat).length - 1) 1 = [] := rfl
  have hs : ¬ max 10000 (sqrt_cast ([o] : List Nat).length) ≤ 1 := by
    have := le_max_left 10000 (sqrt_cast ([o] : List Nat).length)
    omega
  have hl : ([o] : List Nat).length ≤ max 10000 (sqrt_cast ([o] : List Nat).length) := by
    have := le_max_left 10000 (sqrt_cast ([o] : List Nat).length)
    simp only [List.length_singleton]
    omega
  simp only [hd, hs, hl, List.isEmpty_cons, Bool.or_false, decide_False, decide_True,
    Bool.false_eq_true, if_false, if_true, Bool.not_true, List.foldl_nil]
  rfl

/-- Property C22.  For one observation (`T = 1`) `train` returns with `pi`, `A` and `B`
unchanged: the cache holds the single vector `beta_0`, the second call of `Next()` returns
null and `train` returns there. -/
theorem train_single_observation_unchanged (observed : List Nat) (initial : List U)
    (transition emission : List (List U)) (h : observed.length = 1) :
    train observed initial transition emission = some (initial, transition, emission) := by
  unfold train
  simp only []
  rw [ctor_one observed initial transition emission h,
    Next_active_cons observed initial transition emission _ _ [] rfl]
  simp only []
  rw [Next_exhausted observed initial transition emission _ rfl rfl]

theorem afterNext_exhausted (observed : List Nat) (initial : List U)
    (transition emission : List (List U)) (c : BackCache U)
    (ha : c.activeItems_ = []) (hp : c.passiveItems_ = []) (n : Nat) :
    afterNext observed initial transition emission n c = c := by
  induction n with
  | zero => rfl
  | succ n ih =>
    unfold afterNext
    rw [Next_exhausted observed initial transition emission c ha hp]
    exact ih

/-- The cache built for at most one observation holds exactly `T` vectors, all zeros. -/
theorem ctor_short (observed : List Nat) (initial : List U)
    (transition emission : List (List U)) (h : observed.length ≤ 1) :
    BackCache.Size (BackCache.ctor observed initial transition emission) = observed.length ∧
    ∀ k, nthNext observed initial transition emission k
        (BackCache.ctor observed initial transition emission) =
      if k < observed.length then some (List.replicate initial.length Numeric.zero)
      else none := by
  by_cases h0 : observed.length = 0
  · have ho : observed = [] := List.length_eq_zero.1 h0
    subst ho
    rw [ctor_nil]
    refine ⟨rfl, ?_⟩
    intro k
    unfold nthNext
    rw [afterNext_exhausted _ _ _ _ _ rfl rfl, Next_exhausted _ _ _ _ _ rfl rfl]
    rfl
  · have h1 : observed.length = 1 := by omega
    rw [ctor_one observed initial transition emission h1, h1]
    refine ⟨rfl, ?_⟩
    intro k
    have hN := Next_active_cons observed initial transition emission
      ({ passiveItems_ := [], activeItems_ := [List.replicate initial.length Numeric.zero]
         markers_ := [], counters_ := [], initialize_ := false
         sz_ := max 10000 (sqrt_cast 1) } : BackCache U) _ [] rfl
    unfold nthNext
    cases k with
    | zero =>
      unfold afterNext
      rw [hN]
      rfl
    | succ k =>
      unfold afterNext
      rw [hN]
      simp only []
      rw [afterNext_exhausted _ _ _ _ _ rfl rfl, Next_exhausted _ _ _ _ _ rfl rfl]
      simp

theorem populate_sz (observed : List Nat) (initial : List U)
    (transition emission : List (List U)) (c : BackCache U) :
    (BackCache.populate observed initial transition emission c).sz_ = c.sz_ := by
  unfold BackCache.populate
  simp only []
  split
  · rfl
  · split
    · rfl
    · split <;> rfl

theorem ctor_sz (observed : List Nat) (initial : List U)
    (transition emission : List (List U)) :
    (BackCache.ctor observed initial transition emission).sz_ =
      max 10000 (sqrt_cast observed.length) := by
  unfold BackCache.ctor
  rw [populate_sz]

/-- Property C24, amended.  For `T <= 1` a freshly constructed cache holds exactly `T`
vectors: `Size() = T`, and call number `k + 1` of `Next()` returns a vector of `N` zeros
(`beta_0`) when `k < T` and null otherwise.  So the cache is empty for `T = 0`, and for
`T = 1` it holds one vector and is empty after the first call. -/
theorem backcache_short_sequence (observed : List Nat) (initial : List U)
    (transition emission : List (List U)) (h : observed.length ≤ 1) :
    BackCache.Size (BackCache.ctor observed initial transition emission) = observed.length ∧
    ∀ k, nthNext observed initial transition emission k
        (BackCache.ctor observed initial transition emission) =
      if k < observed.length then some (List.replicate initial.length Numeric.zero)
      else none :=
  ctor_short observed initial transition emission h

/-- The stride `max(10000, ceil(sqrt(T)))` that the spec states. -/
def ceilSqrtStride (n : Nat) : Nat :=
  max 10000 (if Nat.sqrt n * Nat.sqrt n = n then Nat.sqrt n else Nat.sqrt n + 1)

/-- Property C26, amended.  For fewer than `2^52` observations the stride `S` chosen by the
constructor is `max(10000, floor(sqrt(T)))`: it is at least 10000, `T < (S+1)^2`, and
`S^2 <= T` whenever `S > 10000`. -/
theorem backcache_stride_is_floor_sqrt (observed : List Nat) (initial : List U)
    (transition emission : List (List U)) (hT : observed.length < 2 ^ 52) :
    (BackCache.ctor observed initial transition emission).sz_ =
      max 10000 (Nat.sqrt observed.length) ∧
    10000 ≤ (BackCache.ctor observed initial transition emission).sz_ ∧
    observed.length < ((BackCache.ctor observed initial transition emission).sz_ + 1) *
      ((BackCache.ctor observed initial transition emission).sz_ + 1) ∧
    (10000 < (BackCache.ctor observed initial transition emission).sz_ →
      (BackCache.ctor observed initial transition emission).sz_ *
        (BackCache.ctor observed initial transition emission).sz_ ≤ observed.length) := by
  rw [ctor_sz, sqrt_cast_eq _ hT]
  have h1 := Nat.sqrt_le observed.length
  have h2 := Nat.lt_succ_sqrt observed.length
  refine ⟨rfl, le_max_left _ _, ?_, ?_⟩
  · have h3 : Nat.sqrt observed.length + 1 ≤ max 10000 (Nat.sqrt observed.length) + 1 :=
      Nat.succ_le_succ (le_max_right _ _)
    exact lt_of_lt_of_le h2 (Nat.mul_le_mul h3 h3)
  · intro h
    have h4 : max 10000 (Nat.sqrt observed.length) = Nat.sqrt observed.length := by
      rcases le_total 10000 (Nat.sqrt observed.length) with h5 | h5
      · exact max_eq_right h5
      · rw [max_eq_left h5] at h
        omega
    rw [h4]
    exact h1

/-- The stride for `T = 67108865^2 - 1` observations is 67108865, one more than
`floor(sqrt(T))`: the bound `2^52` of the amended C26 cannot be dropped. -/
theorem backcache_stride_rounds_up (initial : List U) (transition emission : List (List U)) :
    (BackCache.ctor (List.replicate 4503599761588224 0) initial transition emission).sz_ =
      67108865 := by
  rw [ctor_sz, List.length_replicate, sqrt_cast_rounds_up.1]
  rfl

/-! ## The number of buffers a cache holds -/

/-- Invariant on the list lengths in the first traversal of `populate` when round `i = cur`
is about to run (`S` the stride, `T` the number of observations). -/
def LenInv (S T : Nat) (w : Sweep U) (cur : Nat) : Prop :=
  if w.lastleg = true then
    w.passiveItems_.length = (T - 1) / S ∧ w.activeItems_.length + cur = min (T - 1) S
  else
    w.activeItems_ = [] ∧ w.passiveItems_.length * S + w.j + cur = T + S ∧ 1 ≤ w.j ∧
      w.j ≤ S ∧ S ≤ cur

theorem sweepStep_len (observed : List Nat) (initial : List U)
    (transition emission : List (List U)) (S T : Nat) (w : Sweep U) (cur : Nat)
    (hS : 2 ≤ S) (h1 : 1 ≤ cur) (h2 : cur + 1 ≤ T) (h : LenInv S T w cur) :
    LenInv S T (BackCache.sweepStep observed initial transition emission S w cur)
      (cur - 1) := by
  unfold LenInv at h ⊢
  unfold BackCache.sweepStep
  by_cases hl : w.lastleg = true
  · simp only [hl, if_true] at h ⊢
    refine ⟨h.1, ?_⟩
    simp only [List.length_cons]
    omega
  · simp only [hl, if_false] at h
    obtain ⟨ha, hk, hj1, hj2, hc⟩ := h
    simp only [hl, Bool.false_eq_true, if_false]
    by_cases hcS : cur = S
    · simp only [hcS, if_true]
      subst hcS
      have hT : T - 1 = cur * w.passiveItems_.length + (w.j - 1) := by
        rw [Nat.mul_comm]
        omega
      have hk1 : 1 ≤ w.passiveItems_.length := by
        by_contra h0
        have : w.passiveItems_.length = 0 := by omega
        rw [this] at hk
        omega
      refine ⟨?_, ?_⟩
      · rw [hT, Nat.mul_add_div (by omega), Nat.div_eq_of_lt (by omega), Nat.add_zero]
      · rw [ha]
        simp only [List.length_singleton]
        have hge : cur ≤ T - 1 := by
          rw [hT]
          exact le_trans (Nat.le_mul_of_pos_right cur hk1) (Nat.le_add_right _ _)
        rw [min_eq_right hge]
        omega
    · simp only [hcS, if_false]
      by_cases hjS : w.j = S
      · simp only [hjS, if_true, List.length_cons, Bool.false_eq_true, if_false]
        refine ⟨ha, ?_, by omega, by omega, by omega⟩
        rw [Nat.add_mul]
        omega
      · simp only [hjS, if_false, hl, Bool.false_eq_true]
        exact ⟨ha, by omega, by omega, by omega, by omega⟩

/-- The lists of the cache right after construction: for `T >= 1` the passive list holds
`floor((T-1)/S)` checkpoints and the active list `min(T-1, S) + 1` vectors. -/
theorem populate_first_len (observed : List Nat) (initial : List U)
    (transition emission : List (List U)) (S : Nat)
    (hT : 1 ≤ observed.length) (hS : 2 ≤ S) :
    (BackCache.populate observed initial transition emission
        { passiveItems_ := [], activeItems_ := [], markers_ := [], counters_ := []
          initialize_ := true, sz_ := S }).passiveItems_.length =
      (observed.length - 1) / S ∧
    (BackCache.populate observed initial transition emission
        { passiveItems_ := [], activeItems_ := [], markers_ := [], counters_ := []
          initialize_ := true, sz_ := S }).activeItems_.length =
      min (observed.length - 1) S + 1 := by
  unfold BackCache.populate
  have h1 : ¬ S ≤ 1 := by omega
  have h2 : observed.isEmpty = false := by
    cases observed with
    | nil => simp at hT
    | cons a l => rfl
  simp only [h1, h2, decide_False, Bool.or_self, Bool.false_eq_true, if_false, if_true]
  have key : ∀ w0 : Sweep U, LenInv S observed.length w0 (observed.length - 1) →
      LenInv S observed.length ((downTo (observed.length - 1) 1).foldl
        (BackCache.sweepStep observed initial transition emission S) w0) 0 := by
    intro w0 h0
    exact foldl_downTo_induction _ (fun w i => LenInv S observed.length w i)
      (observed.length - 1) w0 h0
      (fun w i hi1 hi2 hw => sweepStep_len observed initial transition emission S
        observed.length w i hS hi1 (by omega) hw)
  by_cases hle : observed.length ≤ S
  · simp only [hle, decide_True, Bool.not_true, Bool.false_eq_true, if_false]
    have h0 : LenInv S observed.length
        ({ passiveItems_ := [], activeItems_ := [], markers_ := [], counters_ := []
           beta := List.replicate initial.length Numeric.zero, lastleg := true, j := 1 } :
          Sweep U) (observed.length - 1) := by
      unfold LenInv
      simp only [if_true, List.length_nil]
      refine ⟨(Nat.div_eq_of_lt (by omega)).symm, ?_⟩
      rw [min_eq_left (by omega)]
      omega
    have hf := key _ h0
    unfold LenInv at hf
    split at hf
    · simp only [List.length_cons]
      exact ⟨hf.1, by omega⟩
    · omega
  · simp only [hle, decide_False, Bool.not_false, if_true]
    have h0 : LenInv S observed.length
        ({ passiveItems_ := [List.replicate initial.length Numeric.zero], activeItems_ := []
           markers_ := [observed.length], counters_ := [S]
           beta := List.replicate initial.length Numeric.zero, lastleg := false, j := 1 } :
          Sweep U) (observed.length - 1) := by
      unfold LenInv
      simp only [Bool.false_eq_true, if_false, List.length_singleton]
      refine ⟨trivial, ?_, le_refl 1, by omega, by omega⟩
      rw [Nat.one_mul]
      omega
    have hf := key _ h0
    unfold LenInv at hf
    split at hf
    · simp only [List.length_cons]
      exact ⟨hf.1, by omega⟩
    · omega

/-- The value of `Size()` right after construction, for `T >= 1`. -/
theorem ctor_size (observed : List Nat) (initial : List U)
    (transition emission : List (List U)) (hT : 1 ≤ observed.length) :
    BackCache.Size (BackCache.ctor observed initial transition emission) =
      min (observed.length - 1) (max 10000 (sqrt_cast observed.length)) + 1 +
        (observed.length - 1) / max 10000 (sqrt_cast observed.length) := by
  have hS : 2 ≤ max 10000 (sqrt_cast observed.length) := by
    have := le_max_left 10000 (sqrt_cast observed.length)
    omega
  obtain ⟨h1, h2⟩ := populate_first_len observed initial transition emission _ hT hS
  unfold BackCache.Size BackCache.ctor
  rw [h1, h2]

/-- A call of `Next()` on a cache without passive checkpoints pops the active list. -/
theorem Next_no_passive (observed : List Nat) (initial : List U)
    (transition emission : List (List U)) (c : BackCache U) (hp : c.passiveItems_ = []) :
    BackCache.Next observed initial transition emission c =
      (c.activeItems_.head?, { c with activeItems_ := c.activeItems_.tail }) := by
  cases ha : c.activeItems_ with
  | cons rtn rest =>
    rw [Next_active_cons observed initial transition emission c rtn rest ha]
    rfl
  | nil =>
    rw [Next_exhausted observed initial transition emission c ha hp]
    simp only [List.head?_nil, List.tail_nil]
    rw [← ha]

theorem afterNext_no_passive (observed : List Nat) (initial : List U)
    (transition emission : List (List U)) (n : Nat) (c : BackCache U)
    (hp : c.passiveItems_ = []) :
    afterNext observed initial transition emission n c =
      { c with activeItems_ := c.activeItems_.drop n } := by
  induction n generalizing c with
  | zero => simp [afterNext]
  | succ n ih =>
    unfold afterNext
    rw [Next_no_passive observed initial transition emission c hp]
    simp only []
    rw [ih { c with activeItems_ := c.activeItems_.tail } hp]
    simp

/-- Without passive checkpoints, `Size()` is the number of calls of `Next()` that will still
return a vector, at every point of the life of the cache. -/
theorem size_no_passive (observed : List Nat) (initial : List U)
    (transition emission : List (List U)) (c : BackCache U) (hp : c.passiveItems_ = [])
    (n k : Nat) :
    (nthNext observed initial transition emission k
      (afterNext observed initial transition emission n c)).isSome = true ↔
    k < BackCache.Size (afterNext observed initial transition emission n c) := by
  unfold nthNext
  rw [afterNext_no_passive observed initial transition emission n c hp,
    afterNext_no_passive observed initial transition emission k
      { c with activeItems_ := c.activeItems_.drop n } hp,
    Next_no_passive observed initial transition emission
      { c with activeItems_ := (c.activeItems_.drop n).drop k } hp]
  unfold BackCache.Size
  simp only [hp, List.length_nil, Nat.add_zero, List.length_drop]
  rw [List.head?_drop]
  by_cases hk : k < (List.drop n c.activeItems_).length
  · rw [List.getElem?_eq_getElem hk]
    simp only [List.length_drop] at hk
    simp [hk]
  · rw [List.getElem?_eq_none (Nat.le_of_not_lt hk)]
    simp only [List.length_drop] at hk
    simp [hk]

/-- Up to 10000 observations the constructor leaves no passive checkpoint. -/
theorem ctor_no_passive (observed : List Nat) (initial : List U)
    (transition emission : List (List U)) (h : observed.length ≤ 10000) :
    (BackCache.ctor observed initial transition emission).passiveItems_ = [] := by
  by_cases h0 : observed.length = 0
  · rw [List.length_eq_zero.1 h0, ctor_nil]
  · have hS : 2 ≤ max 10000 (sqrt_cast observed.length) := by
      have := le_max_left 10000 (sqrt_cast observed.length)
      omega
    have h1 := (populate_first_len observed initial transition emission _ (by omega) hS).1
    apply List.length_eq_zero.1
    unfold BackCache.ctor
    rw [h1]
    apply Nat.div_eq_of_lt
    have := le_max_left 10000 (sqrt_cast observed.length)
    omega

/-- Property C25, amended.  `Size()` is the number of buffers held, active list plus passive
list.  For `T <= 10000` (no passive checkpoint) it equals, at every point of the life of the
cache, the number of further calls of `Next()` that return a vector: after any `n` calls,
call number `k + 1` from there returns a vector exactly when `k < Size()`. -/
theorem backcache_size_counts_producible (observed : List Nat) (initial : List U)
    (transition emission : List (List U)) (h : observed.length ≤ 10000) (n k : Nat) :
    (nthNext observed initial transition emission k
      (afterNext observed initial transition emission n
        (BackCache.ctor observed initial transition emission))).isSome = true ↔
    k < BackCache.Size (afterNext observed initial transition emission n
      (BackCache.ctor observed initial transition emission)) :=
  size_no_passive observed initial transition emission _
    (ctor_no_passive observed initial transition emission h) n k

/-! ## The two full variants of gamma -/

/-- The entries written by `gamma_m_full`, for `T >= 1`. -/
theorem gamma_m_full_entry_pos (observed : List Nat) (initial : List U)
    (transition emission : List (List U)) (gam : List (List U))
    (hm : IsMat gam initial.length observed.length) :
    IsMat (gamma_m_full observed initial transition emission gam)
      initial.length observed.length ∧
    ∀ i s, i < initial.length → s < observed.length →
      rd2 (gamma_m_full observed initial transition emission gam) i s =
        gammaAt initial.length (fwdCol observed initial transition emission s)
          (betaAt observed initial transition emission s) i := by
  by_cases hT : 2 ≤ observed.length
  · exact gamma_m_full_entry observed initial transition emission gam hm hT
  · have hc := gamma_columns initial.length observed.length
      (forward_full observed initial transition emission observed.length
        (List.replicate initial.length (List.replicate observed.length Numeric.zero)))
      (backward_full observed initial transition emission 1
        (List.replicate initial.length (List.replicate observed.length Numeric.zero)))
      gam hm
    refine ⟨hc.1, ?_⟩
    intro i s hi hs
    have h := hc.2 i s hi hs
    have hT1 : observed.length = 1 := by omega
    have hs0 : s = 0 := by omega
    subst hs0
    have hf := forward_full_cols observed initial transition emission
      (List.replicate initial.length (List.replicate observed.length Numeric.zero))
      observed.length (isMat_replicate _ _ _) 0 (by omega)
    rw [show 0 + 1 = observed.length by omega] at hf
    have hbk : ∀ k, k < initial.length →
        rd2 (backward_full observed initial transition emission 1
          (List.replicate initial.length (List.replicate observed.length Numeric.zero))) k 0 =
        rd (betaAt observed initial transition emission 0) k := by
      intro k hk
      have hlt : observed.length < 2 := by omega
      unfold backward_full betaAt
      simp only [hlt, if_true]
      rw [rd2_replicate _ _ _ k 0 hk (by omega), hT1]
      simp only [bwdBack, rd]
      rw [List.getD_eq_getElem?_getD, List.getElem?_replicate]
      simp [hk]
    unfold gamma_m_full
    rw [h]
    unfold gammaAt
    rw [hf.2 0 i (le_refl 0) hi, hbk i hi]
    congr 2
    apply sumLoop_congr
    intro k hk
    rw [hf.2 0 k (le_refl 0) hk, hbk k hk]

/-- The body of the loop over `s` in `gamma_t_full`. -/
def gammaTStep (observed : List Nat) (initial : List U) (transition emission : List (List U))
    (st : List U × List U × List (List U)) (s : Nat) : List U × List U × List (List U) :=
  let alpha := forward_next observed initial transition emission (s + 1) st.1
  let beta := backward_index observed initial transition emission (s + 1) st.2.1
  let r := (List.range initial.length).foldl
    (fun (r : List (List U) × U) i =>
      let gam := wr2 r.1 i s (elnproduct (rd alpha i) (rd beta i))
      (gam, elnsum r.2 (rd2 gam i s)))
    (st.2.2, inf)
  let normalizer := r.2
  (alpha, beta, (List.range initial.length).foldl
    (fun gam j => wr2 gam j s (elnproduct (rd2 gam j s) (Numeric.neg normalizer))) r.1)

/-- Invariant of the loop over `s` in `gamma_t_full` after the rounds `0 .. s-1`. -/
def GammaTInv (observed : List Nat) (initial : List U) (transition emission : List (List U))
    (st : List U × List U × List (List U)) (s : Nat) : Prop :=
  st.1.length = initial.length ∧
  (∀ s', s = s' + 1 → st.1 = fwdCol observed initial transition emission s') ∧
  st.2.1.length = initial.length ∧
  (observed.length < 2 → st.2.1 = List.replicate initial.length Numeric.zero) ∧
  IsMat st.2.2 initial.length observed.length ∧
  ∀ i c, i < initial.length → c < s →
    rd2 st.2.2 i c =
      gammaAt initial.length (fwdCol observed initial transition emission c)
        (betaAt observed initial transition emission c) i

theorem length_backward_index (observed : List Nat) (initial : List U)
    (transition emission : List (List U)) (index : Nat) (beta : List U) :
    (backward_index observed initial transition emission index beta).length = beta.length := by
  unfold backward_index
  simp only []
  split
  · rfl
  · split
    · rfl
    · exact length_foldl_set (fun _ idx => _) _ _

theorem gammaTStep_inv (observed : List Nat) (initial : List U)
    (transition emission : List (List U)) (st : List U × List U × List (List U)) (s : Nat)
    (hs : s < observed.length)
    (h : GammaTInv observed initial transition emission st s) :
    GammaTInv observed initial transition emission
      (gammaTStep observed initial transition emission st s) (s + 1) := by
  obtain ⟨h1, h2, h3, h4, h5, h6⟩ := h
  have ha : forward_next observed initial transition emission (s + 1) st.1 =
      fwdCol observed initial transition emission s := by
    cases s with
    | zero => exact forward_next_one observed initial transition emission _ h1
    | succ s' =>
      rw [forward_next_step _ _ _ _ _ _ h1 (by omega), h2 s' rfl]
      rfl
  have hb : backward_index observed initial transition emission (s + 1) st.2.1 =
      betaAt observed initial transition emission s := by
    by_cases hT : 2 ≤ observed.length
    · rw [backward_index_eq _ _ _ _ _ _ h3 hT (by omega) (by omega)]
      unfold betaAt
      congr 1
      omega
    · have hlt : observed.length < 2 := by omega
      have hs0 : s = 0 := by omega
      subst hs0
      unfold backward_index betaAt
      simp only [hlt, if_true]
      rw [h4 hlt, show observed.length - 1 - 0 = 0 by omega]
      rfl
  obtain ⟨g1, g2, g3⟩ := gamma_column initial.length s observed.length
    (fun i => elnproduct (rd (fwdCol observed initial transition emission s) i)
      (rd (betaAt observed initial transition emission s) i)) st.2.2 h5 hs
  unfold gammaTStep
  simp only []
  rw [ha, hb]
  refine ⟨length_fwdCol _ _ _ _ _, ?_, ?_, ?_, IsMat.of_sameShape g1 h5, ?_⟩
  · intro s' hs'
    have : s = s' := by omega
    rw [this]
  · unfold betaAt
    exact length_bwdBack _ _ _ _ _
  · intro hlt
    have hs0 : s = 0 := by omega
    subst hs0
    unfold betaAt
    rw [show observed.length - 1 - 0 = 0 by omega]
    rfl
  · intro i c hi hc
    by_cases hcs : c = s
    · subst hcs
      exact g3 i hi
    · rw [g2 i c hcs]
      exact h6 i c hi (by omega)

/-- The entries written by `gamma_t_full`. -/
theorem gamma_t_full_entry (observed : List Nat) (initial : List U)
    (transition emission : List (List U)) (gam : List (List U))
    (hm : IsMat gam initial.length observed.length) :
    IsMat (gamma_t_full observed initial transition emission gam)
      initial.length observed.length ∧
    ∀ i s, i < initial.length → s < observed.length →
      rd2 (gamma_t_full observed initial transition emission gam) i s =
        gammaAt initial.length (fwdCol observed initial transition emission s)
          (betaAt observed initial transition emission s) i := by
  have key : ∀ n, n ≤ observed.length →
      GammaTInv observed initial transition emission
        ((List.range n).foldl (gammaTStep observed initial transition emission)
          (List.replicate initial.length Numeric.zero,
            List.replicate initial.length Numeric.zero, gam)) n := by
    intro n
    induction n with
    | zero =>
      intro _
      exact ⟨by simp, fun s' hs' => by omega, by simp, fun _ => rfl, hm,
        fun i c _ hc => by omega⟩
    | succ n ih =>
      intro hn
      rw [List.range_succ, List.foldl_append]
      exact gammaTStep_inv observed initial transition emission _ n (by omega) (ih (by omega))
  have h := key observed.length (le_refl _)
  exact ⟨h.2.2.2.2.1, h.2.2.2.2.2⟩

/-- Property C30.  Applied to the same `N x T` output matrix, `gamma_t_full` and
`gamma_m_full` fill identical gamma matrices (for every `T`, in particular `T >= 1`). -/
theorem gamma_t_full_eq_gamma_m_full (observed : List Nat) (initial : List U)
    (transition emission : List (List U)) (gam : List (List U))
    (hm : IsMat gam initial.length observed.length) :
    gamma_t_full observed initial transition emission gam =
      gamma_m_full observed initial transition emission gam := by
  obtain ⟨t1, t2⟩ := gamma_t_full_entry observed initial transition emission gam hm
  obtain ⟨m1, m2⟩ := gamma_m_full_entry_pos observed initial transition emission gam hm
  apply mat_ext _ _ initial.length observed.length t1 m1
  intro i s hi hs
  rw [t2 i s hi hs, m2 i s hi hs]

/-! ## The trainers keep the dimensions of the model -/

/-- Property C31.  For `T >= 2`, `A` of size `N x N` and `B` of size `N x M`: after
`train_full`, and after `train` (which ends), the length of `pi`, the number of rows of `A`
and of `B`, and the length of every row of `A` and of `B` are what they were before the
call. -/
theorem trainers_preserve_dimensions (observed : List Nat) (initial : List U)
    (transition emission : List (List U)) (m : Nat) (hT : 2 ≤ observed.length)
    (hA : IsMat transition initial.length initial.length)
    (hB : IsMat emission initial.length m) :
    ((train_full observed initial transition emission).1.length = initial.length ∧
      SameShape (train_full observed initial transition emission).2.1 transition ∧
      SameShape (train_full observed initial transition emission).2.2 emission) ∧
    ∃ r, train observed initial transition emission = some r ∧
      r.1.length = initial.length ∧ SameShape r.2.1 transition ∧
      SameShape r.2.2 emission := by
  have hs := train_full_shape observed initial transition emission m hA hB
  exact ⟨hs, _, train_eq_train_full observed initial transition emission m hT hA hB, hs⟩

/-! ## The per-step posteriors driven by the cache -/

/-- One round of the loop "New Gamma" of test1.cpp on the state `(backcheaterB, alpha, gam)`:
`foo = backcheaterB.Next(); gamma(observed, initial, transition, emission, i, *foo, alpha,
gam);`.  `none` stands for undefined behaviour (a null `foo` is dereferenced). -/
def next_gamma_round (observed : List Nat) (initial : List U)
    (transition emission : List (List U)) (st : Option (BackCache U × List U × List U))
    (i : Nat) : Option (BackCache U × List U × List U) :=
  match st with
  | none => none
  | some st =>
    let nx := BackCache.Next observed initial transition emission st.1
    match nx.1 with
    | none => none
    | some foo =>
      let g := gamma observed initial transition emission i foo st.2.1 st.2.2
      some (nx.2, g.1, g.2)

/-- The loop "New Gamma" of test1.cpp run up to `i = n`, from a fresh cache and fresh
vectors `alpha` and `gam`:
`for ( i = 1; i <= n; ++i ) { foo = backcheaterB.Next(); gamma(..., i, *foo, alpha, gam); }` -/
def next_gamma (observed : List Nat) (initial : List U) (transition emission : List (List U))
    (n : Nat) : Option (BackCache U × List U × List U) :=
  (List.range' 1 n).foldl (next_gamma_round observed initial transition emission)
    (some (BackCache.ctor observed initial transition emission,
      List.replicate initial.length Numeric.zero, List.replicate initial.length Numeric.zero))

/-- One round of the loop "NEW-XI" of test1.cpp on the state `(backcheater, alpha, v2)`:
`foo = backcheater.Next(); xi(observed, initial, transition, emission, s, *foo, alpha, v2);`.
`none` stands for undefined behaviour (a null `foo` is dereferenced). -/
def next_xi_round (observed : List Nat) (initial : List U)
    (transition emission : List (List U)) (st : Option (BackCache U × List U × List (List U)))
    (s : Nat) : Option (BackCache U × List U × List (List U)) :=
  match st with
  | none => none
  | some st =>
    let nx := BackCache.Next observed initial transition emission st.1
    match nx.1 with
    | none => none
    | some foo =>
      let x := xi observed initial transition emission s foo st.2.1 st.2.2
      some (nx.2, x.1, x.2)

/-- The loop "NEW-XI" of test1.cpp run up to `s = n`, from a fresh cache whose first vector
was taken and left unused, the scratch vector `alpha` of the caller and the table `v2`:
`foo = backcheater.Next(); for ( s = 1; s <= n; ++s ) { foo = backcheater.Next();
xi(..., s, *foo, alpha, v2); }` -/
def next_xi (observed : List Nat) (initial : List U) (transition emission : List (List U))
    (alpha : List U) (v2 : List (List U)) (n : Nat) :
    Option (BackCache U × List U × List (List U)) :=
  (List.range' 1 n).foldl (next_xi_round observed initial transition emission)
    (some ((BackCache.Next observed initial transition emission
      (BackCache.ctor observed initial transition emission)).2, alpha, v2))

/-- What holds after `n` rounds of the loop "New Gamma". -/
def NextGammaInv (observed : List Nat) (initial : List U) (transition emission : List (List U))
    (st : BackCache U × List U × List U) (n : Nat) : Prop :=
  2 ≤ st.1.sz_ ∧ st.1.initialize_ = false ∧
  (∃ k, stream observed initial transition emission st.1 =
      seg observed initial transition emission n k ∧ observed.length ≤ n + k) ∧
  st.2.1.length = initial.length ∧ st.2.2.length = initial.length ∧
  ∀ n', n = n' + 1 →
    st.2.1 = fwdCol observed initial transition emission n' ∧
    ∀ i, i < initial.length →
      rd st.2.2 i = gammaAt initial.length (fwdCol observed initial transition emission n')
        (betaAt observed initial transition emission n') i

/-- What holds after `n` rounds of the loop "NEW-XI". -/
def NextXiInv (observed : List Nat) (initial : List U) (transition emission : List (List U))
    (st : BackCache U × List U × List (List U)) (n : Nat) : Prop :=
  2 ≤ st.1.sz_ ∧ st.1.initialize_ = false ∧
  (∃ k, stream observed initial transition emission st.1 =
      seg observed initial transition emission (n + 1) k ∧ observed.length ≤ n + 1 + k) ∧
  st.2.1.length = initial.length ∧ IsMat st.2.2 initial.length initial.length ∧
  ∀ n', n = n' + 1 →
    st.2.1 = fwdCol observed initial transition emission n' ∧
    ∀ i j, i < initial.length → j < initial.length →
      rd2 st.2.2 i j = xiAt initial.length transition emission (ob observed (n' + 1))
        (fwdCol observed initial transition emission n')
        (betaAt observed initial transition emission (n' + 1)) i j

/-- The forward vector after call number `n + 1` of `forward_next` in a run `1, 2, ...`. -/
theorem forward_next_run (observed : List Nat) (initial : List U)
    (transition emission : List (List U)) (alpha : List U) (n : Nat)
    (hl : alpha.length = initial.length)
    (h : ∀ n', n = n' + 1 → alpha = fwdCol observed initial transition emission n') :
    forward_next observed initial transition emission (1 + n) alpha =
      fwdCol observed initial transition emission n := by
  cases n with
  | zero => exact forward_next_one observed initial transition emission alpha hl
  | succ n' =>
    rw [forward_next_step observed initial transition emission _ alpha hl (by omega),
      h n' rfl, show 1 + (n' + 1) - 1 = n' + 1 by omega]
    rfl

theorem next_gamma_spec (observed : List Nat) (initial : List U)
    (transition emission : List (List U)) (hT : 2 ≤ observed.length) (n : Nat)
    (hn : n ≤ observed.length) :
    ∃ st, next_gamma observed initial transition emission n = some st ∧
      NextGammaInv observed initial transition emission st n := by
  have ho : observed ≠ [] := by
    intro h0
    rw [h0] at hT
    simp at hT
  induction n with
  | zero =>
    obtain ⟨hsz, hini, k, hstr, hk⟩ := ctor_stream observed initial transition emission hT
    refine ⟨_, rfl, hsz, hini, ⟨k, hstr, by omega⟩, List.length_replicate _ _,
      List.length_replicate _ _, ?_⟩
    intro n' h
    omega
  | succ n ih =>
    obtain ⟨st, hst, hsz, hini, ⟨k, hstr, hk⟩, hla, hlg, hprev⟩ := ih (by omega)
    obtain ⟨k', rfl⟩ : ∃ k', k = k' + 1 := ⟨k - 1, by omega⟩
    have hnext := Next_stream observed initial transition emission st.1 hsz ho hini
    rw [hstr, seg_succ, List.head?_cons, List.tail_cons] at hnext
    have hfw := forward_next_run observed initial transition emission st.2.1 n hla
      (fun n' h => (hprev n' h).1)
    have hrun : next_gamma observed initial transition emission (n + 1) =
        next_gamma_round observed initial transition emission
          (next_gamma observed initial transition emission n) (1 + n) := by
      unfold next_gamma
      rw [range'_concat_one, List.foldl_append]
      rfl
    rw [hrun, hst]
    unfold next_gamma_round
    simp only [hnext.1]
    refine ⟨_, rfl, ?_, hnext.2.2.2, ⟨k', hnext.2.1, by omega⟩, ?_, ?_, ?_⟩
    · rw [hnext.2.2.1]
      exact hsz
    · show (gamma observed initial transition emission (1 + n) _ st.2.1 st.2.2).1.length = _
      rw [gamma_fst, hfw, length_fwdCol]
    · show (gamma observed initial transition emission (1 + n) _ st.2.1 st.2.2).2.length = _
      rw [length_gamma_snd, hlg]
    · intro n' h
      obtain rfl : n' = n := by omega
      refine ⟨?_, ?_⟩
      · show (gamma observed initial transition emission (1 + n') _ st.2.1 st.2.2).1 = _
        rw [gamma_fst, hfw]
      · intro i hi
        show rd (gamma observed initial transition emission (1 + n') _ st.2.1 st.2.2).2 i = _
        rw [rd_gamma_snd observed initial transition emission (1 + n') _ st.2.1 st.2.2 hlg i hi,
          hfw]

/-- Property C33.  For `T >= 2`, a fresh cache and fresh vectors `alpha` and `gam`: the loop
that calls `gamma` with `index = 1, 2, ..., T`, passing at each call the next vector
returned by `Next()`, never meets a null pointer, and after the call with `index = i` the
vector `gam` is column `i - 1` of the matrix filled by `gamma_m_full`. -/
theorem gamma_stream_eq_gamma_m_full (observed : List Nat) (initial : List U)
    (transition emission : List (List U)) (gam : List (List U))
    (hm : IsMat gam initial.length observed.length) (hT : 2 ≤ observed.length) (i : Nat)
    (h1 : 1 ≤ i) (h2 : i ≤ observed.length) :
    ∃ st, next_gamma observed initial transition emission i = some st ∧
      st.2.2 = col (gamma_m_full observed initial transition emission gam) (i - 1) := by
  obtain ⟨st, hst, _, _, _, _, hlg, hprev⟩ :=
    next_gamma_spec observed initial transition emission hT i h2
  obtain ⟨hmat, hent⟩ := gamma_m_full_entry observed initial transition emission gam hm hT
  refine ⟨st, hst, ?_⟩
  apply ext_rd
  · rw [length_col, hmat.1, hlg]
  · intro k hk
    rw [hlg] at hk
    rw [rd_col _ _ _ (by rw [hmat.1]; exact hk), hent k (i - 1) hk (by omega),
      (hprev (i - 1) (by omega)).2 k hk]

theorem next_xi_spec (observed : List Nat) (initial : List U)
    (transition emission : List (List U)) (alpha : List U) (v2 : List (List U))
    (ha : alpha.length = initial.length) (hv : IsMat v2 initial.length initial.length)
    (hT : 2 ≤ observed.length) (n : Nat) (hn : n + 1 ≤ observed.length) :
    ∃ st, next_xi observed initial transition emission alpha v2 n = some st ∧
      NextXiInv observed initial transition emission st n := by
  have ho : observed ≠ [] := by
    intro h0
    rw [h0] at hT
    simp at hT
  induction n with
  | zero =>
    obtain ⟨hsz, hini, k, hstr, hk⟩ := ctor_stream observed initial transition emission hT
    obtain ⟨k', rfl⟩ : ∃ k', k = k' + 1 := ⟨k - 1, by omega⟩
    have hnext := Next_stream observed initial transition emission _ hsz ho hini
    rw [hstr, seg_succ, List.tail_cons] at hnext
    refine ⟨_, rfl, ?_, hnext.2.2.2, ⟨k', hnext.2.1, by omega⟩, ha, hv, ?_⟩
    · show 2 ≤ (BackCache.Next observed initial transition emission _).2.sz_
      rw [hnext.2.2.1]
      exact hsz
    · intro n' h
      omega
  | succ n ih =>
    obtain ⟨st, hst, hsz, hini, ⟨k, hstr, hk⟩, hla, hmat, hprev⟩ := ih (by omega)
    obtain ⟨k', rfl⟩ : ∃ k', k = k' + 1 := ⟨k - 1, by omega⟩
    have hnext := Next_stream observed initial transition emission st.1 hsz ho hini
    rw [hstr, seg_succ, List.head?_cons, List.tail_cons] at hnext
    have hfw := forward_next_run observed initial transition emission st.2.1 n hla
      (fun n' h => (hprev n' h).1)
    have hrun : next_xi observed initial transition emission alpha v2 (n + 1) =
        next_xi_round observed initial transition emission
          (next_xi observed initial transition emission alpha v2 n) (1 + n) := by
      unfold next_xi
      rw [range'_concat_one, List.foldl_append]
      rfl
    rw [hrun, hst]
    unfold next_xi_round
    simp only [hnext.1]
    refine ⟨_, rfl, ?_, hnext.2.2.2, ⟨k', hnext.2.1, by omega⟩, ?_, ?_, ?_⟩
    · rw [hnext.2.2.1]
      exact hsz
    · show (xi observed initial transition emission (1 + n) _ st.2.1 st.2.2).1.length = _
      rw [xi_fst, hfw, length_fwdCol]
    · exact isMat_xi_snd observed initial transition emission (1 + n) _ st.2.1 st.2.2 hmat
    · intro n' h
      obtain rfl : n' = n := by omega
      refine ⟨?_, ?_⟩
      · show (xi observed initial transition emission (1 + n') _ st.2.1 st.2.2).1 = _
        rw [xi_fst, hfw]
      · intro i j hi hj
        show rd2 (xi observed initial transition emission (1 + n') _ st.2.1 st.2.2).2 i j = _
        rw [rd2_xi_snd observed initial transition emission (1 + n') _ st.2.1 st.2.2 hmat i j
          hi hj, hfw, Nat.add_comm 1 n']

/-- Property C34.  For `T >= 2`, a fresh cache whose first vector was taken and left
unused, a scratch vector `alpha` of length `N` and a table `v2` of size `N x N`: the loop
that calls `xi` with `index = 1, 2, ..., T-1`, passing at each call the next vector
returned by `Next()`, never meets a null pointer, and after the call with `index = s` the
table holds the slice `probs[.][.][s-1]` of the table filled by `xi_full`. -/
theorem xi_stream_eq_xi_full (observed : List Nat) (initial : List U)
    (transition emission : List (List U)) (alpha : List U) (v2 : List (List U))
    (probs : List (List (List U)))
    (ha : alpha.length = initial.length) (hv : IsMat v2 initial.length initial.length)
    (hp : IsCube probs initial.length initial.length observed.length)
    (hT : 2 ≤ observed.length) (s : Nat) (h1 : 1 ≤ s) (h2 : s + 1 ≤ observed.length) :
    ∃ st, next_xi observed initial transition emission alpha v2 s = some st ∧
      IsMat st.2.2 initial.length initial.length ∧
      ∀ i j, i < initial.length → j < initial.length →
        rd2 st.2.2 i j = rd3 (xi_full observed initial transition emission probs) i j (s - 1) := by
  obtain ⟨st, hst, _, _, _, _, hmat, hprev⟩ :=
    next_xi_spec observed initial transition emission alpha v2 ha hv hT s h2
  refine ⟨st, hst, hmat, ?_⟩
  intro i j hi hj
  rw [xi_full_entry observed initial transition emission probs hp hT i j (s - 1) hi hj
    (by omega), (hprev (s - 1) (by omega)).2 i j hi hj]

/-! ## A bound on the number of buffers a cache holds -/

/-- Invariant on the counters in the first traversal of `populate`: every counter is at most
the stride `S`, and so is `j` until the last leg starts. -/
def CountInv (S : Nat) (w : Sweep U) : Prop :=
  (∀ n ∈ w.counters_, n ≤ S) ∧ (w.lastleg = false → w.j ≤ S)

/-- What holds of a cache at every point of its life: `S` is the stride and `B` a bound on
the number of buffers. -/
def BufInv (observed : List Nat) (S B : Nat) (c : BackCache U) : Prop :=
  c.sz_ = S ∧ (∀ n ∈ c.counters_, n ≤ S) ∧ BackCache.Size c ≤ B ∧
  (c.passiveItems_ ≠ [] →
    c.initialize_ = false ∧ observed ≠ [] ∧ c.passiveItems_.length + S ≤ B + 1)

theorem sweepStep_count (observed : List Nat) (initial : List U)
    (transition emission : List (List U)) (S : Nat) (hS : 1 ≤ S) (w : Sweep U) (i : Nat)
    (h : CountInv S w) :
    CountInv S (BackCache.sweepStep observed initial transition emission S w i) := by
  obtain ⟨hc, hj⟩ := h
  unfold BackCache.sweepStep CountInv
  by_cases hl : w.lastleg = true
  · simp only [hl, if_true]
    exact ⟨hc, fun h => by simp at h⟩
  · have hjS := hj (by simpa using hl)
    simp only [hl, Bool.false_eq_true, if_false]
    by_cases hi : i = S
    · simp only [hi, if_true]
      refine ⟨?_, fun h => by simp at h⟩
      intro n hn
      simp only [List.mem_cons] at hn
      rcases hn with rfl | hn
      · exact hjS
      · exact hc n (List.mem_of_mem_tail hn)
    · simp only [hi, if_false]
      by_cases hjs : w.j = S
      · simp only [hjs, if_true]
        refine ⟨?_, fun _ => by omega⟩
        intro n hn
        simp only [List.mem_cons] at hn
        rcases hn with rfl | hn
        · exact le_refl _
        · exact hc n hn
      · simp only [hjs, if_false]
        exact ⟨hc, fun _ => by omega⟩

/-- The counters of the cache right after construction are at most the stride, and the
first traversal is marked as done. -/
theorem populate_first_counters (observed : List Nat) (initial : List U)
    (transition emission : List (List U)) (S : Nat)
    (hT : 1 ≤ observed.length) (hS : 2 ≤ S) :
    (∀ n ∈ (BackCache.populate observed initial transition emission
        { passiveItems_ := [], activeItems_ := [], markers_ := [], counters_ := []
          initialize_ := true, sz_ := S }).counters_, n ≤ S) ∧
    (BackCache.populate observed initial transition emission
        { passiveItems_ := [], activeItems_ := [], markers_ := [], counters_ := []
          initialize_ := true, sz_ := S }).initialize_ = false := by
  unfold BackCache.populate
  have h1 : ¬ S ≤ 1 := by omega
  have h2 : observed.isEmpty = false := by
    cases observed with
    | nil => simp at hT
    | cons a l => rfl
  simp only [h1, h2, decide_False, Bool.or_self, Bool.false_eq_true, if_false, if_true]
  have key : ∀ w0 : Sweep U, CountInv S w0 →
      CountInv S ((downTo (observed.length - 1) 1).foldl
        (BackCache.sweepStep observed initial transition emission S) w0) := by
    intro w0 h0
    exact foldl_inv _ (CountInv S) _
      (fun w i _ hw => sweepStep_count observed initial transition emission S (by omega) w i hw)
      w0 h0
  refine ⟨?_, trivial⟩
  by_cases hle : observed.length ≤ S
  · simp only [hle, decide_True, Bool.not_true, Bool.false_eq_true, if_false]
    exact (key _ ⟨fun n hn => by simp at hn, fun _ => by show 1 ≤ S; omega⟩).1
  · simp only [hle, decide_False, Bool.not_false, if_true]
    refine (key _ ⟨fun n hn => ?_, fun _ => by show 1 ≤ S; omega⟩).1
    simp only [List.mem_singleton] at hn
    omega

omit [Numeric U] in
theorem length_replay_fold (F : List U → Nat → List U) (l : List Nat)
    (r : List U × List (List U)) :
    (l.foldl (fun (r : List U × List (List U)) t => (F r.1 t, F r.1 t :: r.2)) r).2.length =
      r.2.length + l.length := by
  induction l generalizing r with
  | nil => rfl
  | cons x l ih =>
    rw [List.foldl_cons, ih]
    simp only [List.length_cons]
    omega

/-- The replay of a checkpoint with counter `count` yields `count` vectors (one when
`count = 0`). -/
theorem length_replayWindow (observed : List Nat) (initial : List U)
    (transition emission : List (List U)) (b : List U) (mark count : Nat) :
    (replayWindow observed initial transition emission b mark count).length =
      count - 1 + 1 := by
  unfold replayWindow
  have h := length_replay_fold
    (fun beta t => backward_next observed initial transition emission (mark - t) beta)
    (List.range (count - 1)) (b, [b])
  simp only [List.length_singleton, List.length_range] at h
  rw [Nat.add_comm]
  exact h

/-- The cache after a call of `Next()` that has to replay a checkpoint. -/
theorem Next_replay (observed : List Nat) (initial : List U)
    (transition emission : List (List U)) (c : BackCache U)
    (hs : 2 ≤ c.sz_) (ho : observed ≠ []) (hi : c.initialize_ = false)
    (ha : c.activeItems_ = []) (b : List U) (ps : List (List U))
    (hp : c.passiveItems_ = b :: ps) :
    (BackCache.Next observed initial transition emission c).2 =
      { c with
        passiveItems_ := ps
        activeItems_ := (replayWindow observed initial transition emission b
          (c.markers_.headD 0) (c.counters_.headD 0)).tail
        markers_ := c.markers_.tail
        counters_ := c.counters_.tail } := by
  rw [BackCache.Next]
  simp only [ha, hp, List.isEmpty_cons, Bool.false_eq_true, dite_false]
  rw [populate_replay observed initial transition emission c hs ho hi b ps hp]
  rw [BackCache.Next]
  have hne := replayWindow_ne_nil observed initial transition emission b
    (c.markers_.headD 0) (c.counters_.headD 0)
  cases hw : replayWindow observed initial transition emission b
    (c.markers_.headD 0) (c.counters_.headD 0) with
  | nil => exact absurd hw hne
  | cons w ws => simp only [List.tail_cons]

omit [Numeric U] in
theorem headD_le_of_forall (l : List Nat) (S : Nat) (h : ∀ n ∈ l, n ≤ S) : l.headD 0 ≤ S := by
  cases l with
  | nil => exact Nat.zero_le _
  | cons a l => exact h a (List.mem_cons_self _ _)

theorem Next_bufInv (observed : List Nat) (initial : List U)
    (transition emission : List (List U)) (S B : Nat) (hS : 2 ≤ S) (c : BackCache U)
    (h : BufInv observed S B c) :
    BufInv observed S B (BackCache.Next observed initial transition emission c).2 := by
  obtain ⟨hsz, hc, hsize, hpas⟩ := h
  unfold BackCache.Size at hsize
  cases ha : c.activeItems_ with
  | cons rtn rest =>
    rw [Next_active_cons observed initial transition emission c rtn rest ha]
    rw [ha] at hsize
    simp only [List.length_cons] at hsize
    refine ⟨hsz, hc, ?_, hpas⟩
    unfold BackCache.Size
    show rest.length + c.passiveItems_.length ≤ B
    omega
  | nil =>
    cases hp : c.passiveItems_ with
    | nil =>
      rw [Next_exhausted observed initial transition emission c ha hp]
      refine ⟨hsz, hc, ?_, hpas⟩
      unfold BackCache.Size
      exact hsize
    | cons b ps =>
      obtain ⟨hi, ho, hb⟩ := hpas (by rw [hp]; simp)
      rw [hp] at hb
      simp only [List.length_cons] at hb
      rw [Next_replay observed initial transition emission c (by omega) ho hi ha b ps hp]
      have hcount := headD_le_of_forall c.counters_ S hc
      refine ⟨hsz, fun n hn => hc n (List.mem_of_mem_tail hn), ?_, fun _ => ⟨hi, ho, ?_⟩⟩
      · unfold BackCache.Size
        show (replayWindow observed initial transition emission b (c.markers_.headD 0)
          (c.counters_.headD 0)).tail.length + ps.length ≤ B
        rw [List.length_tail, length_replayWindow]
        omega
      · show ps.length + S ≤ B + 1
        omega

theorem afterNext_bufInv (observed : List Nat) (initial : List U)
    (transition emission : List (List U)) (S B : Nat) (hS : 2 ≤ S) (n : Nat)
    (c : BackCache U) (h : BufInv observed S B c) :
    BufInv observed S B (afterNext observed initial transition emission n c) := by
  induction n generalizing c with
  | zero => exact h
  | succ n ih =>
    unfold afterNext
    exact ih _ (Next_bufInv observed initial transition emission S B hS c h)

theorem ctor_bufInv (observed : List Nat) (initial : List U)
    (transition emission : List (List U)) :
    BufInv observed (max 10000 (sqrt_cast observed.length))
      (max 10000 (sqrt_cast observed.length) + 1 +
        (observed.length + max 10000 (sqrt_cast observed.length) - 1) /
          max 10000 (sqrt_cast observed.length))
      (BackCache.ctor observed initial transition emission) := by
  have hS : 2 ≤ max 10000 (sqrt_cast observed.length) := by
    have := le_max_left 10000 (sqrt_cast observed.length)
    omega
  by_cases h0 : observed.length = 0
  · rw [List.length_eq_zero.1 h0, ctor_nil]
    refine ⟨rfl, fun n hn => by simp at hn, ?_, fun h => absurd rfl h⟩
    unfold BackCache.Size
    simp
  · obtain ⟨h1, h2⟩ := populate_first_len observed initial transition emission _ (by omega) hS
    obtain ⟨h3, h4⟩ := populate_first_counters observed initial transition emission _
      (by omega) hS
    have hdiv : (observed.length - 1) / max 10000 (sqrt_cast observed.length) ≤
        (observed.length + max 10000 (sqrt_cast observed.length) - 1) /
          max 10000 (sqrt_cast observed.length) :=
      Nat.div_le_div_right (by omega)
    have hmin : min (observed.length - 1) (max 10000 (sqrt_cast observed.length)) ≤
        max 10000 (sqrt_cast observed.length) := min_le_right _ _
    refine ⟨ctor_sz observed initial transition emission, h3, ?_, fun _ => ⟨h4, ?_, ?_⟩⟩
    · unfold BackCache.Size BackCache.ctor
      rw [h1, h2]
      omega
    · intro he
      rw [he] at h0
      exact h0 rfl
    · unfold BackCache.ctor
      rw [h1]
      omega

/-- Property C36.  For every observation length `T`, with `S` the stride of the cache: right
after construction and after any number `n` of calls of `Next()`, the number of buffers the
cache holds, active list plus passive list, is at most `S + 1 + ceil(T / S)`. -/
theorem backcache_buffers_bounded (observed : List Nat) (initial : List U)
    (transition emission : List (List U)) (n : Nat) :
    BackCache.Size (afterNext observed initial transition emission n
      (BackCache.ctor observed initial transition emission)) ≤
    (BackCache.ctor observed initial transition emission).sz_ + 1 +
      (observed.length + (BackCache.ctor observed initial transition emission).sz_ - 1) /
        (BackCache.ctor observed initial transition emission).sz_ := by
  have hS : 2 ≤ max 10000 (sqrt_cast observed.length) := by
    have := le_max_left 10000 (sqrt_cast observed.length)
    omega
  rw [ctor_sz]
  exact (afterNext_bufInv observed initial transition emission _ _ hS n _
    (ctor_bufInv observed initial transition emission)).2.2.1

end hmm

end Generic

/-! ## Exact arithmetic -/

/-- Values of the numeric type in exact arithmetic: a real number or one of the special
values plus infinity, minus infinity and not-a-number of the floating-point types. -/
inductive XReal where
  /-- a finite value -/
  | fin (r : ℝ)
  /-- plus infinity -/
  | pinf
  /-- minus infinity -/
  | ninf
  /-- not a number -/
  | nan

namespace XReal

/-- Addition, exact on finite values, with the special values handled as in IEEE 754. -/
noncomputable def add : XReal → XReal → XReal
  | fin a, fin b => fin (a + b)
  | fin _, pinf => pinf
  | fin _, ninf => ninf
  | pinf, fin _ => pinf
  | pinf, pinf => pinf
  | ninf, fin _ => ninf
  | ninf, ninf => ninf
  | _, _ => nan

/-- Negation. -/
noncomputable def neg : XReal → XReal
  | fin a => fin (-a)
  | pinf => ninf
  | ninf => pinf
  | nan => nan

/-- The exponential: `exp(+inf) = +inf`, `exp(-inf) = 0`. -/
noncomputable def exp : XReal → XReal
  | fin a => fin (Real.exp a)
  | pinf => pinf
  | ninf => fin 0
  | nan => nan

/-- The natural logarithm: `log(0) = -inf`, not-a-number below zero. -/
noncomputable def log : XReal → XReal
  | fin a => if 0 < a then fin (Real.log a) else if a = 0 then ninf else nan
  | pinf => pinf
  | ninf => nan
  | nan => nan

/-- The comparison `x > y`; false as soon as one side is not-a-number. -/
noncomputable def gt : XReal → XReal → Bool
  | fin a, fin b => decide (b < a)
  | fin _, ninf => true
  | pinf, fin _ => true
  | pinf, ninf => true
  | _, _ => false

/-- The comparison `x == y`; false as soon as one side is not-a-number. -/
noncomputable def eq : XReal → XReal → Bool
  | fin a, fin b => decide (a = b)
  | pinf, pinf => true
  | ninf, ninf => true
  | _, _ => false

/-- The probability that an extended-log value stands for: `P(LZERO) = 0`, `P(x) = exp x`. -/
noncomputable def P : XReal → ℝ
  | fin a => Real.exp a
  | _ => 0

/-- An extended-log value: a finite real or the sentinel `LZERO` (plus infinity). -/
def IsExt : XReal → Prop
  | fin _ => True
  | pinf => True
  | _ => False

end XReal

noncomputable instance : Numeric XReal where
  zero := XReal.fin 0
  one := XReal.fin 1
  infinity := XReal.pinf
  add := XReal.add
  sub := fun x y => XReal.add x (XReal.neg y)
  neg := XReal.neg
  exp := XReal.exp
  log := XReal.log
  gt := XReal.gt
  eq := XReal.eq

namespace hmm

section Exact

open XReal details

/-! ## A concrete model: the deterministic scenario -/

/-- Observation sequence `[0,0,0]` of the deterministic scenario. -/
def detObserved : List Nat := [0, 0, 0]

/-- Initial distribution `[1, 0]` in log-space. -/
def detInitial : List XReal := [fin 0, pinf]

/-- Identity transition table in log-space. -/
def detTransition : List (List XReal) := [[fin 0, pinf], [pinf, fin 0]]

/-- Emission table `[[1,0],[0,1]]` in log-space. -/
def detEmission : List (List XReal) := [[fin 0, pinf], [pinf, fin 0]]

/-- A 2 x 3 matrix of zeros, as the test driver allocates. -/
def detMatrix : List (List XReal) := [[fin 0, fin 0, fin 0], [fin 0, fin 0, fin 0]]

/-! ## The log-arithmetic kernel in exact arithmetic -/

theorem elnproduct_fin_fin (a b : ℝ) : elnproduct (fin a) (fin b) = fin (a + b) := by
  simp [elnproduct, inf, Numeric.eq, Numeric.infinity, Numeric.add, XReal.eq, XReal.add]

theorem elnproduct_pinf_left (y : XReal) : elnproduct pinf y = pinf := by
  simp [elnproduct, inf, Numeric.eq, Numeric.infinity, XReal.eq]

theorem elnproduct_pinf_right (x : XReal) : elnproduct x pinf = pinf := by
  cases x <;> simp [elnproduct, inf, Numeric.eq, Numeric.infinity, XReal.eq, Numeric.add, XReal.add]

theorem elnsum_pinf_left (y : XReal) (hy : IsExt y) : elnsum pinf y = y := by
  cases y <;> simp_all [elnsum, inf, Numeric.eq, Numeric.infinity, XReal.eq, IsExt]

theorem elnsum_pinf_right (x : XReal) (hx : IsExt x) : elnsum x pinf = x := by
  cases x <;> simp_all [elnsum, inf, Numeric.eq, Numeric.infinity, XReal.eq, IsExt]

theorem elnsum_fin_fin (a b : ℝ) :
    elnsum (fin a) (fin b) =
      fin (if b < a then a + Real.log (1 + Real.exp (b - a))
        else b + Real.log (1 + Real.exp (a - b))) := by
  have h1 : ∀ t : ℝ, (0 : ℝ) < 1 + Real.exp t := fun t => by positivity
  by_cases h : b < a
  · simp [elnsum, inf, Numeric.eq, Numeric.infinity, XReal.eq, Numeric.gt, XReal.gt, h,
      Numeric.add, Numeric.log, Numeric.one, Numeric.exp, Numeric.sub, XReal.add, XReal.neg,
      XReal.exp, XReal.log, h1, sub_eq_add_neg]
  · simp [elnsum, inf, Numeric.eq, Numeric.infinity, XReal.eq, Numeric.gt, XReal.gt, h,
      Numeric.add, Numeric.log, Numeric.one, Numeric.exp, Numeric.sub, XReal.add, XReal.neg,
      XReal.exp, XReal.log, h1, sub_eq_add_neg]

theorem P_elnsum (x y : XReal) (hx : IsExt x) (hy : IsExt y) :
    P (elnsum x y) = P x + P y := by
  cases x with
  | pinf => rw [elnsum_pinf_left y hy]; simp [P]
  | fin a =>
    cases y with
    | pinf => rw [elnsum_pinf_right _ hx]; simp [P]
    | fin b =>
      rw [elnsum_fin_fin]
      have h1 : ∀ t : ℝ, (0 : ℝ) < 1 + Real.exp t := fun t => by positivity
      by_cases h : b < a
      · simp only [h, if_true, P]
        rw [Real.exp_add, Real.exp_log (h1 _), mul_add, mul_one, ← Real.exp_add]
        congr 2; ring
      · simp only [h, if_false, P]
        rw [Real.exp_add, Real.exp_log (h1 _), mul_add, mul_one, ← Real.exp_add, add_comm]
        congr 2; ring
    | ninf => exact absurd hy (by simp [IsExt])
    | nan => exact absurd hy (by simp [IsExt])
  | ninf => exact absurd hx (by simp [IsExt])
  | nan => exact absurd hx (by simp [IsExt])

theorem P_elnproduct (x y : XReal) (hx : IsExt x) (hy : IsExt y) :
    P (elnproduct x y) = P x * P y := by
  cases x with
  | pinf => rw [elnproduct_pinf_left]; simp [P]
  | fin a =>
    cases y with
    | pinf => rw [elnproduct_pinf_right]; simp [P]
    | fin b => rw [elnproduct_fin_fin]; simp [P, Real.exp_add]
    | ninf => exact absurd hy (by simp [IsExt])
    | nan => exact absurd hy (by simp [IsExt])
  | ninf => exact absurd hx (by simp [IsExt])
  | nan => exact absurd hx (by simp [IsExt])

theorem isExt_elnsum (x y : XReal) (hx : IsExt x) (hy : IsExt y) : IsExt (elnsum x y) := by
  cases x with
  | pinf => rw [elnsum_pinf_left y hy]; exact hy
  | fin a =>
    cases y with
    | pinf => rw [elnsum_pinf_right _ hx]; exact hx
    | fin b => rw [elnsum_fin_fin]; trivial
    | ninf => exact absurd hy (by simp [IsExt])
    | nan => exact absurd hy (by simp [IsExt])
  | ninf => exact absurd hx (by simp [IsExt])
  | nan => exact absurd hx (by simp [IsExt])

theorem isExt_elnproduct (x y : XReal) (hx : IsExt x) (hy : IsExt y) :
    IsExt (elnproduct x y) := by
  cases x with
  | pinf => rw [elnproduct_pinf_left]; trivial
  | fin a =>
    cases y with
    | pinf => rw [elnproduct_pinf_right]; trivial
    | fin b => rw [elnproduct_fin_fin]; trivial
    | ninf => exact absurd hy (by simp [IsExt])
    | nan => exact absurd hy (by simp [IsExt])
  | ninf => exact absurd hx (by simp [IsExt])
  | nan => exact absurd hx (by simp [IsExt])

/-! ## Witnesses on the deterministic scenario -/

theorem detMatrix_isMat : IsMat detMatrix detInitial.length detObserved.length := by
  refine ⟨rfl, ?_⟩
  intro row h
  simp only [detMatrix, List.mem_cons, List.mem_singleton, List.not_mem_nil, or_false] at h
  rcases h with rfl | rfl <;> rfl

/-- Witness of C8 on the deterministic scenario, `index = 1, 2`. -/
theorem forward_next_reproduces_forward_full_witness :
    ([fin 0, fin 0] : List XReal).length = detInitial.length ∧
    IsMat detMatrix detInitial.length detObserved.length ∧ 1 ≤ 2 ∧ 2 ≤ detObserved.length ∧
    next_forward detObserved detInitial detTransition detEmission 2 [fin 0, fin 0] =
      col (forward_full detObserved detInitial detTransition detEmission detObserved.length
        detMatrix) (2 - 1) :=
  ⟨rfl, detMatrix_isMat, by decide, by decide,
    forward_next_reproduces_forward_full detObserved detInitial detTransition detEmission
      [fin 0, fin 0] detMatrix 2 rfl detMatrix_isMat (by decide) (by decide)⟩

/-- Witness of C9 on the deterministic scenario, `index = 3`. -/
theorem forward_index_eq_forward_full_col_witness :
    ([fin 0, fin 0] : List XReal).length = detInitial.length ∧
    IsMat detMatrix detInitial.length 3 ∧ 1 ≤ 3 ∧ 3 ≤ 3 ∧
    forward_index detObserved detInitial detTransition detEmission 3 [fin 0, fin 0] =
      col (forward_full detObserved detInitial detTransition detEmission 3 detMatrix) (3 - 1) :=
  ⟨rfl, detMatrix_isMat, by decide, by decide,
    forward_index_eq_forward_full_col detObserved detInitial detTransition detEmission
      [fin 0, fin 0] detMatrix 3 3 rfl detMatrix_isMat (by decide) (by decide)⟩

/-- Witness of C10 on the deterministic scenario, `index = 3, 2`. -/
theorem backward_next_reproduces_backward_full_witness :
    ([fin 0, fin 0] : List XReal).length = detInitial.length ∧
    IsMat detMatrix detInitial.length detObserved.length ∧ 2 ≤ detObserved.length ∧
    1 ≤ 2 ∧ 2 ≤ detObserved.length ∧
    next_backward detObserved detInitial detTransition detEmission 2 [fin 0, fin 0] =
      col (backward_full detObserved detInitial detTransition detEmission 1 detMatrix) (2 - 1) :=
  ⟨rfl, detMatrix_isMat, by decide, by decide, by decide,
    backward_next_reproduces_backward_full detObserved detInitial detTransition detEmission
      [fin 0, fin 0] detMatrix 2 rfl detMatrix_isMat (by decide) (by decide) (by decide)⟩

/-- Witness of C2 on the deterministic scenario, second call of `Next()`. -/
theorem backcache_next_eq_backward_full_witness :
    2 ≤ detObserved.length ∧ IsMat detMatrix detInitial.length detObserved.length ∧
    1 < detObserved.length ∧
    nthNext detObserved detInitial detTransition detEmission 1
      (BackCache.ctor detObserved detInitial detTransition detEmission) =
      some (col (backward_full detObserved detInitial detTransition detEmission 1 detMatrix) 1) :=
  ⟨by decide, detMatrix_isMat, by decide,
    backcache_next_eq_backward_full detObserved detInitial detTransition detEmission detMatrix 1
      (by decide) detMatrix_isMat (by decide)⟩

/-! ## Kernel laws -/

/-- Every entry of a vector is finite or `LZERO`. -/
def ExtVec (v : List XReal) : Prop := ∀ x ∈ v, IsExt x

/-- Every entry of a vector of vectors is finite or `LZERO`. -/
def ExtMat (m : List (List XReal)) : Prop := ∀ row ∈ m, ExtVec row

theorem elnsum_fin_fin_max (a b : ℝ) :
    elnsum (fin a) (fin b) = fin (max a b + Real.log (1 + Real.exp (-|a - b|))) := by
  rw [elnsum_fin_fin]
  by_cases h : b < a
  · rw [if_pos h, max_eq_left (le_of_lt h), abs_of_pos (sub_pos.2 h), neg_sub]
  · have h' : a ≤ b := not_lt.1 h
    rw [if_neg h, max_eq_right h', abs_of_nonpos (sub_nonpos.2 h'), neg_neg]

/-- Property C18.  With `P(LZERO) = 0` and `P(x) = exp x`: on extended-log values `elnsum`
adds and `elnproduct` multiplies the probabilities, both results are again finite or
`LZERO`, and on two finite values `elnsum` is `max + log(1 + exp(-|x - y|))`. -/
theorem kernel_laws (x y : XReal) (hx : IsExt x) (hy : IsExt y) :
    P (elnsum x y) = P x + P y ∧ P (elnproduct x y) = P x * P y ∧
    IsExt (elnsum x y) ∧ IsExt (elnproduct x y) ∧
    ∀ a b : ℝ, x = fin a → y = fin b →
      elnsum x y = fin (max a b + Real.log (1 + Real.exp (-|a - b|))) := by
  refine ⟨P_elnsum x y hx hy, P_elnproduct x y hx hy, isExt_elnsum x y hx hy,
    isExt_elnproduct x y hx hy, ?_⟩
  intro a b ha hb
  rw [ha, hb, elnsum_fin_fin_max]

/-- Witness of C18 at `x = y = log 1`. -/
theorem kernel_laws_witness :
    IsExt (fin 0) ∧
    (P (elnsum (fin 0) (fin 0)) = P (fin 0) + P (fin 0) ∧
    P (elnproduct (fin 0) (fin 0)) = P (fin 0) * P (fin 0) ∧
    IsExt (elnsum (fin 0) (fin 0)) ∧ IsExt (elnproduct (fin 0) (fin 0)) ∧
    ∀ a b : ℝ, fin 0 = fin a → fin 0 = fin b →
      elnsum (fin 0) (fin 0) = fin (max a b + Real.log (1 + Real.exp (-|a - b|)))) :=
  ⟨trivial, kernel_laws (fin 0) (fin 0) trivial trivial⟩

/-- Property C19.  For every extended-log value `x`: `elnsum(x, LZERO) = x`,
`elnsum(LZERO, x) = x`, `elnsum(LZERO, LZERO) = LZERO`, `elnproduct(x, LZERO) = LZERO`
and `elnproduct(LZERO, x) = LZERO`. -/
theorem kernel_lzero_laws (x : XReal) (hx : IsExt x) :
    elnsum x inf = x ∧ elnsum inf x = x ∧ elnsum (inf : XReal) inf = inf ∧
    elnproduct x inf = inf ∧ elnproduct inf x = inf :=
  ⟨elnsum_pinf_right x hx, elnsum_pinf_left x hx, elnsum_pinf_left pinf trivial,
    elnproduct_pinf_right x, elnproduct_pinf_left x⟩

/-- Witness of C19 at `x = log 1`. -/
theorem kernel_lzero_laws_witness :
    IsExt (fin 0) ∧
    (elnsum (fin 0) inf = fin 0 ∧ elnsum inf (fin 0) = fin 0 ∧
      elnsum (inf : XReal) inf = inf ∧
      elnproduct (fin 0) inf = inf ∧ elnproduct inf (fin 0) = inf) :=
  ⟨trivial, kernel_lzero_laws (fin 0) trivial⟩

theorem isExt_rd (v : List XReal) (h : ExtVec v) (i : Nat) : IsExt (rd v i) := by
  unfold rd
  by_cases hi : i < v.length
  · have : v.getD i Numeric.zero = v[i] := by simp [List.getD_eq_getElem?_getD, hi]
    rw [this]
    exact h _ (List.getElem_mem hi)
  · have : v.getD i Numeric.zero = Numeric.zero := by
      simp [List.getD_eq_getElem?_getD, List.getElem?_eq_none (Nat.le_of_not_lt hi)]
    rw [this]
    trivial

theorem isExt_rd2 (m : List (List XReal)) (h : ExtMat m) (i j : Nat) : IsExt (rd2 m i j) := by
  unfold rd2
  apply isExt_rd
  by_cases hi : i < m.length
  · have : m.getD i [] = m[i] := by simp [List.getD_eq_getElem?_getD, hi]
    rw [this]
    exact h _ (List.getElem_mem hi)
  · have : m.getD i [] = [] := by
      simp [List.getD_eq_getElem?_getD, List.getElem?_eq_none (Nat.le_of_not_lt hi)]
    rw [this]
    intro x hx
    simp at hx

theorem elnproduct_eq_pinf_iff (x y : XReal) (hx : IsExt x) (hy : IsExt y) :
    elnproduct x y = pinf ↔ x = pinf ∨ y = pinf := by
  cases x with
  | pinf => simp [elnproduct_pinf_left]
  | fin a =>
    cases y with
    | pinf => simp [elnproduct_pinf_right]
    | fin b => simp [elnproduct_fin_fin]
    | ninf => exact absurd hy (by simp [IsExt])
    | nan => exact absurd hy (by simp [IsExt])
  | ninf => exact absurd hx (by simp [IsExt])
  | nan => exact absurd hx (by simp [IsExt])

theorem elnsum_eq_pinf_iff (x y : XReal) (hx : IsExt x) (hy : IsExt y) :
    elnsum x y = pinf ↔ x = pinf ∧ y = pinf := by
  cases x with
  | pinf => simp [elnsum_pinf_left y hy]
  | fin a =>
    cases y with
    | pinf => simp [elnsum_pinf_right _ hx]
    | fin b => simp [elnsum_fin_fin]
    | ninf => exact absurd hy (by simp [IsExt])
    | nan => exact absurd hy (by simp [IsExt])
  | ninf => exact absurd hx (by simp [IsExt])
  | nan => exact absurd hx (by simp [IsExt])

theorem isExt_sumLoop (n : Nat) (f : Nat → XReal) (hf : ∀ k, k < n → IsExt (f k)) :
    IsExt (sumLoop n f) := by
  induction n with
  | zero => trivial
  | succ n ih =>
    rw [sumLoop_succ]
    exact isExt_elnsum _ _ (ih (fun k hk => hf k (by omega))) (hf n (by omega))

theorem sumLoop_eq_pinf_iff (n : Nat) (f : Nat → XReal) (hf : ∀ k, k < n → IsExt (f k)) :
    sumLoop n f = pinf ↔ ∀ k, k < n → f k = pinf := by
  induction n with
  | zero => simp [sumLoop, inf, Numeric.infinity]
  | succ n ih =>
    rw [sumLoop_succ, elnsum_eq_pinf_iff _ _
      (isExt_sumLoop n f (fun k hk => hf k (by omega))) (hf n (by omega)),
      ih (fun k hk => hf k (by omega))]
    constructor
    · rintro ⟨h1, h2⟩ k hk
      by_cases hkn : k = n
      · rw [hkn]; exact h2
      · exact h1 k (by omega)
    · intro h
      exact ⟨fun k hk => h k (by omega), h n (by omega)⟩

/-- Property C20, amended.  In exact arithmetic, where no sum leaves the range of the numeric
type: for a model and a previous `alpha` whose entries are finite or `LZERO` and
`1 <= index <= T`, the entry `alpha'[j]` written by `forward_next` is finite or `LZERO`
(never not-a-number), and it is `LZERO` exactly when `B[j][O_(index-1)]` is `LZERO`, or
`index = 1` and `pi[j]` is `LZERO`, or `index > 1` and for every `k` the previous `alpha[k]`
or `A[k][j]` is `LZERO`. -/
theorem forward_next_zero_iff (observed : List Nat) (initial : List XReal)
    (transition emission : List (List XReal)) (index : Nat) (alpha : List XReal) (j : Nat)
    (hpi : ExtVec initial) (hA : ExtMat transition) (hB : ExtMat emission)
    (hal : ExtVec alpha) (hlen : alpha.length = initial.length)
    (h1 : 1 ≤ index) (h2 : index ≤ observed.length) (hj : j < initial.length) :
    IsExt (rd (forward_next observed initial transition emission index alpha) j) ∧
    (rd (forward_next observed initial transition emission index alpha) j = inf ↔
      (rd2 emission j (ob observed (index - 1)) = inf ∨
        (index = 1 ∧ rd initial j = inf) ∨
        (1 < index ∧ ∀ k, k < initial.length → rd alpha k = inf ∨ rd2 transition k j = inf))) := by
  have hinf : (inf : XReal) = pinf := rfl
  rw [hinf]
  by_cases hone : index = 1
  · subst hone
    rw [forward_next_one _ _ _ _ _ hlen]
    simp only [fwdInit, rd_map_range, hj, if_true, Nat.sub_self, lt_self_iff_false, false_and,
      or_false, true_and]
    refine ⟨isExt_elnproduct _ _ (isExt_rd _ hpi _) (isExt_rd2 _ hB _ _), ?_⟩
    rw [elnproduct_eq_pinf_iff _ _ (isExt_rd _ hpi _) (isExt_rd2 _ hB _ _)]
    exact Or.comm
  · rw [forward_next_step _ _ _ _ _ _ hlen (by omega)]
    simp only [fwdStep, rd_map_range, hj, if_true, hone, false_and, false_or]
    have hf : ∀ k, k < initial.length →
        IsExt (elnproduct (rd alpha k) (rd2 transition k j)) :=
      fun k _ => isExt_elnproduct _ _ (isExt_rd _ hal _) (isExt_rd2 _ hA _ _)
    refine ⟨isExt_elnproduct _ _ (isExt_sumLoop _ _ hf) (isExt_rd2 _ hB _ _), ?_⟩
    rw [elnproduct_eq_pinf_iff _ _ (isExt_sumLoop _ _ hf) (isExt_rd2 _ hB _ _),
      sumLoop_eq_pinf_iff _ _ hf]
    have h1' : 1 < index := by omega
    simp only [h1', true_and]
    rw [Or.comm]
    apply or_congr Iff.rfl
    apply forall_congr'
    intro k
    apply imp_congr Iff.rfl
    exact elnproduct_eq_pinf_iff _ _ (isExt_rd _ hal _) (isExt_rd2 _ hA _ _)

theorem detInitial_ext : ExtVec detInitial := by
  intro x hx
  simp only [detInitial, List.mem_cons, List.mem_singleton, List.not_mem_nil, or_false] at hx
  rcases hx with rfl | rfl <;> trivial

theorem detTransition_ext : ExtMat detTransition := by
  intro row hrow x hx
  simp only [detTransition, List.mem_cons, List.mem_singleton, List.not_mem_nil,
    or_false] at hrow
  rcases hrow with rfl | rfl <;>
    simp only [List.mem_cons, List.mem_singleton, List.not_mem_nil, or_false] at hx <;>
    rcases hx with rfl | rfl <;> trivial

theorem detEmission_ext : ExtMat detEmission := detTransition_ext

/-- Witness of C20 on the deterministic scenario: `index = 2`, `j = 0`. -/
theorem forward_next_zero_iff_witness :
    ExtVec detInitial ∧ ExtMat detTransition ∧ ExtMat detEmission ∧ ExtVec detInitial ∧
    detInitial.length = detInitial.length ∧ 1 ≤ 2 ∧ 2 ≤ detObserved.length ∧
    0 < detInitial.length ∧
    IsExt (rd (forward_next detObserved detInitial detTransition detEmission 2 detInitial) 0) ∧
    (rd (forward_next detObserved detInitial detTransition detEmission 2 detInitial) 0 = inf ↔
      (rd2 detEmission 0 (ob detObserved (2 - 1)) = inf ∨
        (2 = 1 ∧ rd detInitial 0 = inf) ∨
        (1 < 2 ∧ ∀ k, k < detInitial.length →
          rd detInitial k = inf ∨ rd2 detTransition k 0 = inf))) :=
  ⟨detInitial_ext, detTransition_ext, detEmission_ext, detInitial_ext, rfl, by decide,
    by decide, by decide,
    forward_next_zero_iff detObserved detInitial detTransition detEmission 2 detInitial 0
      detInitial_ext detTransition_ext detEmission_ext detInitial_ext rfl (by decide)
      (by decide) (by decide)⟩

/-! ## Viterbi on the deterministic scenario -/

theorem gt_pinf_fin (a : ℝ) : Numeric.gt (pinf : XReal) (fin a) = true := rfl

theorem gt_fin_pinf (a : ℝ) : Numeric.gt (fin a) (pinf : XReal) = false := rfl

theorem gt_pinf_pinf : Numeric.gt (pinf : XReal) pinf = false := rfl

theorem gt_fin_fin (a b : ℝ) : Numeric.gt (fin a) (fin b) = decide (b < a) := rfl

theorem viterbi_det_eval :
    viterbi detObserved detInitial detTransition detEmission = [1, 0, 0] := by
  have r2 : List.range 2 = [0, 1] := by decide
  have r12 : List.range' 1 2 = [1, 2] := by decide
  have r11 : List.range' 1 1 = [1] := by decide
  simp [viterbi, viterbi_round, detObserved, detInitial, detTransition, detEmission, r2, r12,
    r11, wr2, rd2, rd, ob, elnproduct_fin_fin, elnproduct_pinf_left, elnproduct_pinf_right,
    gt_pinf_fin, gt_fin_pinf, gt_pinf_pinf, gt_fin_fin, List.replicate]

/-- Property C15 on the code: for the deterministic model and `O = [0,0,0]` the emitted
sequence is `[1,0,0]`, not `[0,0,0]`: at the first step the entry `LZERO` (plus infinity) of
state 1 compares greater than the entry `log 1 = 0` of state 0. -/
theorem viterbi_deterministic :
    viterbi detObserved detInitial detTransition detEmission = [1, 0, 0] :=
  viterbi_det_eval

/-- Property C14 on the code: on the deterministic model the index emitted at step 0 is
state 1, whose `delta_0` has probability 0, although state 0 has probability 1. -/
theorem viterbi_emits_zero_probability_state :
    (viterbi detObserved detInitial detTransition detEmission)[0]? = some 1 ∧
    P (elnproduct (rd detInitial 1) (rd2 detEmission 1 (ob detObserved 0))) = 0 ∧
    P (elnproduct (rd detInitial 0) (rd2 detEmission 0 (ob detObserved 0))) = 1 := by
  rw [viterbi_det_eval]
  simp [detObserved, detInitial, detEmission, rd2, rd, ob, elnproduct_fin_fin,
    elnproduct_pinf_left, P]

/-- Witness of C11 on the deterministic scenario. -/
theorem backward_index_eq_backward_full_col_witness :
    ([fin 0, fin 0] : List XReal).length = detInitial.length ∧
    IsMat detMatrix detInitial.length detObserved.length ∧ 2 ≤ detObserved.length ∧
    backward_index detObserved detInitial detTransition detEmission 1 [fin 0, fin 0] =
      col (backward_full detObserved detInitial detTransition detEmission 1 detMatrix) 0 :=
  ⟨rfl, detMatrix_isMat, by decide,
    backward_index_eq_backward_full_col detObserved detInitial detTransition detEmission
      [fin 0, fin 0] detMatrix rfl detMatrix_isMat (by decide)⟩

/-! ## Sums of probabilities over lists -/

/-- The sum of `f x` over the entries `x` of the list `l`. -/
noncomputable def lsum {α : Type} (l : List α) (f : α → ℝ) : ℝ := (l.map f).sum

/-- All state sequences of length `len` over the states `0 .. N-1`. -/
def allPaths (N : Nat) : Nat → List (List Nat)
  | 0 => [[]]
  | len + 1 => (allPaths N len).flatMap (fun p => (List.range N).map (fun q => p ++ [q]))

/-- The joint probability of the state path `q_0 .. q_s` and the observations
`O_0 .. O_s`: `P(pi[q_0]) * prod_(t=0..s) P(B[q_t][O_t]) * prod_(t=1..s) P(A[q_(t-1)][q_t])`. -/
noncomputable def pathWeight (observed : List Nat) (initial : List XReal)
    (transition emission : List (List XReal)) (q : List Nat) : ℝ :=
  P (rd initial (q.getD 0 0)) *
    ((List.range q.length).map (fun t => P (rd2 emission (q.getD t 0) (ob observed t)))).prod *
    ((List.range (q.length - 1)).map
      (fun t => P (rd2 transition (q.getD t 0) (q.getD (t + 1) 0)))).prod

theorem lsum_nil {α : Type} (f : α → ℝ) : lsum [] f = 0 := rfl

theorem lsum_cons {α : Type} (x : α) (l : List α) (f : α → ℝ) :
    lsum (x :: l) f = f x + lsum l f := by
  simp [lsum]

theorem lsum_append {α : Type} (l m : List α) (f : α → ℝ) :
    lsum (l ++ m) f = lsum l f + lsum m f := by
  simp [lsum]

theorem lsum_range_succ (n : Nat) (f : Nat → ℝ) :
    lsum (List.range (n + 1)) f = lsum (List.range n) f + f n := by
  rw [List.range_succ, lsum_append, lsum_cons, lsum_nil, add_zero]

theorem lsum_congr {α : Type} (l : List α) (f g : α → ℝ) (h : ∀ x ∈ l, f x = g x) :
    lsum l f = lsum l g := by
  induction l with
  | nil => rfl
  | cons x l ih =>
    rw [lsum_cons, lsum_cons, h x (List.mem_cons_self _ _),
      ih (fun y hy => h y (List.mem_cons_of_mem _ hy))]

theorem lsum_add {α : Type} (l : List α) (f g : α → ℝ) :
    lsum l (fun x => f x + g x) = lsum l f + lsum l g := by
  induction l with
  | nil => simp [lsum_nil]
  | cons x l ih => rw [lsum_cons, lsum_cons, lsum_cons, ih]; ring

theorem lsum_mul_right {α : Type} (l : List α) (f : α → ℝ) (c : ℝ) :
    lsum l (fun x => f x * c) = lsum l f * c := by
  induction l with
  | nil => simp [lsum_nil]
  | cons x l ih => rw [lsum_cons, lsum_cons, ih]; ring

theorem lsum_mul_left {α : Type} (l : List α) (f : α → ℝ) (c : ℝ) :
    lsum l (fun x => c * f x) = c * lsum l f := by
  induction l with
  | nil => simp [lsum_nil]
  | cons x l ih => rw [lsum_cons, lsum_cons, ih]; ring

theorem lsum_zero {α : Type} (l : List α) : lsum l (fun _ => (0 : ℝ)) = 0 := by
  induction l with
  | nil => rfl
  | cons x l ih => rw [lsum_cons, ih, add_zero]

theorem lsum_comm {α β : Type} (l : List α) (m : List β) (F : α → β → ℝ) :
    lsum l (fun x => lsum m (fun y => F x y)) = lsum m (fun y => lsum l (fun x => F x y)) := by
  induction l with
  | nil => simp [lsum_nil, lsum_zero]
  | cons x l ih =>
    simp only [lsum_cons]
    rw [ih, lsum_add]

theorem lsum_flatMap {α β : Type} (l : List α) (g : α → List β) (f : β → ℝ) :
    lsum (l.flatMap g) f = lsum l (fun x => lsum (g x) f) := by
  induction l with
  | nil => rfl
  | cons x l ih => rw [List.flatMap_cons, lsum_append, lsum_cons, ih]

theorem lsum_map {α β : Type} (l : List α) (h : α → β) (f : β → ℝ) :
    lsum (l.map h) f = lsum l (fun x => f (h x)) := by
  induction l with
  | nil => rfl
  | cons x l ih => rw [List.map_cons, lsum_cons, lsum_cons, ih]

theorem lsum_nonneg {α : Type} (l : List α) (f : α → ℝ) (h : ∀ x ∈ l, 0 ≤ f x) :
    0 ≤ lsum l f := by
  induction l with
  | nil => exact le_refl _
  | cons x l ih =>
    rw [lsum_cons]
    exact add_nonneg (h x (List.mem_cons_self _ _))
      (ih (fun y hy => h y (List.mem_cons_of_mem _ hy)))

theorem P_nonneg (x : XReal) : 0 ≤ P x := by
  cases x <;> simp [P, Real.exp_nonneg]

theorem P_sumLoop (n : Nat) (f : Nat → XReal) (hf : ∀ k, k < n → IsExt (f k)) :
    P (sumLoop n f) = lsum (List.range n) (fun k => P (f k)) := by
  induction n with
  | zero => simp [sumLoop, inf, Numeric.infinity, P, lsum_nil]
  | succ n ih =>
    rw [sumLoop_succ, P_elnsum _ _ (isExt_sumLoop n f (fun k hk => hf k (by omega)))
      (hf n (by omega)), ih (fun k hk => hf k (by omega)), lsum_range_succ]

/-! ## The forward variable is a sum over state paths -/

theorem isExt_fwdCol (observed : List Nat) (initial : List XReal)
    (transition emission : List (List XReal)) (hpi : ExtVec initial) (hA : ExtMat transition)
    (hB : ExtMat emission) (s i : Nat) :
    IsExt (rd (fwdCol observed initial transition emission s) i) := by
  by_cases hi : i < initial.length
  · cases s with
    | zero =>
      simp only [fwdCol, fwdInit, rd_map_range, hi, if_true]
      exact isExt_elnproduct _ _ (isExt_rd _ hpi _) (isExt_rd2 _ hB _ _)
    | succ s =>
      simp only [fwdCol, fwdStep, rd_map_range, hi, if_true]
      refine isExt_elnproduct _ _ (isExt_sumLoop _ _ (fun k _ => ?_)) (isExt_rd2 _ hB _ _)
      exact isExt_elnproduct _ _
        (isExt_fwdCol observed initial transition emission hpi hA hB s k) (isExt_rd2 _ hA _ _)
  · have : rd (fwdCol observed initial transition emission s) i = Numeric.zero := by
      unfold rd
      rw [List.getD_eq_getElem?_getD, List.getElem?_eq_none (by rw [length_fwdCol]; omega)]
      rfl
    rw [this]
    trivial

theorem length_allPaths (N len : Nat) (p : List Nat) (hp : p ∈ allPaths N len) :
    p.length = len := by
  induction len generalizing p with
  | zero => simp [allPaths] at hp; simp [hp]
  | succ len ih =>
    simp only [allPaths, List.mem_flatMap, List.mem_map, List.mem_range] at hp
    obtain ⟨p', hp', q, _, rfl⟩ := hp
    simp [ih p' hp']

theorem prod_range_succ_map (n : Nat) (f : Nat → ℝ) :
    ((List.range (n + 1)).map f).prod = ((List.range n).map f).prod * f n := by
  rw [List.range_succ, List.map_append, List.prod_append]
  simp

theorem prod_range_congr (n : Nat) (f g : Nat → ℝ) (h : ∀ t, t < n → f t = g t) :
    ((List.range n).map f).prod = ((List.range n).map g).prod := by
  congr 1
  apply List.map_congr_left
  intro t ht
  exact h t (List.mem_range.1 ht)

theorem pathWeight_single (observed : List Nat) (initial : List XReal)
    (transition emission : List (List XReal)) (i : Nat) :
    pathWeight observed initial transition emission [i] =
      P (rd initial i) * P (rd2 emission i (ob observed 0)) := by
  have r1 : List.range 1 = [0] := by decide
  simp [pathWeight, r1]

theorem pathWeight_snoc (observed : List Nat) (initial : List XReal)
    (transition emission : List (List XReal)) (p : List Nat) (k j : Nat) :
    pathWeight observed initial transition emission (p ++ [k] ++ [j]) =
      pathWeight observed initial transition emission (p ++ [k]) *
        P (rd2 transition k j) * P (rd2 emission j (ob observed (p.length + 1))) := by
  have hlen : (p ++ [k] ++ [j]).length = p.length + 1 + 1 := by simp
  have hlen' : (p ++ [k]).length = p.length + 1 := by simp
  have hget : ∀ t, t < p.length + 1 → (p ++ [k] ++ [j]).getD t 0 = (p ++ [k]).getD t 0 := by
    intro t ht
    simp only [List.getD_eq_getElem?_getD]
    rw [List.getElem?_append_left (by rw [hlen']; exact ht)]
  have hlast : (p ++ [k] ++ [j]).getD (p.length + 1) 0 = j := by
    simp only [List.getD_eq_getElem?_getD]
    rw [List.getElem?_append_right (by rw [hlen'])]
    simp [hlen']
  have hk : (p ++ [k]).getD p.length 0 = k := by
    simp only [List.getD_eq_getElem?_getD]
    rw [List.getElem?_append_right (le_refl _)]
    simp
  have hE : ((List.range (p.length + 1 + 1)).map
      (fun t => P (rd2 emission ((p ++ [k] ++ [j]).getD t 0) (ob observed t)))).prod =
      ((List.range (p.length + 1)).map
        (fun t => P (rd2 emission ((p ++ [k]).getD t 0) (ob observed t)))).prod *
      P (rd2 emission j (ob observed (p.length + 1))) := by
    rw [prod_range_succ_map, hlast]
    congr 1
    apply prod_range_congr
    intro t ht
    rw [hget t ht]
  have hA : ((List.range (p.length + 1)).map
      (fun t => P (rd2 transition ((p ++ [k] ++ [j]).getD t 0)
        ((p ++ [k] ++ [j]).getD (t + 1) 0)))).prod =
      ((List.range p.length).map
        (fun t => P (rd2 transition ((p ++ [k]).getD t 0) ((p ++ [k]).getD (t + 1) 0)))).prod *
      P (rd2 transition k j) := by
    rw [prod_range_succ_map, hlast, hget p.length (by omega), hk]
    congr 1
    apply prod_range_congr
    intro t ht
    rw [hget t (by omega), hget (t + 1) (by omega)]
  unfold pathWeight
  rw [hlen, hlen', hget 0 (by omega)]
  simp only [Nat.add_sub_cancel]
  rw [hE, hA]
  ring

theorem P_fwdCol (observed : List Nat) (initial : List XReal)
    (transition emission : List (List XReal)) (hpi : ExtVec initial) (hA : ExtMat transition)
    (hB : ExtMat emission) (s i : Nat) (hi : i < initial.length) :
    P (rd (fwdCol observed initial transition emission s) i) =
      lsum (allPaths initial.length s)
        (fun p => pathWeight observed initial transition emission (p ++ [i])) := by
  induction s generalizing i with
  | zero =>
    simp only [fwdCol, fwdInit, rd_map_range, hi, if_true, allPaths, lsum_cons, lsum_nil,
      add_zero, List.nil_append]
    rw [P_elnproduct _ _ (isExt_rd _ hpi _) (isExt_rd2 _ hB _ _), pathWeight_single]
  | succ s ih =>
    simp only [fwdCol, fwdStep, rd_map_range, hi, if_true]
    have hf : ∀ k, k < initial.length →
        IsExt (elnproduct (rd (fwdCol observed initial transition emission s) k)
          (rd2 transition k i)) :=
      fun k _ => isExt_elnproduct _ _ (isExt_fwdCol _ _ _ _ hpi hA hB s k)
        (isExt_rd2 _ hA _ _)
    rw [P_elnproduct _ _ (isExt_sumLoop _ _ hf) (isExt_rd2 _ hB _ _), P_sumLoop _ _ hf]
    simp only [allPaths]
    rw [lsum_flatMap]
    simp only [lsum_map]
    rw [lsum_congr (allPaths initial.length s) _
      (fun p => lsum (List.range initial.length)
        (fun k => pathWeight observed initial transition emission (p ++ [k]) *
          P (rd2 transition k i) * P (rd2 emission i (ob observed (s + 1)))))
      (fun p hp => by
        apply lsum_congr
        intro k _
        rw [pathWeight_snoc, length_allPaths _ _ p hp])]
    rw [lsum_comm, ← lsum_mul_right]
    apply lsum_congr
    intro k hk
    rw [P_elnproduct _ _ (isExt_fwdCol _ _ _ _ hpi hA hB s k) (isExt_rd2 _ hA _ _),
      ih k (List.mem_range.1 hk), ← lsum_mul_right, ← lsum_mul_right]

/-- Property C7.  For a model whose entries are finite or `LZERO`, every `s < T` and every
state `i`: the probability of `alpha[i][s]` after `forward_full(T)` is the sum, over all
state paths `q_0 .. q_s` with `q_s = i`, of
`P(pi[q_0]) * prod_t P(B[q_t][O_t]) * prod_(t>=1) P(A[q_(t-1)][q_t])`. -/
theorem forward_full_path_sum (observed : List Nat) (initial : List XReal)
    (transition emission : List (List XReal)) (alpha : List (List XReal)) (s i : Nat)
    (hpi : ExtVec initial) (hA : ExtMat transition) (hB : ExtMat emission)
    (hm : IsMat alpha initial.length observed.length)
    (hs : s < observed.length) (hi : i < initial.length) :
    P (rd2 (forward_full observed initial transition emission observed.length alpha) i s) =
      lsum (allPaths initial.length s)
        (fun q => pathWeight observed initial transition emission (q ++ [i])) := by
  obtain ⟨t, ht⟩ : ∃ t, observed.length = t + 1 := ⟨observed.length - 1, by omega⟩
  have hf := forward_full_cols observed initial transition emission alpha observed.length hm t
    (by omega)
  rw [← ht] at hf
  rw [hf.2 s i (by omega) hi]
  exact P_fwdCol observed initial transition emission hpi hA hB s i hi

/-- Witness of C7 on the deterministic scenario: `s = 1`, `i = 0`. -/
theorem forward_full_path_sum_witness :
    ExtVec detInitial ∧ ExtMat detTransition ∧ ExtMat detEmission ∧
    IsMat detMatrix detInitial.length detObserved.length ∧ 1 < detObserved.length ∧
    0 < detInitial.length ∧
    P (rd2 (forward_full detObserved detInitial detTransition detEmission detObserved.length
      detMatrix) 0 1) =
      lsum (allPaths detInitial.length 1)
        (fun q => pathWeight detObserved detInitial detTransition detEmission (q ++ [0])) :=
  ⟨detInitial_ext, detTransition_ext, detEmission_ext, detMatrix_isMat, by decide, by decide,
    forward_full_path_sum detObserved detInitial detTransition detEmission detMatrix 1 0
      detInitial_ext detTransition_ext detEmission_ext detMatrix_isMat (by decide)
      (by decide)⟩

/-! ## Witness for the stored tables of `train_full` -/

theorem detTransition_isMat : IsMat detTransition detInitial.length detInitial.length := by
  refine ⟨rfl, ?_⟩
  intro row h
  simp only [detTransition, List.mem_cons, List.mem_singleton, List.not_mem_nil, or_false] at h
  rcases h with rfl | rfl <;> rfl

theorem detEmission_isMat : IsMat detEmission detInitial.length 2 := by
  refine ⟨rfl, ?_⟩
  intro row h
  simp only [detEmission, List.mem_cons, List.mem_singleton, List.not_mem_nil, or_false] at h
  rcases h with rfl | rfl <;> rfl

/-- Witness of C4 on the deterministic scenario: the stored `pi_0`. -/
theorem train_full_stores_witness :
    2 ≤ detObserved.length ∧ IsMat detTransition detInitial.length detInitial.length ∧
    IsMat detEmission detInitial.length 2 ∧
    rd (train_full detObserved detInitial detTransition detEmission).1 0 =
      Numeric.exp (rd2 (gamma_m_full detObserved detInitial detTransition detEmission
        (List.replicate detInitial.length
          (List.replicate detObserved.length Numeric.zero))) 0 0) :=
  ⟨by decide, detTransition_isMat, detEmission_isMat,
    (train_full_stores detObserved detInitial detTransition detEmission 2 (by decide)
      detTransition_isMat detEmission_isMat).1 0 (by decide)⟩

/-! ## A model that cannot emit the observed sequence -/

/-- Observation sequence `[1,1]`: the symbol 1 twice. -/
def impObserved : List Nat := [1, 1]

/-- Initial distribution `[1]` in log-space: a single state. -/
def impInitial : List XReal := [fin 0]

/-- Transition table `[[1]]` in log-space. -/
def impTransition : List (List XReal) := [[fin 0]]

/-- Emission table `[[1, 0]]` in log-space: the state emits the symbol 0 only. -/
def impEmission : List (List XReal) := [[fin 0, pinf]]

theorem evalp_imp_eval :
    evalp impObserved impInitial impTransition impEmission = pinf := by
  have hl : impObserved.length = 1 + 1 := rfl
  have r1 : List.range 1 = [0] := by decide
  unfold evalp
  simp only [hl, show ¬ (1 + 1 < 2) by omega, if_false]
  rw [forward_index_eq _ _ _ _ 1 _ (by simp)]
  simp [fwdCol, fwdStep, fwdInit, impObserved, impInitial, impTransition, impEmission, r1,
    rd2, rd, ob, sumLoop, elnproduct_pinf_right, elnsum, inf, Numeric.infinity, Numeric.eq,
    XReal.eq, Numeric.exp, XReal.exp]

/-- Property C6 on the code: for the one-state model that emits the symbol 0 only and the
observations `[1,1]`, every state path has probability 0, so the probability of the sequence
is 0, but `evalp` returns plus infinity: it applies `exp` to the accumulated `LZERO`. -/
theorem evalp_impossible_sequence :
    evalp impObserved impInitial impTransition impEmission = pinf ∧
    lsum (allPaths impInitial.length impObserved.length)
      (pathWeight impObserved impInitial impTransition impEmission) = 0 := by
  refine ⟨evalp_imp_eval, ?_⟩
  have r1 : List.range 1 = [0] := by decide
  have r2 : List.range 2 = [0, 1] := by decide
  simp [allPaths, impInitial, impObserved, impEmission, impTransition, lsum, pathWeight, r1, r2,
    rd2, rd, ob, P]

/-! ## Probabilities of the posteriors -/

theorem P_inj (x y : XReal) (hx : IsExt x) (hy : IsExt y) (h : P x = P y) : x = y := by
  cases x with
  | fin a =>
    cases y with
    | fin b => simp only [P] at h; rw [Real.exp_eq_exp.1 h]
    | pinf => simp only [P] at h; exact absurd h (ne_of_gt (Real.exp_pos a))
    | ninf => exact absurd hy (by simp [IsExt])
    | nan => exact absurd hy (by simp [IsExt])
  | pinf =>
    cases y with
    | fin b => simp only [P] at h; exact absurd h.symm (ne_of_gt (Real.exp_pos b))
    | pinf => rfl
    | ninf => exact absurd hy (by simp [IsExt])
    | nan => exact absurd hy (by simp [IsExt])
  | ninf => exact absurd hx (by simp [IsExt])
  | nan => exact absurd hx (by simp [IsExt])

theorem P_eq_zero_iff (x : XReal) (hx : IsExt x) : P x = 0 ↔ x = pinf := by
  cases x with
  | fin a => simp [P, ne_of_gt (Real.exp_pos a)]
  | pinf => simp [P]
  | ninf => exact absurd hx (by simp [IsExt])
  | nan => exact absurd hx (by simp [IsExt])

/-- Division in log-space: `x (x) -z`, where `x` is `LZERO` as soon as `z` is. -/
theorem elnproduct_neg (x z : XReal) (hx : IsExt x) (hz : IsExt z) (h : z = pinf → x = pinf) :
    IsExt (elnproduct x (Numeric.neg z)) ∧ P (elnproduct x (Numeric.neg z)) = P x / P z := by
  cases z with
  | fin c =>
    cases x with
    | fin a =>
      have : elnproduct (fin a) (Numeric.neg (fin c)) = fin (a + -c) := elnproduct_fin_fin a (-c)
      rw [this]
      refine ⟨trivial, ?_⟩
      simp only [P]
      rw [Real.exp_add, Real.exp_neg]
      rfl
    | pinf =>
      rw [elnproduct_pinf_left]
      exact ⟨trivial, by simp [P]⟩
    | ninf => exact absurd hx (by simp [IsExt])
    | nan => exact absurd hx (by simp [IsExt])
  | pinf =>
    rw [h rfl, elnproduct_pinf_left]
    exact ⟨trivial, by simp [P]⟩
  | ninf => exact absurd hz (by simp [IsExt])
  | nan => exact absurd hz (by simp [IsExt])

theorem isExt_bwdBack (observed : List Nat) (initial : List XReal)
    (transition emission : List (List XReal)) (hA : ExtMat transition) (hB : ExtMat emission)
    (d i : Nat) : IsExt (rd (bwdBack observed initial transition emission d) i) := by
  by_cases hi : i < initial.length
  · induction d generalizing i with
    | zero =>
      simp only [bwdBack, rd]
      rw [List.getD_eq_getElem?_getD, List.getElem?_replicate]
      simp only [hi, if_true, Option.getD_some]
      trivial
    | succ d ih =>
      simp only [bwdBack, bwdStep, rd_map_range, hi, if_true]
      refine isExt_sumLoop _ _ (fun k hk => ?_)
      exact isExt_elnproduct _ _ (isExt_rd2 _ hA _ _)
        (isExt_elnproduct _ _ (isExt_rd2 _ hB _ _) (ih k hk))
  · have : rd (bwdBack observed initial transition emission d) i = Numeric.zero := by
      unfold rd
      rw [List.getD_eq_getElem?_getD, List.getElem?_eq_none]
      · rfl
      · cases d <;> simp [bwdBack, bwdStep] <;> omega
    rw [this]
    trivial

theorem isExt_betaAt (observed : List Nat) (initial : List XReal)
    (transition emission : List (List XReal)) (hA : ExtMat transition) (hB : ExtMat emission)
    (c i : Nat) : IsExt (rd (betaAt observed initial transition emission c) i) :=
  isExt_bwdBack observed initial transition emission hA hB _ i

/-- The backward recurrence in probabilities:
`P(beta_c[i]) = sum over j of P(A[i][j]) * P(B[j][O_(c+1)]) * P(beta_(c+1)[j])`. -/
theorem P_betaAt (observed : List Nat) (initial : List XReal)
    (transition emission : List (List XReal)) (hA : ExtMat transition) (hB : ExtMat emission)
    (c i : Nat) (hc : c + 1 < observed.length) (hi : i < initial.length) :
    P (rd (betaAt observed initial transition emission c) i) =
      lsum (List.range initial.length) (fun j =>
        P (rd2 transition i j) * (P (rd2 emission j (ob observed (c + 1))) *
          P (rd (betaAt observed initial transition emission (c + 1)) j))) := by
  have h1 : observed.length - 1 - c = (observed.length - 1 - (c + 1)) + 1 := by omega
  have h2 : observed.length - 1 - (observed.length - 1 - (c + 1)) = c + 1 := by omega
  unfold betaAt
  rw [h1]
  simp only [bwdBack, bwdStep, rd_map_range, hi, if_true, h2]
  rw [P_sumLoop _ _ (fun k _ => isExt_elnproduct _ _ (isExt_rd2 _ hA _ _)
    (isExt_elnproduct _ _ (isExt_rd2 _ hB _ _) (isExt_bwdBack _ _ _ _ hA hB _ k)))]
  apply lsum_congr
  intro j _
  rw [P_elnproduct _ _ (isExt_rd2 _ hA _ _)
    (isExt_elnproduct _ _ (isExt_rd2 _ hB _ _) (isExt_bwdBack _ _ _ _ hA hB _ j)),
    P_elnproduct _ _ (isExt_rd2 _ hB _ _) (isExt_bwdBack _ _ _ _ hA hB _ j)]

/-- The forward recurrence in probabilities:
`P(alpha_(s+1)[j]) = (sum over k of P(alpha_s[k]) * P(A[k][j])) * P(B[j][O_(s+1)])`. -/
theorem P_fwdCol_succ (observed : List Nat) (initial : List XReal)
    (transition emission : List (List XReal)) (hpi : ExtVec initial) (hA : ExtMat transition)
    (hB : ExtMat emission) (s j : Nat) (hj : j < initial.length) :
    P (rd (fwdCol observed initial transition emission (s + 1)) j) =
      lsum (List.range initial.length) (fun k =>
        P (rd (fwdCol observed initial transition emission s) k) * P (rd2 transition k j)) *
        P (rd2 emission j (ob observed (s + 1))) := by
  simp only [fwdCol, fwdStep, rd_map_range, hj, if_true]
  have hf : ∀ k, k < initial.length →
      IsExt (elnproduct (rd (fwdCol observed initial transition emission s) k)
        (rd2 transition k j)) :=
    fun k _ => isExt_elnproduct _ _ (isExt_fwdCol _ _ _ _ hpi hA hB s k) (isExt_rd2 _ hA _ _)
  rw [P_elnproduct _ _ (isExt_sumLoop _ _ hf) (isExt_rd2 _ hB _ _), P_sumLoop _ _ hf]
  congr 1
  apply lsum_congr
  intro k _
  rw [P_elnproduct _ _ (isExt_fwdCol _ _ _ _ hpi hA hB s k) (isExt_rd2 _ hA _ _)]

theorem lsum_eq_zero {α : Type} (l : List α) (f : α → ℝ) (h : ∀ x ∈ l, 0 ≤ f x)
    (h0 : lsum l f = 0) : ∀ x ∈ l, f x = 0 := by
  induction l with
  | nil => intro x hx; simp at hx
  | cons y l ih =>
    rw [lsum_cons] at h0
    have hy := h y (List.mem_cons_self _ _)
    have hl := lsum_nonneg l f (fun z hz => h z (List.mem_cons_of_mem _ hz))
    intro x hx
    rcases List.mem_cons.1 hx with rfl | hx
    · linarith
    · exact ih (fun z hz => h z (List.mem_cons_of_mem _ hz)) (by linarith) x hx

theorem foldl_elnsum_P {α : Type} (l : List α) (f : α → XReal) (hf : ∀ x ∈ l, IsExt (f x))
    (acc : XReal) (hacc : IsExt acc) :
    IsExt (l.foldl (fun a x => elnsum a (f x)) acc) ∧
    P (l.foldl (fun a x => elnsum a (f x)) acc) = P acc + lsum l (fun x => P (f x)) := by
  induction l generalizing acc with
  | nil => exact ⟨hacc, by simp [lsum_nil]⟩
  | cons y l ih =>
    simp only [List.foldl_cons]
    have hy := hf y (List.mem_cons_self _ _)
    obtain ⟨h1, h2⟩ := ih (fun z hz => hf z (List.mem_cons_of_mem _ hz)) (elnsum acc (f y))
      (isExt_elnsum _ _ hacc hy)
    refine ⟨h1, ?_⟩
    rw [h2, P_elnsum _ _ hacc hy, lsum_cons]
    ring

theorem isExt_sumLoop2 (n : Nat) (f : Nat → Nat → XReal)
    (hf : ∀ i j, i < n → j < n → IsExt (f i j)) : IsExt (sumLoop2 n f) := by
  refine (foldl_elnsum_P (pairs n n) (fun k => f k.1 k.2) ?_ pinf trivial).1
  intro x hx
  simp only [pairs, List.mem_flatMap, List.mem_map, List.mem_range] at hx
  obtain ⟨i, hi, j, hj, rfl⟩ := hx
  exact hf i j hi hj

theorem P_sumLoop2 (n : Nat) (f : Nat → Nat → XReal)
    (hf : ∀ i j, i < n → j < n → IsExt (f i j)) :
    P (sumLoop2 n f) =
      lsum (List.range n) (fun i => lsum (List.range n) (fun j => P (f i j))) := by
  have h := (foldl_elnsum_P (pairs n n) (fun k => f k.1 k.2) (by
    intro x hx
    simp only [pairs, List.mem_flatMap, List.mem_map, List.mem_range] at hx
    obtain ⟨i, hi, j, hj, rfl⟩ := hx
    exact hf i j hi hj) pinf trivial).2
  have h' : P (sumLoop2 n f) = P pinf + lsum (pairs n n) (fun k => P (f k.1 k.2)) := h
  rw [h']
  simp only [P, zero_add, pairs]
  rw [lsum_flatMap]
  simp only [lsum_map]

/-- The probability of a normalized state posterior. -/
theorem P_gammaAt (n : Nat) (a b : List XReal) (ha : ∀ k, IsExt (rd a k))
    (hb : ∀ k, IsExt (rd b k)) (i : Nat) (hi : i < n) :
    IsExt (gammaAt n a b i) ∧
    P (gammaAt n a b i) =
      P (rd a i) * P (rd b i) / lsum (List.range n) (fun k => P (rd a k) * P (rd b k)) := by
  have hf : ∀ k, k < n → IsExt (elnproduct (rd a k) (rd b k)) :=
    fun k _ => isExt_elnproduct _ _ (ha k) (hb k)
  have hz := isExt_sumLoop n _ hf
  have h := elnproduct_neg (elnproduct (rd a i) (rd b i))
    (sumLoop n (fun k => elnproduct (rd a k) (rd b k))) (hf i hi) hz
    (fun hp => (sumLoop_eq_pinf_iff n _ hf).1 hp i hi)
  refine ⟨h.1, ?_⟩
  unfold gammaAt
  rw [h.2, P_sumLoop _ _ hf, P_elnproduct _ _ (ha i) (hb i)]
  congr 1
  apply lsum_congr
  intro k _
  rw [P_elnproduct _ _ (ha k) (hb k)]

theorem isExt_xiRaw (transition emission : List (List XReal)) (hA : ExtMat transition)
    (hB : ExtMat emission) (o : Nat) (a b : List XReal) (ha : ∀ k, IsExt (rd a k))
    (hb : ∀ k, IsExt (rd b k)) (i j : Nat) : IsExt (xiRaw transition emission o a b i j) :=
  isExt_elnproduct _ _ (ha i) (isExt_elnproduct _ _ (isExt_rd2 _ hA _ _)
    (isExt_elnproduct _ _ (isExt_rd2 _ hB _ _) (hb j)))

theorem P_xiRaw (transition emission : List (List XReal)) (hA : ExtMat transition)
    (hB : ExtMat emission) (o : Nat) (a b : List XReal) (ha : ∀ k, IsExt (rd a k))
    (hb : ∀ k, IsExt (rd b k)) (i j : Nat) :
    P (xiRaw transition emission o a b i j) =
      P (rd a i) * (P (rd2 transition i j) * (P (rd2 emission j o) * P (rd b j))) := by
  unfold xiRaw
  rw [P_elnproduct _ _ (ha i) (isExt_elnproduct _ _ (isExt_rd2 _ hA _ _)
      (isExt_elnproduct _ _ (isExt_rd2 _ hB _ _) (hb j))),
    P_elnproduct _ _ (isExt_rd2 _ hA _ _) (isExt_elnproduct _ _ (isExt_rd2 _ hB _ _) (hb j)),
    P_elnproduct _ _ (isExt_rd2 _ hB _ _) (hb j)]

/-- The probability of a normalized pairwise posterior. -/
theorem P_xiAt (n : Nat) (transition emission : List (List XReal)) (hA : ExtMat transition)
    (hB : ExtMat emission) (o : Nat) (a b : List XReal) (ha : ∀ k, IsExt (rd a k))
    (hb : ∀ k, IsExt (rd b k)) (i j : Nat) (hi : i < n) (hj : j < n) :
    IsExt (xiAt n transition emission o a b i j) ∧
    P (xiAt n transition emission o a b i j) =
      P (rd a i) * (P (rd2 transition i j) * (P (rd2 emission j o) * P (rd b j))) /
        lsum (List.range n) (fun k => lsum (List.range n) (fun m =>
          P (rd a k) * (P (rd2 transition k m) * (P (rd2 emission m o) * P (rd b m))))) := by
  have hf : ∀ k m, k < n → m < n → IsExt (xiRaw transition emission o a b k m) :=
    fun k m _ _ => isExt_xiRaw transition emission hA hB o a b ha hb k m
  have hz := isExt_sumLoop2 n _ hf
  have hP := P_sumLoop2 n _ hf
  have h := elnproduct_neg (xiRaw transition emission o a b i j)
    (sumLoop2 n (xiRaw transition emission o a b)) (hf i j hi hj) hz (by
      intro hp
      rw [hp] at hP
      have h0 : lsum (List.range n) (fun k => lsum (List.range n)
          (fun m => P (xiRaw transition emission o a b k m))) = 0 := by
        rw [← hP]; rfl
      have h1 := lsum_eq_zero _ _ (fun k _ => lsum_nonneg _ _ (fun m _ => P_nonneg _)) h0 i
        (List.mem_range.2 hi)
      have h2 := lsum_eq_zero _ _ (fun m _ => P_nonneg _) h1 j (List.mem_range.2 hj)
      exact (P_eq_zero_iff _ (hf i j hi hj)).1 h2)
  refine ⟨h.1, ?_⟩
  unfold xiAt
  rw [h.2, hP, P_xiRaw transition emission hA hB o a b ha hb]
  congr 1
  apply lsum_congr
  intro k _
  apply lsum_congr
  intro m _
  rw [P_xiRaw transition emission hA hB o a b ha hb]

theorem lsum_div {α : Type} (l : List α) (f : α → ℝ) (c : ℝ) :
    lsum l (fun x => f x / c) = lsum l f / c := by
  simp only [div_eq_mul_inv]
  exact lsum_mul_right l f c⁻¹

/-- The row sum of the unnormalized pairwise posteriors is the unnormalized state
posterior: `sum over j of alpha_s[i] A[i][j] B[j][O_(s+1)] beta_(s+1)[j] =
alpha_s[i] beta_s[i]`. -/
theorem xiRaw_row_sum (observed : List Nat) (initial : List XReal)
    (transition emission : List (List XReal)) (hA : ExtMat transition) (hB : ExtMat emission)
    (s i : Nat) (hs : s + 1 < observed.length) (hi : i < initial.length) (x : ℝ) :
    lsum (List.range initial.length) (fun j =>
      x * (P (rd2 transition i j) * (P (rd2 emission j (ob observed (s + 1))) *
        P (rd (betaAt observed initial transition emission (s + 1)) j)))) =
      x * P (rd (betaAt observed initial transition emission s) i) := by
  rw [lsum_mul_left, P_betaAt observed initial transition emission hA hB s i hs hi]

/-- Marginalization in probabilities. -/
theorem xi_marginal (observed : List Nat) (initial : List XReal)
    (transition emission : List (List XReal)) (hpi : ExtVec initial) (hA : ExtMat transition)
    (hB : ExtMat emission) (s i : Nat) (hs : s + 1 < observed.length)
    (hi : i < initial.length) :
    sumLoop initial.length (fun j =>
      xiAt initial.length transition emission (ob observed (s + 1))
        (fwdCol observed initial transition emission s)
        (betaAt observed initial transition emission (s + 1)) i j) =
      gammaAt initial.length (fwdCol observed initial transition emission s)
        (betaAt observed initial transition emission s) i := by
  have ha := isExt_fwdCol observed initial transition emission hpi hA hB s
  have hb := isExt_betaAt observed initial transition emission hA hB s
  have hb1 := isExt_betaAt observed initial transition emission hA hB (s + 1)
  have hx : ∀ j, j < initial.length →
      IsExt (xiAt initial.length transition emission (ob observed (s + 1))
        (fwdCol observed initial transition emission s)
        (betaAt observed initial transition emission (s + 1)) i j) :=
    fun j hj => (P_xiAt _ _ _ hA hB _ _ _ ha hb1 i j hi hj).1
  have hg := P_gammaAt initial.length _ _ ha hb i hi
  apply P_inj _ _ (isExt_sumLoop _ _ hx) hg.1
  rw [hg.2, P_sumLoop _ _ hx]
  rw [lsum_congr _ _ _ (fun j hj =>
    (P_xiAt _ _ _ hA hB _ _ _ ha hb1 i j hi (List.mem_range.1 hj)).2)]
  rw [lsum_div, xiRaw_row_sum observed initial transition emission hA hB s i hs hi]
  congr 1
  apply lsum_congr
  intro k hk
  exact xiRaw_row_sum observed initial transition emission hA hB s k hs (List.mem_range.1 hk) _

/-- Property C12.  For a model whose entries are finite or `LZERO`, `T >= 2`, every
`s <= T-2` and every state `i`: the `elnsum` over `j` of `xi_full[i][j][s]` equals
`gamma_m_full[i][s]` (marginalization law), in exact arithmetic. -/
theorem xi_full_marginalization (observed : List Nat) (initial : List XReal)
    (transition emission : List (List XReal)) (gam : List (List XReal))
    (probs : List (List (List XReal)))
    (hpi : ExtVec initial) (hA : ExtMat transition) (hB : ExtMat emission)
    (hg : IsMat gam initial.length observed.length)
    (hp : IsCube probs initial.length initial.length observed.length)
    (hT : 2 ≤ observed.length) (s i : Nat) (hs : s + 1 < observed.length)
    (hi : i < initial.length) :
    sumLoop initial.length
      (fun j => rd3 (xi_full observed initial transition emission probs) i j s) =
      rd2 (gamma_m_full observed initial transition emission gam) i s := by
  rw [(gamma_m_full_entry observed initial transition emission gam hg hT).2 i s hi (by omega),
    ← xi_marginal observed initial transition emission hpi hA hB s i hs hi]
  apply sumLoop_congr
  intro j hj
  exact xi_full_entry observed initial transition emission probs hp hT i j s hi hj hs

/-- Witness of C12 on the deterministic scenario: `s = 0`, `i = 0`. -/
theorem xi_full_marginalization_witness :
    ExtVec detInitial ∧ ExtMat detTransition ∧ ExtMat detEmission ∧
    IsMat detMatrix detInitial.length detObserved.length ∧
    IsCube (List.replicate 2 (List.replicate 2 (List.replicate 3 (fin 0))))
      detInitial.length detInitial.length detObserved.length ∧
    2 ≤ detObserved.length ∧ 0 + 1 < detObserved.length ∧ 0 < detInitial.length ∧
    sumLoop detInitial.length
      (fun j => rd3 (xi_full detObserved detInitial detTransition detEmission
        (List.replicate 2 (List.replicate 2 (List.replicate 3 (fin 0))))) 0 j 0) =
      rd2 (gamma_m_full detObserved detInitial detTransition detEmission detMatrix) 0 0 :=
  ⟨detInitial_ext, detTransition_ext, detEmission_ext, detMatrix_isMat,
    isCube_replicate 2 2 3 (fin 0), by decide, by decide, by decide,
    xi_full_marginalization detObserved detInitial detTransition detEmission detMatrix
      (List.replicate 2 (List.replicate 2 (List.replicate 3 (fin 0))))
      detInitial_ext detTransition_ext detEmission_ext detMatrix_isMat
      (isCube_replicate 2 2 3 (fin 0)) (by decide) 0 0 (by decide) (by decide)⟩

/-! ## The normalizer of the state posteriors -/

/-- The step `sum_i alpha_s[i] beta_s[i] = sum_j alpha_(s+1)[j] beta_(s+1)[j]`. -/
theorem normalizer_step (observed : List Nat) (initial : List XReal)
    (transition emission : List (List XReal)) (hpi : ExtVec initial) (hA : ExtMat transition)
    (hB : ExtMat emission) (s : Nat) (hs : s + 1 < observed.length) :
    lsum (List.range initial.length) (fun k =>
      P (rd (fwdCol observed initial transition emission s) k) *
        P (rd (betaAt observed initial transition emission s) k)) =
    lsum (List.range initial.length) (fun k =>
      P (rd (fwdCol observed initial transition emission (s + 1)) k) *
        P (rd (betaAt observed initial transition emission (s + 1)) k)) := by
  rw [lsum_congr _ _ _ (fun k hk => (xiRaw_row_sum observed initial transition emission hA hB s
    k hs (List.mem_range.1 hk) _).symm), lsum_comm]
  apply lsum_congr
  intro j hj
  rw [P_fwdCol_succ observed initial transition emission hpi hA hB s j (List.mem_range.1 hj),
    ← lsum_mul_right, ← lsum_mul_right]
  apply lsum_congr
  intro k _
  ring

/-- The last normalizer is the probability of the observation sequence. -/
theorem normalizer_last (observed : List Nat) (initial : List XReal)
    (transition emission : List (List XReal)) (hpi : ExtVec initial) (hA : ExtMat transition)
    (hB : ExtMat emission) (t : Nat) (ht : observed.length = t + 1) :
    lsum (List.range initial.length) (fun k =>
      P (rd (fwdCol observed initial transition emission t) k) *
        P (rd (betaAt observed initial transition emission t) k)) =
    lsum (allPaths initial.length observed.length)
      (pathWeight observed initial transition emission) := by
  rw [ht]
  simp only [allPaths]
  rw [lsum_flatMap]
  simp only [lsum_map]
  rw [lsum_comm]
  apply lsum_congr
  intro k hk
  have hk' := List.mem_range.1 hk
  have hb : rd (betaAt observed initial transition emission t) k = fin 0 := by
    unfold betaAt
    rw [ht, show t + 1 - 1 - t = 0 by omega]
    simp only [bwdBack, rd]
    rw [List.getD_eq_getElem?_getD, List.getElem?_replicate]
    simp only [hk', if_true, Option.getD_some]
    rfl
  rw [hb, P_fwdCol observed initial transition emission hpi hA hB t k hk']
  simp [P]

/-- Every normalizer is the probability of the observation sequence. -/
theorem normalizer_eq (observed : List Nat) (initial : List XReal)
    (transition emission : List (List XReal)) (hpi : ExtVec initial) (hA : ExtMat transition)
    (hB : ExtMat emission) (d s : Nat) (hs : s + d + 1 = observed.length) :
    lsum (List.range initial.length) (fun k =>
      P (rd (fwdCol observed initial transition emission s) k) *
        P (rd (betaAt observed initial transition emission s) k)) =
    lsum (allPaths initial.length observed.length)
      (pathWeight observed initial transition emission) := by
  induction d generalizing s with
  | zero => exact normalizer_last observed initial transition emission hpi hA hB s (by omega)
  | succ d ih =>
    rw [normalizer_step observed initial transition emission hpi hA hB s (by omega)]
    exact ih (s + 1) (by omega)

theorem P_sumLoopAt (observed : List Nat) (k n : Nat) (f : Nat → XReal)
    (hf : ∀ s, s < n → IsExt (f s)) :
    IsExt (sumLoopAt observed k n f) ∧
    P (sumLoopAt observed k n f) =
      lsum (List.range n) (fun s => if ob observed s = k then P (f s) else 0) := by
  induction n with
  | zero => exact ⟨trivial, by simp [sumLoopAt, inf, Numeric.infinity, P, lsum_nil]⟩
  | succ n ih =>
    obtain ⟨h1, h2⟩ := ih (fun s hs => hf s (by omega))
    rw [sumLoopAt_succ, lsum_range_succ]
    by_cases hk : ob observed n = k
    · simp only [hk, if_true]
      exact ⟨isExt_elnsum _ _ h1 (hf n (by omega)),
        by rw [P_elnsum _ _ h1 (hf n (by omega)), h2]⟩
    · simp only [hk, if_false]
      exact ⟨h1, by rw [h2, add_zero]⟩

theorem ob_detObserved (s : Nat) : ob detObserved s = 0 := by
  rcases s with _ | _ | _ | s <;> rfl

/-- Observation sequence `[0,0]` of the one-state model. -/
def uniObserved : List Nat := [0, 0]

/-- Initial distribution `[1]` in log-space. -/
def uniInitial : List XReal := [fin 0]

/-- Transition table `[[1]]` in log-space. -/
def uniTransition : List (List XReal) := [[fin 0]]

/-- Emission table `[[1]]` in log-space: one symbol. -/
def uniEmission : List (List XReal) := [[fin 0]]

theorem uniInitial_ext : ExtVec uniInitial := by
  intro x hx
  simp only [uniInitial, List.mem_singleton] at hx
  rw [hx]; trivial

theorem uniTransition_ext : ExtMat uniTransition := by
  intro row hrow x hx
  simp only [uniTransition, List.mem_singleton] at hrow
  rw [hrow] at hx
  simp only [List.mem_singleton] at hx
  rw [hx]; trivial

theorem uniTransition_isMat : IsMat uniTransition uniInitial.length 1 := by
  refine ⟨rfl, ?_⟩
  intro row h
  simp only [uniTransition, List.mem_singleton] at h
  rw [h]; rfl

theorem ob_uniObserved (s : Nat) : ob uniObserved s = 0 := by
  rcases s with _ | _ | s <;> rfl

/-! ## Witness for the streaming trainer -/

/-- Witness of C1 on the deterministic scenario. -/
theorem train_refines_train_full_witness :
    2 ≤ detObserved.length ∧ IsMat detTransition detInitial.length detInitial.length ∧
    IsMat detEmission detInitial.length 2 ∧
    train detObserved detInitial detTransition detEmission =
      some (train_full detObserved detInitial detTransition detEmission) :=
  ⟨by decide, detTransition_isMat, detEmission_isMat,
    (train_refines_train_full detObserved detInitial detTransition detEmission 2 (by decide)
      detTransition_isMat detEmission_isMat).1⟩

/-! ## The decoder on models without `LZERO` -/

/-- A finite extended-log value (not the sentinel). -/
def IsFin : XReal → Prop
  | fin _ => True
  | _ => False

/-- The real number held by a finite value. -/
noncomputable def toReal : XReal → ℝ
  | fin a => a
  | _ => 0

/-- Every entry of the vector is finite. -/
def FinVec (v : List XReal) : Prop := ∀ x ∈ v, IsFin x

/-- Every entry of the table is finite. -/
def FinMat (m : List (List XReal)) : Prop := ∀ row ∈ m, FinVec row

theorem IsFin.eq_fin {x : XReal} (h : IsFin x) : x = fin (toReal x) := by
  cases x with
  | fin a => rfl
  | pinf => exact absurd h (by simp [IsFin])
  | ninf => exact absurd h (by simp [IsFin])
  | nan => exact absurd h (by simp [IsFin])

theorem isFin_rd (v : List XReal) (h : FinVec v) (i : Nat) : IsFin (rd v i) := by
  unfold rd
  rw [List.getD_eq_getElem?_getD]
  by_cases hi : i < v.length
  · rw [List.getElem?_eq_getElem hi]
    exact h _ (List.getElem_mem hi)
  · rw [List.getElem?_eq_none (Nat.le_of_not_lt hi)]
    trivial

theorem isFin_rd2 (m : List (List XReal)) (h : FinMat m) (i j : Nat) : IsFin (rd2 m i j) := by
  unfold rd2
  apply isFin_rd
  rw [List.getD_eq_getElem?_getD]
  by_cases hi : i < m.length
  · rw [List.getElem?_eq_getElem hi]
    exact h _ (List.getElem_mem hi)
  · rw [List.getElem?_eq_none (Nat.le_of_not_lt hi)]
    intro x hx
    simp at hx

theorem isFin_elnproduct (x y : XReal) (hx : IsFin x) (hy : IsFin y) :
    IsFin (elnproduct x y) := by
  rw [hx.eq_fin, hy.eq_fin, elnproduct_fin_fin]
  trivial

theorem gt_of_isFin (x y : XReal) (hx : IsFin x) (hy : IsFin y) :
    Numeric.gt x y = decide (toReal y < toReal x) := by
  rw [hx.eq_fin, hy.eq_fin]
  rfl

/-- The running maximum of finite values is one of them and bounds all of them. -/
theorem vitMax_spec (n : Nat) (f : Nat → XReal) (hn : 0 < n) (hf : ∀ k, k < n → IsFin (f k)) :
    (∃ k0, k0 < n ∧ vitMax n f = f k0) ∧ ∀ k, k < n → toReal (f k) ≤ toReal (vitMax n f) := by
  obtain ⟨n', rfl⟩ : ∃ n', n = n' + 1 := ⟨n - 1, by omega⟩
  unfold vitMax
  simp only [Nat.add_sub_cancel]
  induction n' with
  | zero =>
    refine ⟨⟨0, by omega, rfl⟩, ?_⟩
    intro k hk
    have : k = 0 := by omega
    subst this
    exact le_refl _
  | succ n' ih =>
    obtain ⟨⟨k0, hk0, hmx⟩, hle⟩ := ih (by omega) (fun k hk => hf k (by omega))
    rw [range'_concat_one, List.foldl_append]
    simp only [List.foldl_cons, List.foldl_nil]
    rw [hmx] at hle ⊢
    rw [gt_of_isFin _ _ (hf _ (by omega)) (hf k0 (by omega))]
    by_cases hlt : toReal (f k0) < toReal (f (1 + n'))
    · simp only [hlt, decide_True, if_true]
      refine ⟨⟨1 + n', by omega, rfl⟩, ?_⟩
      intro k hk
      by_cases hkn : k = 1 + n'
      · rw [hkn]
      · exact le_trans (hle k (by omega)) (le_of_lt hlt)
    · simp only [hlt, decide_False, Bool.false_eq_true, if_false]
      refine ⟨⟨k0, by omega, rfl⟩, ?_⟩
      intro k hk
      by_cases hkn : k = 1 + n'
      · rw [hkn]; exact not_lt.1 hlt
      · exact hle k (by omega)

/-- The index chosen by the first loop over finite values: the smallest index of a maximal
value. -/
theorem vitFirst_spec (n : Nat) (f : Nat → XReal) (hn : 0 < n) (hf : ∀ k, k < n → IsFin (f k)) :
    vitFirst n f < n ∧ (∀ k, k < n → toReal (f k) ≤ toReal (f (vitFirst n f))) ∧
    ∀ k, k < vitFirst n f → toReal (f k) < toReal (f (vitFirst n f)) := by
  obtain ⟨n', rfl⟩ : ∃ n', n = n' + 1 := ⟨n - 1, by omega⟩
  induction n' with
  | zero =>
    have h0 : vitFirst (0 + 1) f = 0 := by
      rw [vitFirst_succ]
      split <;> rfl
    rw [h0]
    refine ⟨by omega, ?_, fun k hk => by omega⟩
    intro k hk
    have : k = 0 := by omega
    subst this
    exact le_refl _
  | succ n' ih =>
    obtain ⟨h1, h2, h3⟩ := ih (by omega) (fun k hk => hf k (by omega))
    rw [vitFirst_succ, gt_of_isFin _ _ (hf _ (by omega)) (hf _ (by omega))]
    by_cases hlt : toReal (f (vitFirst (n' + 1) f)) < toReal (f (n' + 1))
    · simp only [hlt, decide_True, if_true]
      refine ⟨by omega, ?_, ?_⟩
      · intro k hk
        by_cases hkn : k = n' + 1
        · rw [hkn]
        · exact le_trans (h2 k (by omega)) (le_of_lt hlt)
      · intro k hk
        exact lt_of_le_of_lt (h2 k hk) hlt
    · simp only [hlt, decide_False, Bool.false_eq_true, if_false]
      refine ⟨by omega, ?_, h3⟩
      intro k hk
      by_cases hkn : k = n' + 1
      · rw [hkn]; exact not_lt.1 hlt
      · exact h2 k (by omega)

theorem gt_self (x : XReal) : Numeric.gt x x = false := by
  cases x with
  | fin a => simp [Numeric.gt, XReal.gt]
  | pinf => rfl
  | ninf => rfl
  | nan => rfl

/-- In a round of the loop over `s` the pair chosen is the value and the index that the first
loop would choose. -/
theorem vitPick_eq_vitFirst (n : Nat) (f : Nat → XReal) (g0 : XReal) (i0 : Nat) (hn : 0 < n) :
    vitPick n f g0 i0 = (f (vitFirst n f), vitFirst n f) := by
  obtain ⟨n', rfl⟩ : ∃ n', n = n' + 1 := ⟨n - 1, by omega⟩
  induction n' with
  | zero =>
    have h0 : vitFirst (0 + 1) f = 0 := by
      rw [vitFirst_succ]
      split <;> rfl
    rw [h0]
    have r1 : List.range (0 + 1) = [0] := rfl
    simp [vitPick, r1]
  | succ n' ih =>
    have ih' := ih (by omega)
    have hP : vitPick (n' + 1 + 1) f g0 i0 =
        if Numeric.gt (f (n' + 1)) (vitPick (n' + 1) f g0 i0).1 || decide (0 = n' + 1) then
          (f (n' + 1), n' + 1)
        else vitPick (n' + 1) f g0 i0 := by
      unfold vitPick
      rw [List.range_succ, List.foldl_append]
      rfl
    have hne : decide (0 = n' + 1) = false := by simp
    rw [hP, ih', vitFirst_succ (n' + 1) f, hne, Bool.or_false]
    split <;> rfl

theorem isFin_vitDelta (observed : List Nat) (initial : List XReal)
    (transition emission : List (List XReal)) (hpi : FinVec initial) (hA : FinMat transition)
    (hB : FinMat emission) (hN : 0 < initial.length) (s j : Nat) (hj : j < initial.length) :
    IsFin (rd (vitDelta observed initial transition emission s) j) := by
  induction s generalizing j with
  | zero =>
    simp only [vitDelta, rd_map_range, hj, if_true]
    exact isFin_elnproduct _ _ (isFin_rd _ hpi _) (isFin_rd2 _ hB _ _)
  | succ s ih =>
    simp only [vitDelta, rd_map_range, hj, if_true]
    refine isFin_elnproduct _ _ ?_ (isFin_rd2 _ hB _ _)
    obtain ⟨⟨k0, hk0, hmx⟩, _⟩ := vitMax_spec initial.length
      (fun k => elnproduct (rd (vitDelta observed initial transition emission s) k)
        (rd2 transition k j)) hN
      (fun k hk => isFin_elnproduct _ _ (ih k hk) (isFin_rd2 _ hA _ _))
    rw [hmx]
    exact isFin_elnproduct _ _ (ih k0 hk0) (isFin_rd2 _ hA _ _)

theorem getElem?_vitOut (observed : List Nat) (initial : List XReal)
    (transition emission : List (List XReal)) (hN : 0 < initial.length) (t s : Nat)
    (hs : s ≤ t) :
    (vitOut observed initial transition emission t)[s]? =
      some (vitFirst initial.length
        (rd (vitDelta observed initial transition emission s))) := by
  unfold vitOut
  cases s with
  | zero => exact List.getElem?_cons_zero
  | succ s =>
    rw [List.getElem?_cons_succ, List.getElem?_map, List.getElem?_range' _ _ (by omega)]
    simp only [Option.map_some']
    rw [vitPick_eq_vitFirst _ _ _ _ hN, Nat.one_mul, Nat.add_comm 1 s]

theorem uniInitial_fin : FinVec uniInitial := by
  intro x hx
  simp only [uniInitial, List.mem_singleton] at hx
  rw [hx]; trivial

theorem uniTransition_fin : FinMat uniTransition := by
  intro row hrow x hx
  simp only [uniTransition, List.mem_singleton] at hrow
  rw [hrow] at hx
  simp only [List.mem_singleton] at hx
  rw [hx]; trivial

/-! ## A model on which the per-step choice is not a most likely path -/

/-- Observation sequence `[0,0]`; there is one symbol. -/
def grdObserved : List Nat := [0, 0]

/-- Initial distribution `[3/5, 2/5]` in log-space. -/
noncomputable def grdInitial : List XReal := [fin (Real.log (3 / 5)), fin (Real.log (2 / 5))]

/-- Transition table `[[1/2, 1/2], [1/10, 9/10]]` in log-space. -/
noncomputable def grdTransition : List (List XReal) :=
  [[fin (Real.log (1 / 2)), fin (Real.log (1 / 2))],
    [fin (Real.log (1 / 10)), fin (Real.log (9 / 10))]]

/-- Emission table `[[1], [1]]` in log-space. -/
def grdEmission : List (List XReal) := [[fin 0], [fin 0]]

theorem grdInitial_fin : FinVec grdInitial := by
  intro x hx
  simp only [grdInitial, List.mem_cons, List.mem_singleton, List.not_mem_nil, or_false] at hx
  rcases hx with rfl | rfl <;> trivial

theorem grdTransition_fin : FinMat grdTransition := by
  intro row hrow x hx
  simp only [grdTransition, List.mem_cons, List.mem_singleton, List.not_mem_nil,
    or_false] at hrow
  rcases hrow with rfl | rfl <;>
    simp only [List.mem_cons, List.mem_singleton, List.not_mem_nil, or_false] at hx <;>
    rcases hx with rfl | rfl <;> trivial

theorem grdEmission_fin : FinMat grdEmission := by
  intro row hrow x hx
  simp only [grdEmission, List.mem_cons, List.mem_singleton, List.not_mem_nil,
    or_false] at hrow
  rcases hrow with rfl | rfl <;>
    simp only [List.mem_singleton] at hx <;> rw [hx] <;> trivial

/-- Witness of C21: the deterministic model with the single observation `[0]`. -/
theorem evalp_short_returns_lzero_witness :
    ([0] : List Nat).length < 2 ∧ evalp [0] detInitial detTransition detEmission = inf :=
  ⟨by decide, evalp_short_returns_lzero [0] detInitial detTransition detEmission (by decide)⟩

/-- Witness of C22: the deterministic model with the single observation `[0]`. -/
theorem train_single_observation_unchanged_witness :
    ([0] : List Nat).length = 1 ∧
    train [0] detInitial detTransition detEmission =
      some (detInitial, detTransition, detEmission) :=
  ⟨rfl, train_single_observation_unchanged [0] detInitial detTransition detEmission rfl⟩

/-- Property C24 as stated fails for `T = 1`: the cache built for the single observation
`[0]` reports `Size() = 1`, not 0, and its first call of `Next()` returns the vector `[0]`
(`beta_0`), not null. -/
theorem backcache_one_observation_not_empty :
    BackCache.Size (BackCache.ctor [0] uniInitial uniTransition uniEmission) = 1 ∧
    BackCache.Size (BackCache.ctor [0] uniInitial uniTransition uniEmission) ≠ 0 ∧
    nthNext [0] uniInitial uniTransition uniEmission 0
      (BackCache.ctor [0] uniInitial uniTransition uniEmission) = some [fin 0] := by
  obtain ⟨h1, h2⟩ := ctor_short [0] uniInitial uniTransition uniEmission (by decide)
  refine ⟨h1, ?_, ?_⟩
  · rw [h1]
    decide
  · rw [h2 0]
    rfl

/-- Witness of C24 (amended) for `T = 1`. -/
theorem backcache_short_sequence_witness :
    ([0] : List Nat).length ≤ 1 ∧
    BackCache.Size (BackCache.ctor [0] uniInitial uniTransition uniEmission) =
      ([0] : List Nat).length ∧
    ∀ k, nthNext [0] uniInitial uniTransition uniEmission k
        (BackCache.ctor [0] uniInitial uniTransition uniEmission) =
      if k < ([0] : List Nat).length then
        some (List.replicate uniInitial.length Numeric.zero)
      else none :=
  ⟨by decide, backcache_short_sequence [0] uniInitial uniTransition uniEmission (by decide)⟩

theorem sqrt_10002 : max 10000 (sqrt_cast 10002) = 10000 := by
  apply max_eq_left
  rw [sqrt_cast_eq _ (by norm_num)]
  exact le_of_lt (Nat.sqrt_lt'.2 (by norm_num))

/-- Property C25 as stated fails for `T = 10002` (stride 10000): right after construction
`Size()` is 10002 (10001 active vectors and 1 passive checkpoint), while call number 10003 of
`Next()` still returns a vector. -/
theorem backcache_size_undercounts :
    BackCache.Size (BackCache.ctor (List.replicate 10002 0) uniInitial uniTransition
      uniEmission) = 10002 ∧
    (nthNext (List.replicate 10002 0) uniInitial uniTransition uniEmission 10002
      (BackCache.ctor (List.replicate 10002 0) uniInitial uniTransition
        uniEmission)).isSome = true := by
  have hl : (List.replicate 10002 0 : List Nat).length = 10002 := List.length_replicate _ _
  constructor
  · rw [ctor_size _ _ _ _ (by rw [hl]; norm_num), hl, sqrt_10002]
    norm_num
  · rw [nthNext_ctor _ _ _ _ _ (by rw [hl]; norm_num), hl, sqrt_10002]
    norm_num

/-- Witness of C25 (amended) on the deterministic scenario, after one call. -/
theorem backcache_size_counts_producible_witness :
    detObserved.length ≤ 10000 ∧
    ((nthNext detObserved detInitial detTransition detEmission 1
      (afterNext detObserved detInitial detTransition detEmission 1
        (BackCache.ctor detObserved detInitial detTransition detEmission))).isSome = true ↔
    1 < BackCache.Size (afterNext detObserved detInitial detTransition detEmission 1
      (BackCache.ctor detObserved detInitial detTransition detEmission))) :=
  ⟨by decide,
    backcache_size_counts_producible detObserved detInitial detTransition detEmission
      (by decide) 1 1⟩

/-- Property C26 as stated fails for `T = 100000001`: the constructor chooses the stride
`max(10000, floor(sqrt(T))) = 10000`, while `max(10000, ceil(sqrt(T)))` is 10001. -/
theorem backcache_stride_not_ceil :
    (BackCache.ctor (List.replicate 100000001 0) uniInitial uniTransition uniEmission).sz_ =
      10000 ∧
    ceilSqrtStride (List.replicate 100000001 0 : List Nat).length = 10001 := by
  have hl : (List.replicate 100000001 0 : List Nat).length = 100000001 :=
    List.length_replicate _ _
  have hs : Nat.sqrt 100000001 = 10000 :=
    (Nat.eq_sqrt.2 ⟨by norm_num, by norm_num⟩).symm
  constructor
  · rw [ctor_sz, hl, sqrt_cast_eq _ (by norm_num), hs]
    rfl
  · unfold ceilSqrtStride
    rw [hl, hs]
    norm_num

/-- Witness of C26 (amended) for `T = 100020001 = 10001^2` observations, where the stride is
above its floor of 10000. -/
theorem backcache_stride_is_floor_sqrt_witness :
    (List.replicate 100020001 0 : List Nat).length < 2 ^ 52 ∧
    (BackCache.ctor (List.replicate 100020001 0) uniInitial uniTransition uniEmission).sz_ =
      max 10000 (Nat.sqrt (List.replicate 100020001 0 : List Nat).length) ∧
    10000 ≤ (BackCache.ctor (List.replicate 100020001 0) uniInitial uniTransition
      uniEmission).sz_ ∧
    (List.replicate 100020001 0 : List Nat).length <
      ((BackCache.ctor (List.replicate 100020001 0) uniInitial uniTransition
        uniEmission).sz_ + 1) *
      ((BackCache.ctor (List.replicate 100020001 0) uniInitial uniTransition
        uniEmission).sz_ + 1) ∧
    (10000 < (BackCache.ctor (List.replicate 100020001 0) uniInitial uniTransition
        uniEmission).sz_ →
      (BackCache.ctor (List.replicate 100020001 0) uniInitial uniTransition uniEmission).sz_ *
        (BackCache.ctor (List.replicate 100020001 0) uniInitial uniTransition
          uniEmission).sz_ ≤ (List.replicate 100020001 0 : List Nat).length) :=
  ⟨by rw [List.length_replicate]; norm_num,
    backcache_stride_is_floor_sqrt (List.replicate 100020001 0) uniInitial uniTransition
      uniEmission (by rw [List.length_replicate]; norm_num)⟩

/-- Witness of C28 on the deterministic scenario: `index = 4 > T = 3`. -/
theorem backward_out_of_range_is_noop_witness :
    (detObserved.length < 2 ∨ 4 < 1 ∨ detObserved.length < 4) ∧
    backward_next detObserved detInitial detTransition detEmission 4 [fin 1, fin 1] =
      [fin 1, fin 1] :=
  ⟨Or.inr (Or.inr (by decide)),
    (backward_out_of_range_is_noop detObserved detInitial detTransition detEmission 4
      (Or.inr (Or.inr (by decide)))).2.2 [fin 1, fin 1]⟩

/-- Property C23 on the code: for the one-state model `pi = [1]`, `A = [[1]]`, `B = [[1]]`
and the single observation `[0]`, `train_full` does not return the model as it was: it
overwrites `A` and `B` with `LZERO` (the quotient of two empty sums). -/
theorem train_full_single_observation_overwrites :
    ([0] : List Nat).length = 1 ∧
    (train_full [0] uniInitial uniTransition uniEmission).2.1 = [[pinf]] ∧
    (train_full [0] uniInitial uniTransition uniEmission).2.2 = [[pinf]] ∧
    uniTransition ≠ [[pinf]] ∧ uniEmission ≠ [[pinf]] := by
  have r1 : List.range 1 = [0] := by decide
  refine ⟨rfl, ?_, ?_, by simp [uniTransition], by simp [uniEmission]⟩
  · unfold train_full
    simp only [train_full_acc]
    simp [uniInitial, uniTransition, uniEmission, r1, sumLoop, sumLoopAt, wr2,
      elnproduct_pinf_left, inf, Numeric.infinity]
  · unfold train_full
    simp only [train_full_acc]
    simp [uniInitial, uniTransition, uniEmission, r1, sumLoop, sumLoopAt, wr2,
      elnproduct_pinf_left, inf, Numeric.infinity]

/-- A 2 x 3 matrix of ones (in log-space: `e` everywhere), an arbitrary output argument. -/
def onesMatrix : List (List XReal) := [[fin 1, fin 1, fin 1], [fin 1, fin 1, fin 1]]

/-- Property C27 on the code: `backward_full` with `index = T = 3` on the deterministic
scenario leaves the matrix of ones as it was, so column `T-1` holds 1, not the base case 0:
the loop that writes the base case runs over the columns `T-1 .. index` and is empty for
`index = T`. -/
theorem backward_full_last_index_skips_base_case :
    detObserved.length = 3 ∧
    backward_full detObserved detInitial detTransition detEmission 3 onesMatrix =
      onesMatrix ∧
    rd2 (backward_full detObserved detInitial detTransition detEmission 3 onesMatrix) 0 2 =
      fin 1 ∧
    (fin 1 : XReal) ≠ Numeric.zero := by
  have hd : downTo 2 3 = [] := by decide
  have r2 : List.range 2 = [0, 1] := by decide
  have hb : backward_full detObserved detInitial detTransition detEmission 3 onesMatrix =
      onesMatrix := by
    unfold backward_full
    simp [hd, r2, detObserved, detInitial]
  refine ⟨rfl, hb, ?_, ?_⟩
  · rw [hb]
    rfl
  · intro h
    have h' : (fin 1 : XReal) = fin 0 := h
    injection h' with h''
    norm_num at h''

/-- Property C29 on the code: `forward_next` with `index = 4 > T = 3` on the deterministic
scenario is not a no-op: it overwrites `alpha = [0, 0]`; entry 1 becomes `LZERO`. -/
theorem forward_next_beyond_end_overwrites :
    detObserved.length < 4 ∧
    rd (forward_next detObserved detInitial detTransition detEmission 4 [fin 0, fin 0]) 1 =
      pinf ∧
    forward_next detObserved detInitial detTransition detEmission 4 [fin 0, fin 0] ≠
      [fin 0, fin 0] := by
  have h1 : rd (forward_next detObserved detInitial detTransition detEmission 4
      [fin 0, fin 0]) 1 = pinf := by
    rw [forward_next_step detObserved detInitial detTransition detEmission 4 [fin 0, fin 0]
      rfl (by decide)]
    have hl : detInitial.length = 2 := rfl
    simp only [fwdStep, rd_map_range, hl, show (1 : Nat) < 2 by decide, if_true,
      ob_detObserved]
    exact elnproduct_pinf_right _
  refine ⟨by decide, h1, ?_⟩
  intro h
  rw [h] at h1
  cases h1

/-! ## Witness for the two full variants of gamma -/

/-- Witness of C30 on the deterministic scenario. -/
theorem gamma_t_full_eq_gamma_m_full_witness :
    IsMat detMatrix detInitial.length detObserved.length ∧
    gamma_t_full detObserved detInitial detTransition detEmission detMatrix =
      gamma_m_full detObserved detInitial detTransition detEmission detMatrix :=
  ⟨detMatrix_isMat,
    gamma_t_full_eq_gamma_m_full detObserved detInitial detTransition detEmission detMatrix
      detMatrix_isMat⟩

/-! ## Witness for the dimensions kept by the trainers -/

/-- Witness of C31 on the deterministic scenario. -/
theorem trainers_preserve_dimensions_witness :
    2 ≤ detObserved.length ∧ IsMat detTransition detInitial.length detInitial.length ∧
    IsMat detEmission detInitial.length 2 ∧
    ((train_full detObserved detInitial detTransition detEmission).1.length =
        detInitial.length ∧
      SameShape (train_full detObserved detInitial detTransition detEmission).2.1
        detTransition ∧
      SameShape (train_full detObserved detInitial detTransition detEmission).2.2
        detEmission) ∧
    ∃ r, train detObserved detInitial detTransition detEmission = some r ∧
      r.1.length = detInitial.length ∧ SameShape r.2.1 detTransition ∧
      SameShape r.2.2 detEmission :=
  ⟨by decide, detTransition_isMat, detEmission_isMat,
    trainers_preserve_dimensions detObserved detInitial detTransition detEmission 2 (by decide)
      detTransition_isMat detEmission_isMat⟩

/-! ## The decoder breaks ties toward the lowest index -/

/-- Property C40.  On a model with at least one state and every entry of `pi`, `A` and `B`
finite, the index that `viterbi` emits at step `s < T` is a state `e` whose `delta_s[e]` is
the largest of `delta_s`, and every state below `e` has a strictly smaller `delta_s`: `e` is
the smallest index attaining the maximum.  Here `delta` follows the max-product
recurrence `vitDelta`. -/
theorem viterbi_emits_smallest_argmax (observed : List Nat) (initial : List XReal)
    (transition emission : List (List XReal)) (hpi : FinVec initial) (hA : FinMat transition)
    (hB : FinMat emission) (hN : 0 < initial.length) (s : Nat) (hs : s < observed.length) :
    ∃ e, (viterbi observed initial transition emission)[s]? = some e ∧
      e < initial.length ∧
      (∀ k, k < initial.length →
        toReal (rd (vitDelta observed initial transition emission s) k) ≤
          toReal (rd (vitDelta observed initial transition emission s) e)) ∧
      ∀ k, k < e →
        toReal (rd (vitDelta observed initial transition emission s) k) <
          toReal (rd (vitDelta observed initial transition emission s) e) := by
  have hfin := isFin_vitDelta observed initial transition emission hpi hA hB hN s
  obtain ⟨h1, h2, h3⟩ := vitFirst_spec initial.length
    (rd (vitDelta observed initial transition emission s)) hN hfin
  refine ⟨_, ?_, h1, h2, h3⟩
  rw [viterbi_eq observed initial transition emission hN]
  exact getElem?_vitOut observed initial transition emission hN _ s (by omega)

/-- Witness of C40 on the two-state model of the greedy scenario, step `s = 1`. -/
theorem viterbi_emits_smallest_argmax_witness :
    FinVec grdInitial ∧ FinMat grdTransition ∧ FinMat grdEmission ∧ 0 < grdInitial.length ∧
    1 < grdObserved.length ∧
    ∃ e, (viterbi grdObserved grdInitial grdTransition grdEmission)[1]? = some e ∧
      e < grdInitial.length ∧
      (∀ k, k < grdInitial.length →
        toReal (rd (vitDelta grdObserved grdInitial grdTransition grdEmission 1) k) ≤
          toReal (rd (vitDelta grdObserved grdInitial grdTransition grdEmission 1) e)) ∧
      ∀ k, k < e →
        toReal (rd (vitDelta grdObserved grdInitial grdTransition grdEmission 1) k) <
          toReal (rd (vitDelta grdObserved grdInitial grdTransition grdEmission 1) e) :=
  ⟨grdInitial_fin, grdTransition_fin, grdEmission_fin, Nat.zero_lt_two, Nat.one_lt_two,
    viterbi_emits_smallest_argmax grdObserved grdInitial grdTransition grdEmission
      grdInitial_fin grdTransition_fin grdEmission_fin Nat.zero_lt_two 1 Nat.one_lt_two⟩

/-! ## The normalizer of gamma is the same at every time -/

/-- The last backward vector holds `0` (probability 1) for every state. -/
theorem rd_betaAt_last (observed : List Nat) (initial : List XReal)
    (transition emission : List (List XReal)) (t k : Nat) (ht : observed.length = t + 1)
    (hk : k < initial.length) :
    rd (betaAt observed initial transition emission t) k = fin 0 := by
  unfold betaAt
  rw [ht, show t + 1 - 1 - t = 0 by omega]
  simp only [bwdBack, rd]
  rw [List.getD_eq_getElem?_getD, List.getElem?_replicate]
  simp only [hk, if_true, Option.getD_some]
  rfl

/-- The sum over the states of `alpha_s (x) beta_s` is the sum of the last forward vector. -/
theorem normalizer_value (observed : List Nat) (initial : List XReal)
    (transition emission : List (List XReal)) (hpi : ExtVec initial) (hA : ExtMat transition)
    (hB : ExtMat emission) (s : Nat) (hs : s < observed.length) :
    sumLoop initial.length (fun i =>
      elnproduct (rd (fwdCol observed initial transition emission s) i)
        (rd (betaAt observed initial transition emission s) i)) =
    sumLoop initial.length (fun i =>
      rd (fwdCol observed initial transition emission (observed.length - 1)) i) := by
  have ha : ∀ t i, IsExt (rd (fwdCol observed initial transition emission t) i) :=
    fun t i => isExt_fwdCol observed initial transition emission hpi hA hB t i
  have hb : ∀ t i, IsExt (rd (betaAt observed initial transition emission t) i) :=
    fun t i => isExt_betaAt observed initial transition emission hA hB t i
  apply P_inj
  · exact isExt_sumLoop _ _ (fun k _ => isExt_elnproduct _ _ (ha s k) (hb s k))
  · exact isExt_sumLoop _ _ (fun k _ => ha _ k)
  rw [P_sumLoop _ _ (fun k _ => isExt_elnproduct _ _ (ha s k) (hb s k)),
    P_sumLoop _ _ (fun k _ => ha _ k)]
  rw [lsum_congr _ _ _ (fun k _ => P_elnproduct _ _ (ha s k) (hb s k)),
    normalizer_eq observed initial transition emission hpi hA hB (observed.length - 1 - s) s
      (by omega),
    ← normalizer_last observed initial transition emission hpi hA hB (observed.length - 1)
      (by omega)]
  apply lsum_congr
  intro k hk
  rw [rd_betaAt_last observed initial transition emission (observed.length - 1) k (by omega)
    (List.mem_range.1 hk)]
  simp [P]

/-- Property C38.  For a model whose entries are finite or `LZERO` and `T >= 2`, with
`alpha` filled by `forward_full(T)` and `beta` by `backward_full(1)`: at every time
`s < T` the value `elnsum over i of alpha[i][s] (x) beta[i][s]`, which is the normalizer of
`gamma_m_full` at `s`, equals `elnsum over i of alpha[i][T-1]`; and `evalp` returns the
exponential of that value. -/
theorem gamma_normalizer_constant (observed : List Nat) (initial : List XReal)
    (transition emission : List (List XReal)) (hpi : ExtVec initial) (hA : ExtMat transition)
    (hB : ExtMat emission) (hT : 2 ≤ observed.length) (s : Nat) (hs : s < observed.length) :
    sumLoop initial.length (fun i =>
      elnproduct
        (rd2 (forward_full observed initial transition emission observed.length
          (List.replicate initial.length (List.replicate observed.length Numeric.zero))) i s)
        (rd2 (backward_full observed initial transition emission 1
          (List.replicate initial.length (List.replicate observed.length Numeric.zero))) i s)) =
      sumLoop initial.length (fun i =>
        rd2 (forward_full observed initial transition emission observed.length
          (List.replicate initial.length (List.replicate observed.length Numeric.zero)))
          i (observed.length - 1)) ∧
    evalp observed initial transition emission =
      Numeric.exp (sumLoop initial.length (fun i =>
        rd2 (forward_full observed initial transition emission observed.length
          (List.replicate initial.length (List.replicate observed.length Numeric.zero)))
          i (observed.length - 1))) := by
  have hm : IsMat (List.replicate initial.length
      (List.replicate observed.length (Numeric.zero : XReal))) initial.length observed.length :=
    isMat_replicate _ _ _
  have hf := (forward_full_cols observed initial transition emission _ observed.length hm
    (observed.length - 1) (by omega)).2
  rw [show observed.length - 1 + 1 = observed.length by omega] at hf
  have hbk := (backward_full_cols observed initial transition emission _ 1 hm (le_refl 1)
    (by omega)).2
  have hlast : sumLoop initial.length (fun i =>
        rd2 (forward_full observed initial transition emission observed.length
          (List.replicate initial.length (List.replicate observed.length Numeric.zero)))
          i (observed.length - 1)) =
      sumLoop initial.length (fun i =>
        rd (fwdCol observed initial transition emission (observed.length - 1)) i) :=
    sumLoop_congr _ _ _ (fun i hi => hf (observed.length - 1) i (le_refl _) hi)
  refine ⟨?_, ?_⟩
  · rw [hlast, ← normalizer_value observed initial transition emission hpi hA hB s hs]
    apply sumLoop_congr
    intro i hi
    rw [hf s i (by omega) hi, hbk s i (by omega) hs hi]
    rfl
  · rw [hlast]
    unfold evalp
    have h2 : ¬ observed.length < 2 := by omega
    simp only [h2, if_false]
    have hfi := forward_index_eq observed initial transition emission (observed.length - 1)
      (List.replicate initial.length (Numeric.zero : XReal)) (List.length_replicate _ _)
    rw [show observed.length - 1 + 1 = observed.length by omega] at hfi
    rw [hfi, length_fwdCol]
    rfl

/-- Witness of C38 on the deterministic scenario, at time `s = 1`. -/
theorem gamma_normalizer_constant_witness :
    ExtVec detInitial ∧ ExtMat detTransition ∧ ExtMat detEmission ∧ 2 ≤ detObserved.length ∧
    1 < detObserved.length ∧
    sumLoop detInitial.length (fun i =>
      elnproduct
        (rd2 (forward_full detObserved detInitial detTransition detEmission detObserved.length
          (List.replicate detInitial.length
            (List.replicate detObserved.length Numeric.zero))) i 1)
        (rd2 (backward_full detObserved detInitial detTransition detEmission 1
          (List.replicate detInitial.length
            (List.replicate detObserved.length Numeric.zero))) i 1)) =
      sumLoop detInitial.length (fun i =>
        rd2 (forward_full detObserved detInitial detTransition detEmission detObserved.length
          (List.replicate detInitial.length (List.replicate detObserved.length Numeric.zero)))
          i (detObserved.length - 1)) :=
  ⟨detInitial_ext, detTransition_ext, detEmission_ext, by decide, by decide,
    (gamma_normalizer_constant detObserved detInitial detTransition detEmission
      detInitial_ext detTransition_ext detEmission_ext (by decide) 1 (by decide)).1⟩

/-! ## The sentinel through one iteration of `train_full` -/

theorem sumLoop_pinf (n : Nat) (f : Nat → XReal) (h : ∀ k, k < n → f k = pinf) :
    sumLoop n f = pinf := by
  induction n with
  | zero => simp [sumLoop, inf, Numeric.infinity]
  | succ n ih =>
    rw [sumLoop_succ, ih (fun k hk => h k (by omega)), h n (by omega)]
    exact elnsum_pinf_left pinf trivial

theorem sumLoopAt_pinf (observed : List Nat) (k n : Nat) (f : Nat → XReal)
    (h : ∀ s, s < n → ob observed s = k → f s = pinf) :
    sumLoopAt observed k n f = pinf := by
  induction n with
  | zero => simp [sumLoopAt, inf, Numeric.infinity]
  | succ n ih =>
    rw [sumLoopAt_succ, ih (fun s hs => h s (by omega))]
    by_cases hk : ob observed n = k
    · rw [if_pos hk, h n (by omega) hk]
      exact elnsum_pinf_left pinf trivial
    · rw [if_neg hk]

/-- A state that cannot emit the symbol seen at time `s` has `alpha_s = LZERO`. -/
theorem fwdCol_pinf_of_emission (observed : List Nat) (initial : List XReal)
    (transition emission : List (List XReal)) (s j : Nat) (hj : j < initial.length)
    (h : rd2 emission j (ob observed s) = pinf) :
    rd (fwdCol observed initial transition emission s) j = pinf := by
  cases s with
  | zero =>
    simp only [fwdCol, fwdInit, rd_map_range, hj, if_true]
    rw [h]
    exact elnproduct_pinf_right _
  | succ s =>
    simp only [fwdCol, fwdStep, rd_map_range, hj, if_true]
    rw [h]
    exact elnproduct_pinf_right _

theorem gammaAt_pinf (n : Nat) (a b : List XReal) (i : Nat) (h : rd a i = pinf) :
    gammaAt n a b i = pinf := by
  unfold gammaAt
  rw [h, elnproduct_pinf_left, elnproduct_pinf_left]

theorem xiAt_pinf (n : Nat) (transition emission : List (List XReal)) (o : Nat)
    (a b : List XReal) (i j : Nat) (h : rd2 transition i j = pinf) :
    xiAt n transition emission o a b i j = pinf := by
  unfold xiAt xiRaw
  rw [h, elnproduct_pinf_left, elnproduct_pinf_right, elnproduct_pinf_left]

/-- Property C37.  For `T >= 2`, `A` of size `N x N` and `B` of size `N x M`, `train_full`
keeps the structural zeros: an entry `A[i][j]` that is `LZERO` before the call is `LZERO`
after it, and an entry `B[j][k]` that is `LZERO` before the call is `LZERO` after it. -/
theorem train_full_preserves_structural_zeros (observed : List Nat) (initial : List XReal)
    (transition emission : List (List XReal)) (m : Nat) (hT : 2 ≤ observed.length)
    (hA : IsMat transition initial.length initial.length)
    (hB : IsMat emission initial.length m) :
    (∀ i j, i < initial.length → j < initial.length → rd2 transition i j = pinf →
      rd2 (train_full observed initial transition emission).2.1 i j = pinf) ∧
    (∀ j k, j < initial.length → k < m → rd2 emission j k = pinf →
      rd2 (train_full observed initial transition emission).2.2 j k = pinf) := by
  obtain ⟨_, hAe, hBe⟩ := train_full_entries observed initial transition emission m hT hA hB
  have hg := (gamma_m_full_entry observed initial transition emission _
    (isMat_replicate initial.length observed.length Numeric.zero) hT).2
  refine ⟨?_, ?_⟩
  · intro i j hi hj h
    have hnum := sumLoop_pinf (observed.length - 1) (fun s =>
      rd3 (xi_full observed initial transition emission
        (List.replicate initial.length (List.replicate initial.length
          (List.replicate observed.length Numeric.zero)))) i j s) (by
      intro s hs
      show rd3 _ i j s = pinf
      rw [xi_full_entry observed initial transition emission _ (isCube_replicate _ _ _ _) hT
        i j s hi hj (by omega)]
      exact xiAt_pinf _ _ _ _ _ _ _ _ h)
    rw [hAe i j hi hj, hnum]
    exact elnproduct_pinf_left _
  · intro j k hj hk h
    have hnum := sumLoopAt_pinf observed k (observed.length - 1) (fun s =>
      rd2 (gamma_m_full observed initial transition emission
        (List.replicate initial.length (List.replicate observed.length Numeric.zero))) j s) (by
      intro s hs hks
      show rd2 _ j s = pinf
      rw [hg j s hj (by omega)]
      exact gammaAt_pinf _ _ _ _
        (fwdCol_pinf_of_emission observed initial transition emission s j hj
          (by rw [hks]; exact h)))
    rw [hBe j k hj hk, hnum]
    exact elnproduct_pinf_left _

/-- Witness of C37 on the deterministic scenario: `A[0][1]` is `LZERO` before and after. -/
theorem train_full_preserves_structural_zeros_witness :
    2 ≤ detObserved.length ∧ IsMat detTransition detInitial.length detInitial.length ∧
    IsMat detEmission detInitial.length 2 ∧ rd2 detTransition 0 1 = pinf ∧
    rd2 (train_full detObserved detInitial detTransition detEmission).2.1 0 1 = pinf :=
  ⟨by decide, detTransition_isMat, detEmission_isMat, rfl,
    (train_full_preserves_structural_zeros detObserved detInitial detTransition detEmission 2
      (by decide) detTransition_isMat detEmission_isMat).1 0 1 (by decide) (by decide) rfl⟩

/-- When the denominator of `A[i][.]` is `LZERO`, so is every numerator of that row; and
when the denominator of `B[j][.]` is `LZERO`, so is every numerator of that row. -/
theorem train_full_denominators (observed : List Nat) (initial : List XReal)
    (transition emission : List (List XReal)) (hpi : ExtVec initial) (hAx : ExtMat transition)
    (hBx : ExtMat emission) (n : Nat) (hn : n + 1 ≤ observed.length) (i : Nat)
    (hi : i < initial.length)
    (hden : sumLoop n (fun s => gammaSpec observed initial transition emission s i) = pinf) :
    (∀ j, j < initial.length →
      sumLoop n (fun s => xiSpec observed initial transition emission s i j) = pinf) ∧
    ∀ k, sumLoopAt observed k n
      (fun s => gammaSpec observed initial transition emission s i) = pinf := by
  have ha : ∀ t k, IsExt (rd (fwdCol observed initial transition emission t) k) :=
    fun t k => isExt_fwdCol observed initial transition emission hpi hAx hBx t k
  have hb : ∀ t k, IsExt (rd (betaAt observed initial transition emission t) k) :=
    fun t k => isExt_betaAt observed initial transition emission hAx hBx t k
  have hall := (sumLoop_eq_pinf_iff n _ (fun s _ =>
    (P_gammaAt initial.length _ _ (ha s) (hb s) i hi).1)).1 hden
  refine ⟨?_, ?_⟩
  · intro j hj
    apply sumLoop_pinf
    intro s hs
    have hm := xi_marginal observed initial transition emission hpi hAx hBx s i (by omega) hi
    have hg : gammaAt initial.length (fwdCol observed initial transition emission s)
        (betaAt observed initial transition emission s) i = pinf := hall s hs
    rw [hg] at hm
    exact (sumLoop_eq_pinf_iff initial.length _ (fun j' hj' =>
      (P_xiAt initial.length transition emission hAx hBx _ _ _ (ha s) (hb (s + 1)) i j' hi
        hj').1)).1 hm j hj
  · intro k
    exact sumLoopAt_pinf observed k n _ (fun s hs _ => hall s hs)

/-- Property C39, amended.  In exact arithmetic, where no sum leaves the range of the numeric
type: for a model whose entries are finite or `LZERO`, `T >= 2`, `A` of size
`N x N`, `B` of size `N x M`, a table `gam` of size `N x T` and a table `probs` of size
`N x N x T`: every entry `gam[i][s]` written by `gamma_m_full`, every entry
`probs[i][j][s]`, `s <= T-2`, written by `xi_full`, and every entry of `A` and of `B`
written by `train_full` is finite or `LZERO`; none is minus infinity or not-a-number. -/
theorem train_full_entries_finite_or_lzero (observed : List Nat) (initial : List XReal)
    (transition emission : List (List XReal)) (m : Nat) (hpi : ExtVec initial)
    (hAx : ExtMat transition) (hBx : ExtMat emission) (hT : 2 ≤ observed.length)
    (hA : IsMat transition initial.length initial.length)
    (hB : IsMat emission initial.length m)
    (gam : List (List XReal)) (hgam : IsMat gam initial.length observed.length)
    (probs : List (List (List XReal)))
    (hprobs : IsCube probs initial.length initial.length observed.length) :
    (∀ i s, i < initial.length → s < observed.length →
      IsExt (rd2 (gamma_m_full observed initial transition emission gam) i s)) ∧
    (∀ i j s, i < initial.length → j < initial.length → s + 1 < observed.length →
      IsExt (rd3 (xi_full observed initial transition emission probs) i j s)) ∧
    (∀ i j, i < initial.length → j < initial.length →
      IsExt (rd2 (train_full observed initial transition emission).2.1 i j)) ∧
    (∀ j k, j < initial.length → k < m →
      IsExt (rd2 (train_full observed initial transition emission).2.2 j k)) := by
  have ha : ∀ t k, IsExt (rd (fwdCol observed initial transition emission t) k) :=
    fun t k => isExt_fwdCol observed initial transition emission hpi hAx hBx t k
  have hb : ∀ t k, IsExt (rd (betaAt observed initial transition emission t) k) :=
    fun t k => isExt_betaAt observed initial transition emission hAx hBx t k
  have hgs : ∀ s i, i < initial.length →
      IsExt (gammaSpec observed initial transition emission s i) :=
    fun s i hi => (P_gammaAt initial.length _ _ (ha s) (hb s) i hi).1
  have hxs : ∀ s i j, i < initial.length → j < initial.length →
      IsExt (xiSpec observed initial transition emission s i j) :=
    fun s i j hi hj =>
      (P_xiAt initial.length transition emission hAx hBx _ _ _ (ha s) (hb (s + 1)) i j hi hj).1
  obtain ⟨_, hAe, hBe⟩ := train_full_entries observed initial transition emission m hT hA hB
  have hg0 := (gamma_m_full_entry observed initial transition emission _
    (isMat_replicate initial.length observed.length Numeric.zero) hT).2
  have hden : ∀ i, i < initial.length →
      sumLoop (observed.length - 1) (fun s =>
        rd2 (gamma_m_full observed initial transition emission
          (List.replicate initial.length (List.replicate observed.length Numeric.zero))) i s) =
      sumLoop (observed.length - 1)
        (fun s => gammaSpec observed initial transition emission s i) :=
    fun i hi => sumLoop_congr _ _ _ (fun s hs => hg0 i s hi (by omega))
  refine ⟨?_, ?_, ?_, ?_⟩
  · intro i s hi hs
    rw [(gamma_m_full_entry observed initial transition emission gam hgam hT).2 i s hi hs]
    exact hgs s i hi
  · intro i j s hi hj hs
    rw [xi_full_entry observed initial transition emission probs hprobs hT i j s hi hj hs]
    exact hxs s i j hi hj
  · intro i j hi hj
    have hnum : sumLoop (observed.length - 1) (fun s =>
          rd3 (xi_full observed initial transition emission
            (List.replicate initial.length (List.replicate initial.length
              (List.replicate observed.length Numeric.zero)))) i j s) =
        sumLoop (observed.length - 1)
          (fun s => xiSpec observed initial transition emission s i j) :=
      sumLoop_congr _ _ _ (fun s hs =>
        xi_full_entry observed initial transition emission _ (isCube_replicate _ _ _ _) hT
          i j s hi hj (by omega))
    rw [hAe i j hi hj, hnum, hden i hi]
    exact (elnproduct_neg _ _ (isExt_sumLoop _ _ (fun s _ => hxs s i j hi hj))
      (isExt_sumLoop _ _ (fun s _ => hgs s i hi))
      (fun hz => (train_full_denominators observed initial transition emission hpi hAx hBx
        (observed.length - 1) (by omega) i hi hz).1 j hj)).1
  · intro j k hj hk
    have hnum : sumLoopAt observed k (observed.length - 1) (fun s =>
          rd2 (gamma_m_full observed initial transition emission
            (List.replicate initial.length (List.replicate observed.length Numeric.zero)))
            j s) =
        sumLoopAt observed k (observed.length - 1)
          (fun s => gammaSpec observed initial transition emission s j) := by
      unfold sumLoopAt
      apply foldl_congr_mem
      intro acc s hs
      have hs' := List.mem_range.1 hs
      show (if ob observed s = k then elnsum acc (rd2 _ j s) else acc) = _
      rw [hg0 j s hj (by omega)]
      rfl
    rw [hBe j k hj hk, hnum, hden j hj]
    exact (elnproduct_neg _ _
      (P_sumLoopAt observed k _ _ (fun s _ => hgs s j hj)).1
      (isExt_sumLoop _ _ (fun s _ => hgs s j hj))
      (fun hz => (train_full_denominators observed initial transition emission hpi hAx hBx
        (observed.length - 1) (by omega) j hj hz).2 k)).1

/-- Witness of C39 on the deterministic scenario: the entry `A[0][1]` after `train_full`. -/
theorem train_full_entries_finite_or_lzero_witness :
    ExtVec detInitial ∧ ExtMat detTransition ∧ ExtMat detEmission ∧ 2 ≤ detObserved.length ∧
    IsMat detTransition detInitial.length detInitial.length ∧
    IsMat detEmission detInitial.length 2 ∧
    IsMat detMatrix detInitial.length detObserved.length ∧
    IsCube (List.replicate 2 (List.replicate 2 (List.replicate 3 (fin 0))))
      detInitial.length detInitial.length detObserved.length ∧
    IsExt (rd2 (train_full detObserved detInitial detTransition detEmission).2.1 0 1) :=
  ⟨detInitial_ext, detTransition_ext, detEmission_ext, by decide, detTransition_isMat,
    detEmission_isMat, detMatrix_isMat, isCube_replicate 2 2 3 (fin 0),
    (train_full_entries_finite_or_lzero detObserved detInitial detTransition detEmission 2
      detInitial_ext detTransition_ext detEmission_ext (by decide) detTransition_isMat
      detEmission_isMat detMatrix detMatrix_isMat
      (List.replicate 2 (List.replicate 2 (List.replicate 3 (fin 0))))
      (isCube_replicate 2 2 3 (fin 0))).2.2.1 0 1 (by decide) (by decide)⟩

/-! ## Witnesses for the per-step posteriors driven by the cache -/

/-- Witness of C33 on the deterministic scenario, call number `i = 2`. -/
theorem gamma_stream_eq_gamma_m_full_witness :
    IsMat detMatrix detInitial.length detObserved.length ∧ 2 ≤ detObserved.length ∧
    1 ≤ 2 ∧ 2 ≤ detObserved.length ∧
    ∃ st, next_gamma detObserved detInitial detTransition detEmission 2 = some st ∧
      st.2.2 = col (gamma_m_full detObserved detInitial detTransition detEmission detMatrix)
        (2 - 1) :=
  ⟨detMatrix_isMat, by decide, by decide, by decide,
    gamma_stream_eq_gamma_m_full detObserved detInitial detTransition detEmission detMatrix
      detMatrix_isMat (by decide) 2 (by decide) (by decide)⟩

/-- Witness of C34 on the deterministic scenario, call number `s = 2`, from a zero scratch
vector and a zero table. -/
theorem xi_stream_eq_xi_full_witness :
    (List.replicate 2 (fin 0)).length = detInitial.length ∧
    IsMat (List.replicate 2 (List.replicate 2 (fin 0))) detInitial.length detInitial.length ∧
    IsCube (List.replicate 2 (List.replicate 2 (List.replicate 3 (fin 0))))
      detInitial.length detInitial.length detObserved.length ∧
    2 ≤ detObserved.length ∧ 1 ≤ 2 ∧ 2 + 1 ≤ detObserved.length ∧
    ∃ st, next_xi detObserved detInitial detTransition detEmission (List.replicate 2 (fin 0))
        (List.replicate 2 (List.replicate 2 (fin 0))) 2 = some st ∧
      IsMat st.2.2 detInitial.length detInitial.length ∧
      ∀ i j, i < detInitial.length → j < detInitial.length →
        rd2 st.2.2 i j = rd3 (xi_full detObserved detInitial detTransition detEmission
          (List.replicate 2 (List.replicate 2 (List.replicate 3 (fin 0))))) i j (2 - 1) :=
  ⟨rfl, isMat_replicate 2 2 (fin 0), isCube_replicate 2 2 3 (fin 0), by decide, by decide,
    by decide,
    xi_stream_eq_xi_full detObserved detInitial detTransition detEmission
      (List.replicate 2 (fin 0)) (List.replicate 2 (List.replicate 2 (fin 0)))
      (List.replicate 2 (List.replicate 2 (List.replicate 3 (fin 0)))) rfl
      (isMat_replicate 2 2 (fin 0)) (isCube_replicate 2 2 3 (fin 0)) (by decide) 2 (by decide)
      (by decide)⟩

/-! ## Row sums after `train_full` on a model without `LZERO` -/

/-- The least magnitude that rounds to an infinity in IEEE 754 single precision under round
to nearest: `2^128 - 2^103`, half a unit in the last place above the largest finite value
`2^128 - 2^104`. -/
noncomputable def fltOverflow : ℝ := 2 ^ 128 - 2 ^ 103

/-- Overflow of the result of an operation in single precision: a finite result of magnitude
`fltOverflow` or more becomes the infinity of its sign.  A result below that magnitude is
kept as it is: rounding is left out. -/
noncomputable def ovf : XReal → XReal
  | fin a => if fltOverflow ≤ a then pinf else if a ≤ -fltOverflow then ninf else fin a
  | x => x

/-- Values of the type `float` as far as its range goes: the operations are those of exact
arithmetic followed by the overflow of single precision. -/
structure Flt where
  /-- the value held -/
  val : XReal

noncomputable instance : Numeric Flt where
  zero := ⟨fin 0⟩
  one := ⟨fin 1⟩
  infinity := ⟨pinf⟩
  add := fun x y => ⟨ovf (XReal.add x.val y.val)⟩
  sub := fun x y => ⟨ovf (XReal.add x.val (XReal.neg y.val))⟩
  neg := fun x => ⟨XReal.neg x.val⟩
  exp := fun x => ⟨ovf (XReal.exp x.val)⟩
  log := fun x => ⟨ovf (XReal.log x.val)⟩
  gt := fun x y => XReal.gt x.val y.val
  eq := fun x y => XReal.eq x.val y.val

/-- Observations `0, 0` over one symbol. -/
def bigObserved : List Nat := [0, 0]

/-- Initial log-probabilities `[-2^127, 0]`, both finite values of `float`. -/
noncomputable def bigInitial : List Flt := [⟨fin (-(2 ^ 127))⟩, ⟨fin 0⟩]

/-- Identity transition table in log-space. -/
def bigTransition : List (List Flt) := [[⟨fin 0⟩, ⟨pinf⟩], [⟨pinf⟩, ⟨fin 0⟩]]

/-- Emission log-probabilities `[[-2^127], [0]]`, both finite values of `float`. -/
noncomputable def bigEmission : List (List Flt) := [[⟨fin (-(2 ^ 127))⟩], [⟨fin 0⟩]]

/-- A transition table whose four entries are the finite value `-2^127`. -/
noncomputable def lowTransition : List (List Flt) :=
  [[⟨fin (-(2 ^ 127))⟩, ⟨fin (-(2 ^ 127))⟩], [⟨fin (-(2 ^ 127))⟩, ⟨fin (-(2 ^ 127))⟩]]

/-- A vector `alpha` whose two entries are the finite value `-2^127`. -/
noncomputable def lowAlpha : List Flt := [⟨fin (-(2 ^ 127))⟩, ⟨fin (-(2 ^ 127))⟩]

theorem ovf_low : ovf (fin (-(2 ^ 127) + -(2 ^ 127))) = ninf := by
  have h1 : ¬ ((2 : ℝ) ^ 128 - 2 ^ 103 ≤ -(2 ^ 127) + -(2 ^ 127)) := by norm_num
  have h2 : (-(2 : ℝ) ^ 127 + -(2 ^ 127) ≤ -(2 ^ 128 - 2 ^ 103)) := by norm_num
  simp only [ovf, fltOverflow, h1, h2, if_false, if_true]

theorem ovf_small (a : ℝ) (h1 : a < fltOverflow) (h2 : -fltOverflow < a) :
    ovf (fin a) = fin a := by
  simp only [ovf, not_le.2 h1, not_le.2 h2, if_false]

/-- The extended-log-product of `-2^127` with itself leaves the range of `float`. -/
theorem flt_elnproduct_low :
    elnproduct (⟨fin (-(2 ^ 127))⟩ : Flt) ⟨fin (-(2 ^ 127))⟩ = ⟨ninf⟩ := by
  simp only [elnproduct, inf, Numeric.eq, Numeric.infinity, Numeric.add, XReal.eq, XReal.add,
    Bool.or_self, Bool.false_eq_true, if_false, ovf_low]

theorem flt_elnproduct_pinf_left (y : Flt) : elnproduct (⟨pinf⟩ : Flt) y = ⟨pinf⟩ := by
  simp [elnproduct, inf, Numeric.eq, Numeric.infinity, XReal.eq]

theorem flt_elnproduct_fin (a b : ℝ) :
    elnproduct (⟨fin a⟩ : Flt) ⟨fin b⟩ = ⟨ovf (fin (a + b))⟩ := by
  simp [elnproduct, inf, Numeric.eq, Numeric.infinity, Numeric.add, XReal.eq, XReal.add]

theorem flt_elnproduct_ninf_fin (b : ℝ) :
    elnproduct (⟨ninf⟩ : Flt) ⟨fin b⟩ = ⟨ninf⟩ := by
  simp [elnproduct, inf, Numeric.eq, Numeric.infinity, Numeric.add, XReal.eq, XReal.add, ovf]

theorem flt_elnproduct_nan_fin (b : ℝ) :
    elnproduct (⟨nan⟩ : Flt) ⟨fin b⟩ = ⟨nan⟩ := by
  simp [elnproduct, inf, Numeric.eq, Numeric.infinity, Numeric.add, XReal.eq, XReal.add, ovf]

theorem flt_elnsum_pinf_left (y : Flt) : elnsum (⟨pinf⟩ : Flt) y = y := by
  obtain ⟨v⟩ := y
  cases v <;> simp [elnsum, inf, Numeric.eq, Numeric.infinity, XReal.eq]

theorem flt_elnsum_fin_pinf (a : ℝ) : elnsum (⟨fin a⟩ : Flt) ⟨pinf⟩ = ⟨fin a⟩ := by
  simp [elnsum, inf, Numeric.eq, Numeric.infinity, XReal.eq]

/-- The extended-log-sum of minus infinity with itself is not a number: the difference
`x - y` in it is. -/
theorem flt_elnsum_ninf_ninf : elnsum (⟨ninf⟩ : Flt) ⟨ninf⟩ = ⟨nan⟩ := by
  simp [elnsum, inf, Numeric.eq, Numeric.infinity, XReal.eq, Numeric.gt, XReal.gt,
    Numeric.add, Numeric.sub, Numeric.exp, Numeric.log, Numeric.one, XReal.add, XReal.neg,
    XReal.exp, XReal.log, ovf]

/-- The extended-log-sum of minus infinity and `0` is `0`. -/
theorem flt_elnsum_ninf_zero : elnsum (⟨ninf⟩ : Flt) ⟨fin 0⟩ = ⟨fin 0⟩ := by
  have h1 : ¬ (fltOverflow ≤ 0) := by unfold fltOverflow; norm_num
  have h2 : ¬ ((0 : ℝ) ≤ -fltOverflow) := by unfold fltOverflow; norm_num
  have h3 : ¬ (fltOverflow ≤ 1) := by unfold fltOverflow; norm_num
  have h4 : ¬ ((1 : ℝ) ≤ -fltOverflow) := by unfold fltOverflow; norm_num
  simp [elnsum, inf, Numeric.eq, Numeric.infinity, XReal.eq, Numeric.gt, XReal.gt,
    Numeric.add, Numeric.sub, Numeric.exp, Numeric.log, Numeric.one, XReal.add, XReal.neg,
    XReal.exp, XReal.log, ovf, h1, h2, h3, h4]

theorem flt_sumLoop_two (f : Nat → Flt) : sumLoop 2 f = elnsum (f 0) (f 1) := by
  have h0 : sumLoop 0 f = (⟨pinf⟩ : Flt) := rfl
  rw [sumLoop_succ, sumLoop_succ, h0, flt_elnsum_pinf_left]

/-- Counterexample to C20 as stated, in the range of `float`.  All entries of the model and
of the previous `alpha` are finite or `LZERO`.  At `index = 1` neither `pi[0]` nor
`B[0][O_0]` is `LZERO`, and the entry `alpha'[0]` that `forward_next` writes is minus
infinity: the sum `-2^127 + -2^127` leaves the range.  At `index = 2`, from a table `A` and a
previous `alpha` whose entries are all the finite value `-2^127`, the entry `alpha'[0]` is
not a number: both terms of its sum are minus infinity and `elnsum` subtracts one from the
other.  Every value on the way is a value of `float` and no operation rounds. -/
theorem forward_next_float_overflow :
    (∀ x ∈ bigInitial, IsExt x.val) ∧ (∀ x ∈ lowAlpha, IsExt x.val) ∧
    (∀ row ∈ bigTransition, ∀ x ∈ row, IsExt x.val) ∧
    (∀ row ∈ lowTransition, ∀ x ∈ row, IsExt x.val) ∧
    (∀ row ∈ bigEmission, ∀ x ∈ row, IsExt x.val) ∧
    (∀ s, ob bigObserved s < 1) ∧ 2 ≤ bigObserved.length ∧
    lowAlpha.length = bigInitial.length ∧
    rd bigInitial 0 ≠ inf ∧ rd2 bigEmission 0 (ob bigObserved 0) ≠ inf ∧
    rd (forward_next bigObserved bigInitial bigTransition bigEmission 1 lowAlpha) 0 = ⟨ninf⟩ ∧
    rd (forward_next bigObserved bigInitial lowTransition bigEmission 2 lowAlpha) 0 = ⟨nan⟩ := by
  refine ⟨?_, ?_, ?_, ?_, ?_, ?_, by decide, rfl, ?_, ?_, ?_, ?_⟩
  · intro x hx
    simp only [bigInitial, List.mem_cons, List.mem_singleton, List.not_mem_nil, or_false] at hx
    rcases hx with rfl | rfl <;> trivial
  · intro x hx
    simp only [lowAlpha, List.mem_cons, List.mem_singleton, List.not_mem_nil, or_false] at hx
    rcases hx with rfl | rfl <;> trivial
  · intro row hrow x hx
    simp only [bigTransition, List.mem_cons, List.mem_singleton, List.not_mem_nil,
      or_false] at hrow
    rcases hrow with rfl | rfl <;>
      simp only [List.mem_cons, List.mem_singleton, List.not_mem_nil, or_false] at hx <;>
      rcases hx with rfl | rfl <;> trivial
  · intro row hrow x hx
    simp only [lowTransition, List.mem_cons, List.mem_singleton, List.not_mem_nil,
      or_false] at hrow
    rcases hrow with rfl | rfl <;>
      simp only [List.mem_cons, List.mem_singleton, List.not_mem_nil, or_false] at hx <;>
      rcases hx with rfl | rfl <;> trivial
  · intro row hrow x hx
    simp only [bigEmission, List.mem_cons, List.mem_singleton, List.not_mem_nil,
      or_false] at hrow
    rcases hrow with rfl | rfl <;>
      simp only [List.mem_singleton] at hx <;> subst hx <;> trivial
  · intro s
    rcases s with _ | _ | s <;> simp [ob, bigObserved]
  · intro h
    have h2 := congrArg Flt.val h
    exact XReal.noConfusion h2
  · intro h
    have h2 := congrArg Flt.val h
    exact XReal.noConfusion h2
  · rw [forward_next_one bigObserved bigInitial bigTransition bigEmission lowAlpha rfl]
    unfold fwdInit
    rw [rd_map_range, if_pos (by decide)]
    exact flt_elnproduct_low
  · rw [forward_next_step bigObserved bigInitial lowTransition bigEmission 2 lowAlpha rfl
      (le_refl 2)]
    unfold fwdStep
    rw [rd_map_range, if_pos (by decide)]
    have hlen : bigInitial.length = 2 := rfl
    rw [hlen, flt_sumLoop_two]
    have h0 : elnproduct (rd lowAlpha 0) (rd2 lowTransition 0 0) = (⟨ninf⟩ : Flt) :=
      flt_elnproduct_low
    have h1 : elnproduct (rd lowAlpha 1) (rd2 lowTransition 1 0) = (⟨ninf⟩ : Flt) :=
      flt_elnproduct_low
    rw [h0, h1, flt_elnsum_ninf_ninf]
    exact flt_elnproduct_nan_fin _

theorem big_fwdCol_zero :
    rd (fwdCol bigObserved bigInitial bigTransition bigEmission 0) 0 = ⟨ninf⟩ ∧
    rd (fwdCol bigObserved bigInitial bigTransition bigEmission 0) 1 = ⟨fin 0⟩ := by
  unfold fwdCol fwdInit
  rw [rd_map_range, rd_map_range, if_pos (by decide), if_pos (by decide)]
  refine ⟨flt_elnproduct_low, ?_⟩
  have h : elnproduct (rd bigInitial 1) (rd2 bigEmission 1 (ob bigObserved 0)) =
      elnproduct (⟨fin 0⟩ : Flt) ⟨fin 0⟩ := rfl
  rw [h, flt_elnproduct_fin, add_zero]
  exact congrArg Flt.mk (ovf_small 0 (by unfold fltOverflow; norm_num)
    (by unfold fltOverflow; norm_num))

theorem big_betaAt_zero :
    rd (betaAt bigObserved bigInitial bigTransition bigEmission 0) 0 = ⟨fin (-(2 ^ 127))⟩ ∧
    rd (betaAt bigObserved bigInitial bigTransition bigEmission 0) 1 = ⟨fin 0⟩ := by
  have hz : ovf (fin 0) = fin 0 :=
    ovf_small 0 (by unfold fltOverflow; norm_num) (by unfold fltOverflow; norm_num)
  have hl : ovf (fin (-(2 ^ 127))) = fin (-(2 ^ 127)) :=
    ovf_small _ (by unfold fltOverflow; norm_num) (by unfold fltOverflow; norm_num)
  have hb : betaAt bigObserved bigInitial bigTransition bigEmission 0 =
      bwdStep bigObserved bigInitial bigTransition bigEmission 1
        (List.replicate 2 Numeric.zero) := rfl
  have hlen : bigInitial.length = 2 := rfl
  rw [hb]
  unfold bwdStep
  rw [rd_map_range, rd_map_range, if_pos (by decide), if_pos (by decide), hlen,
    flt_sumLoop_two, flt_sumLoop_two]
  constructor
  · have h0 : elnproduct (rd2 bigTransition 0 0)
        (elnproduct (rd2 bigEmission 0 (ob bigObserved 1))
          (rd (List.replicate 2 (Numeric.zero : Flt)) 0)) =
        elnproduct (⟨fin 0⟩ : Flt) (elnproduct ⟨fin (-(2 ^ 127))⟩ ⟨fin 0⟩) := rfl
    have h1 : elnproduct (rd2 bigTransition 0 1)
        (elnproduct (rd2 bigEmission 1 (ob bigObserved 1))
          (rd (List.replicate 2 (Numeric.zero : Flt)) 1)) =
        elnproduct (⟨pinf⟩ : Flt) (elnproduct ⟨fin 0⟩ ⟨fin 0⟩) := rfl
    rw [h0, h1, flt_elnproduct_pinf_left, flt_elnproduct_fin, add_zero, hl,
      flt_elnproduct_fin, zero_add, hl, flt_elnsum_fin_pinf]
  · have h0 : elnproduct (rd2 bigTransition 1 0)
        (elnproduct (rd2 bigEmission 0 (ob bigObserved 1))
          (rd (List.replicate 2 (Numeric.zero : Flt)) 0)) =
        elnproduct (⟨pinf⟩ : Flt) (elnproduct ⟨fin (-(2 ^ 127))⟩ ⟨fin 0⟩) := rfl
    have h1 : elnproduct (rd2 bigTransition 1 1)
        (elnproduct (rd2 bigEmission 1 (ob bigObserved 1))
          (rd (List.replicate 2 (Numeric.zero : Flt)) 1)) =
        elnproduct (⟨fin 0⟩ : Flt) (elnproduct ⟨fin 0⟩ ⟨fin 0⟩) := rfl
    rw [h0, h1, flt_elnproduct_pinf_left, flt_elnproduct_fin, add_zero, hz,
      flt_elnproduct_fin, add_zero, hz, flt_elnsum_pinf_left]

/-- Counterexample to C39 as stated, in the range of `float`.  All entries of the model are
finite or `LZERO`, `T = 2` and the symbols are in range, and the entry `gamma[0][0]` that
`gamma_m_full` writes is minus infinity: `alpha_0[0] = pi[0] + B[0][O_0] = -2^127 + -2^127`
leaves the range, and the normalizer is `0`.  Every value on the way is a value of `float`
and no operation rounds. -/
theorem gamma_m_full_float_overflow :
    (∀ x ∈ bigInitial, IsExt x.val) ∧
    (∀ row ∈ bigTransition, ∀ x ∈ row, IsExt x.val) ∧
    (∀ row ∈ bigEmission, ∀ x ∈ row, IsExt x.val) ∧
    IsMat bigTransition bigInitial.length bigInitial.length ∧
    IsMat bigEmission bigInitial.length 1 ∧
    (∀ s, ob bigObserved s < 1) ∧ 2 ≤ bigObserved.length ∧
    rd2 (gamma_m_full bigObserved bigInitial bigTransition bigEmission
      (List.replicate bigInitial.length (List.replicate bigObserved.length Numeric.zero)))
      0 0 = ⟨ninf⟩ := by
  refine ⟨?_, ?_, ?_, ?_, ?_, ?_, by decide, ?_⟩
  · intro x hx
    simp only [bigInitial, List.mem_cons, List.mem_singleton, List.not_mem_nil, or_false] at hx
    rcases hx with rfl | rfl <;> trivial
  · intro row hrow x hx
    simp only [bigTransition, List.mem_cons, List.mem_singleton, List.not_mem_nil,
      or_false] at hrow
    rcases hrow with rfl | rfl <;>
      simp only [List.mem_cons, List.mem_singleton, List.not_mem_nil, or_false] at hx <;>
      rcases hx with rfl | rfl <;> trivial
  · intro row hrow x hx
    simp only [bigEmission, List.mem_cons, List.mem_singleton, List.not_mem_nil,
      or_false] at hrow
    rcases hrow with rfl | rfl <;>
      simp only [List.mem_singleton] at hx <;> subst hx <;> trivial
  · refine ⟨rfl, ?_⟩
    intro row h
    simp only [bigTransition, List.mem_cons, List.mem_singleton, List.not_mem_nil,
      or_false] at h
    rcases h with rfl | rfl <;> rfl
  · refine ⟨rfl, ?_⟩
    intro row h
    simp only [bigEmission, List.mem_cons, List.mem_singleton, List.not_mem_nil,
      or_false] at h
    rcases h with rfl | rfl <;> rfl
  · intro s
    rcases s with _ | _ | s <;> simp [ob, bigObserved]
  · rw [(gamma_m_full_entry bigObserved bigInitial bigTransition bigEmission _
      (isMat_replicate _ _ _) (by decide)).2 0 0 (by decide) (by decide)]
    have hlen : bigInitial.length = 2 := rfl
    unfold gammaAt
    rw [hlen, flt_sumLoop_two, big_fwdCol_zero.1, big_fwdCol_zero.2, big_betaAt_zero.1,
      big_betaAt_zero.2, flt_elnproduct_ninf_fin, flt_elnproduct_fin, add_zero,
      ovf_small 0 (by unfold fltOverflow; norm_num) (by unfold fltOverflow; norm_num),
      flt_elnsum_ninf_zero]
    have hn : (Numeric.neg (⟨fin 0⟩ : Flt)) = ⟨fin (-0)⟩ := rfl
    rw [hn]
    exact flt_elnproduct_ninf_fin _

end Exact

end hmm

end ci
